import Mathlib

/-!
# anu: reconciler (`dist/React.js`)

A shallow embedding of the virtual-DOM reconciler of `dist/React.js`
(`computeUUID`, `getTopComponentName`, `diffChildren`, `diff`, `toDOM`,
`toVnode`, `removeComponent`, `updateComponent`, `diffProps`) together with
the properties established about it.

Conventions of the embedding

* A vnode is a value (`VNode`).  The fields that the source writes on vnode
  objects (`dom`, `instance`, `use`, `_hasSetInnerHTML`, ...) are fields of
  that value and every function returns the updated value.  The children of
  one list are distinct objects, and the identity of an old child inside
  `diffChildren` is its index in `oldChildren`.
* Host nodes live in `World.nodes` and are named by their index.
* Every call made on the DOM adapter and every lifecycle hook invocation is
  appended to a trace (`World.log`).
* Functions that can recurse without bound take a `fuel` argument; `none`
  means that the call does not return normally (fuel exhausted or a JavaScript
  exception, such as the `NotFoundError` of `replaceChild` and `removeChild`)
  or that the input lies outside the embedding (form controls, see
  `controlled`; style values, see `styleFields`).
-/

set_option autoImplicit false

namespace Anu

/-! ## JavaScript values used as prop values -/

/-- The numbers of the embedding: the integers of magnitude below `2^53`.
A JavaScript number represents each of them exactly and prints it in
decimal notation. -/
structure SafeInt where
  val : Int
  small : val.natAbs < 9007199254740992
deriving DecidableEq, Repr

/-- Numerals denote safe integers (reduced modulo `2^53`). -/
instance (n : Nat) : OfNat SafeInt n where
  ofNat := ⟨((n % 9007199254740992 : Nat) : Int), by
    rw [Int.natAbs_ofNat]
    exact Nat.mod_lt _ (by decide)⟩

/-- Primitive JavaScript values (numbers are restricted to the safe
integers). -/
inductive Prim where
  | undefined
  | null
  | bool (b : Bool)
  | num (n : SafeInt)
  | str (s : String)
deriving DecidableEq, Repr

/-- Prop values: a primitive, a function (compared by identity), a plain
object with primitive fields (compared by identity), or the member `name`
of `Object.prototype` (`builtin "constructor"` is the function `Object`). -/
inductive JSVal where
  | prim (p : Prim)
  | func (id : Nat)
  | obj (id : Nat) (fields : List (String × Prim))
  | builtin (name : String)
deriving DecidableEq, Repr

/-- Strict equality `===`: by value on primitives, by identity otherwise. -/
def JSVal.strictEq : JSVal → JSVal → Bool
  | .prim p, .prim q => decide (p = q)
  | .func i, .func j => decide (i = j)
  | .obj i _, .obj j _ => decide (i = j)
  | .builtin a, .builtin b => decide (a = b)
  | _, _ => false

/-- JavaScript truthiness. -/
def JSVal.truthy : JSVal → Bool
  | .prim .undefined => false
  | .prim .null => false
  | .prim (.bool b) => b
  | .prim (.num n) => decide (n.val ≠ 0)
  | .prim (.str s) => decide (s ≠ "")
  | .func _ => true
  | .obj _ _ => true
  | .builtin _ => true

/-- String conversion of a primitive, `'' + p`. -/
def Prim.toStr : Prim → String
  | .undefined => "undefined"
  | .null => "null"
  | .bool true => "true"
  | .bool false => "false"
  | .num n => toString n.val
  | .str s => s

/-- String conversion `'' + v` (the source text of a function is not
modelled and is rendered as `function`; the member `__proto__` is the object
`Object.prototype`). -/
def JSVal.toStr : JSVal → String
  | .prim p => p.toStr
  | .func _ => "function"
  | .obj _ _ => "[object Object]"
  | .builtin n => if n = "__proto__" then "[object Object]" else "function"

/-- The names that every plain object inherits from `Object.prototype`:
`obj[name]` is defined and `name in obj` holds for them whatever the own
properties of the object are. -/
def protoNames : List String :=
  ["constructor", "toString", "toLocaleString", "valueOf", "hasOwnProperty", "isPrototypeOf",
   "propertyIsEnumerable", "__proto__", "__defineGetter__", "__defineSetter__",
   "__lookupGetter__", "__lookupSetter__"]

/-- Lookup of an own property of a state or props object whose names are not
members of `Object.prototype` (`undefined` when absent). -/
def getProp (o : List (String × JSVal)) (name : String) : JSVal :=
  match o.lookup name with
  | some v => v
  | none => .prim .undefined

/-- The read `obj[name]` on a plain object: the own property, else the
member of `Object.prototype` of that name, else `undefined`. -/
def readProp (o : List (String × JSVal)) (name : String) : JSVal :=
  match o.lookup name with
  | some v => v
  | none => if protoNames.contains name then .builtin name else .prim .undefined

/-- The test `name in obj` on a plain object: an own property or a member of
`Object.prototype`. -/
def hasProp (o : List (String × JSVal)) (name : String) : Bool :=
  (o.lookup name).isSome || protoNames.contains name

/-! ## Virtual nodes -/

/-- The `type` of a vnode: a string (host tag, `#text`, `#comment`) or a
component constructor / stateless function, named by its index in the
component table. -/
inductive VType where
  | tag (name : String)
  | comp (id : Nat)
deriving DecidableEq, Repr

/-- The scalar fields of a vnode object. `hasProps` tells whether
`vnode.props` is defined (text and comment nodes have none); `attrs` are the
own properties of `props` other than `children`, in enumeration order;
`hostParent` is the `dom` of the vnode stored in `_hostParent`. -/
structure VInfo where
  type : VType
  hasProps : Bool := true
  attrs : List (String × JSVal) := []
  key : Option String := none
  deep : Option Nat := none
  text : Option String := none
  ns : Option String := none
  dom : Option Nat := none
  inst : Option Nat := none
  owner : Option Nat := none
  hostParent : Option (Option Nat) := none
  hasSetInnerHTML : Bool := false
  hasInstance : Bool := false
  use : Bool := false
deriving DecidableEq, Repr

/-- A vnode: its scalar fields and `props.children`. -/
inductive VNode where
  | mk (info : VInfo) (children : List VNode)

/-- Fields of the vnode. -/
def VNode.info : VNode → VInfo
  | .mk i _ => i

/-- The list `vnode.props.children`. -/
def VNode.children : VNode → List VNode
  | .mk _ cs => cs

/-- Update of the scalar fields. -/
def VNode.withInfo (f : VInfo → VInfo) : VNode → VNode
  | .mk i cs => .mk (f i) cs

/-! ## Components and instances -/

/-- A `props` object: own properties and `children`. -/
structure Props where
  attrs : List (String × JSVal) := []
  children : List VNode := []

/-- A component type (a constructor or a stateless function).

* `name` is `Type.name`, `displayName` is `Type.displayName` and
  `displatName` is the property of that spelling, all read by the reconciler;
* `stateless` is `isStateless(Type)`;
* `hooks` lists the lifecycle methods the component defines, by their index
  in the `lifecycle` table (0 `componentWillMount`, 2 `componentDidMount`,
  3 `componentWillReceiveProps`, 4 `shouldComponentUpdate`,
  5 `componentWillUpdate`, 6 `componentDidUpdate`, 7 `componentWillUnmount`);
  a hook is an observable event and has no other effect, except
  `shouldComponentUpdate`, whose result is `shouldUpdate`;
* `render` is the render method as a function of `this.props` and
  `this.state` (`none` for a `null` result). -/
structure CompDef where
  name : String
  displayName : Option String := none
  displatName : Option String := none
  stateless : Bool := false
  hooks : List Nat := []
  defaultProps : List (String × JSVal) := []
  initialState : List (String × JSVal) := []
  shouldUpdate : Props → List (String × JSVal) → Bool := fun _ _ => true
  render : Props → List (String × JSVal) → Option VNode

/-- A component instance. `statelessRender` is set for instances wrapping a
stateless function; `vnode` is the vnode object the instance points to. -/
structure Instance where
  comp : Nat
  statelessRender : Bool := false
  parentInstance : Option Nat := none
  childInstance : Option Nat := none
  props : Option Props := none
  prevProps : Option Props := none
  state : List (String × JSVal) := []
  prevState : Option (List (String × JSVal)) := none
  forceUpdate : Bool := false
  vnode : VNode

/-- What the reconciler takes from its surroundings: the component table and
the facts about the browser that the source reads.

* `boolProp tag name` is the test of `typeof dom[name]` against `boolean`
  on a host element with that tag;
* `styleHas name` is the test `name in dom.style`;
* `htmlNodes html` is the number of child nodes the browser creates when
  `innerHTML` is assigned `html`;
* `inMobile` is the test of `ontouchstart` in `document`;
* `validName name` tells whether `document.createElement(name)` returns (it
  raises `InvalidCharacterError` otherwise) and `nsAccepts ns name` whether
  `document.createElementNS(ns, name)` does;
* `propDefault tag name` is what `dom[name]` reads on an element with that
  tag before the property was ever assigned. -/
structure Env where
  comps : List CompDef := []
  boolProp : String → String → Bool := fun _ _ => false
  styleHas : String → Bool := fun _ => true
  htmlNodes : String → Nat := fun s => if s = "" then 0 else 1
  inMobile : Bool := false
  validName : String → Bool := fun t => match t.data with
    | [] => false
    | c :: _ => c.isAlpha
  nsAccepts : String → String → Bool := fun _ _ => true
  propDefault : String → String → JSVal := fun _ _ => .prim .undefined

/-! ## The host tree and the trace -/

/-- A call on the DOM adapter or a lifecycle hook invocation. -/
inductive Event where
  | createElement (dom : Nat) (tag : String) (ns : Option String)
  | createTextNode (dom : Nat) (text : String)
  | createComment (dom : Nat) (text : String)
  | appendChild (parent child : Nat)
  | replaceChild (parent newChild oldChild : Nat)
  | removeChild (parent child : Nat)
  | setAttribute (dom : Nat) (name value : String)
  | removeAttribute (dom : Nat) (name : String)
  | setAttributeNS (dom : Nat) (ns : Option String) (name value : String)
  | removeAttributeNS (dom : Nat) (ns : Option String) (name : String)
  | setProperty (dom : Nat) (name : String) (value : JSVal)
  | setStyle (dom : Nat) (name : Option String) (value : String)
  | setInnerHTML (dom : Nat) (html : String)
  | setNodeValue (dom : Nat) (text : String)
  | setHandler (dom : Nat) (name : String) (value : JSVal)
  | deleteHandler (dom : Nat) (name : String)
  | addGlobalEventListener (name : String)
  | patchRef (owner : Nat) (ref : JSVal) (dom : Nat)
  | removeRef (owner : Nat) (ref : String)
  | construct (inst comp : Nat)
  | render (inst : Nat)
  | hook (inst index : Nat)
deriving DecidableEq, Repr

/-- A host node. `children` are the child nodes in document order;
`props` are the properties written with `dom[name] = value`, `handlers` is
the object `dom.__events`. -/
structure HostNode where
  nodeName : String
  ns : Option String := none
  nodeValue : String := ""
  children : List Nat := []
  attrs : List (String × String) := []
  props : List (String × JSVal) := []
  style : List (Option String × String) := []
  handlers : List (String × JSVal) := []
deriving DecidableEq, Repr

/-- The mutable state the reconciler works on: the host nodes (a node is
named by its index), the component instances (likewise), the event names
registered on the document (`globalEvents`) and the trace. -/
structure World where
  nodes : List HostNode := []
  insts : List Instance := []
  globalEvents : List String := []
  log : List Event := []

/-- Append an event to the trace. -/
def World.emit (w : World) (e : Event) : World :=
  { w with log := w.log ++ [e] }

/-- Apply a change to one host node. -/
def World.modifyNode (w : World) (d : Nat) (f : HostNode → HostNode) : World :=
  { w with nodes := w.nodes.modify f d }

/-- The child list of a host node (empty for an unknown node). -/
def World.childrenOf (w : World) (d : Nat) : List Nat :=
  match w.nodes.get? d with
  | some n => n.children
  | none => []

/-- Take a node out of every child list (a node has at most one parent). -/
def World.detach (w : World) (d : Nat) : World :=
  { w with nodes := w.nodes.map (fun n => { n with children := n.children.erase d }) }

/-- Allocate a host node; returns its handle. -/
def World.alloc (w : World) (n : HostNode) : Nat × World :=
  (w.nodes.length, { w with nodes := w.nodes ++ [n] })

/-- The namespace the element of `createDOMElement(vnode)` is created in:
`vnode.ns` when it is set (not empty) and `createElementNS` accepts the
pair, else none (`document.createElement`). -/
def usedNs (env : Env) (tag : String) (ns : Option String) : Option String :=
  match ns with
  | some n => if n ≠ "" ∧ env.nsAccepts n tag then some n else none
  | none => none

/-- The function `createDOMElement(vnode)`: `createElementNS(ns, type)` when
`vnode.ns` is set and the browser accepts the pair, else
`document.createElement(type)`; `none` when that call raises. -/
def createDOMElement (env : Env) (w : World) (tag : String) (ns : Option String) :
    Option (Nat × World) :=
  if (usedNs env tag ns).isSome ∨ env.validName tag then
    let r := w.alloc { nodeName := tag, ns := usedNs env tag ns }
    some (r.1, r.2.emit (.createElement r.1 tag (usedNs env tag ns)))
  else none

/-- The call `document.createTextNode(text)`. -/
def createTextNode (w : World) (text : String) : Nat × World :=
  let r := w.alloc { nodeName := "#text", nodeValue := text }
  (r.1, r.2.emit (.createTextNode r.1 text))

/-- The call `document.createComment(text)`. -/
def createComment (w : World) (text : String) : Nat × World :=
  let r := w.alloc { nodeName := "#comment", nodeValue := text }
  (r.1, r.2.emit (.createComment r.1 text))

/-- The call `parent.appendChild(child)`: the child leaves its current
parent and becomes the last child of `parent`. -/
def appendChild (w : World) (parent child : Nat) : World :=
  let w1 := (w.emit (.appendChild parent child)).detach child
  w1.modifyNode parent (fun n => { n with children := n.children ++ [child] })

/-- Replace the first occurrence of `old` in a list. -/
def replaceFirst (old new : Nat) : List Nat → List Nat
  | [] => []
  | x :: xs => if x = old then new :: xs else x :: replaceFirst old new xs

/-- What `parent.replaceChild(newChild, oldChild)` does when `oldChild` is a
child of `parent`: `newChild` leaves its current parent and takes the place
of `oldChild`. -/
def swapChild (w : World) (parent newChild oldChild : Nat) : World :=
  let w1 := w.emit (.replaceChild parent newChild oldChild)
  if newChild = oldChild then w1
  else
    (w1.detach newChild).modifyNode parent
      (fun n => { n with children := replaceFirst oldChild newChild n.children })

/-- The call `parent.replaceChild(newChild, oldChild)`; `none` when
`oldChild` is not a child of `parent` (the browser raises `NotFoundError`). -/
def replaceChild (w : World) (parent newChild oldChild : Nat) : Option World :=
  if (w.childrenOf parent).contains oldChild then some (swapChild w parent newChild oldChild)
  else none

/-- What `parent.removeChild(child)` does when `child` is a child of
`parent`. -/
def dropChild (w : World) (parent child : Nat) : World :=
  (w.emit (.removeChild parent child)).modifyNode parent
    (fun n => { n with children := n.children.erase child })

/-- The call `parent.removeChild(child)`; `none` when `child` is not a child
of `parent` (the browser raises `NotFoundError`). -/
def removeChild (w : World) (parent child : Nat) : Option World :=
  if (w.childrenOf parent).contains child then some (dropChild w parent child)
  else none

/-- The loop `while (dom.firstChild) nextDom.appendChild(dom.firstChild)` of
`diff`, bounded by the number of children of `dom`. -/
def moveChildren (w : World) (dom nextDom : Nat) : World :=
  go (w.childrenOf dom).length w
where
  /-- One iteration per child. -/
  go : Nat → World → World
    | 0, w => w
    | n + 1, w =>
      match (w.childrenOf dom).head? with
      | some c => go n (appendChild w nextDom c)
      | none => w

/-- The loop `while (dom.firstChild) dom.removeChild(dom.firstChild)` of
`diff`. -/
def removeAllChildren (w : World) (dom : Nat) : World :=
  go (w.childrenOf dom).length w
where
  /-- One iteration per child. -/
  go : Nat → World → World
    | 0, w => w
    | n + 1, w =>
      match (w.childrenOf dom).head? with
      | some c => go n (dropChild w dom c)
      | none => w

/-- The assignment `dom.innerHTML = html`: the children are replaced by the
`htmlNodes html` nodes the browser builds from the markup. -/
def setInnerHTML (env : Env) (w : World) (dom : Nat) (html : String) : World :=
  let w1 := (w.emit (.setInnerHTML dom html)).modifyNode dom (fun n => { n with children := [] })
  go (env.htmlNodes html) w1
where
  /-- Allocation of the nodes parsed from the markup. -/
  go : Nat → World → World
    | 0, w => w
    | n + 1, w =>
      let r := w.alloc { nodeName := "#html" }
      go n (r.2.modifyNode dom (fun m => { m with children := m.children ++ [r.1] }))

/-! ## `diffProps`

The props objects and the lookup tables of the source are plain objects:
reads and `in` tests on them also find the members of `Object.prototype`
(`readProp`, `hasProp`, `builtId`, `isStringAttribute`, `isGlobalEvent`). -/

/-- The test `/^on[A-Z]/` of `isEventName`. -/
def isEventName (name : String) : Bool :=
  match name.data with
  | 'o' :: 'n' :: c :: _ => decide ('A' ≤ c ∧ c ≤ 'Z')
  | _ => false

/-- Remove a leading `on` (`/^on/`). -/
def stripOn : List Char → List Char
  | 'o' :: 'n' :: rest => rest
  | cs => cs

/-- Remove a trailing `Capture` (`/Capture$/`). -/
def stripCapture (cs : List Char) : List Char :=
  if "Capture".data.isSuffixOf cs then cs.take (cs.length - 7) else cs

/-- The function `getBrowserName(onStr)`. -/
def getBrowserName (onStr : String) : String :=
  String.mk ((stripCapture (stripOn onStr.data)).map Char.toLower)

/-- The table `builtIdProperties`: irregular attribute names, boolean
properties (value `true`, here `none`) and properties set by name. -/
def builtIdProperties : List (String × Option String) :=
  [("acceptCharset", some "accept-charset"), ("ch", some "char"), ("chOff", some "charoff"),
   ("className", some "class"), ("htmlFor", some "for"), ("httpEquiv", some "http-equiv")] ++
  (["autofocus", "autoplay", "async", "allowTransparency", "checked", "controls",
    "declare", "disabled", "defer", "defaultChecked", "defaultSelected",
    "isMap", "loop", "multiple", "noHref", "noResize", "noShade",
    "open", "readOnly", "selected"].map (fun n => (n, none))) ++
  (["accessKey", "bgColor", "cellPadding", "cellSpacing", "codeBase", "codeType", "colSpan",
    "dateTime", "defaultValue", "contentEditable", "frameBorder", "longDesc", "maxLength",
    "marginWidth", "marginHeight", "rowSpan", "tabIndex", "useMap", "vSpace", "valueType",
    "vAlign", "value", "title", "alt"].map (fun n => (n, some n)))

/-- The table `stringAttributes`. -/
def stringAttributes : List String := ["id", "title", "alt", "value", "className"]

/-- The table `cssNumber`. -/
def cssNumber : List String :=
  ["animationIterationCount", "columnCount", "order", "flex", "flexGrow", "flexShrink",
   "fillOpacity", "fontWeight", "lineHeight", "opacity", "orphans", "widows", "zIndex", "zoom"]

/-- The replacement `/[-_][^-_]/g` of `camelize`, scanning from the left;
the first argument is a separator still waiting for its right neighbour. -/
def camelizeChars : Option Char → List Char → List Char
  | none, [] => []
  | some p, [] => [p]
  | none, c :: cs =>
    if c = '-' ∨ c = '_' then camelizeChars (some c) cs else c :: camelizeChars none cs
  | some p, c :: cs =>
    if c = '-' ∨ c = '_' then p :: camelizeChars (some c) cs
    else c.toUpper :: camelizeChars none cs

/-- The function `camelize(target)`. -/
def camelize (target : String) : String :=
  if target.data.contains '-' || target.data.contains '_' then String.mk (camelizeChars none target.data)
  else target

/-- The function `cssName(name, dom)`; `none` is the result `null`. -/
def cssName (env : Env) (name : String) : Option String :=
  if name = "float" then some "cssFloat"
  else
    (["", "-webkit-", "-o-", "-moz-", "-ms-"].map (fun p => camelize (p ++ name))).find?
      (fun c => env.styleHas c)

/-- All characters are decimal digits, and there is at least one. -/
def allDigits (cs : List Char) : Bool :=
  !cs.isEmpty && cs.all (fun c => decide ('0' ≤ c ∧ c ≤ '9'))

/-- The test `/^-?\d+(\.\d+)?$/` of `rnumber` on a string. -/
def rnumberTest (s : String) : Bool :=
  let cs := match s.data with
    | '-' :: rest => rest
    | cs => cs
  let intPart := cs.takeWhile (fun c => c ≠ '.')
  let rest := cs.dropWhile (fun c => c ≠ '.')
  allDigits intPart &&
    (match rest with
     | [] => true
     | _ :: frac => allDigits frac)

/-- Fields of a style object (anything else has no enumerable fields of
interest). -/
def objFields : JSVal → List (String × Prim)
  | .obj _ fs => fs
  | _ => []

/-- Read `v[name]` on a prop value. -/
def fieldOf (v : JSVal) (name : String) : Prim :=
  match (objFields v).lookup name with
  | some p => p
  | none => .undefined

/-- The assignment `dom.style[name] = value`. -/
def setStyle (w : World) (dom : Nat) (name : Option String) (value : String) : World :=
  (w.emit (.setStyle dom name value)).modifyNode dom
    (fun n => { n with style := (n.style.filter (fun p => p.1 ≠ name)) ++ [(name, value)] })

/-- The two loops of `patchStyle` for style objects with the fields
`oldFields` and `newFields`. -/
def patchStyleFields (env : Env) (w : World) (dom : Nat) (oldFields newFields : List (String × Prim)) :
    World :=
  let w1 := newFields.foldl (fun w p =>
    let old := match oldFields.lookup p.1 with
      | some q => q
      | none => Prim.undefined
    if old ≠ p.2 then
      let name := cssName env p.1
      let cssNum := match name with
        | some n => cssNumber.contains n
        | none => false
      let val :=
        if p.2 = .undefined ∨ p.2 = .null ∨ p.2 = .bool false then ""
        else if rnumberTest p.2.toStr && !cssNum then p.2.toStr ++ "px"
        else p.2.toStr
      setStyle w dom name val
    else w) w
  oldFields.foldl (fun w p =>
    if (newFields.lookup p.1).isSome then w
    else setStyle w dom (some p.1) "") w1

/-- The enumerable fields of a value used as a style object, when the
embedding covers it: a plain object none of whose field names is a member of
`Object.prototype`, or a primitive other than a non-empty string (nothing to
enumerate).  Strings (enumerated character by character) and functions are
outside the embedding. -/
def styleFields : JSVal → Option (List (String × Prim))
  | .obj _ fs => if fs.any (fun p => protoNames.contains p.1) then none else some fs
  | .prim (.str s) => if s = "" then some [] else none
  | .prim _ => some []
  | _ => none

/-- The function `patchStyle(dom, oldStyle, newStyle)`; `oldStyle` is `none`
for the fresh object of `prevProps.style || {}`.  The result is `none` when
the call raises (`name in newStyle` on a `newStyle` that is no object, for a
field of the old style) and for the styles outside the embedding. -/
def patchStyle (env : Env) (w : World) (dom : Nat) (oldStyle : Option JSVal) (newStyle : JSVal) :
    Option World :=
  let same := match oldStyle with
    | some o => o.strictEq newStyle
    | none => false
  if same then some w
  else
    let oldFields : Option (List (String × Prim)) :=
      match oldStyle with
      | some o => styleFields o
      | none => some []
    match oldFields, styleFields newStyle, newStyle with
    | some ofs, some nfs, .obj _ _ => some (patchStyleFields env w dom ofs nfs)
    | some [], some _, _ => some w
    | _, _, _ => none

/-- The function `operateAttribute(dom, name, value, isSVG)`. -/
def operateAttribute (w : World) (dom : Nat) (name : String) (value : JSVal) (isSVG : Bool) :
    World :=
  let remove := value.strictEq (.prim (.str ""))
  let xl := isSVG && "xlink".data.isPrefixOf name.data
  let name1 :=
    if xl then
      match name.data.drop 5 with
      | ':' :: rest => String.mk rest
      | rest => String.mk rest
    else name
  let ns := if xl then some "http://www.w3.org/1999/xlink" else none
  if isSVG then
    let lower := String.mk (name1.data.map Char.toLower)
    if remove then
      (w.emit (.removeAttributeNS dom ns lower)).modifyNode dom
        (fun n => { n with attrs := n.attrs.filter (fun p => p.1 ≠ lower) })
    else
      (w.emit (.setAttributeNS dom ns lower value.toStr)).modifyNode dom
        (fun n => { n with attrs := n.attrs.filter (fun p => p.1 ≠ lower) ++ [(lower, value.toStr)] })
  else
    if remove then
      (w.emit (.removeAttribute dom name1)).modifyNode dom
        (fun n => { n with attrs := n.attrs.filter (fun p => p.1 ≠ name1) })
    else
      (w.emit (.setAttribute dom name1 value.toStr)).modifyNode dom
        (fun n => { n with attrs := n.attrs.filter (fun p => p.1 ≠ name1) ++ [(name1, value.toStr)] })

/-- The assignment `dom[name] = value`. -/
def setProperty (w : World) (dom : Nat) (name : String) (value : JSVal) : World :=
  (w.emit (.setProperty dom name value)).modifyNode dom
    (fun n => { n with props := n.props.filter (fun p => p.1 ≠ name) ++ [(name, value)] })

/-- Read `dom[name]`: the value last assigned, else the default of the
browser for the element. -/
def readProperty (env : Env) (w : World) (dom : Nat) (name : String) : JSVal :=
  match w.nodes.get? dom with
  | some n =>
    match n.props.lookup name with
    | some v => v
    | none => env.propDefault n.nodeName name
  | none => .prim .undefined

/-- The lookup `builtIdProperties[name]`, which also finds the members of
`Object.prototype` (they are truthy and differ from `true`). -/
def builtId (name : String) : Option (Option String) :=
  match builtIdProperties.lookup name with
  | some x => some x
  | none => if protoNames.contains name then some (some name) else none

/-- The lookup `stringAttributes[name]` as a truth value. -/
def isStringAttribute (name : String) : Bool :=
  stringAttributes.contains name || protoNames.contains name

/-- The lookup `globalEvents[name]` as a truth value. -/
def isGlobalEvent (w : World) (name : String) : Bool :=
  w.globalEvents.contains name || protoNames.contains name

/-- The loop variables of the first loop of `diffProps`: the world, the flag
`vnode._hasSetInnerHTML` and the function-scoped variable `eventName`. -/
structure PropState where
  world : World
  hasSetInnerHTML : Bool
  eventName : Option String

/-- One iteration of the first loop of `diffProps` (`for name in props`),
for a name other than `children`.  The result is `none` when the iteration
raises and for the values outside the embedding (a `ref` that is a member of
`Object.prototype`, see also `patchStyle`). -/
def diffPropsStep (env : Env) (dom : Nat) (owner : Option Nat) (isHTML : Bool)
    (prevProps : List (String × JSVal)) (st : PropState) (name : String) (val : JSVal) :
    Option PropState :=
  let w := st.world
  let prev := readProp prevProps name
  if name = "children" then some st
  else if name = "ref" then
    if !prev.strictEq val then
      match owner, val with
      | some i, .func _ => some { st with world := w.emit (.patchRef i val dom) }
      | some i, .prim (.str _) => some { st with world := w.emit (.patchRef i val dom) }
      | some _, .builtin _ => none
      | _, _ => some st
    else some st
  else if name = "style" then
    let oldStyle := if prev.truthy then some prev else none
    match patchStyle env w dom oldStyle val with
    | some w1 => some { st with world := w1 }
    | none => none
  else
    let st1 : PropState :=
      if name = "dangerouslySetInnerHTML" then
        let oldhtml := if prev.truthy then JSVal.prim (fieldOf prev "__html") else prev
        if val.truthy && !(JSVal.prim (fieldOf val "__html")).strictEq oldhtml then
          { st with hasSetInnerHTML := true, world := setInnerHTML env w dom (fieldOf val "__html").toStr }
        else { st with hasSetInnerHTML := true }
      else st
    let w1 := st1.world
    if isEventName name then
      let reg : Option PropState :=
        if !prev.truthy then
          match val with
          | .func _ =>
            let eventName := getBrowserName name
            if isGlobalEvent w1 eventName then some { st1 with eventName := some eventName }
            else
              let w2 := World.emit { w1 with globalEvents := w1.globalEvents ++ [eventName] }
                (.addGlobalEventListener eventName)
              some { st1 with eventName := some eventName, world := w2 }
          | _ => none
        else some st1
      match reg with
      | none => none
      | some st2 =>
        if env.inMobile && st2.eventName = some "click" then none
        else
          let w2 := (st2.world.emit (.setHandler dom name val)).modifyNode dom
            (fun n => { n with handlers := n.handlers.filter (fun p => p.1 ≠ name) ++ [(name, val)] })
          some { st2 with world := w2 }
    else if !val.strictEq prev then
      let tag := match w1.nodes.get? dom with
        | some n => n.nodeName
        | none => ""
      let w2 := if env.boolProp tag name then setProperty w1 dom name (.prim (.bool val.truthy)) else w1
      if val = .prim (.bool false) ∨ val = .prim .undefined ∨ val = .prim .null then
        some { st1 with world := operateAttribute w2 dom name (.prim (.str "")) (!isHTML) }
      else if isHTML && (builtId name).isSome then
        let val1 := if isStringAttribute name then JSVal.prim (.str val.toStr) else val
        if name ≠ "value" ∨ !(readProperty env w2 dom name).strictEq val1 then
          some { st1 with world := setProperty w2 dom name val1 }
        else some { st1 with world := w2 }
      else some { st1 with world := operateAttribute w2 dom name val (!isHTML) }
    else some st1

/-- The first loop of `diffProps`. -/
def diffPropsLoop (env : Env) (dom : Nat) (owner : Option Nat) (isHTML : Bool)
    (prevProps : List (String × JSVal)) : List (String × JSVal) → PropState → Option PropState
  | [], st => some st
  | (name, val) :: rest, st =>
    match diffPropsStep env dom owner isHTML prevProps st name val with
    | none => none
    | some st1 => diffPropsLoop env dom owner isHTML prevProps rest st1

/-- One iteration of the second loop of `diffProps` (`for name in prevProps`)
for a name that is not in `props`. -/
def removePropStep (dom : Nat) (owner : Option Nat) (isHTML : Bool) (w : World)
    (name : String) (val : JSVal) : World :=
  if name = "ref" then
    match owner, val with
    | some i, .prim (.str r) => w.emit (.removeRef i r)
    | _, _ => w
  else if isEventName name then
    (w.emit (.deleteHandler dom name)).modifyNode dom
      (fun n => { n with handlers := n.handlers.filter (fun p => p.1 ≠ name) })
  else
    match (if isHTML then builtId name else none) with
    | some none => setProperty w dom name (.prim (.bool false))
    | some (some _) => setProperty w dom name (.prim (.str ""))
    | none => operateAttribute w dom name (.prim (.str "")) (!isHTML)

/-- The function `diffProps(props, prevProps, vnode, prevVnode)`, called
with `vnode.dom = dom`.  `props` and `prevProps` are `none` for the fresh
object of `vnode.props || {}`; otherwise they hold the own properties other
than `children`.  Returns the world and the new `vnode._hasSetInnerHTML`. -/
def diffProps (env : Env) (w : World) (dom : Nat) (v : VInfo)
    (props prevProps : Option (List (String × JSVal))) : Option (World × Bool) :=
  let isHTML := v.ns.isNone || v.ns == some ""
  let ps := props.getD []
  let qs := prevProps.getD []
  match diffPropsLoop env dom v.owner isHTML qs ps
      { world := w, hasSetInnerHTML := v.hasSetInnerHTML, eventName := none } with
  | none => none
  | some st =>
    let w1 := qs.foldl (fun w p =>
      if hasProp ps p.1 then w else removePropStep dom v.owner isHTML w p.1 p.2) st.world
    let w2 := if prevProps.isSome && props.isNone then
        removePropStep dom v.owner isHTML w1 "children" (.prim .undefined)
      else w1
    some (w2, st.hasSetInnerHTML)

/-! ## Lifecycle hooks, `removeComponent`, `matchInstance` -/

/-- The call `applyComponentHook(instance, index)` for a hook without
result: the hook is invoked when the instance defines it. Instances that
wrap a stateless function are plain `Component` objects and define none. -/
def applyComponentHook (env : Env) (w : World) (i : Nat) (index : Nat) : World :=
  match w.insts.get? i with
  | none => w
  | some inst =>
    match env.comps.get? inst.comp with
    | none => w
    | some c =>
      if !inst.statelessRender && c.hooks.contains index then w.emit (.hook i index) else w

/-- The function `removeComponent(vnode)`: `componentWillUnmount` on
`vnode.instance`, then the same on every child that has `props`.  A vnode
without `props` makes `vnode.props.children` raise. -/
def removeComponent (env : Env) : VNode → World → Option World
  | .mk info cs, w =>
    if info.hasProps then
      removeList cs (match info.inst with
        | some i => applyComponentHook env w i 7
        | none => w)
    else none
where
  /-- The `forEach` over `vnode.props.children`. -/
  removeList : List VNode → World → Option World
    | [], w => some w
    | c :: cs, w =>
      if c.info.hasProps then
        match removeComponent env c w with
        | some w1 => removeList cs w1
        | none => none
      else removeList cs w

/-- The function `getInstances(instance)`: the instance followed by its chain
of `parentInstance`. -/
def getInstances (insts : List Instance) (i : Nat) : List Nat :=
  go insts.length i
where
  /-- The `while (instance = instance.parentInstance)` loop. -/
  go : Nat → Nat → List Nat
    | 0, _ => []
    | fuel + 1, i =>
      match insts.get? i with
      | none => [i]
      | some inst =>
        match inst.parentInstance with
        | some p => i :: go fuel p
        | none => [i]

/-- The function `matchInstance(instance, Type)`: the first instance of the
chain, from `instance` upwards, that was made from `Type`. -/
def matchInstance (insts : List Instance) (i : Nat) (type : Nat) : Option Nat :=
  (getInstances insts i).find? (fun j =>
    match insts.get? j with
    | some inst => inst.comp = type
    | none => false)

/-- The vnode `render` yields: the rendered vnode, or the comment
placeholder for `null`. -/
def renderedOrEmpty : Option VNode → VNode
  | some r => r
  | none => .mk { type := .tag "#comment", hasProps := false, text := some "empty" } []

/-- The statement group `key = vnode.key; extend(vnode, rendered);
vnode.key = key` of `toVnode`: every property that `rendered` owns is copied
onto `vnode`. -/
def extendVnode (v r : VNode) : VNode :=
  let a := v.info
  let b := r.info
  .mk { type := b.type,
        hasProps := a.hasProps || b.hasProps,
        attrs := if b.hasProps then b.attrs else a.attrs,
        key := a.key,
        deep := if b.deep.isSome then b.deep else a.deep,
        text := if b.text.isSome then b.text else a.text,
        ns := if b.ns.isSome then b.ns else a.ns,
        dom := if b.dom.isSome then b.dom else a.dom,
        inst := if b.inst.isSome then b.inst else a.inst,
        owner := if b.hasProps then b.owner else a.owner,
        hostParent := if b.hostParent.isSome then b.hostParent else a.hostParent,
        hasSetInnerHTML := a.hasSetInnerHTML || b.hasSetInnerHTML,
        hasInstance := a.hasInstance || b.hasInstance,
        use := a.use || b.use }
      (if b.hasProps then r.children else v.children)

/-- The props of a vnode as a `props` object. -/
def VNode.props (v : VNode) : Option Props :=
  if v.info.hasProps then some { attrs := v.info.attrs, children := v.children } else none

/-- Props with the defaults of `Type.defaultProps` filled in for the
properties that are `undefined`. -/
def withDefaults (defaults : List (String × JSVal)) (attrs : List (String × JSVal)) :
    List (String × JSVal) :=
  defaults.foldl (fun acc p =>
    if (getProp acc p.1) = .prim .undefined then acc.filter (fun q => q.1 ≠ p.1) ++ [p] else acc) attrs

/-- Store a vnode as `instance.vnode` for each instance of a list. -/
def setInstanceVnode (w : World) (is : List Nat) (v : VNode) : World :=
  { w with insts := is.foldl (fun l i => l.modify (fun inst => { inst with vnode := v }) i) w.insts }

/-- The tags of the `switch` of `setControlledComponent`. -/
def formControls : List String := ["input", "select", "textarea", "datalist", "option"]

/-- Whether `setControlledComponent(vnode)` gets past its `switch` into code
that acts on the vnode: the tag is one of `formControls`, or `props.type` is
`'select'` (the test after the `switch`).  The wrapper state
(`vnode._wrapperState`) and the listeners that code installs are outside the
embedding: `toDOM` gives no result for such an element, and the vnodes of
the embedding carry no wrapper state. -/
def controlled (t : String) (attrs : List (String × JSVal)) : Bool :=
  formControls.contains t || decide (readProp attrs "type" = .prim (.str "select"))

/-! ## `computeUUID` and the type tags of `diffChildren` -/

/-- String conversion of `vnode.deep` (a non-negative integer, or
`undefined` for a vnode that never went through `flatChildren`). -/
def deepStr : Option Nat → String
  | some n => toString n
  | none => "undefined"

/-- String conversion of `vnode.text`. -/
def textStr : Option String → String
  | some t => t
  | none => "undefined"

/-- The function `computeUUID(type, vnode)`. -/
def computeUUID (type : String) (v : VInfo) : String :=
  if type = "#text" then
    type ++ "/" ++ deepStr v.deep ++ "/" ++ textStr v.text
  else
    type ++ "/" ++ deepStr v.deep ++
      (match v.key with
       | some k => "/" ++ k
       | none => "")

/-- The expression `a || b` on optional strings (an empty string is falsy),
with `undefined` printed when both are falsy. -/
def orName (a : Option String) (b : String) : String :=
  match a with
  | some s => if s = "" then b else s
  | none => b

/-- The function `getTopComponentName(vnode, instance)`: climb `parentInstance`
to the top instance and return `ctor.displayName || ctor.name`.  The climb
is bounded by the number of instances. -/
def getTopComponentName (env : Env) (insts : List Instance) (i : Nat) : Option String :=
  go insts.length i
where
  /-- The `while (instance.parentInstance)` loop. -/
  go : Nat → Nat → Option String
    | 0, _ => none
    | fuel + 1, i =>
      match insts.get? i with
      | none => none
      | some inst =>
        match inst.parentInstance with
        | some p => go fuel p
        | none =>
          match env.comps.get? inst.comp with
          | none => none
          | some c => some (orName c.displayName c.name)

/-- The tag `diffChildren` computes for an old child:
`vnode.instance ? getTopComponentName(vnode, vnode.instance) : vnode.type`
(a function used as a string is rendered as `function` and its index). -/
def oldTag (env : Env) (insts : List Instance) (v : VInfo) : Option String :=
  match v.inst with
  | some i => getTopComponentName env insts i
  | none =>
    match v.type with
    | .tag t => some t
    | .comp c => some ("function " ++ toString c)

/-- The tag `diffChildren` computes for a new child:
`typeof Type === 'function' ? Type.displatName || Type.name : Type`. -/
def newTag (env : Env) (v : VInfo) : Option String :=
  match v.type with
  | .tag t => some t
  | .comp c =>
    match env.comps.get? c with
    | none => none
    | some d => some (orName d.displatName d.name)

/-- The key of an old child in the mapping of `diffChildren`. -/
def oldUUID (env : Env) (insts : List Instance) (v : VNode) : Option String :=
  (oldTag env insts v.info).map (fun t => computeUUID t v.info)

/-- The key of a new child in the second loop of `diffChildren`. -/
def newUUID (env : Env) (v : VNode) : Option String :=
  (newTag env v.info).map (fun t => computeUUID t v.info)

/-! ## `diffChildren`: the mapping, the key matches and the removal pool -/

/-- The object `mapping`: from a key to the queue of the old children (by
index in `oldChildren`) that have it. -/
abbrev Mapping := String → Option (List Nat)

/-- Assignment `mapping[uuid] = q`, and `delete mapping[uuid]` for `none`. -/
def Mapping.set (m : Mapping) (uuid : String) (q : Option (List Nat)) : Mapping :=
  fun x => if x = uuid then q else m x

/-- First loop of `diffChildren`: `oldChildren[i]`, `i` counted from the
first argument, is pushed on the queue of its key. -/
def buildMapping : Nat → List String → Mapping → Mapping
  | _, [], m => m
  | i, uuid :: rest, m =>
    buildMapping (i + 1) rest
      (match m uuid with
       | some q => m.set uuid (some (q ++ [i]))
       | none => m.set uuid (some [i]))

/-- The statement pair `index = removedChildren.indexOf(matchNode);
removedChildren.splice(index, 1)`; with `index = -1` the splice removes the
last element. -/
def spliceIndexOf (removed : List Nat) (j : Nat) : List Nat :=
  if removed.indexOf j < removed.length then removed.eraseIdx (removed.indexOf j)
  else removed.dropLast

/-- State of the second loop: the mapping and `removedChildren`. -/
structure MatchState where
  mapping : Mapping
  removed : List Nat

/-- One iteration of the second loop for a new child with key `uuid`:
the old child it is matched to (`vnode.prevVnode`), if any. -/
def matchStep (s : MatchState) (uuid : String) : Option Nat × MatchState :=
  match s.mapping uuid with
  | none => (none, s)
  | some q =>
    let rest := q.tail
    let m := if rest.isEmpty then s.mapping.set uuid none else s.mapping.set uuid (some rest)
    match q.head? with
    | some j => (some j, { mapping := m, removed := spliceIndexOf s.removed j })
    | none => (none, { mapping := m, removed := s.removed })

/-- The second loop of `diffChildren` over the keys of the new children. -/
def matchAll : MatchState → List String → List (Option Nat) × MatchState
  | s, [] => ([], s)
  | s, uuid :: rest =>
    let r := matchStep s uuid
    let rs := matchAll r.2 rest
    (r.1 :: rs.1, rs.2)

/-- The key matches of `diffChildren`: for each new child the index of the
old child stored in `vnode.prevVnode` by the second loop. -/
def keyMatches (oldKeys newKeys : List String) : List (Option Nat) :=
  (matchAll { mapping := buildMapping 0 oldKeys (fun _ => none),
              removed := List.range oldKeys.length } newKeys).1

/-- The removal pool: `removedChildren` after the second loop. -/
def removalPool (oldKeys newKeys : List String) : List Nat :=
  (matchAll { mapping := buildMapping 0 oldKeys (fun _ => none),
              removed := List.range oldKeys.length } newKeys).2.removed

/-- The loop `while (k = removedChildren.shift()) if (!k.use) ...` of the
third step: the first old child of the pool whose `use` flag is not set,
and what is left of the pool. -/
def shiftUnused (use : Nat → Bool) : List Nat → Option Nat × List Nat
  | [] => (none, [])
  | k :: rest => if use k then shiftUnused use rest else (some k, rest)

/-- The predecessor (`prevVnode`) that the third step gives each new child:
its key match when it has one, else the next unused old child of the pool.
The second component is `removedChildren` after the loop. -/
def predecessors (use : Nat → Bool) : List (Option Nat) → List Nat → List (Option Nat) × List Nat
  | [], removed => ([], removed)
  | some j :: ms, removed =>
    let r := predecessors use ms removed
    (some j :: r.1, r.2)
  | none :: ms, removed =>
    let p := shiftUnused use removed
    let r := predecessors use ms p.2
    (p.1 :: r.1, r.2)

/-- The `use` flags of the old children after the second loop: the flag an
old child came with, or `true` when a new child was matched to it. -/
def useAfterMatch (use0 : Nat → Bool) (ms : List (Option Nat)) : Nat → Bool :=
  fun j => use0 j || ms.contains (some j)

/-! ## `toVnode`, `toDOM`, `updateComponent`, `diff`, `diffChildren`

The `context` argument is not modelled (no component defines
`getChildContext`), nor is the wrapper state of form controls
(`setControlledComponent`, `_wrapperState`): `toDOM` gives no result for an
element that is `controlled`, and no vnode of the embedding carries a
wrapper state, so the `postUpdate` call at the end of `diff` never applies. -/

/-- The state of the third loop of `diffChildren`: `removedChildren`, the old
children (whose `dom` the loop deletes) and the world. -/
structure LoopState where
  removed : List Nat
  olds : List VNode
  world : World

/-- The fourth step of `diffChildren`: every old child left in
`removedChildren` is removed from the parent host node and torn down. -/
def removeLeftovers (env : Env) (parentNode : Option Nat) (olds : List VNode) :
    List Nat → World → Option World
  | [], w => some w
  | j :: rest, w =>
    match parentNode, olds.get? j with
    | some p, some v =>
      match v.info.dom with
      | none => none
      | some d =>
        match removeChild w p d with
        | none => none
        | some w1 =>
          if v.info.hasProps then
            match removeComponent env v w1 with
            | some w2 => removeLeftovers env parentNode olds rest w2
            | none => none
          else removeLeftovers env parentNode olds rest w1
    | _, _ => none

mutual

/-- The function `toVnode(vnode, context)`: instantiate and render the
component of a component vnode, merge the rendered vnode into it, and repeat
while the result is a component vnode. -/
def toVnode (env : Env) : Nat → World → VNode → Option (VNode × World)
  | 0, _, _ => none
  | fuel + 1, w, v =>
    match v.info.type with
    | .tag _ => some (v, w)
    | .comp c =>
      match env.comps.get? c with
      | none => none
      | some cd =>
        let i := w.insts.length
        let vprops : Props := { attrs := v.info.attrs, children := v.children }
        let props : Props := { vprops with attrs := withDefaults cd.defaultProps v.info.attrs }
        let inst : Instance :=
          if cd.stateless then { comp := c, statelessRender := true, vnode := v }
          else { comp := c, props := some props, state := cd.initialState, vnode := v }
        let w1 := World.emit { w with insts := w.insts ++ [inst] } (.construct i c)
        let w2 := if cd.stateless then w1 else applyComponentHook env w1 i 0
        let rendered := renderedOrEmpty
          (if cd.stateless then cd.render vprops [] else cd.render props cd.initialState)
        let w3 := w2.emit (.render i)
        let linked : List Instance :=
          match v.info.inst with
          | some p =>
            (w3.insts.modify (fun x => { x with parentInstance := some p }) i).modify
              (fun x => { x with childInstance := some i }) p
          | none => w3.insts
        let w5 : World :=
          { w3 with insts := linked.modify (fun x => { x with prevProps := v.props }) i }
        let v1 := (extendVnode v rendered).withInfo (fun a => { a with inst := some i })
        toVnode env fuel (setInstanceVnode w5 (getInstances w5.insts i) v1) v1

/-- The function `toDOM(vnode, context, parentNode, replaced)`; returns the
mounted vnode, its host node and the world. -/
def toDOM (env : Env) : Nat → World → VNode → Option Nat → Option Nat → Option (VNode × Nat × World)
  | 0, _, _, _, _ => none
  | fuel + 1, w, v0, parentNode, replaced =>
    match toVnode env fuel w v0 with
    | none => none
    | some (v, w1) =>
      match v.info.type with
      | .comp _ => none
      | .tag t =>
        let isElement := t ≠ "#comment" ∧ t ≠ "#text"
        let created : Option (Nat × World) :=
          if t = "#comment" then some (createComment w1 (textStr v.info.text))
          else if t = "#text" then some (createTextNode w1 (textStr v.info.text))
          else createDOMElement env w1 t v.info.ns
        match created with
        | none => none
        | some r =>
          let dom := r.1
          let canComponentDidMount := v.info.inst.isSome && v.info.dom.isNone
          let v1 := v.withInfo (fun a => { a with dom := some dom })
          let mounted : Option (VNode × World) :=
            if isElement then
              if v1.info.hasProps then
                match diffProps env r.2 dom v1.info (some v1.info.attrs) none with
                | none => none
                | some (w2, flag) =>
                  let v2 := v1.withInfo (fun a => { a with hasSetInnerHTML := flag })
                  let built : Option (VNode × World) :=
                    if flag then some (v2, w2)
                    else
                      match diffChildren env fuel w2 v2.children [] (some dom) with
                      | none => none
                      | some (cs, w3) => some (.mk v2.info cs, w3)
                  if controlled t v2.info.attrs then none else built
              else none
            else some (v1, r.2)
          match mounted with
          | none => none
          | some (v3, w4) =>
            let chain := match v3.info.inst with
              | some i => getInstances w4.insts i
              | none => []
            let w5 := setInstanceVnode w4 chain v3
            match parentNode with
            | none => some (v3, dom, w5)
            | some p =>
              let inserted := match replaced with
                | some old => replaceChild w5 p dom old
                | none => some (appendChild w5 p dom)
              match inserted with
              | none => none
              | some w6 =>
                let w7 := if canComponentDidMount then
                    chain.foldl (fun w i => applyComponentHook env w i 2) w6
                  else w6
                some (v3, dom, w7)

/-- The function `updateComponent(instance)`; returns the host node it
returns (`none` for `undefined`) and the world. -/
def updateComponent (env : Env) : Nat → World → Nat → Option (Option Nat × World)
  | 0, _, _ => none
  | fuel + 1, w, i =>
    match w.insts.get? i with
    | none => none
    | some inst =>
      match env.comps.get? inst.comp with
      | none => none
      | some cd =>
        let nextProps := inst.props
        let nextState := inst.state
        let prevState := inst.prevState.getD inst.state
        let is1 := w.insts.modify (fun x => { x with props := inst.prevProps, state := prevState }) i
        let w1 : World := { w with insts := is1 }
        let hasHook (k : Nat) : Bool := !inst.statelessRender && cd.hooks.contains k
        let w2 := if !inst.forceUpdate && hasHook 4 then w1.emit (.hook i 4) else w1
        if !inst.forceUpdate && hasHook 4 && !cd.shouldUpdate (nextProps.getD {}) nextState then
          some (none, w2)
        else
          let w3 := applyComponentHook env w2 i 5
          let is4 := w3.insts.modify (fun x => { x with props := nextProps, state := nextState }) i
          let w4 : World := { w3 with insts := is4 }
          let rendered := renderedOrEmpty
            (if inst.statelessRender then cd.render (nextProps.getD {}) []
             else cd.render (nextProps.getD {}) nextState)
          let w5 := w4.emit (.render i)
          match w5.insts.get? i with
          | none => none
          | some cur =>
            match diff env fuel w5 rendered cur.vnode inst.vnode.info.hostParent with
            | none => none
            | some (r, dom, w6) =>
              let is7 := w6.insts.modify
                (fun x => { x with vnode := r, prevState := none, prevProps := nextProps }) i
              let w7 : World := { w6 with insts := is7 }
              some (dom, applyComponentHook env w7 i 6)

/-- The function `diff(vnode, prevVnode, vParentNode, context)`;
`vParent` is `none` when `vParentNode` is undefined and else holds its `dom`.
Returns the new vnode as the call leaves it, the host node the call returns
and the world. -/
def diff (env : Env) : Nat → World → VNode → VNode → Option (Option Nat) →
    Option (VNode × Option Nat × World)
  | 0, _, _, _, _ => none
  | fuel + 1, w, v, prev, vParent =>
    let dom := prev.info.dom
    let parentNode := vParent.join
    let prevProps := if prev.info.hasProps then some prev.info.attrs else none
    let prevChildren := if prev.info.hasProps then prev.children else []
    let matched : Option Nat :=
      match prev.info.inst, v.info.type with
      | some i, .comp c => matchInstance w.insts i c
      | _, _ => none
    match matched with
    | some i =>
      let v1 := v.withInfo (fun a => { a with inst := some i })
      match w.insts.get? i with
      | none => none
      | some inst =>
        if inst.statelessRender then
          let is1 := w.insts.modify (fun x => { x with props := v.props, prevProps := prev.props }) i
          let w1 : World := { w with insts := is1 }
          match updateComponent env fuel w1 i with
          | none => none
          | some (d, w2) => some (v1, d, w2)
        else
          let is1 := w.insts.modify (fun x => { x with props := inst.prevProps }) i
          let w1 : World := { w with insts := is1 }
          let w2 := applyComponentHook env w1 i 3
          let is3 := w2.insts.modify (fun x => { x with props := v.props }) i
          let w3 : World := { w2 with insts := is3 }
          match updateComponent env fuel w3 i with
          | none => none
          | some (d, w4) => some (v1, d, w4)
    | none =>
      let unmounted : Option World :=
        if prev.info.inst.isSome ∧ prev.info.type ≠ v.info.type then removeComponent env prev w
        else some w
      match unmounted with
      | none => none
      | some w1 =>
        match v.info.type with
        | .comp _ =>
          let v1 := v.withInfo (fun a => { a with hostParent := vParent })
          match toDOM env fuel w1 v1 parentNode prev.info.dom with
          | none => none
          | some (v2, d, w2) => some (v2, some d, w2)
        | .tag t =>
          let created : Option (Nat × World) :=
            match dom with
            | some d =>
              if prev.info.type ≠ v.info.type then
                match createDOMElement env w1 t v.info.ns with
                | none => none
                | some r =>
                  let w2 := moveChildren r.2 d r.1
                  match parentNode with
                  | some p =>
                    match replaceChild w2 p r.1 d with
                    | some w3 => some (r.1, w3)
                    | none => none
                  | none => some (r.1, w2)
              else some (d, w1)
            | none =>
              match createDOMElement env w1 t v.info.ns with
              | none => none
              | some r =>
                match parentNode with
                | some p => some (r.1, appendChild r.2 p r.1)
                | none => some r
          match created with
          | none => none
          | some (d, w3) =>
            let v1 := v.withInfo (fun a => { a with dom := some d })
            let patched : Option (World × Bool) :=
              if v.info.text.isSome ∧ prev.info.text.isSome then some (w3, v1.info.hasSetInnerHTML)
              else
                diffProps env w3 d v1.info (if v.info.hasProps then some v.info.attrs else none)
                  prevProps
            match patched with
            | none => none
            | some (w4, flag) =>
              let v2 := v1.withInfo (fun a => { a with hasSetInnerHTML := flag })
              let w5 := if prev.info.hasSetInnerHTML then removeAllChildren w4 d else w4
              if !flag && v2.info.hasProps then
                match diffChildren env fuel w5 v2.children prevChildren (some d) with
                | none => none
                | some (cs, w6) => some (.mk v2.info cs, some d, w6)
              else some (v2, some d, w5)

/-- The third loop of `diffChildren` from index `i` on; returns the new
children as the loop leaves them and the final loop state. -/
def diffChildrenLoop (env : Env) (parentNode : Option Nat) :
    Nat → Nat → List (VNode × Option Nat) → LoopState → Option (List VNode × LoopState)
  | 0, _, _, _ => none
  | _ + 1, _, [], st => some ([], st)
  | fuel + 1, i, (v0, km) :: rest, st =>
    let picked : Option Nat × List Nat :=
      match km with
      | some j => (some j, st.removed)
      | none => shiftUnused (fun k => match st.olds.get? k with
          | some o => o.info.use
          | none => false) st.removed
    let v := v0.withInfo (fun a => { a with hostParent := some parentNode })
    let step : Option (VNode × LoopState) :=
      match picked.1 with
      | some j =>
        match st.olds.get? j with
        | none => none
        | some prev =>
          let isTextOrComment := v.info.text.isSome
          let prevDom := prev.info.dom
          let done : Option (VNode × World) :=
            if km.isSome ∧ v.info.hasInstance then
              match diff env fuel st.world (v.withInfo (fun a => { a with hasInstance := false }))
                  prev (some parentNode) with
              | none => none
              | some (v1, _, w1) => some (v1, w1)
            else if v.info.type = prev.info.type then
              if isTextOrComment then
                let v1 := v.withInfo (fun a => { a with dom := prevDom })
                if v.info.text ≠ prev.info.text then
                  match prevDom with
                  | none => none
                  | some d =>
                    some (v1, (st.world.emit (.setNodeValue d (textStr v.info.text))).modifyNode d
                      (fun n => { n with nodeValue := textStr v.info.text }))
                else some (v1, st.world)
              else
                match diff env fuel st.world v prev (some parentNode) with
                | none => none
                | some (v1, _, w1) => some (v1, w1)
            else if isTextOrComment then
              let r := if v.info.type = .tag "#text" then createTextNode st.world (textStr v.info.text)
                else createComment st.world (textStr v.info.text)
              let v1 := v.withInfo (fun a => { a with dom := some r.1 })
              match parentNode, prevDom with
              | some p, some d =>
                match replaceChild r.2 p r.1 d with
                | none => none
                | some w0 =>
                  match removeComponent env prev w0 with
                  | none => none
                  | some w1 => some (v1, w1)
              | _, _ => none
            else
              match diff env fuel st.world v prev (some parentNode) with
              | none => none
              | some (v1, _, w1) => some (v1, w1)
          match done with
          | none => none
          | some (v1, w1) =>
            let olds1 := st.olds.modify (fun o => o.withInfo (fun a => { a with dom := none })) j
            some (v1, { removed := picked.2, olds := olds1, world := w1 })
      | none =>
        if v.info.dom.isSome then some (v, { st with removed := picked.2 })
        else
          let replaced := (st.olds.get? i).bind (fun o => o.info.dom)
          match toDOM env fuel st.world v parentNode replaced with
          | none => none
          | some (v1, _, w1) => some (v1, { st with removed := picked.2, world := w1 })
    match step with
    | none => none
    | some (v1, st1) =>
      match diffChildrenLoop env parentNode fuel (i + 1) rest st1 with
      | none => none
      | some (vs, st2) => some (v1 :: vs, st2)

/-- The function `diffChildren(newChildren, oldChildren, vParentNode,
context)`; `parentNode` is `vParentNode.dom`.  Returns the new children as
the call leaves them and the world. -/
def diffChildren (env : Env) : Nat → World → List VNode → List VNode → Option Nat →
    Option (List VNode × World)
  | 0, _, _, _, _ => none
  | fuel + 1, w, newChildren, oldChildren, parentNode =>
    match (oldChildren.map (oldUUID env w.insts)).allSome,
          (newChildren.map (newUUID env)).allSome with
    | some oldKeys, some newKeys =>
      let s := matchAll { mapping := buildMapping 0 oldKeys (fun _ => none),
                          removed := List.range oldChildren.length } newKeys
      let news := newChildren.map (fun v =>
        match v.info.type with
        | .comp _ => v.withInfo (fun a => { a with hasInstance := true })
        | .tag _ => v)
      let olds := s.1.foldl (fun l m =>
        match m with
        | some j => l.modify (fun o => o.withInfo (fun a => { a with use := true })) j
        | none => l) oldChildren
      match diffChildrenLoop env parentNode fuel 0 (news.zip s.1)
          { removed := s.2.removed, olds := olds, world := w } with
      | none => none
      | some (vs, st) =>
        match removeLeftovers env parentNode st.olds st.removed st.world with
        | none => none
        | some w1 => some (vs, w1)
    | _, _ => none

end

/-! ## The transaction of `dist/React.js` (`transaction.enqueue`)

What the functions of a request (`init`, `exec`) and an after-update
callback (`cb`) do is given as data: the calls they make on the
transaction, in order, and whether they end by throwing. -/

mutual

/-- A request object `{component, state, init, exec}`; `uuid` is
`request.component.uuid`. -/
inductive Request where
  | mk (id uuid : Nat) (init exec : Handler)

/-- A callback object `{component, cb}` passed to `enqueueCallback`. -/
inductive Callback where
  | mk (id : Nat) (cb : Handler)

/-- The run of a function: its calls on the transaction, then a normal
return or an exception. -/
inductive Handler where
  | mk (calls : List Call) (throws : Bool)

/-- A call on the transaction made while a function runs. -/
inductive Call where
  | enqueue (r : Request)
  | enqueueCallback (c : Callback)

end

/-- Identifier of a request (for the trace). -/
def Request.id : Request → Nat
  | .mk i _ _ _ => i

/-- The value `request.component.uuid`. -/
def Request.uuid : Request → Nat
  | .mk _ u _ _ => u

/-- The function `request.init`. -/
def Request.init : Request → Handler
  | .mk _ _ h _ => h

/-- The function `request.exec`. -/
def Request.exec : Request → Handler
  | .mk _ _ _ h => h

/-- Identifier of a callback (for the trace). -/
def Callback.id : Callback → Nat
  | .mk i _ => i

/-- The function `request.cb`. -/
def Callback.cb : Callback → Handler
  | .mk _ h => h

/-- The transaction calls of a function. -/
def Handler.calls : Handler → List Call
  | .mk cs _ => cs

/-- Whether the function ends by throwing. -/
def Handler.throws : Handler → Bool
  | .mk _ t => t

/-- Observable steps of the transaction. -/
inductive TxEvent where
  | init (id : Nat)
  | exec (id : Nat)
  | callback (id : Nat)
  | logged (id : Nat)
deriving DecidableEq, Repr

/-- The module state: `transaction.isInTransation`, the arrays `queue` and
`callbacks`, and the trace of the functions called so far. -/
structure TxState where
  isInTransation : Bool := false
  queue : List Request := []
  callbacks : List Callback := []
  trace : List TxEvent := []

/-- How a call ends: a normal return, an exception that reaches the caller,
or no end within the fuel. -/
inductive Outcome where
  | returned (s : TxState)
  | threw (s : TxState)
  | diverged

/-- The calls a function makes on the transaction, in order; `enq` is
`transaction.enqueue`.  An exception out of a call ends the function. -/
def runCalls (enq : TxState → Option Request → Outcome) : TxState → List Call → Outcome
  | s, [] => .returned s
  | s, .enqueueCallback c :: rest =>
    runCalls enq { s with callbacks := s.callbacks ++ [c] } rest
  | s, .enqueue r :: rest =>
    match enq s (some r) with
    | .returned s1 => runCalls enq s1 rest
    | .threw s1 => .threw s1
    | .diverged => .diverged

/-- The run of a function: its calls, then its end. -/
def runHandler (enq : TxState → Option Request → Outcome) (s : TxState) (h : Handler) : Outcome :=
  match runCalls enq s h.calls with
  | .returned s1 => if h.throws then .threw s1 else .returned s1
  | o => o

/-- The loop `preProcessing.forEach` of `enqueue`: `init` inside
`try`/`catch`, then the request enters `mainProcessing` unless one with the
same `uuid` did.  `unique` holds the uuids seen. -/
def initPhase (enq : TxState → Option Request → Outcome) :
    TxState → List Request → List Nat → List Request → Option (TxState × List Request)
  | s, [], _, main => some (s, main)
  | s, r :: rest, unique, main =>
    match runHandler enq { s with trace := s.trace ++ [.init r.id] } r.init with
    | .returned s1 =>
      if unique.contains r.uuid then initPhase enq s1 rest unique main
      else initPhase enq s1 rest (unique ++ [r.uuid]) (main ++ [r])
    | .threw s1 => initPhase enq { s1 with trace := s1.trace ++ [.logged r.id] } rest unique main
    | .diverged => none

/-- The loop `mainProcessing.forEach` of `enqueue`: `exec` inside
`try`/`catch`. -/
def execPhase (enq : TxState → Option Request → Outcome) : TxState → List Request → Option TxState
  | s, [] => some s
  | s, r :: rest =>
    match runHandler enq { s with trace := s.trace ++ [.exec r.id] } r.exec with
    | .returned s1 => execPhase enq s1 rest
    | .threw s1 => execPhase enq { s1 with trace := s1.trace ++ [.logged r.id] } rest
    | .diverged => none

/-- The loop `processingCallbacks.forEach` of `enqueue`: the callbacks are
called without `try`/`catch`. -/
def callbackPhase (enq : TxState → Option Request → Outcome) : TxState → List Callback → Outcome
  | s, [] => .returned s
  | s, c :: rest =>
    match runHandler enq { s with trace := s.trace ++ [.callback c.id] } c.cb with
    | .returned s1 => callbackPhase enq s1 rest
    | o => o

/-- The function `transaction.enqueue(obj)`. -/
def enqueue : Nat → TxState → Option Request → Outcome
  | 0, _, _ => .diverged
  | fuel + 1, s, obj =>
    let s1 : TxState :=
      match obj with
      | some r => { s with queue := s.queue ++ [r] }
      | none => s
    if s1.isInTransation then .returned s1
    else
      let s2 : TxState := { s1 with isInTransation := true, queue := [], callbacks := [] }
      match initPhase (enqueue fuel) s2 s1.queue [] [] with
      | none => .diverged
      | some (s3, mainProcessing) =>
        match execPhase (enqueue fuel) s3 mainProcessing with
        | none => .diverged
        | some s4 =>
          match callbackPhase (enqueue fuel) s4 s1.callbacks with
          | .returned s5 =>
            let s6 : TxState := { s5 with isInTransation := false }
            if s6.queue.isEmpty then .returned s6 else enqueue fuel s6 none
          | o => o

/-- The function `transaction.enqueueCallback(obj)`. -/
def enqueueCallback (s : TxState) (c : Callback) : TxState :=
  { s with callbacks := s.callbacks ++ [c] }

/-- The body of `dispatchEvent` around the handlers: the flag is set, the
event handlers run (each call of `setState` in them is a call of
`enqueueCallback`, when it has a callback, and of `enqueue`), the flag is
reset and `transaction.enqueue()` drains. -/
def dispatchEvent (fuel : Nat) (s : TxState) (handlers : List Call) : Outcome :=
  match runCalls (enqueue fuel) { s with isInTransation := true } handlers with
  | .returned s1 => enqueue fuel { s1 with isInTransation := false } none
  | o => o

/-! ## The updater of `src/CompositeUpdater.js`

A component is given by what the updater observes of it: the hooks it
defines, what `shouldComponentUpdate` returns, which functions throw, and the
calls of `setState` made inside its hooks.  The functions of other modules
that the updater calls (`drainQueue`, `enqueueUpdater`, `pushError`,
`options.diffChildren`, `Refs.fireRef`, the devtools hooks) are recorded as
events. -/

/-- A plain JavaScript object (state, props, context). -/
abbrev Obj := List (String × JSVal)

/-- The assignment `obj[k] = v`. -/
def objSet (o : Obj) (k : String) (v : JSVal) : Obj :=
  if (o.lookup k).isSome then o.map (fun p => if p.1 = k then (k, v) else p) else o ++ [(k, v)]

/-- The function `extend(obj, props)`: every property of `props` is copied
onto `obj`; a falsy `props` (`none`) copies nothing. -/
def extend (o : Obj) (props : Option Obj) : Obj :=
  match props with
  | some p => p.foldl (fun acc kv => objSet acc kv.1 kv.2) o
  | none => o

/-- An entry of `_pendingStates`: a patch object (or a falsy value), or a
function of `(state, props)` that returns one. -/
inductive Patch where
  | plain (o : Option Obj)
  | fn (f : Obj → Obj → Option Obj)

/-- The first argument of `enqueueSetState`: `true` (a `forceUpdate`) or a
patch. -/
inductive SetArg where
  | force
  | patch (p : Patch)

/-- A call `setState(state, cb)` / `forceUpdate(cb)`: the argument and the
callback (`none` when `cb` is not a function). -/
structure SetStateCall where
  arg : SetArg
  cb : Option Nat

/-- What the updater observes of a component. -/
structure UComp where
  hasHook : String → Bool := fun _ => false
  shouldUpdate : Obj → Option Obj → Obj → Bool := fun _ _ _ => true
  hookThrows : String → Bool := fun _ => false
  constructorThrows : Bool := false
  stateless : Bool := false
  initialState : Option Obj := none
  setStateIn : String → List SetStateCall := fun _ => []

/-- The component instance: `props`, `state`, `context`; `placeholder` is
set for the object `{updater: this}` that stands in for an instance whose
constructor threw. -/
structure UInstance where
  props : Obj := []
  state : Option Obj := none
  context : Obj := []
  placeholder : Bool := false
  hasTry : Bool := false

/-- Calls out of the updater and hook invocations. -/
inductive UEvent where
  | hook (updater : Nat) (name : String)
  | pushError (updater : Nat) (name : String)
  | construct (updater : Nat)
  | render (updater : Nat)
  | diffChildren (updater : Nat)
  | didCatch (updater : Nat) (error info : Nat)
  | callback (updater : Nat) (cb : Nat)
  | fireRef (updater : Nat)
  | afterMount (updater : Nat)
  | afterUpdate (updater : Nat)
  | beforeUnmount (updater : Nat)
  | enqueueUpdater (updater : Nat)
  | drainQueue (updater : Nat)
deriving DecidableEq, Repr

/-- The fields of a `CompositeUpdater`.  `mounted` is the test of
`isMounted` against `returnTrue`; `nextCallbacks` is `none` when
`_nextCallbacks` is not set; `hasCatch` is `_hasCatch = [error, info]`;
`inst` is the component instance, `none` before `init`; `stateNode` tells whether
`vnode.stateNode` is the instance; `statelessMerge` tells that
`mergeStates` was replaced by `alwaysNull` and `willReceiveFalse` that
`willReceive` is `false`; `ancestors` is the chain `vnode.return`,
nearest first, each with its `vtype` and the updater of its `stateNode`. -/
structure Updater where
  comp : UComp := {}
  props : Obj := []
  context : Obj := []
  pendingCallbacks : List Nat := []
  pendingStates : List Patch := []
  jobs : List String := ["resolve"]
  hydrating : Bool := false
  nextCallbacks : Option (List (Option Nat)) := none
  forceUpdate : Bool := false
  receiving : Bool := false
  mounted : Bool := false
  disposed : Bool := false
  hasCatch : Option (Nat × Nat) := none
  hasRef : Bool := false
  inst : Option UInstance := none
  stateNode : Bool := false
  statelessMerge : Bool := false
  willReceiveFalse : Bool := false
  ancestors : List (Nat × Nat) := []

/-- The world of the updaters: the updaters by index, the update queue of
the running drain, `Refs.currentOwner`, `options.async` and the trace. -/
structure UWorld where
  updaters : List Updater := []
  updateQueue : List Nat := []
  currentOwner : Option Nat := none
  async : Bool := false
  log : List UEvent := []

/-- Append an event to the trace. -/
def UWorld.emit (w : UWorld) (e : UEvent) : UWorld :=
  { w with log := w.log ++ [e] }

/-- Apply a change to an updater. -/
def UWorld.modify (w : UWorld) (i : Nat) (f : Updater → Updater) : UWorld :=
  { w with updaters := w.updaters.modify f i }

/-- The method `addJob(newJob)` on the job list. -/
def addJob (jobs : List String) (newJob : String) : List String :=
  if jobs.getLast? = some newJob then jobs else jobs ++ [newJob]

/-- The method `enqueueSetState(state, cb)` of updater `i`. -/
def enqueueSetState (w : UWorld) (i : Nat) (call : SetStateCall) : Option UWorld :=
  match w.updaters.get? i with
  | none => none
  | some u =>
    let u1 : Updater :=
      match call.arg with
      | .force => { u with forceUpdate := true }
      | .patch p => { u with pendingStates := u.pendingStates ++ [p] }
    if u1.hydrating then
      let u2 : Updater :=
        match u1.nextCallbacks with
        | none => { u1 with nextCallbacks := some [call.cb] }
        | some cbs => { u1 with nextCallbacks := some (cbs ++ [call.cb]) }
      some (w.modify i (fun _ => u2))
    else
      let u2 : Updater :=
        match call.cb with
        | some f => { u1 with pendingCallbacks := u1.pendingCallbacks ++ [f] }
        | none => u1
      let w1 := w.modify i (fun _ => u2)
      if w.async then some (w1.emit (.enqueueUpdater i))
      else if u2.mounted then
        if u2.receiving then some w1
        else
          some ((w1.modify i (fun x => { x with jobs := addJob x.jobs "hydrate" })).emit
            (.drainQueue i))
      else some w1

/-- The calls of `setState` made by a hook of updater `i`, in order. -/
def runSetStateCalls (w : UWorld) (i : Nat) : List SetStateCall → Option UWorld
  | [] => some w
  | c :: rest =>
    match enqueueSetState w i c with
    | some w1 => runSetStateCalls w1 i rest
    | none => none

/-- Modelled from the spec: `captureError(instance, hookName, args)` of
`ErrorBoundary.js`.  The hook is invoked when the instance defines it (the
call returns `true` when it does not); the calls of `setState` made inside
the hook are calls of `enqueueSetState`; an exception out of the hook is
reported with `pushError` and not propagated. -/
def runHook (w : UWorld) (i : Nat) (c : UComp) (name : String) : Option UWorld :=
  if c.hasHook name then
    match runSetStateCalls (w.emit (.hook i name)) i (c.setStateIn name) with
    | some w1 => some (if c.hookThrows name then w1.emit (.pushError i name) else w1)
    | none => none
  else some w

/-- The loop of `mergeStates` over `pendings[i]`, `i = 0 .. n-1`. -/
def mergeLoop (props : Obj) : Obj → List Patch → Obj
  | nextState, [] => nextState
  | nextState, .plain o :: rest => mergeLoop props (extend nextState o) rest
  | nextState, .fn f :: rest => mergeLoop props (extend nextState (f nextState props)) rest

/-- The method `mergeStates()`: the state it returns and the updater with
its pending list as the call leaves it.  After `init` found a stateless
function the method is `alwaysNull`. -/
def mergeStates (u : Updater) : Option Obj × Updater :=
  if u.statelessMerge then (none, u)
  else
    let state := match u.inst with
      | some inst => inst.state
      | none => none
    if u.pendingStates.length = 0 then (state, u)
    else (some (mergeLoop u.props (extend [] state) u.pendingStates), { u with pendingStates := [] })

/-- The method `render(updateQueue)` as far as the updater is concerned:
`_hydrating` is set, the instance renders (unless `willReceive` is `false`,
when `vnode.child` is taken) and `options.diffChildren` is called. -/
def renderUpdater (w : UWorld) (i : Nat) (c : UComp) : UWorld :=
  let skip := match w.updaters.get? i with
    | some u => u.willReceiveFalse
    | none => false
  let w1 := w.modify i (fun u => { u with hydrating := true, willReceiveFalse := false })
  let w2 := if skip then w1 else w1.emit (.render i)
  let w3 := if !skip && c.hookThrows "render" then w2.emit (.pushError i "render") else w2
  w3.emit (.diffChildren i)

/-- The test of `hydrate` (line 184): `shouldComponentUpdate` is consulted
through `captureError` unless `_forceUpdate` is set; the answer tells whether
the cycle updates. -/
def askShouldUpdate (w : UWorld) (i : Nat) (u : Updater) (state : Option Obj) :
    Option (UWorld × Bool) :=
  if !u.forceUpdate then
    if u.comp.hasHook "shouldComponentUpdate" then
      match runHook w i u.comp "shouldComponentUpdate" with
      | some w2 =>
        some (w2, !u.comp.hookThrows "shouldComponentUpdate" &&
          u.comp.shouldUpdate u.props state u.context)
      | none => none
    else some (w, true)
  else some (w, true)

/-- Lines 203-208 of `hydrate`: `vnode.stateNode` is the instance, the force
flag is deleted and props, state and context are written to the instance. -/
def applyToInstance (w : UWorld) (i : Nat) (u : Updater) (inst : UInstance)
    (state : Option Obj) : UWorld :=
  w.modify i (fun x =>
    { x with stateNode := true, forceUpdate := false,
             inst := some { (x.inst.getD inst) with
               props := u.props, state := state, context := u.context } })

/-- Lines 217-218 of `hydrate`: `addJob("resolve")` and the push on the
update queue. -/
def pushResolve (w : UWorld) (i : Nat) : UWorld :=
  { w.modify i (fun x => { x with jobs := addJob x.jobs "resolve" }) with
    updateQueue := w.updateQueue ++ [i] }

/-- The method `hydrate(updateQueue)` after the test: `componentWillUpdate`
when the cycle updates, the write to the instance, `render` when the cycle
updates, and the `resolve` job. -/
def hydrateTail (w : UWorld) (i : Nat) (u : Updater) (inst : UInstance)
    (state : Option Obj) (shouldUpdate : Bool) : Option UWorld :=
  match (if shouldUpdate then runHook w i u.comp "componentWillUpdate" else some w) with
  | none => none
  | some w3 =>
    some (pushResolve
      (if shouldUpdate then renderUpdater (applyToInstance w3 i u inst state) i u.comp
       else applyToInstance w3 i u inst state) i)

/-- The method `hydrate(updateQueue)` of updater `i`. -/
def hydrate (w : UWorld) (i : Nat) : Option UWorld :=
  match w.updaters.get? i with
  | none => none
  | some u =>
    match u.inst with
    | none => none
    | some inst =>
      match askShouldUpdate (w.modify i (fun _ => (mergeStates u).2)) i u (mergeStates u).1 with
      | none => none
      | some (w2, shouldUpdate) => hydrateTail w2 i u inst (mergeStates u).1 shouldUpdate

/-- The loop of `resolve` over `vnode.return`: every ancestor with
`vtype > 1` gets a `resolve` job and is pushed on the update queue. -/
def requeueAncestors (w : UWorld) : List (Nat × Nat) → UWorld
  | [] => w
  | (vtype, a) :: rest =>
    if vtype > 1 then
      requeueAncestors
        { w.modify a (fun x => { x with jobs := addJob x.jobs "resolve" }) with
          updateQueue := w.updateQueue ++ [a] } rest
    else requeueAncestors w rest

/-- Lines 274-290 of `resolve`: the updater becomes mounted; when
`_hydrating` is set the did-hook and the devtools hook run and the flag is
deleted.  `u` is the updater as `resolve` found it. -/
def resolveHooks (w : UWorld) (i : Nat) (u : Updater) : Option UWorld :=
  if u.hydrating then
    match runHook (w.modify i (fun x => { x with mounted := true })) i u.comp
        (if u.mounted then "componentDidUpdate" else "componentDidMount") with
    | some w2 =>
      some ((w2.emit (if u.mounted then .afterUpdate i else .afterMount i)).modify i
        (fun x => { x with hydrating := false }))
    | none => none
  else some (w.modify i (fun x => { x with mounted := true }))

/-- Lines 293-308 of `resolve`: the flag `_hasCatch` is deleted, `_hasTry`
is set, the own jobs and the update queue are emptied, the ancestors are
queued again and `_hydrating` is set. -/
def catchPrepare (w : UWorld) (i : Nat) (ancestors : List (Nat × Nat)) : UWorld :=
  (requeueAncestors
    { w.modify i (fun x =>
        { x with hasCatch := none, jobs := [],
                 inst := x.inst.map (fun y => { y with hasTry := true }) }) with
      updateQueue := [] } ancestors).modify i (fun x => { x with hydrating := true })

/-- Lines 292-310 of `resolve`, the branch of `_hasCatch = [error, info]`:
after `catchPrepare`, `componentDidCatch` runs with `_hydrating` set, and
the flag is cleared.  A vnode without `return`, an instance without the hook
and a hook that throws end the call with an exception. -/
def resolveCatch (w : UWorld) (i : Nat) (u : Updater) (error info : Nat) : Option UWorld :=
  match u.ancestors with
  | [] => none
  | p :: rest =>
    if !u.comp.hasHook "componentDidCatch" || u.comp.hookThrows "componentDidCatch" then none
    else
      match runSetStateCalls ((catchPrepare w i (p :: rest)).emit (.didCatch i error info))
          i (u.comp.setStateIn "componentDidCatch") with
      | some w6 => some (w6.modify i (fun x => { x with hydrating := false }))
      | none => none

/-- Lines 313-316 of `resolve`: the ref of the vnode is fired once. -/
def fireRefs (w : UWorld) (i : Nat) (u : Updater) : UWorld :=
  if u.hasRef then (w.modify i (fun x => { x with hasRef := false })).emit (.fireRef i)
  else w

/-- Lines 317-319 of `resolve`: the pending callbacks are taken off the
updater and called in order. -/
def flushCallbacks (w : UWorld) (i : Nat) : Option UWorld :=
  match w.updaters.get? i with
  | none => none
  | some cur =>
    some (cur.pendingCallbacks.foldl (fun acc f => acc.emit (.callback i f))
      (w.modify i (fun x => { x with pendingCallbacks := [] })))

/-- Lines 321-334 of `resolve`: when `_nextCallbacks` holds entries, the
functions among them move to `_pendingCallbacks`, the list is deleted, a
`hydrate` job is added and the updater is pushed on the update queue. -/
def resolveNext (w : UWorld) (i : Nat) : Option UWorld :=
  match w.updaters.get? i with
  | none => none
  | some cur =>
    match cur.nextCallbacks with
    | some (cb :: cbs) =>
      some { w.modify i (fun x =>
              { x with pendingCallbacks := x.pendingCallbacks ++ (cb :: cbs).filterMap id,
                       nextCallbacks := none, jobs := addJob x.jobs "hydrate" }) with
             updateQueue := w.updateQueue ++ [i] }
    | _ => some w

/-- The method `resolve(updateQueue)` of updater `i`. -/
def resolve (w : UWorld) (i : Nat) : Option UWorld :=
  match w.updaters.get? i with
  | none => none
  | some u =>
    match resolveHooks w i u with
    | none => none
    | some w2 =>
      match (match u.hasCatch with
             | some (error, info) => resolveCatch w2 i u error info
             | none => flushCallbacks (fireRefs w2 i u) i) with
      | none => none
      | some w3 => resolveNext w3 i

/-- The method `dispose()` of updater `i`.  Without an instance the
assignment `instance.setState = ...` raises.  `setState` and `forceUpdate`
of the instance are replaced by `returnFalse` before `componentWillUnmount`
runs, so the calls the hook makes reach no updater; the placeholder of a
failed constructor defines no hook. -/
def dispose (w : UWorld) (i : Nat) : Option UWorld :=
  match w.updaters.get? i with
  | none => none
  | some u =>
    match u.inst with
    | none => none
    | some inst =>
      match runHook ((w.emit (.beforeUnmount i)).emit (.fireRef i)) i
          { u.comp with setStateIn := fun _ => [],
                        hasHook := fun n => !inst.placeholder && u.comp.hasHook n }
          "componentWillUnmount" with
      | some w2 => some (w2.modify i (fun x => { x with mounted := false, disposed := true }))
      | none => none

/-- The method `init(updateQueue, insertQueue)` of updater `i`. -/
def initUpdater (w : UWorld) (i : Nat) : Option UWorld :=
  match w.updaters.get? i with
  | none => none
  | some u =>
    let lastOwn := w.currentOwner
    if u.comp.constructorThrows then
      let w1 := w.modify i (fun x =>
        { x with inst := some { placeholder := true }, stateNode := true })
      some { (w1.emit (.pushError i "constructor")) with currentOwner := lastOwn }
    else
      let w1 := { (w.emit (.construct i)) with currentOwner := lastOwn }
      let w2 := w1.modify i (fun x =>
        { x with inst := some { props := x.props, context := x.context,
                                state := x.comp.initialState },
                 stateNode := true, statelessMerge := x.comp.stateless,
                 willReceiveFalse := x.comp.stateless })
      let w3 : Option UWorld :=
        if u.comp.hasHook "componentWillMount" then
          match runHook w2 i u.comp "componentWillMount" with
          | some w3 =>
            match w3.updaters.get? i with
            | some cur =>
              let m := mergeStates cur
              some (w3.modify i (fun _ =>
                { m.2 with inst := m.2.inst.map (fun y => { y with state := m.1 }) }))
            | none => none
          | none => none
        else some w2
      match w3 with
      | none => none
      | some w3 =>
        let w4 := renderUpdater w3 i u.comp
        some { w4 with updateQueue := w4.updateQueue ++ [i] }

/-- The method `exec(updateQueue)` of updater `i`: the first job is taken off
the list and run. -/
def execUpdater (w : UWorld) (i : Nat) : Option UWorld :=
  match w.updaters.get? i with
  | none => none
  | some u =>
    match u.jobs with
    | [] => some w
    | job :: rest =>
      let w1 := w.modify i (fun x => { x with jobs := rest })
      if job = "hydrate" then hydrate w1 i
      else if job = "resolve" then resolve w1 i
      else none

/-- Modelled from the spec: `drainQueue(queue)` of `scheduler.js`, which is
not among the sources.  The spec says that the scheduler drains the queued
updaters one after the other and that "any job already queued for a disposed
Updater becomes a no-op when drained": the updater at the head of the queue
is taken off, skipped when it is disposed and asked to `exec` its next job
otherwise, until the queue is empty. -/
def drainQueue : Nat → UWorld → Option UWorld
  | 0, _ => none
  | fuel + 1, w =>
    match w.updateQueue with
    | [] => some w
    | i :: rest =>
      let w1 : UWorld := { w with updateQueue := rest }
      match w1.updaters.get? i with
      | none => none
      | some u =>
        if u.disposed then drainQueue fuel w1
        else
          match execUpdater w1 i with
          | some w2 => drainQueue fuel w2
          | none => none
/-! ## The `setState` requests of `dist/React.js` -/

/-- The patch of a request: `typeof s === 'function' ? s(state,
instance.props) : s`. -/
def patchOf (s : Patch) (state : Obj) (props : Option Props) : Option Obj :=
  match s with
  | .plain o => o
  | .fn f => f state ((props.map (fun p => p.attrs)).getD [])

/-- The function `gentleSetState()` of the request `{component, state}` that
`setState(state, cb)` enqueues: `instance.prevState` becomes a copy of the
state unless it is set, and the patch (an object, or a function of the state
and the props) is merged into the state object. -/
def gentleSetState (w : World) (i : Nat) (s : Patch) : World :=
  { w with insts := w.insts.modify (fun inst =>
      { inst with
        prevState := some (inst.prevState.getD inst.state),
        state := extend inst.state (patchOf s inst.state inst.props) }) i }

/-- The function `roughSetState()` of the request that `forceUpdate(cb)`
enqueues. -/
def roughSetState (w : World) (i : Nat) : World :=
  { w with insts := w.insts.modify (fun inst => { inst with forceUpdate := true }) i }

/-! ## Definitions used in the statements and proofs -/

/-- Value of a list of decimal digits read from the left. -/
def decodeDigits (acc : Nat) (cs : List Char) : Nat :=
  cs.foldl (fun a c => 10 * a + (c.toNat - 48)) acc

/-- The characters of a computed key: the tag, a slash, and a tail. -/
def uuidTail (type : String) (v : VInfo) : List Char :=
  if type = "#text" then (deepStr v.deep).data ++ '/' :: (textStr v.text).data
  else (deepStr v.deep).data ++
    (match v.key with
     | some k => '/' :: k.data
     | none => [])

/-- Indices, counted from `i`, of the entries of a key list equal to `u`. -/
def positions (u : String) : Nat → List String → List Nat
  | _, [] => []
  | i, x :: xs => if x = u then i :: positions u (i + 1) xs else positions u (i + 1) xs

/-- The queue the mapping holds for a key when the old children in
`matched` have been taken out. -/
def queueOf (oldKeys : List String) (matched : List Nat) (u : String) : Option (List Nat) :=
  if (positions u 0 oldKeys).filter (fun j => j ∉ matched) = [] then none
  else some ((positions u 0 oldKeys).filter (fun j => j ∉ matched))

/-- Calls that put a host node at a position: `appendChild` and
`replaceChild`. -/
def Event.isMove : Event → Bool
  | .appendChild _ _ => true
  | .replaceChild _ _ _ => true
  | _ => false

/-- Calls that create a host node. -/
def Event.isCreate : Event → Bool
  | .createElement _ _ _ => true
  | .createTextNode _ _ => true
  | .createComment _ _ => true
  | _ => false

/-- Calls that remove a host node from its parent. -/
def Event.isRemove : Event → Bool
  | .removeChild _ _ => true
  | _ => false

/-- Lifecycle hook invocations with a given index. -/
def Event.isHook (index : Nat) : Event → Bool
  | .hook _ k => k = index
  | _ => false

/-- Number of new children before index `i` that have no key match. -/
def unmatchedBefore (ms : List (Option Nat)) (i : Nat) : Nat :=
  (ms.take i).count none

/-- The requests a list of transaction calls enqueues, in order. -/
def requestsOf : List Call → List Request
  | [] => []
  | .enqueue r :: rest => r :: requestsOf rest
  | .enqueueCallback _ :: rest => requestsOf rest

/-- The callbacks a list of transaction calls enqueues, in order. -/
def callbacksOf : List Call → List Callback
  | [] => []
  | .enqueue _ :: rest => callbacksOf rest
  | .enqueueCallback c :: rest => c :: callbacksOf rest

/-- The requests captured while the given functions run, in order. -/
def capturedRequests : List Handler → List Request
  | [] => []
  | h :: rest => requestsOf h.calls ++ capturedRequests rest

/-- The callbacks captured while the given functions run, in order. -/
def capturedCallbacks : List Handler → List Callback
  | [] => []
  | h :: rest => callbacksOf h.calls ++ capturedCallbacks rest

/-- Trace of the initialize phase over the requests of a pass: every request
has its `init` called, and a failure is logged. -/
def initTrace : List Request → List TxEvent
  | [] => []
  | r :: rest =>
    (if r.init.throws then [.init r.id, .logged r.id] else [.init r.id]) ++ initTrace rest

/-- The requests that survive deduplication: those whose `init` returned
and whose `uuid` was not met before among the survivors (`unique`). -/
def surviving : List Request → List Nat → List Request
  | [], _ => []
  | r :: rest, unique =>
    if r.init.throws then surviving rest unique
    else if unique.contains r.uuid then surviving rest unique
    else r :: surviving rest (unique ++ [r.uuid])

/-- Trace of the execute phase. -/
def execTrace : List Request → List TxEvent
  | [] => []
  | r :: rest =>
    (if r.exec.throws then [.exec r.id, .logged r.id] else [.exec r.id]) ++ execTrace rest

/-- Trace of the callback phase when no callback throws. -/
def callbackTrace : List Callback → List TxEvent
  | [] => []
  | c :: rest => .callback c.id :: callbackTrace rest

/-- The `init` events of a trace. -/
def TxEvent.isInit : TxEvent → Bool
  | .init _ => true
  | _ => false

/-- The `exec` events of a trace. -/
def TxEvent.isExec : TxEvent → Bool
  | .exec _ => true
  | _ => false

/-- The state in which the pass started by `enqueue(obj)` from the idle
state `s` ends when no callback throws, before the queue is looked at
again: the flag is reset, the trace has grown by the three phases in order,
and the arrays hold what the functions of the pass enqueued. -/
def afterPass (s : TxState) (obj : Option Request) : TxState :=
  let pre := s.queue ++ obj.toList
  let main := surviving pre []
  { isInTransation := false,
    trace := s.trace ++ initTrace pre ++ execTrace main ++ callbackTrace s.callbacks,
    queue := capturedRequests (pre.map Request.init) ++ capturedRequests (main.map Request.exec) ++
      capturedRequests (s.callbacks.map Callback.cb),
    callbacks := capturedCallbacks (pre.map Request.init) ++
      capturedCallbacks (main.map Request.exec) ++ capturedCallbacks (s.callbacks.map Callback.cb) }

/-- What can be compared of an outcome: whether an exception reached the
caller, the flag, the identifiers of the queued requests and the trace. -/
def Outcome.summary : Outcome → Option (Bool × Bool × List Nat × List TxEvent)
  | .returned s => some (false, s.isInTransation, s.queue.map Request.id, s.trace)
  | .threw s => some (true, s.isInTransation, s.queue.map Request.id, s.trace)
  | .diverged => none

/-- A `setState` request with a plain patch: `init` and `exec` make no call
on the transaction. -/
def plainRequest (id uuid : Nat) (initThrows : Bool) : Request :=
  .mk id uuid (.mk [] initThrows) (.mk [] false)

/-- An after-update callback that throws. -/
def throwingCallback : Callback := .mk 0 (.mk [] true)

/-- The patch a pending entry contributes, given the state accumulated so
far and the props. -/
def Patch.apply : Patch → Obj → Obj → Option Obj
  | .plain o, _, _ => o
  | .fn f, state, props => f state props

/-- The left-to-right fold of a pending list over a state: every patch is
shallow-merged into the state accumulated so far. -/
def foldPatches (props : Obj) (state : Obj) (pendings : List Patch) : Obj :=
  pendings.foldl (fun acc p => extend acc (p.apply acc props)) state

/-- The state of the instance of an updater. -/
def Updater.instState (u : Updater) : Option Obj :=
  match u.inst with
  | some inst => inst.state
  | none => none

/-- The updater stored at an index of a world. -/
def UWorld.updater (w : UWorld) (i : Nat) : Option Updater :=
  w.updaters.get? i

/-- The events a run added to the trace. -/
def UWorld.newEvents (before after : UWorld) : List UEvent :=
  after.log.drop before.log.length

/-- The updater after the first statement of `enqueueSetState`: the force
flag is set, or the patch is pushed on `_pendingStates`. -/
def Updater.noted (u : Updater) (call : SetStateCall) : Updater :=
  match call.arg with
  | .force => { u with forceUpdate := true }
  | .patch p => { u with pendingStates := u.pendingStates ++ [p] }

/-- The updater after a list of calls of `enqueueSetState` made while
`_hydrating` is set: every call is noted and its callback argument is
recorded in `_nextCallbacks`. -/
def Updater.deferred (u : Updater) : List SetStateCall → Updater
  | [] => u
  | call :: rest =>
    Updater.deferred
      { u.noted call with nextCallbacks := some (u.nextCallbacks.getD [] ++ [call.cb]) } rest


/-- The calls of `setState` a hook invocation makes: those of the hook when
the instance defines it. -/
def hookCalls (c : UComp) (name : String) : List SetStateCall :=
  if c.hasHook name then c.setStateIn name else []

/-- The trace of a hook invocation through `captureError`. -/
def hookEvents (i : Nat) (c : UComp) (name : String) : List UEvent :=
  if c.hasHook name then
    .hook i name :: (if c.hookThrows name then [.pushError i name] else [])
  else []

/-- The name of the hook `resolve` invokes. -/
def didHook (hasMounted : Bool) : String :=
  if hasMounted then "componentDidUpdate" else "componentDidMount"

/-- The trace of `render(updateQueue)`: the instance renders unless
`willReceive` is `false`, an exception out of `render` is reported, and
`options.diffChildren` is called. -/
def renderEvents (i : Nat) (c : UComp) (skip : Bool) : List UEvent :=
  (if skip then [] else
    .render i :: (if c.hookThrows "render" then [.pushError i "render"] else [])) ++
  [.diffChildren i]

/-- What `captureError(instance, "shouldComponentUpdate", …)` returns in
`hydrate`: `true` when the instance has no such hook, a falsy value when the
hook throws, the answer of the hook otherwise. -/
def shouldUpdateAnswer (u : Updater) : Bool :=
  if u.comp.hasHook "shouldComponentUpdate" then
    !u.comp.hookThrows "shouldComponentUpdate" &&
      u.comp.shouldUpdate u.props (mergeStates u).1 u.context
  else true

/-- Whether a cycle of `hydrate` updates: the force flag is set or
`shouldComponentUpdate` answers with a truthy value. -/
def cycleUpdates (u : Updater) : Bool :=
  u.forceUpdate || shouldUpdateAnswer u

/-- The trace of `hydrate` for a component whose hooks call no `setState`. -/
def hydrateEvents (i : Nat) (u : Updater) : List UEvent :=
  (if u.forceUpdate then [] else hookEvents i u.comp "shouldComponentUpdate") ++
  (if cycleUpdates u then
    hookEvents i u.comp "componentWillUpdate" ++ renderEvents i u.comp u.willReceiveFalse
   else [])

/-- The updaters `resolve` queues again after an error: those of the
ancestors with `vtype > 1`, nearest first. -/
def requeued (ancestors : List (Nat × Nat)) : List Nat :=
  (ancestors.filter (fun p => decide (p.1 > 1))).map (fun p => p.2)

/-- A text vnode as `flatChildren` builds it, with its depth, its host node
and its `_hostParent`. -/
def textVnode (deep : Option Nat) (text : String) (dom : Option Nat)
    (hostParent : Option (Option Nat)) : VNode :=
  .mk { type := .tag "#text", hasProps := false, deep := deep, text := some text,
        dom := dom, hostParent := hostParent } []

/-- The assignment `dom.nodeValue = text`. -/
def setNodeValue (w : World) (d : Nat) (text : String) : World :=
  (w.emit (.setNodeValue d text)).modifyNode d (fun n => { n with nodeValue := text })

/-- A new host element without attributes and children, as `createElement`
and `flatChildren` leave it. -/
def newLeaf (t : String) (v : VNode) : Prop :=
  v.info.type = .tag t ∧ v.info.hasProps = true ∧ v.info.attrs = [] ∧ v.children = [] ∧
  v.info.text = none ∧ v.info.hasInstance = false ∧ v.info.hasSetInnerHTML = false ∧
  v.info.inst = none

/-- A mounted host element without attributes and children. -/
def oldLeaf (t : String) (o : VNode) : Prop :=
  o.info.type = .tag t ∧ o.info.hasProps = true ∧ o.info.attrs = [] ∧ o.children = [] ∧
  o.info.inst = none ∧ o.info.hasSetInnerHTML = false

/-- Whether instance `i` defines the lifecycle hook with the given index
(instances that wrap a stateless function define none). -/
def definesHook (env : Env) (insts : List Instance) (i : Nat) (index : Nat) : Bool :=
  match insts.get? i with
  | none => false
  | some inst =>
    match env.comps.get? inst.comp with
    | none => false
    | some c => !inst.statelessRender && c.hooks.contains index

/-- The trace of `applyComponentHook(instance, index)` over a list of
instances, in order. -/
def hookTrace (env : Env) (insts : List Instance) (chain : List Nat) (index : Nat) :
    List Event :=
  (chain.filter (fun i => definesHook env insts i index)).map (fun i => Event.hook i index)
/-! ## Inputs of the worked scenarios -/

/-- A world that holds one host element, the container (handle 0). -/
def containerWorld : World := { nodes := [{ nodeName := "div" }] }

/-- An element vnode as `createElement` and `flatChildren` leave it in a
child list (depth 0). -/
def elemNode (tag : String) (key : Option String) (children : List VNode)
    (attrs : List (String × JSVal)) : VNode :=
  .mk { type := .tag tag, key := key, deep := some 0, attrs := attrs } children

/-- A text vnode as `flatChildren` builds it. -/
def textNode (text : String) : VNode :=
  .mk { type := .tag "#text", hasProps := false, deep := some 0, text := some text } []

/-- A component vnode in a child list (depth 0). -/
def compNode (c : Nat) (key : Option String) : VNode :=
  .mk { type := .comp c, key := key, deep := some 0 } []

/-- First render of a child list into the container. -/
def mountChildren (env : Env) (children : List VNode) : Option (List VNode × World) :=
  diffChildren env 64 containerWorld children [] (some 0)

/-- First render of `old` into the container, then `diffChildren` of `new`
against the mounted children, with the trace restarted in between. -/
def rediffChildren (env : Env) (old new : List VNode) : Option (List VNode × World) :=
  match mountChildren env old with
  | none => none
  | some (o, w) => diffChildren env 64 { w with log := [] } new o (some 0)

/-- What a run leaves behind: the host handle of each new child, the host
children of the container and the trace. -/
def outcome (r : Option (List VNode × World)) :
    Option (List (Option Nat) × List Nat × List Event) :=
  r.map (fun p => (p.1.map (fun v => v.info.dom), p.2.childrenOf 0, p.2.log))

/-- The host children of a host node after a run. -/
def hostChildrenAfter (r : Option (List VNode × World)) (d : Nat) : Option (List Nat) :=
  r.map (fun p => p.2.childrenOf d)

/-- No component and the default browser facts. -/
def plainEnv : Env := {}

/-- A component type whose `displayName` differs from its function name. -/
def namedEnv : Env :=
  { comps := [{ name := "Bar", displayName := some "Foo",
                render := fun _ _ => some (.mk { type := .tag "div" } []) }] }

/-- Component 0 (`Outer`) renders component 1 (`Inner`), which renders a
`div`; both define `componentDidMount` and `componentWillUnmount`. -/
def chainEnv : Env :=
  { comps := [{ name := "Outer", hooks := [2, 7],
                render := fun _ _ => some (.mk { type := .comp 1 } []) },
              { name := "Inner", hooks := [2, 7],
                render := fun _ _ => some (.mk { type := .tag "div" } []) }] }

/-- An element with `dangerouslySetInnerHTML`; `oid` is the identity of the
object that holds the markup. -/
def htmlNode (oid : Nat) : VNode :=
  elemNode "div" none []
    [("dangerouslySetInnerHTML", .obj oid [("__html", .str "<b>x</b>")])]


/-- A component that defines every hook and whose `shouldComponentUpdate`
answers `false`. -/
def neverUpdates : UComp :=
  { hasHook := fun _ => true, shouldUpdate := fun _ _ _ => false }

/-- A mounted updater of `neverUpdates` with a ref and the pending callback
3, outside a cycle. -/
def idleUpdater : Updater :=
  { comp := neverUpdates, inst := some {}, mounted := true, hasRef := true,
    pendingCallbacks := [3], jobs := [] }

/-- A world of one updater. -/
def single (u : Updater) : UWorld := { updaters := [u] }

/-- An error boundary: a component with a `componentDidCatch` hook that
calls `setState` twice. -/
def boundaryComp : UComp :=
  { hasHook := fun n => n == "componentDidCatch",
    setStateIn := fun n =>
      if n == "componentDidCatch" then
        [⟨.patch (.plain (some [("failed", .prim (.bool true))])), none⟩, ⟨.force, some 8⟩]
      else [] }

/-- A boundary updater with the recorded error `[1, 2]`, hydrating, below a
host element (`vtype` 1) that is below a component (`vtype` 2, updater 2). -/
def boundaryUpdater : Updater :=
  { comp := boundaryComp, inst := some {}, hydrating := true, hasCatch := some (1, 2),
    jobs := ["hydrate"], ancestors := [(1, 0), (2, 2)] }

/-- The boundary (updater 0), a sibling subtree (updater 1) that is queued in
the pass, and the parent component (updater 2). -/
def boundaryWorld : UWorld :=
  { updaters := [boundaryUpdater, {}, { jobs := [] }], updateQueue := [1] }

/-- A component with a `shouldComponentUpdate` that answers `false`. -/
def stubbornEnv : Env :=
  { comps := [{ name := "Stubborn", hooks := [4], shouldUpdate := fun _ _ => false,
                render := fun _ _ => none }] }

/-- An instance of the component, with state `a = 1`. -/
def stubbornInstance : Instance :=
  { comp := 0, state := [("a", .prim (.num 1))],
    vnode := .mk { type := .comp 0 } [] }

/-- The world of that instance. -/
def stubbornWorld : World := { insts := [stubbornInstance] }

/-- The host tree of `<div>hi</div>` in the container: the container (0),
the `div` (1) and its text node (2). -/
def greetingWorld : World :=
  { nodes := [{ nodeName := "div", children := [1] },
              { nodeName := "div", children := [2] },
              { nodeName := "#text", nodeValue := "hi" }] }

/-- The host tree of `<div><span/></div>` in the container: the container
(0), the `div` (1) and the `span` (2). -/
def nestedWorld : World :=
  { nodes := [{ nodeName := "div", children := [1] },
              { nodeName := "div", children := [2] },
              { nodeName := "span" }] }

/-- The world after `diff` replaced the `div` of `nestedWorld` by a new `p`
element. -/
def retaggedWorld : World :=
  swapChild
    (moveChildren ((nestedWorld.alloc { nodeName := "p" }).2.emit (.createElement 3 "p" none)) 1 3)
    0 3 1

/-- A mounted `elemNode` without attributes and children that holds the
host node `d`. -/
def mountedLeaf (tag key : String) (d : Nat) : VNode :=
  .mk { type := .tag tag, key := some key, deep := some 0, dom := some d } []

/-- The host tree of a list of two items in the container: the container
(0) and the items (1, 2). -/
def listWorld : World :=
  { nodes := [{ nodeName := "ul", children := [1, 2] },
              { nodeName := "li" }, { nodeName := "li" }] }

/-- Component 0 (`App`) renders component 1 (`Page`), which renders a `div`
with the children component 2 (`Item`) and a `p`; `Item` renders a `span`.
All three define `componentDidMount`. -/
def treeEnv : Env :=
  { comps := [{ name := "App", hooks := [2],
                render := fun _ _ => some (.mk { type := .comp 1 } []) },
              { name := "Page", hooks := [2],
                render := fun _ _ => some (.mk { type := .tag "div" }
                  [.mk { type := .comp 2, deep := some 0 } [],
                   .mk { type := .tag "p", deep := some 0 } []]) },
              { name := "Item", hooks := [2],
                render := fun _ _ => some (.mk { type := .tag "span" } []) }] }

/-- Two components, `A` (0) and `B` (1), that each render a `div`. -/
def swapEnv : Env :=
  { comps := [{ name := "A", render := fun _ _ => some (.mk { type := .tag "div" } []) },
              { name := "B", render := fun _ _ => some (.mk { type := .tag "div" } []) }] }
/-! ## The iteration of the third loop of `diffChildren`, for the proofs -/

/-- One iteration of the third loop of `diffChildren`, with the calls of
`diff` and `toDOM` as parameters; `diffChildrenLoop` runs it with `diff` and
`toDOM` at the fuel of the iteration (`diffChildrenLoop_cons`). -/
def loopStepWith (env : Env) (parentNode : Option Nat)
    (diffF : World → VNode → VNode → Option (Option Nat) → Option (VNode × Option Nat × World))
    (toDOMF : World → VNode → Option Nat → Option Nat → Option (VNode × Nat × World))
    (i : Nat) (v0 : VNode) (km : Option Nat) (st : LoopState) : Option (VNode × LoopState) :=
  let picked : Option Nat × List Nat :=
    match km with
    | some j => (some j, st.removed)
    | none => shiftUnused (fun k => match st.olds.get? k with
        | some o => o.info.use
        | none => false) st.removed
  let v := v0.withInfo (fun a => { a with hostParent := some parentNode })
  match picked.1 with
  | some j =>
    match st.olds.get? j with
    | none => none
    | some prev =>
      let isTextOrComment := v.info.text.isSome
      let prevDom := prev.info.dom
      let done : Option (VNode × World) :=
        if km.isSome ∧ v.info.hasInstance then
          match diffF st.world (v.withInfo (fun a => { a with hasInstance := false }))
              prev (some parentNode) with
          | none => none
          | some (v1, _, w1) => some (v1, w1)
        else if v.info.type = prev.info.type then
          if isTextOrComment then
            let v1 := v.withInfo (fun a => { a with dom := prevDom })
            if v.info.text ≠ prev.info.text then
              match prevDom with
              | none => none
              | some d =>
                some (v1, (st.world.emit (.setNodeValue d (textStr v.info.text))).modifyNode d
                  (fun n => { n with nodeValue := textStr v.info.text }))
            else some (v1, st.world)
          else
            match diffF st.world v prev (some parentNode) with
            | none => none
            | some (v1, _, w1) => some (v1, w1)
        else if isTextOrComment then
          let r := if v.info.type = .tag "#text" then createTextNode st.world (textStr v.info.text)
            else createComment st.world (textStr v.info.text)
          let v1 := v.withInfo (fun a => { a with dom := some r.1 })
          match parentNode, prevDom with
          | some p, some d =>
            match replaceChild r.2 p r.1 d with
            | none => none
            | some w0 =>
              match removeComponent env prev w0 with
              | none => none
              | some w1 => some (v1, w1)
          | _, _ => none
        else
          match diffF st.world v prev (some parentNode) with
          | none => none
          | some (v1, _, w1) => some (v1, w1)
      match done with
      | none => none
      | some (v1, w1) =>
        let olds1 := st.olds.modify (fun o => o.withInfo (fun a => { a with dom := none })) j
        some (v1, { removed := picked.2, olds := olds1, world := w1 })
  | none =>
    if v.info.dom.isSome then some (v, { st with removed := picked.2 })
    else
      let replaced := (st.olds.get? i).bind (fun o => o.info.dom)
      match toDOMF st.world v parentNode replaced with
      | none => none
      | some (v1, _, w1) => some (v1, { st with removed := picked.2, world := w1 })

/-- The predecessor the third loop picks for a new child, and
`removedChildren` after the pick: the key match, or the next unused old
child of the pool. -/
def pickOf (km : Option Nat) (st : LoopState) : Option Nat × List Nat :=
  match km with
  | some j => (some j, st.removed)
  | none => shiftUnused (fun k => match st.olds.get? k with
      | some o => o.info.use
      | none => false) st.removed

/-- The old children after an iteration that picked `k`: the `dom` of old
child `k` is deleted. -/
def oldsAfter (olds : List VNode) (picked : Option Nat) : List VNode :=
  match picked with
  | some k => olds.modify (fun o => o.withInfo (fun a => { a with dom := none })) k
  | none => olds


/-- The `use` flag of old child `k`, as the third loop of `diffChildren`
reads it (`false` when there is no such child). -/
def useOf (olds : List VNode) (k : Nat) : Bool :=
  match olds.get? k with
  | some o => o.info.use
  | none => false

/-- The old children after the second loop of `diffChildren`: `use` is set
on every old child that a new child was matched to. -/
def markUsed (ms : List (Option Nat)) (olds : List VNode) : List VNode :=
  ms.foldl (fun l m =>
    match m with
    | some j => l.modify (fun o => o.withInfo (fun a => { a with use := true })) j
    | none => l) olds

/-- The new children after the second loop of `diffChildren`:
`_hasInstance` is set on every component vnode. -/
def markNew (news : List VNode) : List VNode :=
  news.map (fun v =>
    match v.info.type with
    | .comp _ => v.withInfo (fun a => { a with hasInstance := true })
    | .tag _ => v)

/-- One iteration of the third loop of `diffChildren` after the choice of
the predecessor: `pick` is `prevVnode` (an index into the old children), and
the iteration either patches the new child against it or, without a
predecessor, takes the branch that adds a new node (`toDOM`, unless the vnode
holds a host node already).  `loopStepWith` is this body run on the
predecessor the loop picks (`loopStepWith_eq`). -/
def loopBody (env : Env) (parentNode : Option Nat)
    (diffF : World → VNode → VNode → Option (Option Nat) → Option (VNode × Option Nat × World))
    (toDOMF : World → VNode → Option Nat → Option Nat → Option (VNode × Nat × World))
    (i : Nat) (v0 : VNode) (km pick : Option Nat) (olds : List VNode) (w : World) :
    Option (VNode × World) :=
  let v := v0.withInfo (fun a => { a with hostParent := some parentNode })
  match pick with
  | some j =>
    match olds.get? j with
    | none => none
    | some prev =>
      let isTextOrComment := v.info.text.isSome
      let prevDom := prev.info.dom
      if km.isSome ∧ v.info.hasInstance then
        match diffF w (v.withInfo (fun a => { a with hasInstance := false }))
            prev (some parentNode) with
        | none => none
        | some (v1, _, w1) => some (v1, w1)
      else if v.info.type = prev.info.type then
        if isTextOrComment then
          let v1 := v.withInfo (fun a => { a with dom := prevDom })
          if v.info.text ≠ prev.info.text then
            match prevDom with
            | none => none
            | some d =>
              some (v1, (w.emit (.setNodeValue d (textStr v.info.text))).modifyNode d
                (fun n => { n with nodeValue := textStr v.info.text }))
          else some (v1, w)
        else
          match diffF w v prev (some parentNode) with
          | none => none
          | some (v1, _, w1) => some (v1, w1)
      else if isTextOrComment then
        let r := if v.info.type = .tag "#text" then createTextNode w (textStr v.info.text)
          else createComment w (textStr v.info.text)
        let v1 := v.withInfo (fun a => { a with dom := some r.1 })
        match parentNode, prevDom with
        | some p, some d =>
          match replaceChild r.2 p r.1 d with
          | none => none
          | some w0 =>
            match removeComponent env prev w0 with
            | none => none
            | some w1 => some (v1, w1)
        | _, _ => none
      else
        match diffF w v prev (some parentNode) with
        | none => none
        | some (v1, _, w1) => some (v1, w1)
  | none =>
    if v.info.dom.isSome then some (v, w)
    else
      match toDOMF w v parentNode ((olds.get? i).bind (fun o => o.info.dom)) with
      | none => none
      | some (v1, _, w1) => some (v1, w1)

/-- The third loop of `diffChildren` run on predecessors chosen in advance:
each new child comes with its key match and its predecessor.  Returns the
new children, the old children (the `dom` of every predecessor deleted) and
the world.  `diffChildrenLoop` is this loop run on the predecessors that
`predecessors` computes (`loop_refines`). -/
def loopWithPicks (env : Env) (parentNode : Option Nat) :
    Nat → Nat → List ((VNode × Option Nat) × Option Nat) → List VNode → World →
    Option (List VNode × List VNode × World)
  | 0, _, _, _, _ => none
  | _ + 1, _, [], olds, w => some ([], olds, w)
  | fuel + 1, i, ((v0, km), pick) :: rest, olds, w =>
    match loopBody env parentNode (diff env fuel) (toDOM env fuel) i v0 km pick olds w with
    | none => none
    | some (v1, w1) =>
      match loopWithPicks env parentNode fuel (i + 1) rest (oldsAfter olds pick) w1 with
      | none => none
      | some (vs, o, w2) => some (v1 :: vs, o, w2)

/-- The host nodes that a stretch of the trace removes from the host node
`p` with `removeChild`, in order. -/
def removalsOf (p : Nat) (log : List Event) : List Nat :=
  log.filterMap (fun e =>
    match e with
    | .removeChild q d => if q = p then some d else none
    | _ => none)

/-! ## Mounting: the vocabulary of the `componentDidMount` order -/

/-- The instances whose `componentDidMount` a trace invokes, in the order
of the invocations. -/
def didMounts (tr : List Event) : List Nat :=
  tr.filterMap (fun e =>
    match e with
    | .hook i 2 => some i
    | _ => none)

/-- A vnode that was never mounted: neither it nor a vnode below it holds a
host node (`dom`) or a component instance (`instance`). -/
def VNode.fresh : VNode → Bool
  | .mk info cs => info.inst.isNone && info.dom.isNone && freshList cs
where
  /-- All vnodes of the list are fresh. -/
  freshList : List VNode → Bool
    | [] => true
    | c :: cs => c.fresh && freshList cs

/-- The `render` methods of the component table build their result from
vnodes that were never mounted: when the children handed down in `props`
are fresh, so is the rendered vnode. -/
def rendersFresh (env : Env) : Prop :=
  ∀ cd ∈ env.comps, ∀ (p : Props) (s : List (String × JSVal)) (r : VNode),
    (∀ c ∈ p.children, c.fresh = true) → cd.render p s = some r → r.fresh = true

/-- What `getInstances` and the hook dispatch read of an instance: its
component, whether it wraps a stateless function, and `parentInstance`. -/
def Instance.sig (x : Instance) : Nat × Bool × Option Nat :=
  (x.comp, x.statelessRender, x.parentInstance)

/-- A step that creates no instance, leaves component and `parentInstance`
of every instance alone and invokes no `componentDidMount`. -/
def Quiet (w w1 : World) : Prop :=
  w1.insts.map Instance.sig = w.insts.map Instance.sig ∧
  ∃ tr, w1.log = w.log ++ tr ∧ didMounts tr = []

/-- A stretch of work from world `w` to world `w1`: the instances of `w`
keep their component and `parentInstance`, the trace grows, and `ds` are the
instances whose `componentDidMount` the stretch invokes, in order. -/
def Step (w w1 : World) (ds : List Nat) : Prop :=
  (∃ ext, w1.insts.map Instance.sig = w.insts.map Instance.sig ++ ext) ∧
  ∃ tr, w1.log = w.log ++ tr ∧ didMounts tr = ds

/-- The bottom-up order of `componentDidMount` over the instances
`a, ..., c-1`, created while a list of vnodes was mounted one after the
other.  The first vnode got the chain of instances `a, ..., a+k-1` (its
component and the components rendered by components; `k = 0` for a host
vnode) and what lies below it the instances up to `b`: the invocations for
the instances below come first, in bottom-up order themselves, then those of
the chain from the innermost instance `a+k-1` to the outermost instance `a`,
then, likewise, those of the remaining vnodes.  `defines` tells which
instances define the hook. -/
inductive BottomUp (defines : Nat → Bool) : Nat → Nat → List Nat → Prop where
  | done (a : Nat) : BottomUp defines a a []
  | mount (a k b c : Nat) (ds rest : List Nat) :
      BottomUp defines (a + k) b ds → BottomUp defines b c rest →
      BottomUp defines a c (ds ++ ((List.range' a k).reverse.filter defines ++ rest))

/-- A stretch of mounting from world `w` to world `w1`: the
`componentDidMount` invocations of the stretch are those of the instances
created in it, in bottom-up order. -/
def Mounts (env : Env) (w w1 : World) : Prop :=
  ∃ ds, Step w w1 ds ∧
    BottomUp (fun i => definesHook env w1.insts i 2) w.insts.length w1.insts.length ds

/-- The instance `toVnode` creates for a vnode of component `c`. -/
def newInstance (v : VNode) (c : Nat) (cd : CompDef) : Instance :=
  if cd.stateless then { comp := c, statelessRender := true, vnode := v }
  else { comp := c,
         props := some { attrs := withDefaults cd.defaultProps v.info.attrs, children := v.children },
         state := cd.initialState, vnode := v }

/-- The world after `toVnode` has created and rendered the instance:
construction, `componentWillMount`, `render`. -/
def constructed (env : Env) (w : World) (v : VNode) (c : Nat) (cd : CompDef) : World :=
  let i := w.insts.length
  let w1 := World.emit { w with insts := w.insts ++ [newInstance v c cd] } (.construct i c)
  let w2 := if cd.stateless then w1 else applyComponentHook env w1 i 0
  w2.emit (.render i)

/-- The vnode `render` yields for the new instance of `toVnode`. -/
def renderedFor (v : VNode) (cd : CompDef) : VNode :=
  renderedOrEmpty
    (if cd.stateless then cd.render { attrs := v.info.attrs, children := v.children } []
     else cd.render { attrs := withDefaults cd.defaultProps v.info.attrs, children := v.children }
       cd.initialState)

/-- The instances after `toVnode` has linked instance `i` to `vnode.instance`
and set its `prevProps`. -/
def linkInstance (insts : List Instance) (v : VNode) (i : Nat) : List Instance :=
  (match v.info.inst with
    | some p =>
      (insts.modify (fun (x : Instance) => { x with parentInstance := some p }) i).modify
        (fun (x : Instance) => { x with childInstance := some i }) p
    | none => insts).modify (fun (x : Instance) => { x with prevProps := v.props }) i

/-- One round of `toVnode` on a vnode of component `c` (`toVnode_succ`):
the instance is created and rendered, linked to `vnode.instance`, and the
rendered vnode is merged into the vnode. -/
def instantiate (env : Env) (w : World) (v : VNode) (c : Nat) (cd : CompDef) : VNode × World :=
  let i := w.insts.length
  let w3 := constructed env w v c cd
  let w5 : World := { w3 with insts := linkInstance w3.insts v i }
  let v1 := (extendVnode v (renderedFor v cd)).withInfo (fun a => { a with inst := some i })
  (v1, setInstanceVnode w5 (getInstances w5.insts i) v1)

/-- The host node `toDOM` creates for a vnode of type tag `t`. -/
def createHost (env : Env) (w1 : World) (t : String) (v : VNode) : Option (Nat × World) :=
  if t = "#comment" then some (createComment w1 (textStr v.info.text))
  else if t = "#text" then some (createTextNode w1 (textStr v.info.text))
  else createDOMElement env w1 t v.info.ns

/-- The middle of `toDOM` (`toDOM_succ`): `vnode.dom` is set and, for an
element, the props are applied and the children mounted by `childrenF`. -/
def mountInner (env : Env)
    (childrenF : World → List VNode → Option Nat → Option (List VNode × World))
    (t : String) (r : Nat × World) (v : VNode) : Option (VNode × World) :=
  let v1 := v.withInfo (fun a => { a with dom := some r.1 })
  if t ≠ "#comment" ∧ t ≠ "#text" then
    if v1.info.hasProps then
      match diffProps env r.2 r.1 v1.info (some v1.info.attrs) none with
      | none => none
      | some (w2, flag) =>
        let v2 := v1.withInfo (fun a => { a with hasSetInnerHTML := flag })
        let built : Option (VNode × World) :=
          if flag then some (v2, w2)
          else
            match childrenF w2 v2.children (some r.1) with
            | none => none
            | some (cs, w3) => some (.mk v2.info cs, w3)
        if controlled t v2.info.attrs then none else built
    else none
  else some (v1, r.2)

/-- The instances `toDOM` notifies for a vnode: `getInstances(vnode.instance)`,
the instance of the vnode followed by its chain of `parentInstance`. -/
def chainOf (insts : List Instance) (v : VNode) : List Nat :=
  match v.info.inst with
  | some i => getInstances insts i
  | none => []

/-- The insertion of `toDOM`: `parentNode.replaceChild(dom, replaced)` or
`parentNode.appendChild(dom)`. -/
def insertHost (w : World) (p dom : Nat) (replaced : Option Nat) : Option World :=
  match replaced with
  | some old => replaceChild w p dom old
  | none => some (appendChild w p dom)

/-- The end of `toDOM` (`toDOM_succ`): the host node is put under
`parentNode` and `componentDidMount` is invoked along `getInstances`. -/
def finishMount (env : Env) (w4 : World) (v3 : VNode) (dom : Nat)
    (parentNode replaced : Option Nat) (canComponentDidMount : Bool) :
    Option (VNode × Nat × World) :=
  let chain := chainOf w4.insts v3
  let w5 := setInstanceVnode w4 chain v3
  match parentNode with
  | none => some (v3, dom, w5)
  | some p =>
    match insertHost w5 p dom replaced with
    | none => none
    | some w6 =>
      let w7 := if canComponentDidMount then
          chain.foldl (fun w i => applyComponentHook env w i 2) w6
        else w6
      some (v3, dom, w7)

/-- The `dangerouslySetInnerHTML` branch of an iteration of the first loop
of `diffProps` (`diffPropsStep_phases`). -/
def innerHTMLStep (env : Env) (dom : Nat) (prev val : JSVal) (name : String) (st : PropState) :
    PropState :=
  if name = "dangerouslySetInnerHTML" then
    let oldhtml := if prev.truthy then JSVal.prim (fieldOf prev "__html") else prev
    if val.truthy && !(JSVal.prim (fieldOf val "__html")).strictEq oldhtml then
      { st with hasSetInnerHTML := true,
                world := setInnerHTML env st.world dom (fieldOf val "__html").toStr }
    else { st with hasSetInnerHTML := true }
  else st

/-- The event-handler branch of an iteration of the first loop of
`diffProps` (`diffPropsStep_phases`). -/
def eventStep (env : Env) (dom : Nat) (prev val : JSVal) (name : String) (st1 : PropState) :
    Option PropState :=
  let w1 := st1.world
  let reg : Option PropState :=
    if !prev.truthy then
      match val with
      | .func _ =>
        let eventName := getBrowserName name
        if isGlobalEvent w1 eventName then some { st1 with eventName := some eventName }
        else
          let w2 := World.emit { w1 with globalEvents := w1.globalEvents ++ [eventName] }
            (.addGlobalEventListener eventName)
          some { st1 with eventName := some eventName, world := w2 }
      | _ => none
    else some st1
  match reg with
  | none => none
  | some st2 =>
    if env.inMobile && st2.eventName = some "click" then none
    else
      let w2 := (st2.world.emit (.setHandler dom name val)).modifyNode dom
        (fun n => { n with handlers := n.handlers.filter (fun p => p.1 ≠ name) ++ [(name, val)] })
      some { st2 with world := w2 }

/-- The attribute and property branch of an iteration of the first loop of
`diffProps` (`diffPropsStep_phases`). -/
def attrStep (env : Env) (dom : Nat) (isHTML : Bool) (prev val : JSVal) (name : String)
    (st1 : PropState) : Option PropState :=
  let w1 := st1.world
  if !val.strictEq prev then
    let tag := match w1.nodes.get? dom with
      | some n => n.nodeName
      | none => ""
    let w2 := if env.boolProp tag name then setProperty w1 dom name (.prim (.bool val.truthy)) else w1
    if val = .prim (.bool false) ∨ val = .prim .undefined ∨ val = .prim .null then
      some { st1 with world := operateAttribute w2 dom name (.prim (.str "")) (!isHTML) }
    else if isHTML && (builtId name).isSome then
      let val1 := if isStringAttribute name then JSVal.prim (.str val.toStr) else val
      if name ≠ "value" ∨ !(readProperty env w2 dom name).strictEq val1 then
        some { st1 with world := setProperty w2 dom name val1 }
      else some { st1 with world := w2 }
    else some { st1 with world := operateAttribute w2 dom name val (!isHTML) }
  else some st1

/-- The `ref` branch of an iteration of the first loop of `diffProps`
(`diffPropsStep_phases`). -/
def refStep (dom : Nat) (owner : Option Nat) (prev val : JSVal) (st : PropState) :
    Option PropState :=
  if !prev.strictEq val then
    match owner, val with
    | some i, .func _ => some { st with world := st.world.emit (.patchRef i val dom) }
    | some i, .prim (.str _) => some { st with world := st.world.emit (.patchRef i val dom) }
    | some _, .builtin _ => none
    | _, _ => some st
  else some st

/-- The `style` branch of an iteration of the first loop of `diffProps`
(`diffPropsStep_phases`). -/
def styleStep (env : Env) (dom : Nat) (prev val : JSVal) (st : PropState) : Option PropState :=
  match patchStyle env st.world dom (if prev.truthy then some prev else none) val with
  | some w1 => some { st with world := w1 }
  | none => none

/-- The `componentDidMount` order of a `toDOM` call that leads from world
`w` to world `w1` and returns the vnode `v`.  With `n` the number of
instances of `w`, the call created the chain of instances `n, ..., n+k-1` for
the vnode itself (`k = 0` for a vnode that is no component) and the instances
from `n+k` on for the components below; `ds` are the invocations for the
instances below, in bottom-up order: they come first, and the chain follows,
from the innermost instance `n+k-1` (the one `vnode.instance` ends pointing
to) along `parentInstance` to the outermost instance `n`. -/
def MountOrder (env : Env) (w : World) (v : VNode) (w1 : World) : Prop :=
  ∃ k ds,
    Step w w1 (ds ++ (List.range' w.insts.length k).reverse.filter
      (fun i => definesHook env w1.insts i 2)) ∧
    BottomUp (fun i => definesHook env w1.insts i 2) (w.insts.length + k) w1.insts.length ds ∧
    ((k = 0 ∧ v.info.inst = none) ∨
     (0 < k ∧ v.info.inst = some (w.insts.length + k - 1) ∧
      getInstances w1.insts (w.insts.length + k - 1) =
        (List.range' w.insts.length k).reverse))
/-! ## Lemmas: decimal strings and computed keys -/

theorem digitChar_toNat : ∀ k, k < 10 → (Nat.digitChar k).toNat - 48 = k := by decide

theorem digitChar_isDigit : ∀ k, k < 10 → (Nat.digitChar k).isDigit = true := by decide

theorem decode_toDigitsCore (fuel : Nat) : ∀ (n : Nat) (ds : List Char), n < fuel →
    decodeDigits 0 (Nat.toDigitsCore 10 fuel n ds) = decodeDigits n ds := by
  induction fuel with
  | zero => intro n ds h; omega
  | succ f ih =>
    intro n ds h
    have hd : (Nat.digitChar (n % 10)).toNat - 48 = n % 10 :=
      digitChar_toNat _ (Nat.mod_lt _ (by decide))
    simp only [Nat.toDigitsCore]
    split
    · rename_i h0
      have hn : n % 10 = n := by omega
      simp only [decodeDigits, List.foldl_cons, Nat.mul_zero, Nat.zero_add]
      rw [hd, hn]
    · rename_i h0
      rw [ih (n / 10) _ (by omega)]
      simp only [decodeDigits, List.foldl_cons, hd]
      congr 1
      omega

theorem isDigit_toDigitsCore (fuel : Nat) : ∀ (n : Nat) (ds : List Char),
    (∀ c ∈ ds, c.isDigit = true) → ∀ c ∈ Nat.toDigitsCore 10 fuel n ds, c.isDigit = true := by
  induction fuel with
  | zero => intro n ds h c hc; exact h c (by simpa [Nat.toDigitsCore] using hc)
  | succ f ih =>
    intro n ds h
    have hd : (Nat.digitChar (n % 10)).isDigit = true :=
      digitChar_isDigit _ (Nat.mod_lt _ (by decide))
    have hds : ∀ c ∈ Nat.digitChar (n % 10) :: ds, c.isDigit = true := by
      intro c hc
      rcases List.mem_cons.1 hc with rfl | hc
      · exact hd
      · exact h c hc
    simp only [Nat.toDigitsCore]
    split
    · exact hds
    · exact ih _ _ hds

theorem repr_data_isDigit (n : Nat) : ∀ c ∈ (toString n).data, c.isDigit = true :=
  isDigit_toDigitsCore (n + 1) n [] (by simp)

theorem repr_injective {n m : Nat} (h : (toString n).data = (toString m).data) : n = m := by
  have hn := decode_toDigitsCore (n + 1) n [] (Nat.lt_succ_self n)
  have hm := decode_toDigitsCore (m + 1) m [] (Nat.lt_succ_self m)
  have h1 : Nat.toDigitsCore 10 (n + 1) n [] = Nat.toDigitsCore 10 (m + 1) m [] := h
  rw [h1, hm] at hn
  simpa [decodeDigits] using hn.symm

theorem deepStr_no_slash (d : Option Nat) : '/' ∉ (deepStr d).data := by
  cases d with
  | none => decide
  | some n =>
    intro h
    have := repr_data_isDigit n '/' h
    exact absurd this (by decide)

theorem deepStr_injective {a b : Option Nat} (h : (deepStr a).data = (deepStr b).data) : a = b := by
  cases a with
  | none =>
    cases b with
    | none => rfl
    | some m =>
      have hm := repr_data_isDigit m 'u' (by
        have : 'u' ∈ (deepStr none).data := by decide
        rw [h] at this
        exact this)
      exact absurd hm (by decide)
  | some n =>
    cases b with
    | none =>
      have hn := repr_data_isDigit n 'u' (by
        have : 'u' ∈ (deepStr none).data := by decide
        rw [← h] at this
        exact this)
      exact absurd hn (by decide)
    | some m => rw [repr_injective h]

/-- Splitting two lists at the first occurrence of a separator. -/
theorem split_at_sep {c : Char} : ∀ (x y r s : List Char), c ∉ x → c ∉ y →
    x ++ c :: r = y ++ c :: s → x = y ∧ r = s := by
  intro x
  induction x with
  | nil =>
    intro y r s _ hy h
    cases y with
    | nil => simpa using h
    | cons b y =>
      simp only [List.nil_append, List.cons_append, List.cons.injEq] at h
      exact absurd (h.1 ▸ List.mem_cons_self _ _) hy
  | cons a x ih =>
    intro y r s hx hy h
    cases y with
    | nil =>
      simp only [List.nil_append, List.cons_append, List.cons.injEq] at h
      exact absurd (h.1 ▸ List.mem_cons_self _ _) hx
    | cons b y =>
      simp only [List.cons_append, List.cons.injEq] at h
      have := ih y r s (fun m => hx (List.mem_cons_of_mem _ m)) (fun m => hy (List.mem_cons_of_mem _ m)) h.2
      exact ⟨by rw [h.1, this.1], this.2⟩

theorem computeUUID_data (type : String) (v : VInfo) :
    (computeUUID type v).data = type.data ++ '/' :: uuidTail type v := by
  unfold computeUUID uuidTail
  split
  · simp [String.data_append]
  · cases hk : v.key <;> simp [String.data_append]

theorem string_eq_of_data {a b : String} (h : a.data = b.data) : a = b := by
  cases a; cases b; simp_all

theorem computeUUID_eq_iff_aux (t1 t2 : String) (a b : VInfo)
    (h1 : '/' ∉ t1.data) (h2 : '/' ∉ t2.data) :
    computeUUID t1 a = computeUUID t2 b ↔
      t1 = t2 ∧ a.deep = b.deep ∧
        (if t1 = "#text" then textStr a.text = textStr b.text else a.key = b.key) := by
  constructor
  · intro h
    have hd : (computeUUID t1 a).data = (computeUUID t2 b).data := by rw [h]
    rw [computeUUID_data, computeUUID_data] at hd
    obtain ⟨ht, htail⟩ := split_at_sep _ _ _ _ h1 h2 hd
    have ht' : t1 = t2 := string_eq_of_data ht
    subst ht'
    refine ⟨rfl, ?_⟩
    unfold uuidTail at htail
    by_cases htext : t1 = "#text"
    · simp only [htext, if_true] at htail ⊢
      obtain ⟨hdeep, htxt⟩ := split_at_sep _ _ _ _ (deepStr_no_slash _) (deepStr_no_slash _) htail
      exact ⟨deepStr_injective hdeep, string_eq_of_data htxt⟩
    · simp only [htext, if_false] at htail ⊢
      cases hka : a.key with
      | none =>
        cases hkb : b.key with
        | none =>
          simp only [hka, hkb, List.append_nil] at htail
          exact ⟨deepStr_injective htail, rfl⟩
        | some kb =>
          simp only [hka, hkb, List.append_nil] at htail
          exact absurd (htail ▸ List.mem_append_right _ (List.mem_cons_self _ _)) (deepStr_no_slash _)
      | some ka =>
        cases hkb : b.key with
        | none =>
          simp only [hka, hkb, List.append_nil] at htail
          exact absurd (htail.symm ▸ List.mem_append_right _ (List.mem_cons_self _ _)) (deepStr_no_slash _)
        | some kb =>
          simp only [hka, hkb] at htail
          obtain ⟨hdeep, hk⟩ := split_at_sep _ _ _ _ (deepStr_no_slash _) (deepStr_no_slash _) htail
          exact ⟨deepStr_injective hdeep, by rw [string_eq_of_data hk]⟩
  · rintro ⟨rfl, hdeep, hrest⟩
    unfold computeUUID
    by_cases htext : t1 = "#text"
    · simp only [htext, if_true] at hrest ⊢
      rw [hdeep, hrest]
    · simp only [htext, if_false] at hrest ⊢
      rw [hdeep, hrest]

/-! ## Lemmas: the mapping and the key matches of `diffChildren` -/

theorem mem_positions (u : String) : ∀ (xs : List String) (i j : Nat),
    j ∈ positions u i xs ↔ i ≤ j ∧ xs.get? (j - i) = some u := by
  intro xs
  induction xs with
  | nil => intro i j; simp [positions]
  | cons x xs ih =>
    intro i j
    unfold positions
    by_cases hx : x = u
    · simp only [hx, if_true, List.mem_cons, ih]
      constructor
      · rintro (rfl | ⟨h1, h2⟩)
        · simp
        · refine ⟨by omega, ?_⟩
          have : j - i = (j - (i + 1)) + 1 := by omega
          rw [this]; simpa using h2
      · rintro ⟨h1, h2⟩
        by_cases hji : j = i
        · exact Or.inl hji
        · right
          refine ⟨by omega, ?_⟩
          have : j - i = (j - (i + 1)) + 1 := by omega
          rw [this] at h2; simpa using h2
    · simp only [hx, if_false, ih]
      constructor
      · rintro ⟨h1, h2⟩
        refine ⟨by omega, ?_⟩
        have : j - i = (j - (i + 1)) + 1 := by omega
        rw [this]; simpa using h2
      · rintro ⟨h1, h2⟩
        have hji : j ≠ i := by
          rintro rfl
          simp at h2
          exact hx h2
        refine ⟨by omega, ?_⟩
        have : j - i = (j - (i + 1)) + 1 := by omega
        rw [this] at h2; simpa using h2

theorem positions_sorted (u : String) : ∀ (xs : List String) (i : Nat),
    (positions u i xs).Pairwise (· < ·) := by
  intro xs
  induction xs with
  | nil => intro i; simp [positions]
  | cons x xs ih =>
    intro i
    unfold positions
    split
    · refine List.pairwise_cons.2 ⟨?_, ih _⟩
      intro j hj
      have := (mem_positions u xs (i + 1) j).1 hj
      omega
    · exact ih _

theorem buildMapping_apply (u : String) : ∀ (xs : List String) (i : Nat) (m : Mapping),
    buildMapping i xs m u =
      (match m u, positions u i xs with
       | q, [] => q
       | some q, ps => some (q ++ ps)
       | none, ps => some ps) := by
  intro xs
  induction xs with
  | nil => intro i m; simp [buildMapping, positions]
  | cons x xs ih =>
    intro i m
    unfold buildMapping positions
    rw [ih]
    by_cases hx : x = u
    · subst hx
      cases hm : m x with
      | none =>
        simp only [Mapping.set, if_true]
        cases positions x (i + 1) xs <;> simp
      | some q =>
        simp only [Mapping.set, if_true]
        cases positions x (i + 1) xs <;> simp
    · have hux : ¬ u = x := fun h => hx h.symm
      simp only [hx, if_false]
      cases hm : m x <;> simp [Mapping.set, hux]

theorem buildMapping_queueOf (oldKeys : List String) (u : String) :
    buildMapping 0 oldKeys (fun _ => none) u = queueOf oldKeys [] u := by
  rw [buildMapping_apply]
  unfold queueOf
  cases h : positions u 0 oldKeys <;> simp

/-- In a sorted list, the head of a filter is the least element that passes. -/
theorem head_filter_sorted (p : Nat → Bool) : ∀ (l : List Nat) (j : Nat) (rest : List Nat),
    l.Pairwise (· < ·) → l.filter p = j :: rest →
      j ∈ l ∧ p j = true ∧ (∀ k ∈ l, k < j → p k = false) ∧ j ∉ rest ∧
        rest = l.filter (fun k => p k && decide (k ≠ j)) := by
  intro l
  induction l with
  | nil => intro j rest _ h; simp at h
  | cons a l ih =>
    intro j rest hs h
    rw [List.pairwise_cons] at hs
    by_cases ha : p a = true
    · rw [List.filter_cons_of_pos ha] at h
      simp only [List.cons.injEq] at h
      obtain ⟨rfl, hr⟩ := h
      have hlt : ∀ k ∈ l, a < k := hs.1
      refine ⟨List.mem_cons_self _ _, ha, ?_, ?_, ?_⟩
      · intro k hk hka
        rcases List.mem_cons.1 hk with rfl | hk
        · omega
        · have := hlt k hk; omega
      · rw [← hr]
        intro hmem
        have := hlt a (List.mem_filter.1 hmem).1
        omega
      · rw [← hr]
        simp only [List.filter_cons, ha, ne_eq, not_true_eq_false, decide_False, Bool.and_false,
          Bool.false_eq_true, if_false]
        apply List.filter_congr
        intro k hk
        have := hlt k hk
        have hne : k ≠ a := by omega
        simp [hne]
    · have ha' : p a = false := by simpa using ha
      rw [List.filter_cons_of_neg (by simpa using ha')] at h
      obtain ⟨h1, h2, h3, h4, h5⟩ := ih j rest hs.2 h
      refine ⟨List.mem_cons_of_mem _ h1, h2, ?_, h4, ?_⟩
      · intro k hk hkj
        rcases List.mem_cons.1 hk with rfl | hk
        · exact ha'
        · exact h3 k hk hkj
      · rw [h5]
        simp [List.filter_cons, ha']

theorem queueOf_cons_other (oldKeys : List String) (matched : List Nat) (j : Nat) (u u0 : String)
    (hj : oldKeys.get? j = some u0) (hne : u ≠ u0) :
    queueOf oldKeys (j :: matched) u = queueOf oldKeys matched u := by
  have : (positions u 0 oldKeys).filter (fun k => k ∉ j :: matched) =
      (positions u 0 oldKeys).filter (fun k => k ∉ matched) := by
    apply List.filter_congr
    intro k hk
    have hk' := (mem_positions u oldKeys 0 k).1 hk
    have hkj : k ≠ j := by
      rintro rfl
      rw [Nat.sub_zero, hj] at hk'
      exact hne (Option.some.inj hk'.2).symm
    simp [hkj]
  unfold queueOf
  rw [this]

/-- One iteration of the second loop keeps the mapping equal to the queues
of the unmatched old children and matches the least unmatched index. -/
theorem matchStep_spec (oldKeys : List String) (s : MatchState) (matched : List Nat) (u0 : String)
    (hinv : ∀ u, s.mapping u = queueOf oldKeys matched u) :
    (∀ j, (matchStep s u0).1 = some j →
        (∀ u, (matchStep s u0).2.mapping u = queueOf oldKeys (j :: matched) u) ∧
        oldKeys.get? j = some u0 ∧ j ∉ matched ∧
        ∀ k, k < j → oldKeys.get? k = some u0 → k ∈ matched) ∧
    ((matchStep s u0).1 = none →
        (∀ u, (matchStep s u0).2.mapping u = queueOf oldKeys matched u) ∧
        ∀ k, oldKeys.get? k = some u0 → k ∈ matched) := by
  have h0 := hinv u0
  unfold queueOf at h0
  unfold matchStep
  by_cases hq : (positions u0 0 oldKeys).filter (fun j => j ∉ matched) = []
  · rw [if_pos hq] at h0
    simp only [h0]
    refine ⟨(by intro j hj; cases hj), fun _ => ⟨hinv, ?_⟩⟩
    intro k hk
    have hmem : k ∈ positions u0 0 oldKeys := (mem_positions u0 oldKeys 0 k).2 ⟨Nat.zero_le _, by simpa using hk⟩
    by_contra hkm
    have : k ∈ (positions u0 0 oldKeys).filter (fun j => j ∉ matched) :=
      List.mem_filter.2 ⟨hmem, by simpa using hkm⟩
    rw [hq] at this
    cases this
  · rw [if_neg hq] at h0
    obtain ⟨j, rest, hjr⟩ : ∃ j rest, (positions u0 0 oldKeys).filter (fun j => j ∉ matched) = j :: rest := by
      cases h : (positions u0 0 oldKeys).filter (fun j => j ∉ matched) with
      | nil => exact absurd h hq
      | cons j rest => exact ⟨j, rest, rfl⟩
    rw [hjr] at h0
    obtain ⟨h1, h2, h3, h4, h5⟩ := head_filter_sorted (fun j => decide (j ∉ matched)) _ j rest
      (positions_sorted u0 oldKeys 0) hjr
    have hj0 : oldKeys.get? j = some u0 := by
      simpa using ((mem_positions u0 oldKeys 0 j).1 h1).2
    simp only [h0, List.head?_cons, List.tail_cons]
    refine ⟨?_, (by intro h; cases h)⟩
    intro j' hj'
    cases hj'
    refine ⟨?_, hj0, by simpa using h2, ?_⟩
    · intro u
      by_cases hu : u = u0
      · subst hu
        have hrest : (positions u 0 oldKeys).filter (fun k => k ∉ j :: matched) = rest := by
          rw [h5]
          apply List.filter_congr
          intro k _
          by_cases hkj : k = j <;> simp [hkj]
        unfold queueOf
        rw [hrest]
        by_cases hre : rest = []
        · simp [hre, Mapping.set]
        · have : rest.isEmpty = false := by
            cases rest with
            | nil => exact absurd rfl hre
            | cons _ _ => rfl
          simp [this, hre, Mapping.set]
      · rw [queueOf_cons_other oldKeys matched j u u0 hj0 hu, ← hinv u]
        split <;> simp [Mapping.set, hu]
    · intro k hk hku
      have hmem : k ∈ positions u0 0 oldKeys := (mem_positions u0 oldKeys 0 k).2 ⟨Nat.zero_le _, by simpa using hku⟩
      have := h3 k hmem hk
      simpa using this

/-- The second loop, started from a mapping that holds the queues of the
old children not in `matched`: every new child gets the least old child
with its key that is neither in `matched` nor taken by an earlier new
child. -/
theorem matchAll_spec (oldKeys : List String) : ∀ (newKeys : List String) (s : MatchState)
    (matched : List Nat), (∀ u, s.mapping u = queueOf oldKeys matched u) →
    ∀ i u, newKeys.get? i = some u →
      ∃ r, (matchAll s newKeys).1.get? i = some r ∧
        (∀ j, r = some j → oldKeys.get? j = some u ∧ j ∉ matched ∧
          (∀ i', i' < i → (matchAll s newKeys).1.get? i' ≠ some (some j)) ∧
          ∀ k, k < j → oldKeys.get? k = some u →
            k ∈ matched ∨ ∃ i', i' < i ∧ (matchAll s newKeys).1.get? i' = some (some k)) ∧
        (r = none → ∀ k, oldKeys.get? k = some u →
            k ∈ matched ∨ ∃ i', i' < i ∧ (matchAll s newKeys).1.get? i' = some (some k)) := by
  intro newKeys
  induction newKeys with
  | nil => intro s matched _ i u h; simp at h
  | cons u0 rest ih =>
    intro s matched hinv i u hi
    obtain ⟨hsome, hnone⟩ := matchStep_spec oldKeys s matched u0 hinv
    cases i with
    | zero =>
      simp only [List.get?_cons_zero, Option.some.injEq] at hi
      subst hi
      refine ⟨(matchStep s u0).1, by simp [matchAll], ?_, ?_⟩
      · intro j hj
        obtain ⟨_, h2, h3, h4⟩ := hsome j hj
        exact ⟨h2, h3, fun i' hi' => absurd hi' (Nat.not_lt_zero _), fun k hk hku => Or.inl (h4 k hk hku)⟩
      · intro hr k hk
        exact Or.inl ((hnone hr).2 k hk)
    | succ i =>
      simp only [List.get?_cons_succ] at hi
      cases hr0 : (matchStep s u0).1 with
      | none =>
        obtain ⟨hinv', hall⟩ := hnone hr0
        obtain ⟨r, hr, h1, h2⟩ := ih (matchStep s u0).2 matched hinv' i u hi
        refine ⟨r, by simpa [matchAll] using hr, ?_, ?_⟩
        · intro j hj
          obtain ⟨a, b, c, d⟩ := h1 j hj
          refine ⟨a, b, ?_, ?_⟩
          · intro i' hi'
            cases i' with
            | zero => simp [matchAll, hr0]
            | succ i' => simpa [matchAll] using c i' (by omega)
          · intro k hk hku
            rcases d k hk hku with h | ⟨i', hi', h⟩
            · exact Or.inl h
            · exact Or.inr ⟨i' + 1, by omega, by simpa [matchAll] using h⟩
        · intro hrn k hku
          rcases h2 hrn k hku with h | ⟨i', hi', h⟩
          · exact Or.inl h
          · exact Or.inr ⟨i' + 1, by omega, by simpa [matchAll] using h⟩
      | some j0 =>
        obtain ⟨hinv', _, _, _⟩ := hsome j0 hr0
        obtain ⟨r, hr, h1, h2⟩ := ih (matchStep s u0).2 (j0 :: matched) hinv' i u hi
        have lift : ∀ k, k ∈ j0 :: matched ∨
            (∃ i', i' < i ∧ (matchAll (matchStep s u0).2 rest).1.get? i' = some (some k)) →
            k ∈ matched ∨ ∃ i', i' < i + 1 ∧ (matchAll s (u0 :: rest)).1.get? i' = some (some k) := by
          intro k hk
          rcases hk with h | ⟨i', hi', h⟩
          · rcases List.mem_cons.1 h with rfl | h
            · exact Or.inr ⟨0, by omega, by simp [matchAll, hr0]⟩
            · exact Or.inl h
          · exact Or.inr ⟨i' + 1, by omega, by simpa [matchAll] using h⟩
        refine ⟨r, by simpa [matchAll] using hr, ?_, ?_⟩
        · intro j hj
          obtain ⟨a, b, c, d⟩ := h1 j hj
          have hne : j ≠ j0 := fun h => b (h ▸ List.mem_cons_self _ _)
          refine ⟨a, fun h => b (List.mem_cons_of_mem _ h), ?_, fun k hk hku => lift k (d k hk hku)⟩
          intro i' hi'
          cases i' with
          | zero =>
            simp only [matchAll, List.get?_cons_zero, hr0, ne_eq, Option.some.injEq]
            exact fun h => hne h.symm
          | succ i' => simpa [matchAll] using c i' (by omega)
        · intro hrn k hku
          exact lift k (h2 hrn k hku)

/-! ## Lemmas: the removal pool and the positional pairing -/

theorem shiftUnused_spec (use : Nat → Bool) : ∀ (removed : List Nat),
    (shiftUnused use removed).1 = (removed.filter (fun k => !use k)).head? ∧
    (shiftUnused use removed).2.filter (fun k => !use k) =
      (removed.filter (fun k => !use k)).tail := by
  intro removed
  induction removed with
  | nil => simp [shiftUnused]
  | cons k rest ih =>
    unfold shiftUnused
    by_cases hk : use k = true
    · simp [hk, ih]
    · have hk' : use k = false := by simpa using hk
      simp [hk']

theorem predecessors_spec (use : Nat → Bool) : ∀ (ms : List (Option Nat)) (removed : List Nat),
    (∀ i j, ms.get? i = some (some j) → (predecessors use ms removed).1.get? i = some (some j)) ∧
    (∀ i, ms.get? i = some none →
      (predecessors use ms removed).1.get? i =
        some ((removed.filter (fun k => !use k)).get? (unmatchedBefore ms i))) := by
  intro ms
  induction ms with
  | nil => intro removed; simp
  | cons m ms ih =>
    intro removed
    cases m with
    | some j0 =>
      obtain ⟨ih1, ih2⟩ := ih removed
      refine ⟨?_, ?_⟩
      · intro i j h
        cases i with
        | zero => simpa [predecessors] using h
        | succ i => simpa [predecessors] using ih1 i j (by simpa using h)
      · intro i h
        cases i with
        | zero => simp at h
        | succ i =>
          have := ih2 i (by simpa using h)
          simpa [predecessors, unmatchedBefore] using this
    | none =>
      obtain ⟨ih1, ih2⟩ := ih (shiftUnused use removed).2
      obtain ⟨hs1, hs2⟩ := shiftUnused_spec use removed
      refine ⟨?_, ?_⟩
      · intro i j h
        cases i with
        | zero => simp at h
        | succ i => simpa [predecessors] using ih1 i j (by simpa using h)
      · intro i h
        cases i with
        | zero =>
          simp only [predecessors, List.get?_cons_zero, hs1, unmatchedBefore, List.take_zero,
            List.count_nil]
          cases List.filter (fun k => !use k) removed <;> simp
        | succ i =>
          have := ih2 i (by simpa using h)
          rw [hs2] at this
          simp only [predecessors, List.get?_cons_succ, this, unmatchedBefore, List.take_succ_cons,
            List.count_cons_self, Option.some.injEq]
          cases List.filter (fun k => !use k) removed <;> simp

theorem predecessors_counts (use : Nat → Bool) : ∀ (ms : List (Option Nat)) (removed : List Nat),
    (∀ k ∈ removed, use k = false) →
    (predecessors use ms removed).1.count none = ms.count none - removed.length ∧
    (predecessors use ms removed).2.length = removed.length - ms.count none := by
  intro ms
  induction ms with
  | nil => intro removed _; simp [predecessors]
  | cons m ms ih =>
    intro removed hu
    cases m with
    | some j0 =>
      obtain ⟨a, b⟩ := ih removed hu
      simp [predecessors, a, b]
    | none =>
      cases removed with
      | nil =>
        obtain ⟨a, b⟩ := ih [] (by simp)
        simp only [predecessors, shiftUnused, List.count_cons_self, a, b, List.length_nil]
        omega
      | cons k rest =>
        have hk : use k = false := hu k (List.mem_cons_self _ _)
        obtain ⟨a, b⟩ := ih rest (fun x hx => hu x (List.mem_cons_of_mem _ hx))
        simp only [predecessors, shiftUnused, hk, Bool.false_eq_true, if_false,
          List.count_cons_self, a, b, List.length_cons]
        have : List.count none (some k :: (predecessors use ms rest).1) =
            List.count none (predecessors use ms rest).1 := by simp
        rw [this, a]
        omega

theorem spliceIndexOf_of_mem (removed : List Nat) (j : Nat) (h : j ∈ removed) :
    spliceIndexOf removed j = removed.erase j := by
  unfold spliceIndexOf
  rw [if_pos (List.indexOf_lt_length.2 h)]
  exact List.eraseIdx_indexOf_eq_erase j removed

/-- The second loop keeps `removedChildren` equal, as a set, to the old
children not matched, and takes out one old child per match. -/
theorem matchAll_pool (oldKeys : List String) : ∀ (newKeys : List String) (s : MatchState)
    (matched : List Nat), (∀ u, s.mapping u = queueOf oldKeys matched u) →
    s.removed.Nodup → (∀ k, k ∈ s.removed ↔ k < oldKeys.length ∧ k ∉ matched) →
    (matchAll s newKeys).1.length = newKeys.length ∧
    (matchAll s newKeys).2.removed.length + ((matchAll s newKeys).1.filter Option.isSome).length =
      s.removed.length ∧
    (∀ k ∈ (matchAll s newKeys).2.removed, k ∈ s.removed ∧ some k ∉ (matchAll s newKeys).1) := by
  intro newKeys
  induction newKeys with
  | nil => intro s matched _ _ _; simp [matchAll]
  | cons u0 rest ih =>
    intro s matched hinv hnd hmem
    obtain ⟨hsome, hnone⟩ := matchStep_spec oldKeys s matched u0 hinv
    cases hr0 : (matchStep s u0).1 with
    | none =>
      obtain ⟨hinv', _⟩ := hnone hr0
      have hrem : (matchStep s u0).2.removed = s.removed := by
        unfold matchStep at hr0 ⊢
        cases hm : s.mapping u0 with
        | none => simp
        | some q =>
          simp only [hm] at hr0 ⊢
          cases hq : q.head? with
          | none => simp
          | some j => simp [hq] at hr0
      obtain ⟨a, b, c⟩ := ih (matchStep s u0).2 matched hinv' (hrem ▸ hnd) (by rw [hrem]; exact hmem)
      rw [hrem] at b c
      refine ⟨by simp [matchAll, a], by simpa [matchAll, hr0] using b, ?_⟩
      intro k hk
      have := c k (by simpa [matchAll] using hk)
      refine ⟨this.1, ?_⟩
      simp only [matchAll, hr0, List.mem_cons, not_or]
      exact ⟨by simp, this.2⟩
    | some j0 =>
      obtain ⟨hinv', hj0, hj0m, _⟩ := hsome j0 hr0
      have hlt : j0 < oldKeys.length := by
        by_contra hge
        rw [List.get?_eq_none.2 (by omega)] at hj0
        cases hj0
      have hin : j0 ∈ s.removed := (hmem j0).2 ⟨hlt, hj0m⟩
      have hrem : (matchStep s u0).2.removed = s.removed.erase j0 := by
        unfold matchStep at hr0 ⊢
        cases hm : s.mapping u0 with
        | none => simp [hm] at hr0
        | some q =>
          simp only [hm] at hr0 ⊢
          cases hq : q.head? with
          | none => simp [hq] at hr0
          | some j =>
            simp only [hq, Option.some.injEq] at hr0 ⊢
            subst hr0
            exact spliceIndexOf_of_mem _ _ hin
      have hnd' : (s.removed.erase j0).Nodup := hnd.erase j0
      have hmem' : ∀ k, k ∈ s.removed.erase j0 ↔ k < oldKeys.length ∧ k ∉ j0 :: matched := by
        intro k
        rw [hnd.mem_erase_iff, hmem k]
        simp only [List.mem_cons, not_or]
        tauto
      obtain ⟨a, b, c⟩ := ih (matchStep s u0).2 (j0 :: matched) hinv' (hrem ▸ hnd')
        (by rw [hrem]; exact hmem')
      rw [hrem] at b c
      have hlen : (s.removed.erase j0).length + 1 = s.removed.length := by
        rw [List.length_erase_of_mem hin]
        have : 0 < s.removed.length := List.length_pos_of_mem hin
        omega
      refine ⟨by simp [matchAll, a], ?_, ?_⟩
      · simp only [matchAll, hr0, List.filter_cons, Option.isSome_some, if_true, List.length_cons]
        omega
      · intro k hk
        have := c k (by simpa [matchAll] using hk)
        have hk1 := (hnd.mem_erase_iff.1 this.1)
        refine ⟨hk1.2, ?_⟩
        simp only [matchAll, hr0, List.mem_cons, not_or, Option.some.injEq]
        exact ⟨hk1.1, this.2⟩

theorem count_none_add_isSome (ms : List (Option Nat)) :
    ms.count none + (ms.filter Option.isSome).length = ms.length := by
  induction ms with
  | nil => rfl
  | cons m ms ih =>
    cases m with
    | none => simp [List.count_cons]; omega
    | some j => simp [List.count_cons]; omega

/-! ## Lemmas: the transaction -/

theorem enqueue_inTransaction (fuel : Nat) (s : TxState) (r : Request)
    (h : s.isInTransation = true) :
    enqueue (fuel + 1) s (some r) = .returned { s with queue := s.queue ++ [r] } := by
  simp [enqueue, h]

theorem runCalls_inTransaction (fuel : Nat) : ∀ (calls : List Call) (s : TxState),
    s.isInTransation = true →
    runCalls (enqueue (fuel + 1)) s calls =
      .returned { s with queue := s.queue ++ requestsOf calls,
                         callbacks := s.callbacks ++ callbacksOf calls } := by
  intro calls
  induction calls with
  | nil => intro s _; simp [runCalls, requestsOf, callbacksOf]
  | cons c rest ih =>
    intro s h
    cases c with
    | enqueue r =>
      rw [runCalls, enqueue_inTransaction fuel s r h]
      simp only []
      rw [ih _ (by simpa using h)]
      simp [requestsOf, callbacksOf, List.append_assoc]
    | enqueueCallback c =>
      rw [runCalls, ih _ (by simpa using h)]
      simp [requestsOf, callbacksOf, List.append_assoc]

theorem runHandler_inTransaction (fuel : Nat) (s : TxState) (h : Handler)
    (hs : s.isInTransation = true) :
    runHandler (enqueue (fuel + 1)) s h =
      if h.throws then
        Outcome.threw { s with queue := s.queue ++ requestsOf h.calls,
                               callbacks := s.callbacks ++ callbacksOf h.calls }
      else
        Outcome.returned { s with queue := s.queue ++ requestsOf h.calls,
                                  callbacks := s.callbacks ++ callbacksOf h.calls } := by
  unfold runHandler
  rw [runCalls_inTransaction fuel _ s hs]

theorem initPhase_inTransaction (fuel : Nat) : ∀ (pre : List Request) (s : TxState)
    (unique : List Nat) (main : List Request), s.isInTransation = true →
    initPhase (enqueue (fuel + 1)) s pre unique main =
      some ({ s with trace := s.trace ++ initTrace pre,
                     queue := s.queue ++ capturedRequests (pre.map Request.init),
                     callbacks := s.callbacks ++ capturedCallbacks (pre.map Request.init) },
            main ++ surviving pre unique) := by
  intro pre
  induction pre with
  | nil => intro s unique main _; simp [initPhase, initTrace, capturedRequests, capturedCallbacks, surviving]
  | cons r rest ih =>
    intro s unique main hs
    rw [initPhase, runHandler_inTransaction fuel _ _ (by simpa using hs)]
    by_cases ht : r.init.throws = true
    · simp only [ht, if_true]
      rw [ih _ _ _ (by simpa using hs)]
      simp [initTrace, capturedRequests, capturedCallbacks, surviving, ht, List.append_assoc]
    · have ht' : r.init.throws = false := by simpa using ht
      simp only [ht', Bool.false_eq_true, if_false]
      by_cases hu : r.uuid ∈ unique
      · have hc : unique.contains r.uuid = true := by simpa using hu
        simp only [hc, if_true]
        rw [ih _ _ _ (by simpa using hs)]
        simp [initTrace, capturedRequests, capturedCallbacks, surviving, ht', hu, List.append_assoc]
      · have hc : unique.contains r.uuid = false := by simpa using hu
        simp only [hc, Bool.false_eq_true, if_false]
        rw [ih _ _ _ (by simpa using hs)]
        simp [initTrace, capturedRequests, capturedCallbacks, surviving, ht', hu, List.append_assoc]

theorem execPhase_inTransaction (fuel : Nat) : ∀ (main : List Request) (s : TxState),
    s.isInTransation = true →
    execPhase (enqueue (fuel + 1)) s main =
      some { s with trace := s.trace ++ execTrace main,
                    queue := s.queue ++ capturedRequests (main.map Request.exec),
                    callbacks := s.callbacks ++ capturedCallbacks (main.map Request.exec) } := by
  intro main
  induction main with
  | nil => intro s _; simp [execPhase, execTrace, capturedRequests, capturedCallbacks]
  | cons r rest ih =>
    intro s hs
    rw [execPhase, runHandler_inTransaction fuel _ _ (by simpa using hs)]
    by_cases ht : r.exec.throws = true
    · simp only [ht, if_true]
      rw [ih _ (by simpa using hs)]
      simp [execTrace, capturedRequests, capturedCallbacks, ht, List.append_assoc]
    · have ht' : r.exec.throws = false := by simpa using ht
      simp only [ht', Bool.false_eq_true, if_false]
      rw [ih _ (by simpa using hs)]
      simp [execTrace, capturedRequests, capturedCallbacks, ht', List.append_assoc]

theorem callbackPhase_inTransaction (fuel : Nat) : ∀ (cbs : List Callback) (s : TxState),
    s.isInTransation = true → (∀ c ∈ cbs, c.cb.throws = false) →
    callbackPhase (enqueue (fuel + 1)) s cbs =
      .returned { s with trace := s.trace ++ callbackTrace cbs,
                         queue := s.queue ++ capturedRequests (cbs.map Callback.cb),
                         callbacks := s.callbacks ++ capturedCallbacks (cbs.map Callback.cb) } := by
  intro cbs
  induction cbs with
  | nil => intro s _ _; simp [callbackPhase, callbackTrace, capturedRequests, capturedCallbacks]
  | cons c rest ih =>
    intro s hs hc
    have ht : c.cb.throws = false := hc c (List.mem_cons_self _ _)
    rw [callbackPhase, runHandler_inTransaction fuel _ _ (by simpa using hs)]
    simp only [ht, Bool.false_eq_true, if_false]
    rw [ih _ (by simpa using hs) (fun x hx => hc x (List.mem_cons_of_mem _ hx))]
    simp [callbackTrace, capturedRequests, capturedCallbacks, List.append_assoc]

theorem enqueue_succ (fuel : Nat) (s : TxState) (obj : Option Request) :
    enqueue (fuel + 1) s obj =
      (if ({ s with queue := s.queue ++ obj.toList } : TxState).isInTransation then
        .returned { s with queue := s.queue ++ obj.toList }
       else
        match initPhase (enqueue fuel)
            { s with isInTransation := true, queue := [], callbacks := [] }
            (s.queue ++ obj.toList) [] [] with
        | none => .diverged
        | some (s3, mainProcessing) =>
          match execPhase (enqueue fuel) s3 mainProcessing with
          | none => .diverged
          | some s4 =>
            match callbackPhase (enqueue fuel) s4 s.callbacks with
            | .returned s5 =>
              if s5.queue.isEmpty then .returned { s5 with isInTransation := false }
              else enqueue fuel { s5 with isInTransation := false } none
            | o => o) := by
  cases obj <;> simp [enqueue]

theorem enqueue_idle (fuel : Nat) (s : TxState) (obj : Option Request)
    (hs : s.isInTransation = false) (hc : ∀ c ∈ s.callbacks, c.cb.throws = false) :
    enqueue (fuel + 2) s obj =
      if (afterPass s obj).queue.isEmpty then .returned (afterPass s obj)
      else enqueue (fuel + 1) (afterPass s obj) none := by
  rw [enqueue_succ (fuel + 1) s obj]
  simp only [hs, Bool.false_eq_true, if_false]
  rw [initPhase_inTransaction fuel _ _ _ _ rfl]
  simp only [List.nil_append]
  rw [execPhase_inTransaction fuel _ _ rfl]
  simp only []
  rw [callbackPhase_inTransaction fuel _ _ rfl hc]
  simp only [afterPass, List.nil_append, List.append_assoc]

theorem requestsOf_map_enqueue (rs : List Request) : requestsOf (rs.map Call.enqueue) = rs := by
  induction rs with
  | nil => rfl
  | cons r rs ih => simp [requestsOf, ih]

theorem callbacksOf_map_enqueue (rs : List Request) : callbacksOf (rs.map Call.enqueue) = [] := by
  induction rs with
  | nil => rfl
  | cons r rs ih => simp [callbacksOf, ih]

theorem capturedRequests_nil (hs : List Handler) (h : ∀ x ∈ hs, x.calls = []) :
    capturedRequests hs = [] := by
  induction hs with
  | nil => rfl
  | cons x xs ih =>
    simp [capturedRequests, h x (List.mem_cons_self _ _), requestsOf,
      ih (fun y hy => h y (List.mem_cons_of_mem _ hy))]

theorem capturedCallbacks_nil (hs : List Handler) (h : ∀ x ∈ hs, x.calls = []) :
    capturedCallbacks hs = [] := by
  induction hs with
  | nil => rfl
  | cons x xs ih =>
    simp [capturedCallbacks, h x (List.mem_cons_self _ _), callbacksOf,
      ih (fun y hy => h y (List.mem_cons_of_mem _ hy))]

theorem surviving_subset : ∀ (rs : List Request) (unique : List Nat) (r : Request),
    r ∈ surviving rs unique → r ∈ rs := by
  intro rs
  induction rs with
  | nil => intro unique r h; simp [surviving] at h
  | cons x xs ih =>
    intro unique r h
    unfold surviving at h
    split at h
    · exact List.mem_cons_of_mem _ (ih _ _ h)
    · split at h
      · exact List.mem_cons_of_mem _ (ih _ _ h)
      · rcases List.mem_cons.1 h with rfl | h
        · exact List.mem_cons_self _ _
        · exact List.mem_cons_of_mem _ (ih _ _ h)

/-- Deduplication keeps one request per component: none when the component
was met before, else the first one whose `init` returned. -/
theorem surviving_count (u : Nat) : ∀ (rs : List Request) (unique : List Nat),
    ((surviving rs unique).filter (fun r => r.uuid = u)).length =
      if u ∈ unique then 0
      else if ∃ r ∈ rs, r.uuid = u ∧ r.init.throws = false then 1 else 0 := by
  intro rs
  induction rs with
  | nil => intro unique; simp [surviving]
  | cons x xs ih =>
    intro unique
    unfold surviving
    by_cases ht : x.init.throws = true
    · simp only [ht, if_true, ih unique]
      by_cases hu : u ∈ unique
      · simp [hu]
      · simp [hu, ht]
    · have ht' : x.init.throws = false := by simpa using ht
      simp only [ht', Bool.false_eq_true, if_false]
      by_cases hx : x.uuid ∈ unique
      · have hc : unique.contains x.uuid = true := by simpa using hx
        simp only [hc, if_true, ih unique]
        by_cases hu : u ∈ unique
        · simp [hu]
        · have hne : x.uuid ≠ u := fun h => hu (h ▸ hx)
          simp [hu, hne]
      · have hc : unique.contains x.uuid = false := by simpa using hx
        simp only [hc, Bool.false_eq_true, if_false]
        by_cases hxu : x.uuid = u
        · have hu : u ∉ unique := hxu ▸ hx
          simp [hxu, ih, hu, ht']
        · have hxu' : ¬ u = x.uuid := fun h => hxu h.symm
          simp only [List.filter_cons, hxu, decide_False, Bool.false_eq_true, if_false, ih,
            List.mem_append, List.mem_singleton, hxu', or_false, List.mem_cons, exists_eq_or_imp,
            false_and, false_or]
          simp

theorem filter_isInit_initTrace (rs : List Request) :
    (initTrace rs).filter TxEvent.isInit = rs.map (fun r => TxEvent.init r.id) := by
  induction rs with
  | nil => rfl
  | cons r rs ih =>
    by_cases ht : r.init.throws = true <;>
      simp [initTrace, ht, List.filter_cons, TxEvent.isInit, ih]

theorem filter_isInit_execTrace (rs : List Request) :
    (execTrace rs).filter TxEvent.isInit = [] := by
  induction rs with
  | nil => rfl
  | cons r rs ih =>
    by_cases ht : r.exec.throws = true <;>
      simp [execTrace, ht, List.filter_cons, TxEvent.isInit, ih]

theorem filter_isExec_initTrace (rs : List Request) :
    (initTrace rs).filter TxEvent.isExec = [] := by
  induction rs with
  | nil => rfl
  | cons r rs ih =>
    by_cases ht : r.init.throws = true <;>
      simp [initTrace, ht, List.filter_cons, TxEvent.isExec, ih]

theorem filter_isExec_execTrace (rs : List Request) :
    (execTrace rs).filter TxEvent.isExec = rs.map (fun r => TxEvent.exec r.id) := by
  induction rs with
  | nil => rfl
  | cons r rs ih =>
    by_cases ht : r.exec.throws = true <;>
      simp [execTrace, ht, List.filter_cons, TxEvent.isExec, ih]

/-! ## Lemmas: the updater -/

theorem get_modify_self (w : UWorld) (i : Nat) (f : Updater → Updater) :
    (w.modify i f).updaters.get? i = (w.updaters.get? i).map f := by
  simp [UWorld.modify, List.get?_eq_getElem?]

theorem get_modify_ne (w : UWorld) (i j : Nat) (f : Updater → Updater) (h : i ≠ j) :
    (w.modify i f).updaters.get? j = w.updaters.get? j := by
  simp [UWorld.modify, List.get?_eq_getElem?, List.getElem?_modify_ne _ _ h]

theorem mergeLoop_eq_foldPatches (props : Obj) : ∀ (pendings : List Patch) (state : Obj),
    mergeLoop props state pendings = foldPatches props state pendings := by
  intro pendings
  induction pendings with
  | nil => intro state; rfl
  | cons p rest ih =>
    intro state
    cases p with
    | plain o => simp [mergeLoop, foldPatches, Patch.apply, ih] 
    | fn f => simp [mergeLoop, foldPatches, Patch.apply, ih]

theorem lookup_cons_eq (k' a : String) (b : JSVal) (o : Obj) :
    List.lookup k' ((a, b) :: o) = if k' = a then some b else List.lookup k' o := by
  by_cases h : k' = a
  · subst h; simp [List.lookup]
  · have h2 : (k' == a) = false := by simpa using h
    simp [List.lookup, h, h2]

theorem lookup_map_update (k k' : String) (v : JSVal) : ∀ (o : Obj),
    List.lookup k' (o.map (fun p => if p.1 = k then (k, v) else p)) =
      if k' = k then (if (List.lookup k o).isSome then some v else none) else List.lookup k' o := by
  intro o
  induction o with
  | nil => simp [List.lookup]
  | cons p o ih =>
    obtain ⟨a, b⟩ := p
    by_cases hak : a = k
    · subst hak
      rw [List.map_cons]
      simp only [if_true]
      rw [lookup_cons_eq, lookup_cons_eq, lookup_cons_eq, ih]
      by_cases hk : k' = a
      · simp [hk]
      · simp [hk]
    · rw [List.map_cons]
      simp only [hak, if_false]
      rw [lookup_cons_eq, lookup_cons_eq, lookup_cons_eq, ih]
      have hka : ¬ k = a := fun h => hak h.symm
      by_cases hk : k' = a
      · have : ¬ k' = k := fun h => hak (hk ▸ h)
        simp [hk, hak]
      · simp only [hk, if_false, if_neg hka]

theorem lookup_append_single (k k' : String) (v : JSVal) : ∀ (o : Obj),
    List.lookup k' (o ++ [(k, v)]) =
      match List.lookup k' o with
      | some x => some x
      | none => if k' = k then some v else none := by
  intro o
  induction o with
  | nil =>
    rw [List.nil_append, lookup_cons_eq]
    simp [List.lookup]
  | cons p o ih =>
    obtain ⟨a, b⟩ := p
    rw [List.cons_append, lookup_cons_eq, lookup_cons_eq, ih]
    by_cases hk : k' = a <;> simp [hk]

theorem lookup_objSet (o : Obj) (k k' : String) (v : JSVal) :
    (objSet o k v).lookup k' = if k' = k then some v else o.lookup k' := by
  unfold objSet
  by_cases hk : (List.lookup k o).isSome = true
  · rw [if_pos hk, lookup_map_update]
    simp [hk]
  · rw [if_neg hk, lookup_append_single]
    have hnone : List.lookup k o = none := by
      cases h : List.lookup k o with
      | none => rfl
      | some x => simp [h] at hk
    by_cases hk' : k' = k
    · subst hk'
      simp [hnone]
    · simp only [hk', if_false]
      cases List.lookup k' o <;> rfl

theorem lookup_extend (k : String) : ∀ (p o : Obj),
    (extend o (some p)).lookup k =
      match p.reverse.lookup k with
      | some v => some v
      | none => o.lookup k := by
  intro p
  induction p using List.reverseRecOn with
  | nil => intro o; simp [extend]
  | append_singleton p kv ih =>
    intro o
    obtain ⟨a, b⟩ := kv
    have hext : extend o (some (p ++ [(a, b)])) = objSet (extend o (some p)) a b := by
      simp [extend, List.foldl_append]
    rw [hext, lookup_objSet, ih]
    by_cases hk : k = a
    · subst hk
      simp [List.lookup]
    · have h2 : (k == a) = false := by simpa using hk
      simp [List.lookup, hk, h2]

theorem modify_modify_const (w : UWorld) (i : Nat) (a b : Updater) :
    (w.modify i (fun _ => a)).modify i (fun _ => b) = w.modify i (fun _ => b) := by
  simp [UWorld.modify, List.modify_modify_eq]
  rfl

theorem noted_jobs (u : Updater) (call : SetStateCall) : (u.noted call).jobs = u.jobs := by
  unfold Updater.noted; cases call.arg <;> rfl

theorem noted_hydrating (u : Updater) (call : SetStateCall) :
    (u.noted call).hydrating = u.hydrating := by
  unfold Updater.noted; cases call.arg <;> rfl

theorem noted_nextCallbacks (u : Updater) (call : SetStateCall) :
    (u.noted call).nextCallbacks = u.nextCallbacks := by
  unfold Updater.noted; cases call.arg <;> rfl

theorem enqueueSetState_hydrating (w : UWorld) (i : Nat) (u : Updater) (call : SetStateCall)
    (hu : w.updaters.get? i = some u) (hh : u.hydrating = true) :
    enqueueSetState w i call =
      some (w.modify i (fun _ =>
        { u.noted call with nextCallbacks := some (u.nextCallbacks.getD [] ++ [call.cb]) })) := by
  obtain ⟨arg, cb⟩ := call
  unfold enqueueSetState
  rw [hu]
  cases arg <;> cases hn : u.nextCallbacks <;>
    simp [Updater.noted, hh, hn]

theorem runSetStateCalls_hydrating (i : Nat) : ∀ (calls : List SetStateCall) (w : UWorld)
    (u : Updater), w.updaters.get? i = some u → u.hydrating = true →
    runSetStateCalls w i calls = some (w.modify i (fun _ => u.deferred calls)) := by
  intro calls
  induction calls with
  | nil =>
    intro w u hu _
    simp only [runSetStateCalls, Updater.deferred, UWorld.modify]
    congr 1
    have : w.updaters.modify (fun _ => u) i = w.updaters := by
      apply List.ext_getElem? 
      intro n
      by_cases hn : i = n
      · subst hn
        rw [List.getElem?_modify_eq]
        rw [List.get?_eq_getElem?] at hu
        simp [hu]
      · rw [List.getElem?_modify_ne _ _ hn]
    rw [this]
  | cons call rest ih =>
    intro w u hu hh
    rw [runSetStateCalls, enqueueSetState_hydrating w i u call hu hh]
    simp only []
    rw [ih _ _ (by rw [get_modify_self, hu]; rfl) (by simpa [noted_hydrating] using hh)]
    rw [modify_modify_const]
    rfl

theorem modify_of_get (w : UWorld) (i : Nat) (f : Updater → Updater) (u : Updater)
    (hu : w.updaters.get? i = some u) : w.modify i f = w.modify i (fun _ => f u) := by
  unfold UWorld.modify
  congr 1
  apply List.ext_getElem?
  intro n
  rw [List.get?_eq_getElem?] at hu
  by_cases hn : i = n
  · subst hn
    rw [List.getElem?_modify_eq, List.getElem?_modify_eq, hu]
    rfl
  · rw [List.getElem?_modify_ne _ _ hn, List.getElem?_modify_ne _ _ hn]

theorem get_put (w : UWorld) (i : Nat) (u x : Updater) (hu : w.updaters.get? i = some u) :
    (w.modify i (fun _ => x)).updaters.get? i = some x := by
  rw [get_modify_self, hu]
  rfl

theorem deferred_append (calls more : List SetStateCall) : ∀ (u : Updater),
    u.deferred (calls ++ more) = (u.deferred calls).deferred more := by
  induction calls with
  | nil => intro u; rfl
  | cons c rest ih =>
    intro u
    show Updater.deferred _ (rest ++ more) = _
    rw [ih]
    rfl

theorem deferred_fields : ∀ (calls : List SetStateCall) (u : Updater),
    (u.deferred calls).jobs = u.jobs ∧ (u.deferred calls).hydrating = u.hydrating ∧
    (u.deferred calls).mounted = u.mounted ∧ (u.deferred calls).hasCatch = u.hasCatch ∧
    (u.deferred calls).hasRef = u.hasRef ∧
    (u.deferred calls).pendingCallbacks = u.pendingCallbacks ∧
    (u.deferred calls).comp = u.comp ∧ (u.deferred calls).ancestors = u.ancestors ∧
    (u.deferred calls).inst = u.inst ∧ (u.deferred calls).disposed = u.disposed := by
  intro calls
  induction calls with
  | nil => intro u; simp [Updater.deferred]
  | cons c rest ih =>
    intro u
    obtain ⟨arg, cb⟩ := c
    simp only [Updater.deferred]
    have h := ih { u.noted ⟨arg, cb⟩ with
      nextCallbacks := some (u.nextCallbacks.getD [] ++ [cb]) }
    cases arg <;> simpa [Updater.noted] using h

theorem deferred_nextCallbacks : ∀ (calls : List SetStateCall) (u : Updater),
    calls ≠ [] →
    (u.deferred calls).nextCallbacks =
      some (u.nextCallbacks.getD [] ++ calls.map (fun c => c.cb)) := by
  intro calls
  induction calls with
  | nil => intro u h; exact absurd rfl h
  | cons c rest ih =>
    intro u _
    obtain ⟨arg, cb⟩ := c
    simp only [Updater.deferred]
    by_cases hr : rest = []
    · subst hr
      cases arg <;> simp [Updater.deferred, Updater.noted]
    · rw [ih _ hr]
      cases arg <;> simp [Updater.noted]

theorem fold_callbacks (i : Nat) : ∀ (cbs : List Nat) (w : UWorld),
    cbs.foldl (fun acc f => acc.emit (.callback i f)) w =
      { w with log := w.log ++ cbs.map (fun f => UEvent.callback i f) } := by
  intro cbs
  induction cbs with
  | nil => intro w; simp
  | cons c rest ih =>
    intro w
    rw [List.foldl_cons, ih]
    simp [UWorld.emit]

theorem runHook_hydrating (w : UWorld) (i : Nat) (c : UComp) (name : String) (x : Updater)
    (hx : w.updaters.get? i = some x) (hh : x.hydrating = true) :
    runHook w i c name =
      some { (w.modify i (fun _ => x.deferred (hookCalls c name))) with
        log := w.log ++ hookEvents i c name } := by
  unfold runHook hookCalls hookEvents
  by_cases hk : c.hasHook name = true
  · simp only [hk, if_true]
    rw [runSetStateCalls_hydrating i _ (w.emit (.hook i name)) x hx hh]
    by_cases ht : c.hookThrows name = true
    · simp [ht, UWorld.emit, UWorld.modify]
    · simp [ht, UWorld.emit, UWorld.modify]
  · simp only [hk, Updater.deferred]
    simp only [Bool.false_eq_true, if_false, List.append_nil]
    have h := modify_of_get w i id x hx
    simp only [id] at h
    rw [← h]
    simp [UWorld.modify]

theorem runHook_quiet (w : UWorld) (i : Nat) (c : UComp) (name : String)
    (hq : c.setStateIn name = []) :
    runHook w i c name = some { w with log := w.log ++ hookEvents i c name } := by
  unfold runHook hookEvents
  by_cases hk : c.hasHook name = true
  · by_cases ht : c.hookThrows name = true
    · simp [hk, ht, hq, runSetStateCalls, UWorld.emit]
    · simp [hk, ht, hq, runSetStateCalls, UWorld.emit]
  · simp [hk]

theorem runHook_hydrating_spec (w : UWorld) (i : Nat) (c : UComp) (name : String)
    (x : Updater) (hx : w.updaters.get? i = some x) (hh : x.hydrating = true) :
    ∃ w1, runHook w i c name = some w1 ∧
      w1.updaters.get? i = some (x.deferred (hookCalls c name)) ∧
      w1.updateQueue = w.updateQueue ∧ w1.log = w.log ++ hookEvents i c name :=
  ⟨_, runHook_hydrating w i c name x hx hh, get_put w i x _ hx, rfl, rfl⟩

@[simp] theorem emit_updaters (w : UWorld) (e : UEvent) : (w.emit e).updaters = w.updaters := rfl

@[simp] theorem emit_updateQueue (w : UWorld) (e : UEvent) :
    (w.emit e).updateQueue = w.updateQueue := rfl

@[simp] theorem emit_log (w : UWorld) (e : UEvent) : (w.emit e).log = w.log ++ [e] := rfl

@[simp] theorem modify_updateQueue (w : UWorld) (i : Nat) (f : Updater → Updater) :
    (w.modify i f).updateQueue = w.updateQueue := rfl

@[simp] theorem modify_log (w : UWorld) (i : Nat) (f : Updater → Updater) :
    (w.modify i f).log = w.log := rfl

@[simp] theorem modify_async (w : UWorld) (i : Nat) (f : Updater → Updater) :
    (w.modify i f).async = w.async := rfl

theorem get_modify_of (w : UWorld) (i : Nat) (f : Updater → Updater) (x : Updater)
    (hx : w.updaters.get? i = some x) : (w.modify i f).updaters.get? i = some (f x) := by
  rw [get_modify_self, hx]
  rfl

theorem resolveHooks_hydrating (w : UWorld) (i : Nat) (x : Updater)
    (hx : w.updaters.get? i = some x) (hh : x.hydrating = true) :
    ∃ w1, resolveHooks w i x = some w1 ∧
      w1.updaters.get? i = some
        { ({ x with mounted := true } : Updater).deferred
            (hookCalls x.comp (didHook x.mounted)) with hydrating := false } ∧
      w1.updateQueue = w.updateQueue ∧
      w1.log = w.log ++ hookEvents i x.comp (didHook x.mounted) ++
        [if x.mounted then .afterUpdate i else .afterMount i] := by
  obtain ⟨w1, h1, g1, q1, l1⟩ := runHook_hydrating_spec
    (w.modify i (fun x => { x with mounted := true })) i x.comp (didHook x.mounted)
    { x with mounted := true } (get_modify_of w i _ x hx) hh
  unfold resolveHooks
  unfold didHook at h1
  rw [if_pos hh, h1]
  refine ⟨_, rfl, ?_, ?_, ?_⟩
  · rw [get_modify_of _ i _ _ (by simpa using g1)]
  · simpa using q1
  · simp [l1]

theorem resolveHooks_idle (w : UWorld) (i : Nat) (x : Updater)
    (hx : w.updaters.get? i = some x) (hh : x.hydrating = false) :
    ∃ w1, resolveHooks w i x = some w1 ∧
      w1.updaters.get? i = some { x with mounted := true } ∧
      w1.updateQueue = w.updateQueue ∧ w1.log = w.log := by
  unfold resolveHooks
  rw [if_neg (by simp [hh])]
  exact ⟨_, rfl, get_modify_of w i _ x hx, rfl, rfl⟩

theorem fireRefs_spec (w : UWorld) (i : Nat) (u x : Updater)
    (hx : w.updaters.get? i = some x) :
    (fireRefs w i u).updaters.get? i =
        some (if u.hasRef then { x with hasRef := false } else x) ∧
      (fireRefs w i u).updateQueue = w.updateQueue ∧
      (fireRefs w i u).log = w.log ++ (if u.hasRef then [.fireRef i] else []) := by
  unfold fireRefs
  by_cases h : u.hasRef = true
  · simp only [h, if_true]
    exact ⟨get_modify_of w i _ x hx, rfl, rfl⟩
  · simp only [h, if_false]
    exact ⟨hx, rfl, by simp⟩

theorem flushCallbacks_spec (w : UWorld) (i : Nat) (x : Updater)
    (hx : w.updaters.get? i = some x) :
    ∃ w1, flushCallbacks w i = some w1 ∧
      w1.updaters.get? i = some { x with pendingCallbacks := [] } ∧
      w1.updateQueue = w.updateQueue ∧
      w1.log = w.log ++ x.pendingCallbacks.map (fun f => UEvent.callback i f) := by
  unfold flushCallbacks
  rw [hx]
  simp only [fold_callbacks]
  exact ⟨_, rfl, get_modify_of w i _ x hx, rfl, rfl⟩

theorem resolveNext_some (w : UWorld) (i : Nat) (x : Updater) (cb : Option Nat)
    (cbs : List (Option Nat)) (hx : w.updaters.get? i = some x)
    (hn : x.nextCallbacks = some (cb :: cbs)) :
    ∃ w1, resolveNext w i = some w1 ∧
      w1.updaters.get? i = some
        { x with pendingCallbacks := x.pendingCallbacks ++ (cb :: cbs).filterMap id,
                 nextCallbacks := none, jobs := addJob x.jobs "hydrate" } ∧
      w1.updateQueue = w.updateQueue ++ [i] ∧ w1.log = w.log := by
  unfold resolveNext
  rw [hx]
  simp only [hn]
  exact ⟨_, rfl, get_modify_of w i _ x hx, rfl, rfl⟩

theorem resolveNext_none (w : UWorld) (i : Nat) (x : Updater)
    (hx : w.updaters.get? i = some x) (hn : x.nextCallbacks = none) :
    resolveNext w i = some w := by
  unfold resolveNext
  rw [hx]
  simp only [hn]

theorem resolve_hydrating (w : UWorld) (i : Nat) (x : Updater)
    (hx : w.updaters.get? i = some x) (hh : x.hydrating = true) (hc : x.hasCatch = none)
    (cb : Option Nat) (cbs : List (Option Nat)) (c : UComp) (m : Bool)
    (hcm : x.comp = c) (hm : x.mounted = m)
    (hk : (({ x with mounted := true } : Updater).deferred
      (hookCalls c (didHook m))).nextCallbacks = some (cb :: cbs)) :
    ∃ w2 u2, resolve w i = some w2 ∧ w2.updaters.get? i = some u2 ∧
      u2.jobs = addJob x.jobs "hydrate" ∧ w2.updateQueue = w.updateQueue ++ [i] ∧
      u2.pendingCallbacks = (cb :: cbs).filterMap id ∧
      u2.nextCallbacks = none ∧ u2.hydrating = false ∧ u2.mounted = true := by
  subst hcm hm
  obtain ⟨w1, h1, g1, q1, -⟩ := resolveHooks_hydrating w i x hx hh
  have hf := deferred_fields (hookCalls x.comp (didHook x.mounted)) { x with mounted := true }
  obtain ⟨g2, q2, -⟩ := fireRefs_spec w1 i x _ g1
  have g2a : ∃ y, (fireRefs w1 i x).updaters.get? i = some y ∧ y.jobs = x.jobs ∧
      y.nextCallbacks = some (cb :: cbs) ∧ y.mounted = true ∧ y.hydrating = false := by
    by_cases hr : x.hasRef = true
    · rw [if_pos hr] at g2
      exact ⟨_, g2, hf.1, hk, hf.2.2.1, rfl⟩
    · rw [if_neg hr] at g2
      exact ⟨_, g2, hf.1, hk, hf.2.2.1, rfl⟩
  obtain ⟨y, gy, yj, yn, ym, yh⟩ := g2a
  obtain ⟨w3, h3, g3, q3, -⟩ := flushCallbacks_spec _ i _ gy
  obtain ⟨w4, h4, g4, q4, -⟩ := resolveNext_some w3 i _ cb cbs g3 yn
  refine ⟨w4, _, ?_, g4, ?_, ?_, ?_, rfl, yh, ym⟩
  · simp only [resolve, hx, h1, hc, h3]
    exact h4
  · show addJob y.jobs "hydrate" = _
    rw [yj]
  · rw [q4, q3, q2, q1]
  · simp

theorem deferred_next_total (u : Updater) (calls more : List SetStateCall)
    (hn : u.nextCallbacks = none) (hk : calls ++ more ≠ []) :
    (({ u.deferred calls with mounted := true } : Updater).deferred more).nextCallbacks =
      some ((calls ++ more).map (fun c => c.cb)) := by
  by_cases hm : more = []
  · subst hm
    have hc : calls ≠ [] := by simpa using hk
    have h := deferred_nextCallbacks calls u hc
    rw [hn] at h
    simpa [Updater.deferred] using h
  · rw [deferred_nextCallbacks more _ hm]
    by_cases hc : calls = []
    · subst hc
      simp [Updater.deferred, hn]
    · have h := deferred_nextCallbacks calls u hc
      rw [hn] at h
      simp only [h]
      simp

theorem enqueueSetState_total (w : UWorld) (i : Nat) (call : SetStateCall) (x : Updater)
    (hx : w.updaters.get? i = some x) :
    ∃ w1 x1, enqueueSetState w i call = some w1 ∧ w1.updaters.get? i = some x1 := by
  unfold enqueueSetState
  rw [hx]
  simp only []
  split_ifs
  · exact ⟨_, _, rfl, get_modify_of w i _ x hx⟩
  · exact ⟨_, _, rfl, get_modify_of w i _ x hx⟩
  · exact ⟨_, _, rfl, get_modify_of w i _ x hx⟩
  · exact ⟨_, _, rfl, get_modify_of _ i _ _ (get_modify_of w i _ x hx)⟩
  · exact ⟨_, _, rfl, get_modify_of w i _ x hx⟩

theorem runSetStateCalls_total (i : Nat) : ∀ (calls : List SetStateCall) (w : UWorld)
    (x : Updater), w.updaters.get? i = some x →
    ∃ w1 x1, runSetStateCalls w i calls = some w1 ∧ w1.updaters.get? i = some x1 := by
  intro calls
  induction calls with
  | nil => intro w x hx; exact ⟨w, x, rfl, hx⟩
  | cons c rest ih =>
    intro w x hx
    obtain ⟨w1, x1, h1, g1⟩ := enqueueSetState_total w i c x hx
    obtain ⟨w2, x2, h2, g2⟩ := ih w1 x1 g1
    exact ⟨w2, x2, by rw [runSetStateCalls, h1]; exact h2, g2⟩

theorem runHook_total (w : UWorld) (i : Nat) (c : UComp) (name : String) (x : Updater)
    (hx : w.updaters.get? i = some x) :
    ∃ w1 x1, runHook w i c name = some w1 ∧ w1.updaters.get? i = some x1 := by
  unfold runHook
  by_cases hk : c.hasHook name = true
  · obtain ⟨w1, x1, h1, g1⟩ := runSetStateCalls_total i (c.setStateIn name)
      (w.emit (.hook i name)) x hx
    rw [if_pos hk, h1]
    by_cases ht : c.hookThrows name = true
    · exact ⟨_, x1, rfl, by rw [if_pos ht]; exact g1⟩
    · exact ⟨_, x1, rfl, by rw [if_neg ht]; exact g1⟩
  · rw [if_neg hk]
    exact ⟨w, x, rfl, hx⟩

theorem applyToInstance_spec (w : UWorld) (i : Nat) (u x : Updater) (inst : UInstance)
    (state : Option Obj) (hx : w.updaters.get? i = some x) :
    (applyToInstance w i u inst state).updaters.get? i = some
        { x with stateNode := true, forceUpdate := false,
                 inst := some { (x.inst.getD inst) with
                   props := u.props, state := state, context := u.context } } ∧
      (applyToInstance w i u inst state).updateQueue = w.updateQueue ∧
      (applyToInstance w i u inst state).log = w.log :=
  ⟨get_modify_of w i _ x hx, rfl, rfl⟩

theorem renderUpdater_spec (w : UWorld) (i : Nat) (c : UComp) (x : Updater)
    (hx : w.updaters.get? i = some x) :
    (renderUpdater w i c).updaters.get? i =
        some { x with hydrating := true, willReceiveFalse := false } ∧
      (renderUpdater w i c).updateQueue = w.updateQueue ∧
      (renderUpdater w i c).log = w.log ++ renderEvents i c x.willReceiveFalse := by
  unfold renderUpdater renderEvents
  rw [hx]
  by_cases hs : x.willReceiveFalse = true
  · simp only [hs, if_true, Bool.not_true, Bool.false_and, Bool.false_eq_true, if_false]
    exact ⟨get_modify_of w i _ x hx, rfl, by simp⟩
  · have hs2 : x.willReceiveFalse = false := by simpa using hs
    by_cases ht : c.hookThrows "render" = true
    · simp only [hs2, ht, Bool.false_eq_true, if_false, Bool.not_false, Bool.true_and, if_true]
      exact ⟨get_modify_of w i _ x hx, rfl, by simp⟩
    · simp only [hs2, ht, Bool.false_eq_true, if_false, Bool.not_false, Bool.true_and]
      exact ⟨get_modify_of w i _ x hx, rfl, by simp⟩

theorem pushResolve_spec (w : UWorld) (i : Nat) (x : Updater)
    (hx : w.updaters.get? i = some x) :
    (pushResolve w i).updaters.get? i = some { x with jobs := addJob x.jobs "resolve" } ∧
      (pushResolve w i).updateQueue = w.updateQueue ++ [i] ∧
      (pushResolve w i).log = w.log :=
  ⟨get_modify_of w i _ x hx, rfl, rfl⟩

theorem mergeStates_fields (u : Updater) :
    (mergeStates u).2.jobs = u.jobs ∧ (mergeStates u).2.hydrating = u.hydrating ∧
    (mergeStates u).2.mounted = u.mounted ∧ (mergeStates u).2.hasCatch = u.hasCatch ∧
    (mergeStates u).2.nextCallbacks = u.nextCallbacks ∧
    (mergeStates u).2.hasRef = u.hasRef ∧
    (mergeStates u).2.pendingCallbacks = u.pendingCallbacks ∧
    (mergeStates u).2.comp = u.comp ∧ (mergeStates u).2.disposed = u.disposed ∧
    (mergeStates u).2.willReceiveFalse = u.willReceiveFalse ∧
    (mergeStates u).2.inst = u.inst := by
  unfold mergeStates
  split_ifs <;> simp

theorem askShouldUpdate_total (w : UWorld) (i : Nat) (u x : Updater) (state : Option Obj)
    (hx : w.updaters.get? i = some x) :
    ∃ w1 x1 b, askShouldUpdate w i u state = some (w1, b) ∧ w1.updaters.get? i = some x1 := by
  unfold askShouldUpdate
  split_ifs
  · obtain ⟨w1, x1, h1, g1⟩ := runHook_total w i u.comp "shouldComponentUpdate" x hx
    rw [h1]
    exact ⟨w1, x1, _, rfl, g1⟩
  · exact ⟨w, x, true, rfl, hx⟩
  · exact ⟨w, x, true, rfl, hx⟩

theorem hydrateTail_total (w : UWorld) (i : Nat) (u x : Updater) (inst : UInstance)
    (state : Option Obj) (b : Bool) (hx : w.updaters.get? i = some x) :
    ∃ w1 x1 inst1, hydrateTail w i u inst state b = some w1 ∧
      w1.updaters.get? i = some x1 ∧ x1.inst = some inst1 ∧
      inst1.props = u.props ∧ inst1.state = state ∧ inst1.context = u.context := by
  unfold hydrateTail
  cases b
  · simp only [Bool.false_eq_true, if_false]
    obtain ⟨g1, -, -⟩ := applyToInstance_spec w i u x inst state hx
    obtain ⟨g2, -, -⟩ := pushResolve_spec _ i _ g1
    exact ⟨_, _, _, rfl, g2, rfl, rfl, rfl, rfl⟩
  · simp only [if_true]
    obtain ⟨w1, x1, h1, hx1⟩ := runHook_total w i u.comp "componentWillUpdate" x hx
    rw [h1]
    obtain ⟨g1, -, -⟩ := applyToInstance_spec w1 i u x1 inst state hx1
    obtain ⟨g2, -, -⟩ := renderUpdater_spec _ i u.comp _ g1
    obtain ⟨g3, -, -⟩ := pushResolve_spec _ i _ g2
    exact ⟨_, _, _, rfl, g3, rfl, rfl, rfl, rfl⟩

theorem askShouldUpdate_quiet (w : UWorld) (i : Nat) (u : Updater)
    (hq : u.comp.setStateIn "shouldComponentUpdate" = []) :
    askShouldUpdate w i u (mergeStates u).1 =
      some ({ w with log := w.log ++
                (if u.forceUpdate then [] else hookEvents i u.comp "shouldComponentUpdate") },
            cycleUpdates u) := by
  unfold askShouldUpdate cycleUpdates shouldUpdateAnswer
  by_cases hf : u.forceUpdate = true
  · simp [hf]
  · have hf2 : u.forceUpdate = false := by simpa using hf
    by_cases hk : u.comp.hasHook "shouldComponentUpdate" = true
    · rw [runHook_quiet w i u.comp _ hq]
      simp [hf2, hk]
    · simp [hf2, hk, hookEvents]

theorem hydrateTail_quiet (w : UWorld) (i : Nat) (u x : Updater) (inst : UInstance)
    (state : Option Obj) (b : Bool) (hx : w.updaters.get? i = some x)
    (hq : b = true → u.comp.setStateIn "componentWillUpdate" = []) :
    ∃ w1 x1, hydrateTail w i u inst state b = some w1 ∧
      w1.updaters.get? i = some x1 ∧
      w1.log = w.log ++ (if b then
        hookEvents i u.comp "componentWillUpdate" ++ renderEvents i u.comp x.willReceiveFalse
        else []) ∧
      w1.updateQueue = w.updateQueue ++ [i] ∧
      x1.jobs = addJob x.jobs "resolve" ∧ x1.hydrating = (b || x.hydrating) ∧
      x1.mounted = x.mounted ∧ x1.hasCatch = x.hasCatch ∧
      x1.nextCallbacks = x.nextCallbacks ∧ x1.hasRef = x.hasRef ∧
      x1.pendingCallbacks = x.pendingCallbacks ∧ x1.comp = x.comp ∧
      x1.disposed = x.disposed := by
  unfold hydrateTail
  cases b
  · simp only [Bool.false_eq_true, if_false]
    obtain ⟨g1, q1, l1⟩ := applyToInstance_spec w i u x inst state hx
    obtain ⟨g2, q2, l2⟩ := pushResolve_spec _ i _ g1
    refine ⟨_, _, rfl, g2, ?_, ?_, rfl, ?_, rfl, rfl, rfl, rfl, rfl, rfl, rfl⟩
    · rw [l2, l1]; simp
    · rw [q2, q1]
    · simp
  · simp only [if_true]
    rw [runHook_quiet w i u.comp _ (hq rfl)]
    obtain ⟨g1, q1, l1⟩ := applyToInstance_spec
      { w with log := w.log ++ hookEvents i u.comp "componentWillUpdate" } i u x inst state hx
    obtain ⟨g2, q2, l2⟩ := renderUpdater_spec _ i u.comp _ g1
    obtain ⟨g3, q3, l3⟩ := pushResolve_spec _ i _ g2
    refine ⟨_, _, rfl, g3, ?_, ?_, rfl, ?_, rfl, rfl, rfl, rfl, rfl, rfl, rfl⟩
    · rw [l3, l2, l1]; simp
    · rw [q3, q2, q1]
    · simp

theorem hydrate_quiet (w : UWorld) (i : Nat) (u : Updater) (inst : UInstance)
    (hu : w.updaters.get? i = some u) (hinst : u.inst = some inst)
    (hq1 : u.comp.setStateIn "shouldComponentUpdate" = [])
    (hq2 : cycleUpdates u = true → u.comp.setStateIn "componentWillUpdate" = []) :
    ∃ w1 x1, hydrate w i = some w1 ∧
      w1.updaters.get? i = some x1 ∧
      w1.log = w.log ++ hydrateEvents i u ∧
      w1.updateQueue = w.updateQueue ++ [i] ∧
      x1.jobs = addJob u.jobs "resolve" ∧ x1.hydrating = (cycleUpdates u || u.hydrating) ∧
      x1.mounted = u.mounted ∧ x1.hasCatch = u.hasCatch ∧
      x1.nextCallbacks = u.nextCallbacks ∧ x1.hasRef = u.hasRef ∧
      x1.pendingCallbacks = u.pendingCallbacks ∧ x1.comp = u.comp ∧
      x1.disposed = u.disposed := by
  have hm := mergeStates_fields u
  obtain ⟨w1, x1, h1, g1, l1, q1, j1, y1, m1, c1, n1, r1, p1, k1, d1⟩ := hydrateTail_quiet
    { (w.modify i (fun _ => (mergeStates u).2)) with
      log := w.log ++
        (if u.forceUpdate then [] else hookEvents i u.comp "shouldComponentUpdate") }
    i u (mergeStates u).2 inst (mergeStates u).1 (cycleUpdates u)
    (get_put w i u _ hu) hq2
  refine ⟨w1, x1, ?_, g1, ?_, q1, ?_, ?_, ?_, ?_, ?_, ?_, ?_, ?_, ?_⟩
  · unfold hydrate
    rw [hu]
    simp only [hinst]
    have ha := askShouldUpdate_quiet (w.modify i (fun _ => (mergeStates u).2)) i u hq1
    simp only [modify_log] at ha
    rw [ha]
    exact h1
  · rw [l1, hm.2.2.2.2.2.2.2.2.2.1]
    simp [hydrateEvents]
  · rw [j1, hm.1]
  · rw [y1, hm.2.1]
  · rw [m1, hm.2.2.1]
  · rw [c1, hm.2.2.2.1]
  · rw [n1, hm.2.2.2.2.1]
  · rw [r1, hm.2.2.2.2.2.1]
  · rw [p1, hm.2.2.2.2.2.2.1]
  · rw [k1, hm.2.2.2.2.2.2.2.1]
  · rw [d1, hm.2.2.2.2.2.2.2.2.1]

theorem resolveNext_total (w : UWorld) (i : Nat) (x : Updater)
    (hx : w.updaters.get? i = some x) :
    ∃ w1 x1, resolveNext w i = some w1 ∧ w1.log = w.log ∧ w1.updaters.get? i = some x1 ∧
      x1.mounted = x.mounted ∧ x1.disposed = x.disposed := by
  unfold resolveNext
  rw [hx]
  cases hn : x.nextCallbacks with
  | none =>
    simp only [hn]
    exact ⟨w, x, rfl, rfl, hx, rfl, rfl⟩
  | some l =>
    cases l with
    | nil =>
      simp only [hn]
      exact ⟨w, x, rfl, rfl, hx, rfl, rfl⟩
    | cons cb cbs =>
      simp only [hn]
      exact ⟨_, _, rfl, rfl, get_modify_of w i _ x hx, rfl, rfl⟩

theorem resolve_idle (w : UWorld) (i : Nat) (x : Updater)
    (hx : w.updaters.get? i = some x) (hh : x.hydrating = false) (hc : x.hasCatch = none) :
    ∃ w2 x2, resolve w i = some w2 ∧ w2.updaters.get? i = some x2 ∧
      w2.log = w.log ++ (if x.hasRef then [.fireRef i] else []) ++
        x.pendingCallbacks.map (fun f => UEvent.callback i f) ∧
      x2.mounted = true ∧ x2.disposed = x.disposed := by
  obtain ⟨w1, h1, g1, -, l1⟩ := resolveHooks_idle w i x hx hh
  obtain ⟨g2, -, l2⟩ := fireRefs_spec w1 i x _ g1
  have g2a : ∃ y, (fireRefs w1 i x).updaters.get? i = some y ∧ y.mounted = true ∧
      y.disposed = x.disposed ∧ y.pendingCallbacks = x.pendingCallbacks := by
    by_cases hr : x.hasRef = true
    · rw [if_pos hr] at g2
      exact ⟨_, g2, rfl, rfl, rfl⟩
    · rw [if_neg hr] at g2
      exact ⟨_, g2, rfl, rfl, rfl⟩
  obtain ⟨y, gy, ym, yd, yp⟩ := g2a
  obtain ⟨w3, h3, g3, -, l3⟩ := flushCallbacks_spec _ i _ gy
  obtain ⟨w4, x4, h4, l4, g4, m4, d4⟩ := resolveNext_total w3 i _ g3
  refine ⟨w4, x4, ?_, g4, ?_, ?_, ?_⟩
  · simp only [resolve, hx, h1, hc, h3]
    exact h4
  · rw [l4, l3, l2, l1, yp]
  · rw [m4]; exact ym
  · rw [d4]; exact yd

theorem exec_hydrate (w : UWorld) (i : Nat) (u : Updater) (rest : List String)
    (hu : w.updaters.get? i = some u) (hj : u.jobs = "hydrate" :: rest) :
    execUpdater w i = hydrate (w.modify i (fun x => { x with jobs := rest })) i := by
  unfold execUpdater
  rw [hu]
  simp only [hj]
  simp

theorem exec_resolve (w : UWorld) (i : Nat) (u : Updater) (rest : List String)
    (hu : w.updaters.get? i = some u) (hj : u.jobs = "resolve" :: rest) :
    execUpdater w i = resolve (w.modify i (fun x => { x with jobs := rest })) i := by
  unfold execUpdater
  rw [hu]
  simp only [hj]
  simp

theorem drop_log_append (before : UWorld) (l evs : List UEvent) (h : l = before.log ++ evs) :
    l.drop before.log.length = evs := by
  rw [h, List.drop_left]

theorem hydrateEvents_jobs (i : Nat) (u : Updater) (rest : List String) :
    hydrateEvents i { u with jobs := rest } = hydrateEvents i u ∧
      cycleUpdates { u with jobs := rest } = cycleUpdates u := by
  have h : (mergeStates { u with jobs := rest }).1 = (mergeStates u).1 := by
    unfold mergeStates
    split_ifs <;> rfl
  have hc : cycleUpdates { u with jobs := rest } = cycleUpdates u := by
    unfold cycleUpdates shouldUpdateAnswer
    rw [h]
  refine ⟨?_, hc⟩
  unfold hydrateEvents
  rw [hc]

theorem diffChildren_mem_hydrateEvents (i : Nat) (u : Updater) :
    UEvent.diffChildren i ∈ hydrateEvents i u ↔ cycleUpdates u = true := by
  by_cases hc : cycleUpdates u = true
  · simp [hydrateEvents, hc, renderEvents]
  · have hc2 : cycleUpdates u = false := by simpa using hc
    simp only [hydrateEvents, hc2, Bool.false_eq_true, if_false, List.append_nil, hookEvents]
    split_ifs <;> simp

theorem dispose_spec (w : UWorld) (i : Nat) (u : Updater) (inst : UInstance)
    (hu : w.updaters.get? i = some u) (hi : u.inst = some inst) :
    ∃ w1, dispose w i = some w1 ∧
      w1.updaters.get? i = some { u with mounted := false, disposed := true } ∧
      w1.updateQueue = w.updateQueue ∧
      w1.log = w.log ++ [.beforeUnmount i, .fireRef i] ++
        (if inst.placeholder then [] else hookEvents i u.comp "componentWillUnmount") := by
  unfold dispose
  rw [hu]
  simp only []
  rw [hi]
  simp only []
  rw [runHook_quiet _ i _ "componentWillUnmount" rfl]
  refine ⟨_, rfl, ?_, rfl, ?_⟩
  · refine (get_modify_of _ i _ u hu).trans ?_
    rw [← hi]
  · cases hp : inst.placeholder <;> simp [hookEvents, UWorld.emit, UWorld.modify]

theorem drainQueue_disposed : ∀ (q : List Nat) (fuel : Nat) (w : UWorld),
    q.length < fuel → w.updateQueue = q →
    (∀ j ∈ q, ∃ u, w.updaters.get? j = some u ∧ u.disposed = true) →
    drainQueue fuel w = some { w with updateQueue := [] } := by
  intro q
  induction q with
  | nil =>
    intro fuel w hf hq _
    obtain ⟨f, rfl⟩ : ∃ f, fuel = f + 1 := ⟨fuel - 1, by simp at hf; omega⟩
    unfold drainQueue
    rw [hq]
    simp only []
    rw [← hq]
  | cons i rest ih =>
    intro fuel w hf hq hd
    obtain ⟨f, rfl⟩ : ∃ f, fuel = f + 1 := ⟨fuel - 1, by simp at hf; omega⟩
    obtain ⟨u, hu, hdis⟩ := hd i (List.mem_cons_self _ _)
    unfold drainQueue
    rw [hq]
    simp only []
    have hu2 : ({ w with updateQueue := rest } : UWorld).updaters.get? i = some u := hu
    rw [hu2]
    simp only [hdis, if_true]
    exact ih f { w with updateQueue := rest } (by simp at hf; omega) rfl
      (fun j hj => hd j (List.mem_cons_of_mem _ hj))

theorem requeueAncestors_spec (i : Nat) (x : Updater) : ∀ (ancestors : List (Nat × Nat))
    (w : UWorld), w.updaters.get? i = some x →
    (∀ p ∈ ancestors, p.1 > 1 → p.2 ≠ i) →
    (requeueAncestors w ancestors).updaters.get? i = some x ∧
      (requeueAncestors w ancestors).updateQueue = w.updateQueue ++ requeued ancestors ∧
      (requeueAncestors w ancestors).log = w.log := by
  intro ancestors
  induction ancestors with
  | nil => intro w hx _; exact ⟨hx, by simp [requeueAncestors, requeued], rfl⟩
  | cons p rest ih =>
    intro w hx hne
    obtain ⟨vtype, a⟩ := p
    have hrest : ∀ p ∈ rest, p.1 > 1 → p.2 ≠ i := fun p hp => hne p (List.mem_cons_of_mem _ hp)
    by_cases hv : vtype > 1
    · have ha : a ≠ i := hne (vtype, a) (List.mem_cons_self _ _) hv
      have h := ih
        { w.modify a (fun x => { x with jobs := addJob x.jobs "resolve" }) with
          updateQueue := w.updateQueue ++ [a] }
        (by show (w.modify a _).updaters.get? i = some x
            rw [get_modify_ne w a i _ ha]; exact hx) hrest
      simp only [requeueAncestors, if_pos hv]
      refine ⟨h.1, ?_, h.2.2⟩
      rw [h.2.1]
      simp [requeued, hv]
    · have h := ih w hx hrest
      simp only [requeueAncestors, if_neg hv]
      refine ⟨h.1, ?_, h.2.2⟩
      rw [h.2.1]
      simp [requeued, hv]

theorem catchPrepare_spec (w : UWorld) (i : Nat) (x : Updater)
    (ancestors : List (Nat × Nat)) (hx : w.updaters.get? i = some x)
    (hne : ∀ p ∈ ancestors, p.1 > 1 → p.2 ≠ i) :
    (catchPrepare w i ancestors).updaters.get? i = some
        { x with hasCatch := none, jobs := [], hydrating := true,
                 inst := x.inst.map (fun y => { y with hasTry := true }) } ∧
      (catchPrepare w i ancestors).updateQueue = requeued ancestors ∧
      (catchPrepare w i ancestors).log = w.log := by
  obtain ⟨g1, q1, l1⟩ := requeueAncestors_spec i
    { x with hasCatch := none, jobs := [],
             inst := x.inst.map (fun y => { y with hasTry := true }) } ancestors
    { w.modify i (fun x =>
        { x with hasCatch := none, jobs := [],
                 inst := x.inst.map (fun y => { y with hasTry := true }) }) with
      updateQueue := [] }
    (get_modify_of w i _ x hx) hne
  unfold catchPrepare
  refine ⟨get_modify_of _ i _ _ g1, ?_, ?_⟩
  · rw [modify_updateQueue, q1]
    simp
  · rw [modify_log, l1]
    rfl

theorem resolveCatch_spec (w : UWorld) (i : Nat) (u x : Updater) (error info : Nat)
    (p : Nat × Nat) (rest : List (Nat × Nat))
    (hx : w.updaters.get? i = some x) (ha : u.ancestors = p :: rest)
    (hne : ∀ p ∈ u.ancestors, p.1 > 1 → p.2 ≠ i)
    (hk : u.comp.hasHook "componentDidCatch" = true)
    (ht : u.comp.hookThrows "componentDidCatch" = false) :
    ∃ w1, resolveCatch w i u error info = some w1 ∧
      w1.updaters.get? i = some
        { ({ x with hasCatch := none, jobs := [], hydrating := true,
                    inst := x.inst.map (fun y => { y with hasTry := true }) } : Updater).deferred
            (u.comp.setStateIn "componentDidCatch") with hydrating := false } ∧
      w1.updateQueue = requeued u.ancestors ∧
      w1.log = w.log ++ [.didCatch i error info] := by
  rw [ha] at hne
  obtain ⟨g1, q1, l1⟩ := catchPrepare_spec w i x (p :: rest) hx hne
  have h5 := runSetStateCalls_hydrating i (u.comp.setStateIn "componentDidCatch")
    ((catchPrepare w i (p :: rest)).emit (.didCatch i error info)) _ g1 rfl
  unfold resolveCatch
  simp only [ha, hk, ht, Bool.not_true, Bool.or_false, Bool.false_eq_true, if_false]
  rw [h5]
  refine ⟨_, rfl, get_modify_of _ i _ _ (get_put _ i _ _ g1), ?_, ?_⟩
  · simp [q1]
  · simp [l1]

theorem resolveHooks_quiet (w : UWorld) (i : Nat) (x : Updater)
    (hx : w.updaters.get? i = some x)
    (hq : x.hydrating = true → hookCalls x.comp (didHook x.mounted) = []) :
    ∃ w1, resolveHooks w i x = some w1 ∧
      w1.updaters.get? i = some { x with mounted := true, hydrating := false } ∧
      w1.updateQueue = w.updateQueue ∧
      w1.log = w.log ++ (if x.hydrating then
        hookEvents i x.comp (didHook x.mounted) ++
          [if x.mounted then .afterUpdate i else .afterMount i] else []) := by
  by_cases hh : x.hydrating = true
  · obtain ⟨w1, h1, g1, q1, l1⟩ := resolveHooks_hydrating w i x hx hh
    rw [hq hh] at g1
    refine ⟨w1, h1, g1, q1, ?_⟩
    rw [l1, if_pos hh, List.append_assoc]
  · have hh2 : x.hydrating = false := by simpa using hh
    obtain ⟨w1, h1, g1, q1, l1⟩ := resolveHooks_idle w i x hx hh2
    refine ⟨w1, h1, ?_, q1, ?_⟩
    · rw [g1]
      congr 1
      cases x
      simp only [Updater.mk.injEq, true_and, and_true] at hh2 ⊢
      simpa using hh2
    · rw [l1, if_neg hh]
      simp

/-! ## Lemmas: `diffProps` -/

theorem lookup_filter_ne {β : Type} (name : String) : ∀ (l : List (String × β)),
    (l.filter (fun p => p.1 ≠ name)).lookup name = none := by
  intro l
  induction l with
  | nil => rfl
  | cons p rest ih =>
    obtain ⟨a, b⟩ := p
    by_cases h : a = name
    · simp only [List.filter, h, ne_eq, not_true_eq_false, decide_False]
      exact ih
    · have h2 : (name == a) = false := by
        simp only [beq_eq_false_iff_ne, ne_eq]
        exact fun e => h e.symm
      simp only [List.filter, h, ne_eq, not_false_eq_true, decide_True, List.lookup, h2]
      exact ih

theorem strictEq_self (v : JSVal) : v.strictEq v = true := by
  cases v <;> simp [JSVal.strictEq]

theorem modifyNode_log (w : World) (d : Nat) (f : HostNode → HostNode) :
    (w.modifyNode d f).log = w.log := rfl

theorem modifyNode_get (w : World) (d : Nat) (f : HostNode → HostNode) :
    (w.modifyNode d f).nodes.get? d = (w.nodes.get? d).map f := by
  simp [World.modifyNode, List.get?_eq_getElem?]

theorem objFields_of_falsy (v : JSVal) (h : v.truthy = false) : objFields v = [] := by
  cases v with
  | prim p => rfl
  | func i => rfl
  | obj i fs => simp [JSVal.truthy] at h
  | builtin n => rfl

theorem patchStyle_same (env : Env) (w : World) (dom : Nat) (val : JSVal) :
    patchStyle env w dom (if val.truthy then some val else none) val = some w := by
  unfold patchStyle
  by_cases ht : val.truthy = true
  · simp [ht, strictEq_self]
  · have ht2 : val.truthy = false := by simpa using ht
    cases val with
    | prim p =>
      cases p with
      | str s =>
        have hs : s = "" := by simpa [JSVal.truthy] using ht2
        subst hs
        simp [JSVal.truthy, styleFields]
      | undefined => simp [JSVal.truthy, styleFields]
      | null => simp [JSVal.truthy, styleFields]
      | bool b => simp [ht2, styleFields]
      | num n => simp [ht2, styleFields]
    | func i => simp [JSVal.truthy] at ht2
    | obj i fs => simp [JSVal.truthy] at ht2
    | builtin n => simp [JSVal.truthy] at ht2

theorem diffPropsStep_unchanged (env : Env) (dom : Nat) (owner : Option Nat) (isHTML : Bool)
    (prevProps : List (String × JSVal)) (st : PropState) (name : String) (val : JSVal)
    (he : isEventName name = false) (hp : readProp prevProps name = val) :
    ∃ b, diffPropsStep env dom owner isHTML prevProps st name val =
      some { st with hasSetInnerHTML := b } := by
  unfold diffPropsStep
  rw [hp]
  simp only [he, strictEq_self, Bool.not_true, Bool.false_eq_true, if_false]
  by_cases h1 : name = "children"
  · exact ⟨st.hasSetInnerHTML, by simp [h1]⟩
  · by_cases h2 : name = "ref"
    · exact ⟨st.hasSetInnerHTML, by simp [h2]⟩
    · by_cases h3 : name = "style"
      · refine ⟨st.hasSetInnerHTML, ?_⟩
        simp only [h3, if_true]
        simp [patchStyle_same]
      · by_cases h4 : name = "dangerouslySetInnerHTML"
        · refine ⟨true, ?_⟩
          simp only [h1, h2, h3, h4, if_false, if_true]
          by_cases ht : val.truthy = true
          · simp [ht, strictEq_self]
          · simp [ht]
        · exact ⟨st.hasSetInnerHTML, by simp [h1, h2, h3, h4]⟩

theorem lookup_filter_none {β : Type} (name : String) (q : String × β → Bool) :
    ∀ (l : List (String × β)), l.lookup name = none → (l.filter q).lookup name = none := by
  intro l
  induction l with
  | nil => intro _; rfl
  | cons p rest ih =>
    intro h
    obtain ⟨a, b⟩ := p
    by_cases hab : (name == a) = true
    · simp [List.lookup, hab] at h
    · have hab2 : (name == a) = false := by simpa using hab
      have hr : rest.lookup name = none := by simpa [List.lookup, hab2] using h
      by_cases hq : q (a, b) = true
      · simp only [List.filter, hq, List.lookup, hab2]
        exact ih hr
      · have hq2 : q (a, b) = false := by simpa using hq
        simp only [List.filter, hq2]
        exact ih hr

theorem modifyNode_keeps (w : World) (dom : Nat) (g : HostNode → HostNode)
    (P : HostNode → Prop) (hg : ∀ m, P m → P (g m))
    (h : ∀ n, w.nodes.get? dom = some n → P n) :
    ∀ n, (w.modifyNode dom g).nodes.get? dom = some n → P n := by
  intro n hn
  rw [modifyNode_get] at hn
  cases hm : w.nodes.get? dom with
  | none => rw [hm] at hn; cases hn
  | some m =>
    rw [hm] at hn
    simp only [Option.map_some', Option.some.injEq] at hn
    rw [← hn]
    exact hg m (h m hm)

/-- What `removePropStep` leaves alone: a handler or an attribute that the
element does not have is not added. -/
theorem removePropStep_keeps (dom : Nat) (owner : Option Nat) (isHTML : Bool) (w : World)
    (n2 : String) (v2 : JSVal) (P : HostNode → Prop)
    (hh : ∀ m q, P m → P { m with handlers := m.handlers.filter q })
    (ha : ∀ m q, P m → P { m with attrs := m.attrs.filter q })
    (hp : ∀ m x, P m → P { m with props := x })
    (h : ∀ n, w.nodes.get? dom = some n → P n) :
    ∀ n, (removePropStep dom owner isHTML w n2 v2).nodes.get? dom = some n → P n := by
  unfold removePropStep
  by_cases h1 : n2 = "ref"
  · rw [if_pos h1]
    split
    · exact h
    · exact h
  · rw [if_neg h1]
    by_cases h2 : isEventName n2 = true
    · rw [if_pos h2]
      exact modifyNode_keeps _ dom _ P (fun m hm => hh m _ hm) h
    · rw [if_neg h2]
      split
      · exact modifyNode_keeps _ dom _ P (fun m hm => hp m _ hm) h
      · exact modifyNode_keeps _ dom _ P (fun m hm => hp m _ hm) h
      · unfold operateAttribute
        simp only [strictEq_self, if_true]
        split
        · exact modifyNode_keeps _ dom _ P (fun m hm => ha m _ hm) h
        · exact modifyNode_keeps _ dom _ P (fun m hm => ha m _ hm) h

theorem removePropStep_log (dom : Nat) (owner : Option Nat) (isHTML : Bool) (w : World)
    (n2 : String) (v2 : JSVal) :
    ∃ es, (removePropStep dom owner isHTML w n2 v2).log = w.log ++ es := by
  unfold removePropStep
  by_cases h1 : n2 = "ref"
  · rw [if_pos h1]
    split
    · exact ⟨[_], rfl⟩
    · exact ⟨[], by simp⟩
  · rw [if_neg h1]
    by_cases h2 : isEventName n2 = true
    · rw [if_pos h2]
      exact ⟨[_], rfl⟩
    · rw [if_neg h2]
      split
      · exact ⟨[_], rfl⟩
      · exact ⟨[_], rfl⟩
      · unfold operateAttribute
        simp only [strictEq_self, if_true]
        split
        · exact ⟨[_], rfl⟩
        · exact ⟨[_], rfl⟩

/-- The second loop of `diffProps` from a given point on: the trace grows,
and a handler or attribute that is absent stays absent. -/
theorem removeLoop_spec (dom : Nat) (owner : Option Nat) (isHTML : Bool)
    (ps : List (String × JSVal)) (P : HostNode → Prop)
    (hh : ∀ m q, P m → P { m with handlers := m.handlers.filter q })
    (ha : ∀ m q, P m → P { m with attrs := m.attrs.filter q })
    (hp : ∀ m x, P m → P { m with props := x }) :
    ∀ (qs : List (String × JSVal)) (w : World),
    (∃ es, (qs.foldl (fun w p =>
        if hasProp ps p.1 then w else removePropStep dom owner isHTML w p.1 p.2) w).log =
      w.log ++ es) ∧
    ((∀ n, w.nodes.get? dom = some n → P n) →
      ∀ n, (qs.foldl (fun w p =>
        if hasProp ps p.1 then w else removePropStep dom owner isHTML w p.1 p.2) w).nodes.get? dom =
        some n → P n) := by
  intro qs
  induction qs with
  | nil => intro w; exact ⟨⟨[], by simp⟩, fun h => h⟩
  | cons p rest ih =>
    intro w
    simp only [List.foldl_cons]
    by_cases hq : hasProp ps p.1 = true
    · rw [if_pos hq]
      exact ih w
    · rw [if_neg hq]
      obtain ⟨⟨es2, h2⟩, k2⟩ := ih (removePropStep dom owner isHTML w p.1 p.2)
      obtain ⟨es1, h1⟩ := removePropStep_log dom owner isHTML w p.1 p.2
      refine ⟨⟨es1 ++ es2, by rw [h2, h1, List.append_assoc]⟩, ?_⟩
      intro h
      exact k2 (removePropStep_keeps dom owner isHTML w p.1 p.2 P hh ha hp h)

theorem removeLoop_clears (dom : Nat) (owner : Option Nat) (isHTML : Bool)
    (ps : List (String × JSVal)) (name : String) (val : JSVal)
    (hn : hasProp ps name = false) (hr : name ≠ "ref")
    (qs : List (String × JSVal)) (hm : (name, val) ∈ qs) (w : World) :
    ∃ tail, (qs.foldl (fun w p =>
        if hasProp ps p.1 then w else removePropStep dom owner isHTML w p.1 p.2) w).log =
        w.log ++ tail ∧
      (isEventName name = true →
        Event.deleteHandler dom name ∈ tail ∧
        ∀ n, (qs.foldl (fun w p =>
          if hasProp ps p.1 then w else removePropStep dom owner isHTML w p.1 p.2) w).nodes.get? dom =
          some n → n.handlers.lookup name = none) ∧
      (isEventName name = false → isHTML = true → ∀ x, builtId name = some x →
        Event.setProperty dom name
          (if x.isNone then .prim (.bool false) else .prim (.str "")) ∈ tail) ∧
      (isEventName name = false → isHTML = true → builtId name = none →
        Event.removeAttribute dom name ∈ tail ∧
        ∀ n, (qs.foldl (fun w p =>
          if hasProp ps p.1 then w else removePropStep dom owner isHTML w p.1 p.2) w).nodes.get? dom =
          some n → n.attrs.lookup name = none) ∧
      (isEventName name = false → isHTML = false →
        ∃ ns a, Event.removeAttributeNS dom ns a ∈ tail) := by
  obtain ⟨pre, post, rfl⟩ := List.append_of_mem hm
  simp only [List.foldl_append, List.foldl_cons, hn, Bool.false_eq_true, if_false]
  obtain ⟨⟨e0, h0⟩, -⟩ := removeLoop_spec dom owner isHTML ps (fun _ => True)
    (fun _ _ _ => trivial) (fun _ _ _ => trivial) (fun _ _ _ => trivial) pre w
  generalize pre.foldl (fun w p =>
    if hasProp ps p.1 then w else removePropStep dom owner isHTML w p.1 p.2) w = w0 at h0 ⊢
  obtain ⟨eS, hS⟩ := removePropStep_log dom owner isHTML w0 name val
  obtain ⟨⟨e2, h2⟩, -⟩ := removeLoop_spec dom owner isHTML ps (fun _ => True)
    (fun _ _ _ => trivial) (fun _ _ _ => trivial) (fun _ _ _ => trivial) post
    (removePropStep dom owner isHTML w0 name val)
  have hin : ∀ e, (removePropStep dom owner isHTML w0 name val).log = w0.log ++ [e] →
      e ∈ e0 ++ eS ++ e2 := by
    intro e he
    rw [hS] at he
    have := List.append_cancel_left he
    rw [this]
    simp
  refine ⟨e0 ++ eS ++ e2, by rw [h2, hS, h0]; simp, ?_, ?_, ?_, ?_⟩
  · intro he
    have hstep : removePropStep dom owner isHTML w0 name val =
        (w0.emit (.deleteHandler dom name)).modifyNode dom
          (fun n => { n with handlers := n.handlers.filter (fun p => p.1 ≠ name) }) := by
      simp only [removePropStep, hr, he, if_false, if_true]
    refine ⟨hin _ (by rw [hstep]; rfl), ?_⟩
    refine (removeLoop_spec dom owner isHTML ps (fun m => m.handlers.lookup name = none)
      (fun m q hm => lookup_filter_none name q _ hm) (fun _ _ hm => hm) (fun _ _ hm => hm)
      post _).2 ?_
    rw [hstep]
    intro n hn2
    rw [modifyNode_get] at hn2
    cases hg : (w0.emit (Event.deleteHandler dom name)).nodes.get? dom with
    | none => rw [hg] at hn2; cases hn2
    | some m =>
      rw [hg] at hn2
      simp only [Option.map_some', Option.some.injEq] at hn2
      rw [← hn2]
      exact lookup_filter_ne name _
  · intro he hh x hx
    apply hin
    have hne : ¬ isEventName name = true := by rw [he]; simp
    simp only [removePropStep, hr, hne, if_false, hh, if_true, hx]
    cases x <;> rfl
  · intro he hh hx
    have hne : ¬ isEventName name = true := by rw [he]; simp
    have hstep : removePropStep dom owner isHTML w0 name val =
        (w0.emit (.removeAttribute dom name)).modifyNode dom
          (fun n => { n with attrs := n.attrs.filter (fun p => p.1 ≠ name) }) := by
      simp only [removePropStep, hr, hne, if_false, hh, if_true, hx]
      simp only [operateAttribute, strictEq_self, Bool.not_true, Bool.false_and,
        Bool.false_eq_true, if_false, if_true]
    refine ⟨hin _ (by rw [hstep]; rfl), ?_⟩
    refine (removeLoop_spec dom owner isHTML ps (fun m => m.attrs.lookup name = none)
      (fun _ _ hm => hm) (fun m q hm => lookup_filter_none name q _ hm) (fun _ _ hm => hm)
      post _).2 ?_
    rw [hstep]
    intro n hn2
    rw [modifyNode_get] at hn2
    cases hg : (w0.emit (Event.removeAttribute dom name)).nodes.get? dom with
    | none => rw [hg] at hn2; cases hn2
    | some m =>
      rw [hg] at hn2
      simp only [Option.map_some', Option.some.injEq] at hn2
      rw [← hn2]
      exact lookup_filter_ne name _
  · intro he hh
    have hne : ¬ isEventName name = true := by rw [he]; simp
    have hstep : ∃ ns a, (removePropStep dom owner isHTML w0 name val).log =
        w0.log ++ [Event.removeAttributeNS dom ns a] := by
      simp only [removePropStep, hr, hne, if_false, hh, Bool.false_eq_true]
      simp only [operateAttribute, strictEq_self, Bool.not_false, Bool.true_and, if_true]
      exact ⟨_, _, rfl⟩
    obtain ⟨ns, a, hna⟩ := hstep
    exact ⟨ns, a, hin _ hna⟩

theorem lookup_of_mem_nodup {β : Type} : ∀ (l : List (String × β)) (name : String) (val : β),
    (l.map Prod.fst).Nodup → (name, val) ∈ l → l.lookup name = some val := by
  intro l
  induction l with
  | nil => intro _ _ _ h; cases h
  | cons p rest ih =>
    intro name val hnd hm
    obtain ⟨a, b⟩ := p
    simp only [List.map_cons, List.nodup_cons] at hnd
    rcases List.mem_cons.1 hm with e | e
    · injection e with e1 e2
      subst e1 e2
      simp [List.lookup]
    · have hne : (name == a) = false := by
        simp only [beq_eq_false_iff_ne, ne_eq]
        intro e2
        subst e2
        exact hnd.1 (List.mem_map.2 ⟨(name, val), e, rfl⟩)
      simp only [List.lookup, hne]
      exact ih name val hnd.2 e

/-- The first loop of `diffProps` over props that are all in the previous
props with the same value, none an event name: the world is left as it is. -/
theorem diffPropsLoop_unchanged (env : Env) (dom : Nat) (owner : Option Nat) (isHTML : Bool)
    (qs : List (String × JSVal)) : ∀ (ps : List (String × JSVal)) (st : PropState),
    (∀ p ∈ ps, isEventName p.1 = false ∧ readProp qs p.1 = p.2) →
    ∃ b, diffPropsLoop env dom owner isHTML qs ps st = some { st with hasSetInnerHTML := b } := by
  intro ps
  induction ps with
  | nil => intro st _; exact ⟨st.hasSetInnerHTML, rfl⟩
  | cons p rest ih =>
    intro st h
    obtain ⟨name, val⟩ := p
    obtain ⟨he, hp⟩ := h (name, val) (List.mem_cons_self _ _)
    obtain ⟨b, hb⟩ := diffPropsStep_unchanged env dom owner isHTML qs st name val he hp
    obtain ⟨b2, hb2⟩ := ih { st with hasSetInnerHTML := b }
      (fun q hq => h q (List.mem_cons_of_mem _ hq))
    refine ⟨b2, ?_⟩
    simp only [diffPropsLoop, hb]
    exact hb2

theorem removeLoop_skips (dom : Nat) (owner : Option Nat) (isHTML : Bool)
    (ps : List (String × JSVal)) : ∀ (qs : List (String × JSVal)) (w : World),
    (∀ p ∈ qs, hasProp ps p.1 = true) →
    qs.foldl (fun w p =>
      if hasProp ps p.1 then w else removePropStep dom owner isHTML w p.1 p.2) w = w := by
  intro qs
  induction qs with
  | nil => intro w _; rfl
  | cons p rest ih =>
    intro w h
    simp only [List.foldl_cons, h p (List.mem_cons_self _ _), if_true]
    exact ih w (fun q hq => h q (List.mem_cons_of_mem _ hq))

theorem diffProps_same (env : Env) (w : World) (dom : Nat) (v : VInfo)
    (ps : List (String × JSVal)) (he : ∀ p ∈ ps, isEventName p.1 = false)
    (hnd : (ps.map Prod.fst).Nodup) :
    ∃ b, diffProps env w dom v (some ps) (some ps) = some (w, b) := by
  have hread : ∀ p ∈ ps, isEventName p.1 = false ∧ readProp ps p.1 = p.2 := by
    intro p hp
    refine ⟨he p hp, ?_⟩
    unfold readProp
    rw [lookup_of_mem_nodup ps p.1 p.2 hnd hp]
  obtain ⟨b, hb⟩ := diffPropsLoop_unchanged env dom v.owner (v.ns.isNone || v.ns == some "")
    ps ps { world := w, hasSetInnerHTML := v.hasSetInnerHTML, eventName := none } hread
  refine ⟨b, ?_⟩
  unfold diffProps
  simp only [Option.getD_some, hb, Option.isSome_some, Option.isNone_some, Bool.and_false,
    Bool.false_eq_true, if_false]
  rw [removeLoop_skips dom v.owner _ ps ps w (by
    intro p hp
    unfold hasProp
    rw [lookup_of_mem_nodup ps p.1 p.2 hnd hp]
    rfl)]

theorem allSome_singleton {α : Type} (x : α) : [some x].allSome = some [x] := rfl

theorem diffChildren_text (env : Env) (fuel : Nat) (w : World) (d td : Nat) (dp : Option Nat)
    (s t : String) :
    diffChildren env (fuel + 3) w [textVnode dp t none none] [textVnode dp s (some td) none]
        (some d) =
      some ([textVnode dp t (some td) (some (some d))],
            if s = t then w else setNodeValue w td t) := by
  have hu : computeUUID "#text" (textVnode dp t none none).info =
      computeUUID "#text" (textVnode dp s (some td) none).info ↔ t = s := by
    rw [computeUUID_eq_iff_aux _ _ _ _ (by decide) (by decide)]
    simp [textVnode, VNode.info, textStr]
  simp only [textVnode, VNode.info] at hu
  rw [diffChildren]
  simp only [List.map, oldUUID, newUUID, oldTag, newTag, textVnode, VNode.info, Option.map,
    allSome_singleton]
  by_cases hst : s = t
  · have heq := hu.2 hst.symm
    simp [matchAll, matchStep, buildMapping, Mapping.set, spliceIndexOf, diffChildrenLoop,
      removeLeftovers, VNode.withInfo, VNode.info, List.range, List.range.loop, heq, hst]
  · have hne : ¬ t = s := fun h => hst h.symm
    have hun := (not_congr hu).2 hne
    simp [matchAll, matchStep, buildMapping, Mapping.set, spliceIndexOf, diffChildrenLoop,
      removeLeftovers, VNode.withInfo, VNode.info, List.range, List.range.loop, hun, hst,
      hne, shiftUnused, setNodeValue, textStr]

/-! ## Lemmas: the host tree -/

theorem childrenOf_detach (w : World) (c k : Nat) :
    (w.detach c).childrenOf k = (w.childrenOf k).erase c := by
  unfold World.childrenOf World.detach
  simp only [List.get?_eq_getElem?, List.getElem?_map]
  cases w.nodes[k]? <;> simp

theorem childrenOf_emit (w : World) (e : Event) (k : Nat) :
    (w.emit e).childrenOf k = w.childrenOf k := rfl

theorem childrenOf_modifyNode_self (w : World) (k : Nat) (f : HostNode → HostNode) :
    (w.modifyNode k f).childrenOf k =
      match w.nodes.get? k with
      | some n => (f n).children
      | none => [] := by
  unfold World.childrenOf World.modifyNode
  simp only [List.get?_eq_getElem?, List.getElem?_modify_eq]
  cases w.nodes[k]? <;> rfl

theorem childrenOf_modifyNode_ne (w : World) (k j : Nat) (f : HostNode → HostNode)
    (h : k ≠ j) : (w.modifyNode k f).childrenOf j = w.childrenOf j := by
  unfold World.childrenOf World.modifyNode
  simp only [List.get?_eq_getElem?, List.getElem?_modify_ne _ _ h]

theorem childrenOf_append_self (w : World) (nd c : Nat) (h : nd < w.nodes.length) :
    (appendChild w nd c).childrenOf nd = (w.childrenOf nd).erase c ++ [c] := by
  unfold appendChild
  simp only []
  rw [childrenOf_modifyNode_self]
  have hl : nd < ((w.emit (.appendChild nd c)).detach c).nodes.length := by
    simpa [World.detach, World.emit] using h
  have hd := childrenOf_detach (w.emit (.appendChild nd c)) c nd
  unfold World.childrenOf at hd
  cases hg : ((w.emit (.appendChild nd c)).detach c).nodes.get? nd with
  | none =>
    rw [List.get?_eq_none] at hg
    omega
  | some n =>
    rw [hg] at hd
    simp only [] at hd ⊢
    rw [hd]
    rfl

theorem childrenOf_append_ne (w : World) (nd c k : Nat) (h : nd ≠ k) :
    (appendChild w nd c).childrenOf k = (w.childrenOf k).erase c := by
  unfold appendChild
  simp only []
  rw [childrenOf_modifyNode_ne _ _ _ _ h, childrenOf_detach]
  rfl

theorem appendChild_log (w : World) (nd c : Nat) :
    (appendChild w nd c).log = w.log ++ [.appendChild nd c] := rfl

theorem appendChild_length (w : World) (nd c : Nat) :
    (appendChild w nd c).nodes.length = w.nodes.length := by
  simp [appendChild, World.modifyNode, World.detach, World.emit]

theorem createDOMElement_valid (env : Env) (w : World) (t : String) (ns : Option String)
    (h : env.validName t = true) :
    createDOMElement env w t ns =
      some (w.nodes.length,
        (w.alloc { nodeName := t, ns := usedNs env t ns }).2.emit
          (.createElement w.nodes.length t (usedNs env t ns))) := by
  unfold createDOMElement
  rw [if_pos (Or.inr h)]
  rfl

theorem createDOMElement_some (env : Env) (w : World) (t : String) (ns : Option String)
    (r : Nat × World) (h : createDOMElement env w t ns = some r) :
    r = (w.nodes.length,
        (w.alloc { nodeName := t, ns := usedNs env t ns }).2.emit
          (.createElement w.nodes.length t (usedNs env t ns))) := by
  unfold createDOMElement at h
  split at h
  · simp only [Option.some.injEq] at h
    exact h.symm
  · cases h

theorem childrenOf_alloc (w : World) (n : HostNode) (k : Nat) (h : k < w.nodes.length) :
    (w.alloc n).2.childrenOf k = w.childrenOf k := by
  simp [World.alloc, World.childrenOf, List.get?_eq_getElem?, List.getElem?_append_left h]

theorem childrenOf_alloc_new (w : World) (n : HostNode) :
    (w.alloc n).2.childrenOf w.nodes.length = n.children := by
  simp [World.alloc, World.childrenOf, List.get?_eq_getElem?]

theorem lt_of_mem_childrenOf (w : World) (k d : Nat) (h : d ∈ w.childrenOf k) :
    k < w.nodes.length := by
  unfold World.childrenOf at h
  cases hg : w.nodes.get? k with
  | none => rw [hg] at h; cases h
  | some n => exact (List.get?_eq_some.1 hg).1

theorem mem_replaceFirst (old new x : Nat) : ∀ (cs : List Nat),
    x ∈ cs → x ≠ old → x ∈ replaceFirst old new cs := by
  intro cs
  induction cs with
  | nil => intro h; cases h
  | cons c rest ih =>
    intro h hne
    unfold replaceFirst
    by_cases hc : c = old
    · rw [if_pos hc]
      rcases List.mem_cons.1 h with e | e
      · exact absurd (e.trans hc) hne
      · exact List.mem_cons_of_mem _ e
    · rw [if_neg hc]
      rcases List.mem_cons.1 h with e | e
      · rw [e]; exact List.mem_cons_self _ _
      · exact List.mem_cons_of_mem _ (ih e hne)

theorem mem_replaceFirst_new (old new : Nat) : ∀ (cs : List Nat),
    old ∈ cs → new ∈ replaceFirst old new cs := by
  intro cs
  induction cs with
  | nil => intro h; cases h
  | cons c rest ih =>
    intro h
    unfold replaceFirst
    by_cases hc : c = old
    · rw [if_pos hc]; exact List.mem_cons_self _ _
    · rw [if_neg hc]
      rcases List.mem_cons.1 h with e | e
      · exact absurd e.symm hc
      · exact List.mem_cons_of_mem _ (ih e)

theorem swapChild_keeps (w : World) (p new old x : Nat) (hold : old ∈ w.childrenOf p)
    (hx : x ∈ w.childrenOf p) (hne : x ≠ old) : x ∈ (swapChild w p new old).childrenOf p := by
  unfold swapChild
  simp only []
  by_cases h : new = old
  · rw [if_pos h]; exact hx
  · rw [if_neg h, childrenOf_modifyNode_self]
    have hd := childrenOf_detach (w.emit (.replaceChild p new old)) new p
    have hlt : p < ((w.emit (.replaceChild p new old)).detach new).nodes.length := by
      have := lt_of_mem_childrenOf w p x hx
      simpa [World.detach, World.emit] using this
    unfold World.childrenOf at hd
    cases hg : ((w.emit (.replaceChild p new old)).detach new).nodes.get? p with
    | none =>
      rw [List.get?_eq_none] at hg
      omega
    | some n =>
      rw [hg] at hd
      simp only [] at hd ⊢
      rw [hd]
      have hce : (w.emit (.replaceChild p new old)).childrenOf p = w.childrenOf p := rfl
      unfold World.childrenOf at hce
      rw [hce]
      by_cases hxn : x = new
      · rw [hxn]
        exact mem_replaceFirst_new old new _
          ((List.mem_erase_of_ne (fun e => h e.symm)).2 hold)
      · exact mem_replaceFirst old new x _ ((List.mem_erase_of_ne hxn).2 hx) hne

theorem replaceChild_of_mem (w : World) (p new old : Nat) (h : old ∈ w.childrenOf p) :
    replaceChild w p new old = some (swapChild w p new old) := by
  unfold replaceChild
  rw [if_pos (by simpa using h)]

theorem removeChild_of_mem (w : World) (p d : Nat) (h : d ∈ w.childrenOf p) :
    removeChild w p d = some (dropChild w p d) := by
  unfold removeChild
  rw [if_pos (by simpa using h)]

theorem dropChild_keeps (w : World) (p d x : Nat) (hx : x ∈ w.childrenOf p) (hne : x ≠ d) :
    x ∈ (dropChild w p d).childrenOf p := by
  unfold dropChild
  rw [childrenOf_modifyNode_self]
  have hce : (w.emit (.removeChild p d)).childrenOf p = w.childrenOf p := rfl
  unfold World.childrenOf at hce hx
  change x ∈ (match w.nodes.get? p with
    | some n => n.children.erase d
    | none => [])
  cases hg : w.nodes.get? p with
  | none => rw [hg] at hx; cases hx
  | some n =>
    rw [hg] at hx
    exact (List.mem_erase_of_ne hne).2 hx

theorem appendChild_keeps (w : World) (p c x : Nat) (hx : x ∈ w.childrenOf p) :
    x ∈ (appendChild w p c).childrenOf p := by
  rw [childrenOf_append_self w p c (lt_of_mem_childrenOf w p x hx)]
  by_cases h : x = c
  · rw [h]; simp
  · exact List.mem_append_left _ ((List.mem_erase_of_ne h).2 hx)

theorem moveChildren_go_spec (d nd : Nat) (hne : nd ≠ d) : ∀ (cs : List Nat) (w : World),
    w.childrenOf d = cs → cs.Nodup → (∀ c ∈ cs, c ∉ w.childrenOf nd) →
    nd < w.nodes.length →
    (moveChildren.go d nd cs.length w).childrenOf nd = w.childrenOf nd ++ cs ∧
      (moveChildren.go d nd cs.length w).childrenOf d = [] ∧
      (moveChildren.go d nd cs.length w).log =
        w.log ++ cs.map (fun c => Event.appendChild nd c) ∧
      (moveChildren.go d nd cs.length w).nodes.length = w.nodes.length ∧
      (∀ k x, k ≠ nd → x ∉ cs → x ∈ w.childrenOf k →
        x ∈ (moveChildren.go d nd cs.length w).childrenOf k) := by
  intro cs
  induction cs with
  | nil =>
    intro w hcs _ _ _
    simp [moveChildren.go, hcs]
  | cons c rest ih =>
    intro w hcs hnd hdis hlt
    have hc : c ∉ w.childrenOf nd := hdis c (List.mem_cons_self _ _)
    have hself : (appendChild w nd c).childrenOf nd = w.childrenOf nd ++ [c] := by
      rw [childrenOf_append_self w nd c hlt, List.erase_of_not_mem hc]
    have hother : (appendChild w nd c).childrenOf d = rest := by
      rw [childrenOf_append_ne w nd c d hne, hcs]
      simp
    obtain ⟨h1, h2, h3, h4, h5⟩ := ih (appendChild w nd c) hother (List.nodup_cons.1 hnd).2
      (by intro x hx
          rw [hself]
          intro hmem
          rcases List.mem_append.1 hmem with hm | hm
          · exact hdis x (List.mem_cons_of_mem _ hx) hm
          · have : x = c := by simpa using hm
            exact (List.nodup_cons.1 hnd).1 (this ▸ hx))
      (by rw [appendChild_length]; exact hlt)
    simp only [List.length_cons, moveChildren.go, hcs, List.head?_cons]
    refine ⟨?_, h2, ?_, ?_, ?_⟩
    · rw [h1, hself]; simp
    · rw [h3, appendChild_log]; simp
    · rw [h4, appendChild_length]
    · intro k x hk hx hmem
      refine h5 k x hk (fun e => hx (List.mem_cons_of_mem _ e)) ?_
      rw [childrenOf_append_ne w nd c k (fun e => hk e.symm)]
      exact (List.mem_erase_of_ne (fun e => hx (by rw [e]; exact List.mem_cons_self _ _))).2 hmem

theorem moveChildren_fresh (env : Env) (w : World) (t : String) (ns : Option String)
    (d p : Nat) (r : Nat × World) (hr : createDOMElement env w t ns = some r)
    (hlt : d < w.nodes.length) (hnd : (w.childrenOf d).Nodup)
    (hin : d ∈ w.childrenOf p) (hself : d ∉ w.childrenOf d) :
    r.1 = w.nodes.length ∧
      (moveChildren r.2 d r.1).childrenOf r.1 = w.childrenOf d ∧
      (moveChildren r.2 d r.1).childrenOf d = [] ∧
      (moveChildren r.2 d r.1).log =
        w.log ++ .createElement r.1 t (usedNs env t ns) ::
          (w.childrenOf d).map (fun c => Event.appendChild r.1 c) ∧
      d ∈ (moveChildren r.2 d r.1).childrenOf p := by
  have hr2 := createDOMElement_some env w t ns r hr
  subst hr2
  simp only []
  have hd : ∀ k, k < w.nodes.length →
      ((w.alloc { nodeName := t, ns := usedNs env t ns }).2.emit
        (.createElement w.nodes.length t (usedNs env t ns))).childrenOf k = w.childrenOf k :=
    fun k hk => childrenOf_alloc w _ k hk
  have hn : ((w.alloc { nodeName := t, ns := usedNs env t ns }).2.emit
        (.createElement w.nodes.length t (usedNs env t ns))).childrenOf w.nodes.length = [] :=
    childrenOf_alloc_new w _
  have hp := lt_of_mem_childrenOf w p d hin
  obtain ⟨h1, h2, h3, -, h5⟩ := moveChildren_go_spec d w.nodes.length (Nat.ne_of_gt hlt)
    (w.childrenOf d) _ (hd d hlt) hnd
    (by intro c _; rw [hn]; simp)
    (by simp [World.alloc, World.emit])
  unfold moveChildren
  rw [hd d hlt]
  refine ⟨trivial, ?_, h2, ?_, ?_⟩
  · rw [h1, hn]; simp
  · rw [h3]
    simp [World.alloc, World.emit]
  · exact h5 p d (Nat.ne_of_lt hp) hself (by rw [hd p hp]; exact hin)
/-! ## Lemmas: the third loop of `diffChildren` -/

theorem diffChildrenLoop_cons (env : Env) (parentNode : Option Nat) (fuel i : Nat)
    (v0 : VNode) (km : Option Nat) (rest : List (VNode × Option Nat)) (st : LoopState) :
    diffChildrenLoop env parentNode (fuel + 1) i ((v0, km) :: rest) st =
      match loopStepWith env parentNode (diff env fuel) (toDOM env fuel) i v0 km st with
      | none => none
      | some (v1, st1) =>
        match diffChildrenLoop env parentNode fuel (i + 1) rest st1 with
        | none => none
        | some (vs, st2) => some (v1 :: vs, st2) := by
  rfl


theorem diff_keeps_dom (env : Env) (fuel : Nat) (w : World) (v prev : VNode)
    (vp : Option (Option Nat)) (r : VNode × Option Nat × World) (t : String) (d : Nat)
    (h : diff env fuel w v prev vp = some r)
    (hi : prev.info.inst = none) (hv : v.info.type = .tag t) (hp : prev.info.type = .tag t)
    (hd : prev.info.dom = some d) : r.1.info.dom = some d := by
  cases fuel with
  | zero => simp [diff] at h
  | succ fuel =>
    rw [diff] at h
    simp only [hi, hv, hp, hd, ne_eq, not_true_eq_false, and_false, if_false] at h
    obtain ⟨ni, ncs⟩ := v
    simp only [VNode.withInfo, VNode.info, VNode.children] at h
    split at h
    · cases h
    · split at h
      · split at h
        · cases h
        · injection h with h
          subst h
          rfl
      · injection h with h
        subst h
        rfl

theorem shiftUnused_unused (use : Nat → Bool) : ∀ (removed : List Nat) (k : Nat),
    (shiftUnused use removed).1 = some k → use k = false := by
  intro removed
  induction removed with
  | nil => intro k h; simp [shiftUnused] at h
  | cons x rest ih =>
    intro k h
    unfold shiftUnused at h
    by_cases hx : use x = true
    · rw [if_pos hx] at h
      exact ih k h
    · rw [if_neg hx] at h
      simp only [Option.some.injEq] at h
      subst h
      simpa using hx

theorem modify_get_ne {α : Type} (l : List α) (f : α → α) (k j : Nat) (h : k ≠ j) :
    (l.modify f k).get? j = l.get? j := by
  simp [List.get?_eq_getElem?, List.getElem?_modify_ne _ _ h]

theorem loopStep_matched (env : Env) (parentNode : Option Nat) (t : String)
    (diffF : World → VNode → VNode → Option (Option Nat) → Option (VNode × Option Nat × World))
    (toDOMF : World → VNode → Option Nat → Option Nat → Option (VNode × Nat × World))
    (hdiff : ∀ w v prev vp r d, diffF w v prev vp = some r → prev.info.inst = none →
      v.info.type = .tag t → prev.info.type = .tag t → prev.info.dom = some d →
      r.1.info.dom = some d)
    (i : Nat) (v0 : VNode) (j0 : Nat) (st : LoopState) (v1 : VNode) (st1 : LoopState)
    (prev : VNode) (d : Nat)
    (h : loopStepWith env parentNode diffF toDOMF i v0 (some j0) st = some (v1, st1))
    (hv : v0.info.type = .tag t) (hh : v0.info.hasInstance = false) (hx : v0.info.text = none)
    (ho : st.olds.get? j0 = some prev) (hd : prev.info.dom = some d)
    (hp : prev.info.type = .tag t) (hi : prev.info.inst = none) :
    v1.info.dom = some d ∧
      st1.olds = st.olds.modify (fun o => o.withInfo (fun a => { a with dom := none })) j0 := by
  obtain ⟨ni, ncs⟩ := v0
  simp only [VNode.info] at hv hh hx
  unfold loopStepWith at h
  simp only [ho, VNode.withInfo, VNode.info, hh, hv, hp, hx, Option.isSome_some,
    Bool.false_eq_true, and_false, if_false, if_true, Option.isSome_none] at h
  generalize hdf : diffF st.world _ prev (some parentNode) = res at h
  cases res with
  | none => simp at h
  | some r =>
    obtain ⟨v1a, fst, w1⟩ := r
    simp only [ite_self, Option.some.injEq, Prod.mk.injEq] at h
    obtain ⟨h1, h2⟩ := h
    subst h1
    subst h2
    exact ⟨hdiff _ _ _ _ _ d hdf hi rfl hp hd, rfl⟩

theorem loopStep_unmatched (env : Env) (parentNode : Option Nat)
    (diffF : World → VNode → VNode → Option (Option Nat) → Option (VNode × Option Nat × World))
    (toDOMF : World → VNode → Option Nat → Option Nat → Option (VNode × Nat × World))
    (i : Nat) (v0 : VNode) (st : LoopState) (v1 : VNode) (st1 : LoopState)
    (h : loopStepWith env parentNode diffF toDOMF i v0 none st = some (v1, st1)) :
    st1.olds = st.olds ∨
      ∃ k prev, st.olds.get? k = some prev ∧ prev.info.use = false ∧
        st1.olds = st.olds.modify (fun o => o.withInfo (fun a => { a with dom := none })) k := by
  unfold loopStepWith at h
  simp only [] at h
  cases hp : (shiftUnused (fun k => match st.olds.get? k with
        | some o => o.info.use
        | none => false) st.removed).1 with
  | none =>
    left
    rw [hp] at h
    simp only [] at h
    split at h
    · injection h with h
      injection h with h1 h2
      rw [← h2]
    · split at h
      · cases h
      · injection h with h
        injection h with h1 h2
        rw [← h2]
  | some k =>
    right
    have hu := shiftUnused_unused _ _ k hp
    rw [hp] at h
    simp only [] at h
    cases ho : st.olds.get? k with
    | none => rw [ho] at h; cases h
    | some prev =>
      rw [ho] at h hu
      simp only [] at h hu
      refine ⟨k, prev, ho, hu, ?_⟩
      split at h
      · cases h
      · injection h with h
        injection h with h1 h2
        rw [← h2]

theorem loop_keeps_matched_dom (env : Env) (parentNode : Option Nat) (t : String)
    (D : Nat → Option Nat) :
    ∀ (pairs : List (VNode × Option Nat)) (fuel i : Nat) (st : LoopState)
      (vs : List VNode) (st' : LoopState),
    diffChildrenLoop env parentNode fuel i pairs st = some (vs, st') →
    (∀ n v j, pairs.get? n = some (v, some j) →
      v.info.type = .tag t ∧ v.info.hasInstance = false ∧ v.info.text = none ∧
      ∃ o d, st.olds.get? j = some o ∧ D j = some d ∧ o.info.dom = some d ∧
        o.info.type = .tag t ∧ o.info.inst = none ∧ o.info.use = true) →
    (∀ n n' v v' j, pairs.get? n = some (v, some j) → pairs.get? n' = some (v', some j) →
      n = n') →
    ∀ n v j, pairs.get? n = some (v, some j) → ∃ r, vs.get? n = some r ∧ r.info.dom = D j := by
  intro pairs
  induction pairs with
  | nil => intro fuel i st vs st' _ _ _ n v j hn; simp at hn
  | cons p rest ih =>
    intro fuel i st vs st' h hinv hdist n v j hn
    obtain ⟨v0, km⟩ := p
    cases fuel with
    | zero => simp [diffChildrenLoop] at h
    | succ fuel =>
      rw [diffChildrenLoop_cons] at h
      cases hstep : loopStepWith env parentNode (diff env fuel) (toDOM env fuel) i v0 km st with
      | none => rw [hstep] at h; cases h
      | some q =>
        obtain ⟨v1, st1⟩ := q
        rw [hstep] at h
        simp only [] at h
        cases hrec : diffChildrenLoop env parentNode fuel (i + 1) rest st1 with
        | none => rw [hrec] at h; cases h
        | some q2 =>
          obtain ⟨vs2, st2⟩ := q2
          rw [hrec] at h
          simp only [Option.some.injEq, Prod.mk.injEq] at h
          obtain ⟨hvs, -⟩ := h
          subst hvs
          -- the old children of the pairs still to come are untouched by the step
          have hkeep : ∀ n v j, rest.get? n = some (v, some j) →
              ∀ o, st.olds.get? j = some o → o.info.use = true → st1.olds.get? j = some o := by
            intro n' v' j' hn' o ho hu
            cases km with
            | some j0 =>
              obtain ⟨hv0, hh0, hx0, o0, d0, ho0, -, hd0, hp0, hi0, -⟩ := hinv 0 v0 j0 rfl
              obtain ⟨-, holds⟩ := loopStep_matched env parentNode t (diff env fuel)
                (toDOM env fuel)
                (fun w v prev vp r d hr hi hv hp hd => diff_keeps_dom env fuel w v prev vp r t d hr hi hv hp hd)
                i v0 j0 st v1 st1 o0 d0 hstep hv0 hh0 hx0 ho0 hd0 hp0 hi0
              have hne : j0 ≠ j' := by
                intro e
                subst e
                have := hdist 0 (n' + 1) v0 v' j0 rfl hn'
                omega
              rw [holds, modify_get_ne _ _ _ _ hne]
              exact ho
            | none =>
              rcases loopStep_unmatched env parentNode (diff env fuel) (toDOM env fuel)
                i v0 st v1 st1 hstep with holds | ⟨k, prev, hk, hku, holds⟩
              · rw [holds]; exact ho
              · have hne : k ≠ j' := by
                  intro e
                  subst e
                  rw [hk] at ho
                  injection ho with ho
                  subst ho
                  rw [hu] at hku
                  cases hku
                rw [holds, modify_get_ne _ _ _ _ hne]
                exact ho
          cases n with
          | zero =>
            simp only [List.get?_cons_zero, Option.some.injEq, Prod.mk.injEq] at hn
            obtain ⟨hv, hk⟩ := hn
            subst hv
            subst hk
            obtain ⟨hv0, hh0, hx0, o0, d0, ho0, hD, hd0, hp0, hi0, -⟩ := hinv 0 v0 j rfl
            obtain ⟨hdom, -⟩ := loopStep_matched env parentNode t (diff env fuel)
              (toDOM env fuel)
              (fun w v prev vp r d hr hi hv hp hd => diff_keeps_dom env fuel w v prev vp r t d hr hi hv hp hd)
              i v0 j st v1 st1 o0 d0 hstep hv0 hh0 hx0 ho0 hd0 hp0 hi0
            exact ⟨v1, rfl, by rw [hdom, hD]⟩
          | succ n =>
            simp only [List.get?_cons_succ] at hn
            have := ih fuel (i + 1) st1 vs2 st2 hrec
              (by
                intro n' v' j' hn'
                obtain ⟨a, b, c, o, d, ho, hD, hd, hp, hi, hu⟩ := hinv (n' + 1) v' j' hn'
                exact ⟨a, b, c, o, d, hkeep n' v' j' hn' o ho hu, hD, hd, hp, hi, hu⟩)
              (by
                intro a b v' v'' j' ha hb
                have := hdist (a + 1) (b + 1) v' v'' j' ha hb
                omega)
              n v j hn
            simpa using this

theorem nodup_get_inj {α : Type} : ∀ (l : List α), l.Nodup → ∀ (a b : Nat) (x : α),
    l.get? a = some x → l.get? b = some x → a = b := by
  intro l
  induction l with
  | nil => intro _ a b x ha _; simp at ha
  | cons y rest ih =>
    intro hnd a b x ha hb
    obtain ⟨hy, hrest⟩ := List.nodup_cons.1 hnd
    cases a with
    | zero =>
      cases b with
      | zero => rfl
      | succ b =>
        simp only [List.get?_cons_zero, Option.some.injEq] at ha
        simp only [List.get?_cons_succ] at hb
        subst ha
        exact absurd (List.get?_mem hb) hy
    | succ a =>
      cases b with
      | zero =>
        simp only [List.get?_cons_zero, Option.some.injEq] at hb
        simp only [List.get?_cons_succ] at ha
        subst hb
        exact absurd (List.get?_mem ha) hy
      | succ b =>
        simp only [List.get?_cons_succ] at ha hb
        rw [ih hrest a b x ha hb]

theorem allSome_map_some {α β : Type} (f : α → β) : ∀ (l : List α),
    (l.map (fun x => some (f x))).allSome = some (l.map f) := by
  intro l
  induction l with
  | nil => rfl
  | cons x rest ih =>
    unfold List.allSome at ih ⊢
    rw [List.map_cons, List.mapM_cons, ih]
    rfl

/-- The marking of the matched old children keeps everything but `use`. -/
theorem mark_fold_get : ∀ (ms : List (Option Nat)) (olds : List VNode) (j : Nat) (o : VNode),
    olds.get? j = some o →
    ∃ o', (ms.foldl (fun l m =>
        match m with
        | some j => l.modify (fun o => o.withInfo (fun a => { a with use := true })) j
        | none => l) olds).get? j = some o' ∧
      o'.info.dom = o.info.dom ∧ o'.info.type = o.info.type ∧ o'.info.inst = o.info.inst ∧
      (o.info.use = true ∨ some j ∈ ms → o'.info.use = true) := by
  intro ms
  induction ms with
  | nil => intro olds j o h; exact ⟨o, h, rfl, rfl, rfl, by simp⟩
  | cons m rest ih =>
    intro olds j o h
    cases m with
    | none =>
      obtain ⟨o', h1, h2, h3, h4, h5⟩ := ih olds j o h
      refine ⟨o', by simpa using h1, h2, h3, h4, ?_⟩
      intro hu
      apply h5
      rcases hu with hu | hu
      · exact Or.inl hu
      · right
        simpa using hu
    | some k =>
      by_cases hk : k = j
      · subst hk
        obtain ⟨o', h1, h2, h3, h4, h5⟩ := ih
          (olds.modify (fun o => o.withInfo (fun a => { a with use := true })) k) k
          (o.withInfo (fun a => { a with use := true }))
          (by simp [List.get?_eq_getElem?, List.getElem?_modify_eq] at h ⊢; simp [h])
        obtain ⟨oi, ocs⟩ := o
        refine ⟨o', by simpa using h1, h2, h3, h4, fun _ => h5 (Or.inl rfl)⟩
      · obtain ⟨o', h1, h2, h3, h4, h5⟩ := ih
          (olds.modify (fun o => o.withInfo (fun a => { a with use := true })) k) j o
          (by rw [modify_get_ne _ _ _ _ hk]; exact h)
        refine ⟨o', by simpa using h1, h2, h3, h4, ?_⟩
        intro hu
        apply h5
        rcases hu with hu | hu
        · exact Or.inl hu
        · right
          simp only [List.mem_cons, Option.some.injEq] at hu
          rcases hu with hu | hu
          · exact absurd hu.symm hk
          · exact hu
theorem uuid_eq_iff_key (t : String) (a b : VInfo) (ht : '/' ∉ t.data) (ht2 : t ≠ "#text")
    (hd : a.deep = b.deep) : computeUUID t a = computeUUID t b ↔ a.key = b.key := by
  rw [computeUUID_eq_iff_aux t t a b ht ht]
  simp [ht2, hd]

theorem map_get? {α β : Type} (f : α → β) (l : List α) (i : Nat) :
    (l.map f).get? i = (l.get? i).map f := by
  simp [List.get?_eq_getElem?]


theorem diffChildren_nil (env : Env) (fuel : Nat) (w : World) (parentNode : Option Nat) :
    diffChildren env (fuel + 2) w [] [] parentNode = some ([], w) := by
  have h0 : ([] : List (Option String)).allSome = some [] := rfl
  rw [diffChildren]
  simp only [List.map_nil, h0]
  simp [matchAll, diffChildrenLoop, removeLeftovers]

theorem diffProps_nil (env : Env) (w : World) (d : Nat) (v : VInfo)
    (prevProps : Option (List (String × JSVal))) (hp : prevProps.getD [] = []) :
    diffProps env w d v (some []) prevProps = some (w, v.hasSetInnerHTML) := by
  simp [diffProps, diffPropsLoop, hp]

theorem diff_leaf_total (env : Env) (fuel : Nat) (w : World) (v prev : VNode)
    (p : Nat) (t : String) (hval : env.validName t = true)
    (hv : newLeaf t v) (hp : oldLeaf t prev) :
    ∃ r, diff env (fuel + 3) w v prev (some (some p)) = some r ∧
      ∀ x, x ∈ w.childrenOf p → x ∈ r.2.2.childrenOf p := by
  obtain ⟨ni, ncs⟩ := v
  obtain ⟨pi, pcs⟩ := prev
  obtain ⟨a1, a2, a3, a4, a5, a6, a7, a8⟩ := hv
  obtain ⟨b1, b2, b3, b4, b5, b6⟩ := hp
  simp only [VNode.info, VNode.children] at a1 a2 a3 a4 a5 a6 a7 a8 b1 b2 b3 b4 b5 b6
  subst a4 b4
  rw [diff]
  simp only [VNode.info, VNode.children, VNode.withInfo, a1, a2, a3, a5, a7, b1, b2, b3, b5, b6,
    ne_eq, not_true_eq_false, and_false, if_false, if_true, Option.isSome_none,
    Bool.false_eq_true, false_and, createDOMElement_valid env _ t _ hval, Option.join,
    Option.some_bind, id]
  cases hd : pi.dom with
  | some d =>
    simp only []
    rw [diffProps_nil env w d _ (some []) rfl]
    simp only [Bool.not_false, Bool.and_self, if_true, diffChildren_nil]
    exact ⟨_, rfl, fun x hx => hx⟩
  | none =>
    simp only []
    rw [diffProps_nil env _ _ _ (some []) rfl]
    simp only [Bool.not_false, Bool.and_self, if_true, diffChildren_nil]
    refine ⟨_, rfl, ?_⟩
    intro x hx
    refine appendChild_keeps _ p _ x ?_
    rw [childrenOf_emit, childrenOf_alloc _ _ p (lt_of_mem_childrenOf w p x hx)]
    exact hx

theorem controlled_nil (t : String) : controlled t [] = formControls.contains t := by
  simp [controlled, readProp, protoNames]

theorem toDOM_leaf_total (env : Env) (fuel : Nat) (w : World) (v : VNode)
    (p : Nat) (replaced : Option Nat) (t : String) (hval : env.validName t = true)
    (hfc : formControls.contains t = false)
    (hv : newLeaf t v) (hr : ∀ d, replaced = some d → d ∈ w.childrenOf p) :
    ∃ r, toDOM env (fuel + 3) w v (some p) replaced = some r ∧
      ∀ x, x ∈ w.childrenOf p → replaced ≠ some x → x ∈ r.2.2.childrenOf p := by
  obtain ⟨ni, ncs⟩ := v
  obtain ⟨a1, a2, a3, a4, a5, a6, a7, a8⟩ := hv
  simp only [VNode.info, VNode.children] at a1 a2 a3 a4 a5 a6 a7 a8
  subst a4
  have hkeep : ∀ (r : Nat × World), (∀ x, x ∈ w.childrenOf p → x ∈ r.2.childrenOf p) →
      ∃ w6, (match replaced with
        | some old => replaceChild r.2 p r.1 old
        | none => some (appendChild r.2 p r.1)) = some w6 ∧
        ∀ x, x ∈ w.childrenOf p → replaced ≠ some x → x ∈ w6.childrenOf p := by
    intro r hk
    cases replaced with
    | none =>
      exact ⟨_, rfl, fun x hx _ => appendChild_keeps _ p _ x (hk x hx)⟩
    | some old =>
      have ho := hk old (hr old rfl)
      refine ⟨_, replaceChild_of_mem _ p _ old ho, ?_⟩
      intro x hx hne
      exact swapChild_keeps _ p _ old x ho (hk x hx) (fun e => hne (by rw [e]))
  rw [toDOM, toVnode]
  simp only [VNode.info, a1]
  by_cases hc : t = "#comment"
  · obtain ⟨w6, h6, hk6⟩ := hkeep (createComment w (textStr ni.text)) (by
      intro x hx
      unfold createComment
      simp only []
      rw [childrenOf_emit, childrenOf_alloc _ _ p (lt_of_mem_childrenOf w p x hx)]
      exact hx)
    simp only [hc, if_true, ne_eq, not_true_eq_false, false_and, if_false, VNode.withInfo,
      VNode.info, a8, setInstanceVnode, List.foldl_nil, Option.isSome_none, Bool.false_and,
      Bool.false_eq_true]
    rw [h6]
    exact ⟨_, rfl, hk6⟩
  · by_cases hx : t = "#text"
    · obtain ⟨w6, h6, hk6⟩ := hkeep (createTextNode w (textStr ni.text)) (by
        intro x hx
        unfold createTextNode
        simp only []
        rw [childrenOf_emit, childrenOf_alloc _ _ p (lt_of_mem_childrenOf w p x hx)]
        exact hx)
      simp only [hx, if_true, ne_eq, not_true_eq_false, and_false, if_false, VNode.withInfo,
        VNode.info, a8, setInstanceVnode, List.foldl_nil, Option.isSome_none, Bool.false_and,
        Bool.false_eq_true, String.reduceEq]
      rw [h6]
      exact ⟨_, rfl, hk6⟩
    · obtain ⟨w6, h6, hk6⟩ := hkeep (w.nodes.length,
          (w.alloc { nodeName := t, ns := usedNs env t ni.ns }).2.emit
            (.createElement w.nodes.length t (usedNs env t ni.ns))) (by
        intro x hx
        simp only []
        rw [childrenOf_emit, childrenOf_alloc _ _ p (lt_of_mem_childrenOf w p x hx)]
        exact hx)
      simp only [hc, hx, if_false, ne_eq, not_false_eq_true, and_self, if_true, VNode.withInfo,
        VNode.info, VNode.children, a2, a3, a7, a8, createDOMElement_valid env _ t _ hval,
        diffProps_nil env _ _ _ none rfl, controlled_nil, hfc, diffChildren_nil,
        Bool.false_eq_true, setInstanceVnode, List.foldl_nil, Option.isSome_none,
        Bool.false_and]
      rw [h6]
      exact ⟨_, rfl, hk6⟩

theorem shiftUnused_suffix (use : Nat → Bool) : ∀ (l : List Nat),
    (∀ k, (shiftUnused use l).1 = some k → ∃ pre, l = pre ++ k :: (shiftUnused use l).2) ∧
    ((shiftUnused use l).1 = none → (shiftUnused use l).2 = []) := by
  intro l
  induction l with
  | nil => simp [shiftUnused]
  | cons x rest ih =>
    unfold shiftUnused
    by_cases hx : use x = true
    · rw [if_pos hx]
      refine ⟨?_, ih.2⟩
      intro k hk
      obtain ⟨pre, hpre⟩ := ih.1 k hk
      exact ⟨x :: pre, by rw [List.cons_append, ← hpre]⟩
    · rw [if_neg hx]
      refine ⟨?_, by intro h; cases h⟩
      intro k hk
      simp only [Option.some.injEq] at hk
      subst hk
      exact ⟨[], rfl⟩

theorem removeComponent_leaf (env : Env) (t : String) (o : VNode) (w : World)
    (ho : oldLeaf t o) : removeComponent env o w = some w := by
  obtain ⟨oi, ocs⟩ := o
  obtain ⟨b1, b2, b3, b4, b5, b6⟩ := ho
  simp only [VNode.info, VNode.children] at b1 b2 b3 b4 b5 b6
  subst b4
  unfold removeComponent
  simp only [b2, if_true, b5, removeComponent.removeList]

theorem removeLeftovers_total (env : Env) (p : Nat) (t : String) (olds : List VNode)
    (hdist : ∀ k k2 o o2 d, olds.get? k = some o → olds.get? k2 = some o2 →
      o.info.dom = some d → o2.info.dom = some d → k = k2) :
    ∀ (removed : List Nat) (w : World), removed.Nodup →
    (∀ k ∈ removed, ∃ o d, olds.get? k = some o ∧ o.info.dom = some d ∧
      d ∈ w.childrenOf p ∧ oldLeaf t o) →
    ∃ w1, removeLeftovers env (some p) olds removed w = some w1 := by
  intro removed
  induction removed with
  | nil => intro w _ _; exact ⟨w, rfl⟩
  | cons k rest ih =>
    intro w hnd h
    obtain ⟨o, d, ho, hd, hin, hl⟩ := h k (List.mem_cons_self _ _)
    obtain ⟨hk, hrest⟩ := List.nodup_cons.1 hnd
    obtain ⟨w2, hw2⟩ := ih (dropChild w p d) hrest (by
      intro k2 hk2
      obtain ⟨o2, d2, ho2, hd2, hin2, hl2⟩ := h k2 (List.mem_cons_of_mem _ hk2)
      refine ⟨o2, d2, ho2, hd2, dropChild_keeps w p d d2 hin2 ?_, hl2⟩
      intro e
      rw [e] at hd2
      have := hdist k2 k o2 o d ho2 ho hd2 hd
      rw [this] at hk2
      exact hk hk2)
    refine ⟨w2, ?_⟩
    unfold removeLeftovers
    simp only [ho, hd, hl.2.1, if_true, removeChild_of_mem w p d hin,
      removeComponent_leaf env t o _ hl]
    exact hw2

theorem loopStep_total (env : Env) (p : Nat) (t : String)
    (diffF : World → VNode → VNode → Option (Option Nat) → Option (VNode × Option Nat × World))
    (toDOMF : World → VNode → Option Nat → Option Nat → Option (VNode × Nat × World))
    (hdiff : ∀ w v prev, newLeaf t v → oldLeaf t prev →
      ∃ r, diffF w v prev (some (some p)) = some r ∧
        ∀ x, x ∈ w.childrenOf p → x ∈ r.2.2.childrenOf p)
    (htoDOM : ∀ w v rp, newLeaf t v → (∀ d, rp = some d → d ∈ w.childrenOf p) →
      ∃ r, toDOMF w v (some p) rp = some r ∧
        ∀ x, x ∈ w.childrenOf p → rp ≠ some x → x ∈ r.2.2.childrenOf p)
    (i : Nat) (v0 : VNode) (km : Option Nat) (st : LoopState)
    (hv : newLeaf t v0)
    (holds : ∀ j o, st.olds.get? j = some o → oldLeaf t o)
    (hpick : ∀ k, (pickOf km st).1 = some k → k < st.olds.length)
    (hrep : ∀ o d, st.olds.get? i = some o → o.info.dom = some d →
      d ∈ st.world.childrenOf p) :
    ∃ v1 st1, loopStepWith env (some p) diffF toDOMF i v0 km st = some (v1, st1) ∧
      st1.removed = (pickOf km st).2 ∧ st1.olds = oldsAfter st.olds (pickOf km st).1 ∧
      ∀ x, x ∈ st.world.childrenOf p →
        ((pickOf km st).1 = none → ∀ o, st.olds.get? i = some o → o.info.dom ≠ some x) →
        x ∈ st1.world.childrenOf p := by
  obtain ⟨ni, ncs⟩ := v0
  obtain ⟨a1, a2, a3, a4, a5, a6, a7, a8⟩ := hv
  simp only [VNode.info, VNode.children] at a1 a2 a3 a4 a5 a6 a7 a8
  have hleaf : newLeaf t (VNode.mk { ni with hostParent := some (some p) } ncs) :=
    ⟨a1, a2, a3, a4, a5, a6, a7, a8⟩
  unfold loopStepWith
  change ∃ v1 st1, (match (pickOf km st).1 with
    | some j => _
    | none => _) = some (v1, st1) ∧ _
  cases hp : (pickOf km st).1 with
  | none =>
    simp only []
    split
    · exact ⟨_, _, rfl, rfl, rfl, fun x hx _ => hx⟩
    · obtain ⟨r, hr, hk⟩ := htoDOM st.world (VNode.mk { ni with hostParent := some (some p) } ncs)
        ((st.olds.get? i).bind (fun o => o.info.dom)) hleaf (by
          intro d hd
          cases ho : st.olds.get? i with
          | none => rw [ho] at hd; cases hd
          | some o =>
            rw [ho] at hd
            exact hrep o d ho hd)
      obtain ⟨v1, d1, w1⟩ := r
      simp only [VNode.withInfo, hr]
      refine ⟨_, _, rfl, rfl, rfl, ?_⟩
      intro x hx hne
      refine hk x hx ?_
      intro e
      cases ho : st.olds.get? i with
      | none => rw [ho] at e; cases e
      | some o =>
        rw [ho] at e
        exact hne trivial o ho e
  | some k =>
    have hk := hpick k hp
    obtain ⟨prev, hprev⟩ : ∃ prev, st.olds.get? k = some prev :=
      ⟨st.olds.get ⟨k, hk⟩, List.get?_eq_get hk⟩
    have hpl := holds k prev hprev
    obtain ⟨pinfo, pcs⟩ := prev
    have hpt : pinfo.type = .tag t := hpl.1
    obtain ⟨r, hr, hkeep⟩ := hdiff st.world (VNode.mk { ni with hostParent := some (some p) } ncs)
      (VNode.mk pinfo pcs) hleaf hpl
    obtain ⟨v1, d1, w1⟩ := r
    simp only [a1, a5, a6] at hr
    simp only [hprev, VNode.withInfo, VNode.info, a6, a1, hpt, a5, Bool.false_eq_true,
      and_false, if_false, if_true, Option.isSome_none, hr, oldsAfter]
    exact ⟨_, _, rfl, rfl, rfl, fun x hx _ => hkeep x hx⟩

theorem pick_facts (km : Option Nat) (st : LoopState) (hnd : st.removed.Nodup)
    (hkm : ∀ j, km = some j → j ∉ st.removed) :
    (pickOf km st).2.Nodup ∧
    (∀ k ∈ (pickOf km st).2, k ∈ st.removed ∧ (pickOf km st).1 ≠ some k) ∧
    (km = none → ∀ k, (pickOf km st).1 = some k → k ∈ st.removed) := by
  cases km with
  | some j =>
    refine ⟨hnd, ?_, by intro h; cases h⟩
    intro k hk
    refine ⟨hk, ?_⟩
    intro e
    simp only [pickOf, Option.some.injEq] at e
    subst e
    exact hkm j rfl hk
  | none =>
    obtain ⟨h1, h2⟩ := shiftUnused_suffix (fun k => match st.olds.get? k with
        | some o => o.info.use
        | none => false) st.removed
    unfold pickOf
    simp only []
    generalize shiftUnused (fun k => match st.olds.get? k with
        | some o => o.info.use
        | none => false) st.removed = q at h1 h2 ⊢
    obtain ⟨q1, q2⟩ := q
    simp only [] at h1 h2 ⊢
    cases q1 with
    | none =>
      have hq2 := h2 rfl
      subst hq2
      simp
    | some k0 =>
      obtain ⟨pre, hpre⟩ := h1 k0 rfl
      have hnd2 : (pre ++ k0 :: q2).Nodup := by rw [← hpre]; exact hnd
      have hsub := (List.nodup_append.1 hnd2).2.1
      obtain ⟨hk0, hrest⟩ := List.nodup_cons.1 hsub
      refine ⟨hrest, ?_, ?_⟩
      · intro k hk
        refine ⟨by rw [hpre]; simp [hk], ?_⟩
        intro e
        simp only [Option.some.injEq] at e
        subst e
        exact hk0 hk
      · intro _ k hk
        simp only [Option.some.injEq] at hk
        subst hk
        rw [hpre]
        simp

theorem oldsAfter_get (olds : List VNode) (picked : Option Nat) (j : Nat) (o : VNode)
    (h : (oldsAfter olds picked).get? j = some o) :
    ∃ o0, olds.get? j = some o0 ∧
      (o = o0 ∨ o = o0.withInfo (fun a => { a with dom := none })) := by
  cases picked with
  | none => exact ⟨o, h, Or.inl rfl⟩
  | some k =>
    simp only [oldsAfter] at h
    by_cases hk : k = j
    · subst hk
      rw [List.get?_eq_getElem?, List.getElem?_modify_eq] at h
      cases ho : olds[k]? with
      | none => rw [ho] at h; cases h
      | some o0 =>
        rw [ho] at h
        simp only [Option.map_eq_map, Option.map_some', Option.some.injEq] at h
        exact ⟨o0, by rw [List.get?_eq_getElem?, ho], Or.inr h.symm⟩
    · rw [modify_get_ne _ _ _ _ hk] at h
      exact ⟨o, h, Or.inl rfl⟩

theorem oldsAfter_get_ne (olds : List VNode) (picked : Option Nat) (j : Nat)
    (h : picked ≠ some j) : (oldsAfter olds picked).get? j = olds.get? j := by
  cases picked with
  | none => rfl
  | some k =>
    simp only [oldsAfter]
    exact modify_get_ne _ _ _ _ (fun e => h (by rw [e]))

theorem oldsAfter_length (olds : List VNode) (picked : Option Nat) :
    (oldsAfter olds picked).length = olds.length := by
  cases picked <;> simp [oldsAfter]

theorem oldLeaf_withInfo_dom (t : String) (o : VNode) (h : oldLeaf t o) :
    oldLeaf t (o.withInfo (fun a => { a with dom := none })) := by
  obtain ⟨oi, ocs⟩ := o
  exact h

theorem oldsAfter_get_dom (olds : List VNode) (picked : Option Nat) (j : Nat) (o : VNode)
    (d : Nat) (h : (oldsAfter olds picked).get? j = some o) (hd : o.info.dom = some d) :
    olds.get? j = some o := by
  obtain ⟨o0, h0, hcase⟩ := oldsAfter_get olds picked j o h
  rcases hcase with e | e
  · rw [e]; exact h0
  · rw [e] at hd
    obtain ⟨oi, ocs⟩ := o0
    cases hd

theorem pick_none (km : Option Nat) (st : LoopState) (h : (pickOf km st).1 = none) :
    (pickOf km st).2 = [] := by
  cases km with
  | some j => cases h
  | none => exact (shiftUnused_suffix _ st.removed).2 h

theorem loop_total (env : Env) (p : Nat) (t : String) (hval : env.validName t = true)
    (hfc : formControls.contains t = false) :
    ∀ (pairs : List (VNode × Option Nat)) (fuel i : Nat) (st : LoopState),
    pairs.length + 4 ≤ fuel →
    (∀ pr ∈ pairs, newLeaf t pr.1) →
    (∀ j o, st.olds.get? j = some o → oldLeaf t o) →
    (∀ pr ∈ pairs, ∀ j, pr.2 = some j → j < st.olds.length ∧ j ∉ st.removed) →
    st.removed.Nodup →
    (∀ k ∈ st.removed, ∃ o, st.olds.get? k = some o ∧ o.info.dom.isSome) →
    (∀ k o d, st.olds.get? k = some o → o.info.dom = some d → (i ≤ k ∨ k ∈ st.removed) →
      d ∈ st.world.childrenOf p) →
    (∀ k k2 o o2 d, st.olds.get? k = some o → st.olds.get? k2 = some o2 →
      o.info.dom = some d → o2.info.dom = some d → k = k2) →
    ∃ vs st', diffChildrenLoop env (some p) fuel i pairs st = some (vs, st') ∧
      (∀ j o, st'.olds.get? j = some o → oldLeaf t o) ∧
      (∀ k ∈ st'.removed, ∃ o, st'.olds.get? k = some o ∧ o.info.dom.isSome) ∧
      st'.removed.Nodup ∧
      (∀ k o d, st'.olds.get? k = some o → o.info.dom = some d → k ∈ st'.removed →
        d ∈ st'.world.childrenOf p) ∧
      (∀ k k2 o o2 d, st'.olds.get? k = some o → st'.olds.get? k2 = some o2 →
        o.info.dom = some d → o2.info.dom = some d → k = k2) := by
  intro pairs
  induction pairs with
  | nil =>
    intro fuel i st hf _ holds _ hnd hrem hlive hdist
    obtain ⟨f, rfl⟩ : ∃ f, fuel = f + 1 := ⟨fuel - 1, by simp at hf; omega⟩
    exact ⟨[], st, by simp [diffChildrenLoop], holds, hrem, hnd,
      fun k o d ho hd hk => hlive k o d ho hd (Or.inr hk), hdist⟩
  | cons pr rest ih =>
    intro fuel i st hf hleaf holds hpairs hnd hrem hlive hdist
    obtain ⟨v0, km⟩ := pr
    obtain ⟨g, rfl⟩ : ∃ g, fuel = (g + 3) + 1 := ⟨fuel - 4, by simp at hf; omega⟩
    obtain ⟨hnd1, hsub1, hin1⟩ := pick_facts km st hnd
      (fun j hj => (hpairs (v0, km) (List.mem_cons_self _ _) j hj).2)
    have hpick : ∀ k, (pickOf km st).1 = some k → k < st.olds.length := by
      intro k hk
      cases km with
      | some j =>
        simp only [pickOf, Option.some.injEq] at hk
        subst hk
        exact (hpairs (v0, some j) (List.mem_cons_self _ _) j rfl).1
      | none =>
        obtain ⟨o, ho, -⟩ := hrem k (hin1 rfl k hk)
        exact (List.get?_eq_some.1 ho).1
    obtain ⟨v1, st1, hstep, hr1, ho1, hkeep⟩ := loopStep_total env p t (diff env (g + 3))
      (toDOM env (g + 3))
      (fun w v prev hv hp => diff_leaf_total env g w v prev p t hval hv hp)
      (fun w v rp hv hr => toDOM_leaf_total env g w v p rp t hval hfc hv hr)
      i v0 km st (hleaf (v0, km) (List.mem_cons_self _ _)) holds hpick
      (fun o d ho hd => hlive i o d ho hd (Or.inl (Nat.le_refl _)))
    obtain ⟨vs2, st2, hrec, hA, hB, hC, hD, hE⟩ := ih (g + 3) (i + 1) st1
      (by simp at hf ⊢; omega)
      (fun pr hpr => hleaf pr (List.mem_cons_of_mem _ hpr))
      (by
        intro j o ho
        rw [ho1] at ho
        obtain ⟨o0, ho0, hcase⟩ := oldsAfter_get _ _ _ _ ho
        rcases hcase with rfl | rfl
        · exact holds j o ho0
        · exact oldLeaf_withInfo_dom t o0 (holds j o0 ho0))
      (by
        intro pr hpr j hj
        obtain ⟨a, b⟩ := hpairs pr (List.mem_cons_of_mem _ hpr) j hj
        rw [ho1, oldsAfter_length, hr1]
        exact ⟨a, fun hmem => b (hsub1 j hmem).1⟩)
      (by rw [hr1]; exact hnd1)
      (by
        intro k hk
        rw [hr1] at hk
        obtain ⟨hk1, hk2⟩ := hsub1 k hk
        rw [ho1, oldsAfter_get_ne _ _ _ hk2]
        exact hrem k hk1)
      (by
        intro k o d ho hd hk
        rw [ho1] at ho
        have ho0 := oldsAfter_get_dom _ _ _ _ d ho hd
        have hold : i ≤ k ∨ k ∈ st.removed := by
          rcases hk with hk | hk
          · exact Or.inl (by omega)
          · rw [hr1] at hk
            exact Or.inr (hsub1 k hk).1
        refine hkeep d (hlive k o d ho0 hd hold) ?_
        intro hpn o2 ho2 hd2
        have hki := hdist k i o o2 d ho0 ho2 hd hd2
        rcases hk with hk | hk
        · omega
        · rw [hr1, pick_none km st hpn] at hk
          cases hk)
      (by
        intro k k2 o o2 d ho ho2 hd hd2
        rw [ho1] at ho ho2
        exact hdist k k2 o o2 d (oldsAfter_get_dom _ _ _ _ d ho hd)
          (oldsAfter_get_dom _ _ _ _ d ho2 hd2) hd hd2)
    refine ⟨v1 :: vs2, st2, ?_, hA, hB, hC, hD, hE⟩
    rw [diffChildrenLoop_cons, hstep]
    show (match diffChildrenLoop env (some p) (g + 3) (i + 1) rest st1 with
      | none => none
      | some (vs, st2) => some (v1 :: vs, st2)) = _
    rw [hrec]

theorem spliceIndexOf_sublist (removed : List Nat) (j : Nat) :
    (spliceIndexOf removed j).Sublist removed := by
  unfold spliceIndexOf
  split
  · exact List.eraseIdx_sublist _ _
  · exact List.dropLast_sublist _

theorem matchAll_removed_sublist : ∀ (keys : List String) (s : MatchState),
    (matchAll s keys).2.removed.Sublist s.removed := by
  intro keys
  induction keys with
  | nil => intro s; exact List.Sublist.refl _
  | cons u rest ih =>
    intro s
    simp only [matchAll]
    refine (ih (matchStep s u).2).trans ?_
    unfold matchStep
    cases hm : s.mapping u with
    | none => exact List.Sublist.refl _
    | some q =>
      simp only []
      cases hq : q.head? with
      | none => exact List.Sublist.refl _
      | some j => exact spliceIndexOf_sublist _ _

theorem mark_fold_leaf (t : String) : ∀ (ms : List (Option Nat)) (olds : List VNode),
    (∀ j o, olds.get? j = some o → oldLeaf t o) →
    ∀ j o, (ms.foldl (fun l m =>
        match m with
        | some j => l.modify (fun o => o.withInfo (fun a => { a with use := true })) j
        | none => l) olds).get? j = some o → oldLeaf t o := by
  intro ms
  induction ms with
  | nil => intro olds h j o ho; exact h j o ho
  | cons m rest ih =>
    intro olds h j o ho
    cases m with
    | none => exact ih olds h j o ho
    | some k =>
      refine ih (olds.modify (fun o => o.withInfo (fun a => { a with use := true })) k) ?_ j o ho
      intro j' o' ho'
      by_cases hk : k = j'
      · subst hk
        rw [List.get?_eq_getElem?, List.getElem?_modify_eq] at ho'
        cases hg : olds[k]? with
        | none => rw [hg] at ho'; cases ho'
        | some o0 =>
          rw [hg] at ho'
          simp only [Option.map_eq_map, Option.map_some', Option.some.injEq] at ho'
          subst ho'
          have := h k o0 (by rw [List.get?_eq_getElem?, hg])
          obtain ⟨oi, ocs⟩ := o0
          exact this
      · rw [modify_get_ne _ _ _ _ hk] at ho'
        exact h j' o' ho'

theorem mark_fold_length : ∀ (ms : List (Option Nat)) (olds : List VNode),
    (ms.foldl (fun l m =>
        match m with
        | some j => l.modify (fun o => o.withInfo (fun a => { a with use := true })) j
        | none => l) olds).length = olds.length := by
  intro ms
  induction ms with
  | nil => intro olds; rfl
  | cons m rest ih =>
    intro olds
    cases m with
    | none => exact ih olds
    | some k =>
      simp only [List.foldl_cons]
      rw [ih]
      simp

theorem diffChildren_leaf_total (env : Env) (fuel : Nat) (w : World) (news olds : List VNode)
    (p : Nat) (t : String) (hval : env.validName t = true)
    (hfc : formControls.contains t = false)
    (hN : ∀ v ∈ news, newLeaf t v)
    (hO : ∀ o ∈ olds, oldLeaf t o ∧ ∃ d, o.info.dom = some d ∧ d ∈ w.childrenOf p)
    (hD : (olds.map (fun o => o.info.dom)).Nodup)
    (hf : news.length + 5 ≤ fuel) :
    ∃ vs w', diffChildren env fuel w news olds (some p) = some (vs, w') := by
  obtain ⟨f, rfl⟩ : ∃ f, fuel = f + 1 := ⟨fuel - 1, by omega⟩
  have hOK : olds.map (oldUUID env w.insts) =
      olds.map (fun o => some (computeUUID t o.info)) := by
    apply List.map_congr_left
    intro o ho
    obtain ⟨⟨h1, -, -, -, h5, -⟩, -⟩ := hO o ho
    simp [oldUUID, oldTag, h1, h5]
  have hNK : news.map (newUUID env) = news.map (fun v => some (computeUUID t v.info)) := by
    apply List.map_congr_left
    intro v hv
    obtain ⟨h1, -⟩ := hN v hv
    simp [newUUID, newTag, h1]
  have hmark : news.map (fun v =>
      match v.info.type with
      | .comp _ => v.withInfo (fun a => { a with hasInstance := true })
      | .tag _ => v) = news := by
    conv => rhs; rw [← List.map_id news]
    apply List.map_congr_left
    intro v hv
    obtain ⟨h1, -⟩ := hN v hv
    simp [h1]
  have hspec := matchAll_spec (olds.map (fun x => computeUUID t x.info))
    (news.map (fun x => computeUUID t x.info))
    { mapping := buildMapping 0 (olds.map (fun x => computeUUID t x.info)) (fun _ => none),
      removed := List.range olds.length } []
    (fun u => buildMapping_queueOf (olds.map (fun x => computeUUID t x.info)) u)
  obtain ⟨hlen, -, hpool⟩ := matchAll_pool (olds.map (fun x => computeUUID t x.info))
    (news.map (fun x => computeUUID t x.info))
    { mapping := buildMapping 0 (olds.map (fun x => computeUUID t x.info)) (fun _ => none),
      removed := List.range olds.length } []
    (fun u => buildMapping_queueOf (olds.map (fun x => computeUUID t x.info)) u)
    (List.nodup_range _) (by simp)
  have hsub := matchAll_removed_sublist (news.map (fun x => computeUUID t x.info))
    { mapping := buildMapping 0 (olds.map (fun x => computeUUID t x.info)) (fun _ => none),
      removed := List.range olds.length }
  have holdleaf : ∀ j o, olds.get? j = some o → oldLeaf t o :=
    fun j o ho => (hO o (List.get?_mem ho)).1
  have hback : ∀ k o, ((matchAll
      { mapping := buildMapping 0 (olds.map (fun x => computeUUID t x.info)) (fun _ => none),
        removed := List.range olds.length }
      (news.map (fun x => computeUUID t x.info))).1.foldl (fun l m =>
        match m with
        | some j => l.modify (fun o => o.withInfo (fun a => { a with use := true })) j
        | none => l) olds).get? k = some o →
      ∃ o0, olds.get? k = some o0 ∧ o.info.dom = o0.info.dom := by
    intro k o ho
    have hk : k < olds.length := by
      have := (List.get?_eq_some.1 ho).1
      rw [mark_fold_length] at this
      exact this
    obtain ⟨o2, h1, h2, -⟩ := mark_fold_get
      (matchAll
        { mapping := buildMapping 0 (olds.map (fun x => computeUUID t x.info)) (fun _ => none),
          removed := List.range olds.length }
        (news.map (fun x => computeUUID t x.info))).1
      olds k (olds.get ⟨k, hk⟩) (List.get?_eq_get hk)
    rw [h1] at ho
    injection ho with ho
    exact ⟨olds.get ⟨k, hk⟩, List.get?_eq_get hk, by rw [← ho]; exact h2⟩
  obtain ⟨vs, st', hloop, hA, hB, hC, hD2, hE⟩ := loop_total env p t hval hfc
    (news.zip (matchAll
      { mapping := buildMapping 0 (olds.map (fun x => computeUUID t x.info)) (fun _ => none),
        removed := List.range olds.length }
      (news.map (fun x => computeUUID t x.info))).1) f 0
    { removed := (matchAll
        { mapping := buildMapping 0 (olds.map (fun x => computeUUID t x.info)) (fun _ => none),
          removed := List.range olds.length }
        (news.map (fun x => computeUUID t x.info))).2.removed,
      olds := (matchAll
        { mapping := buildMapping 0 (olds.map (fun x => computeUUID t x.info)) (fun _ => none),
          removed := List.range olds.length }
        (news.map (fun x => computeUUID t x.info))).1.foldl (fun l m =>
          match m with
          | some j => l.modify (fun o => o.withInfo (fun a => { a with use := true })) j
          | none => l) olds,
      world := w }
    (by
      have := @List.length_zip _ _ news (matchAll
        { mapping := buildMapping 0 (olds.map (fun x => computeUUID t x.info)) (fun _ => none),
          removed := List.range olds.length }
        (news.map (fun x => computeUUID t x.info))).1
      omega)
    (fun pr hpr => hN pr.1 (List.of_mem_zip hpr).1)
    (mark_fold_leaf t _ olds holdleaf)
    (by
      intro pr hpr j hj
      obtain ⟨v, km⟩ := pr
      simp only at hj
      subst hj
      have hmem := (List.of_mem_zip hpr).2
      obtain ⟨n, hn⟩ := List.get?_of_mem hmem
      have hnl : n < (news.map (fun x => computeUUID t x.info)).length := by
        have := (List.get?_eq_some.1 hn).1
        rw [hlen] at this
        exact this
      obtain ⟨r, hr, h1, -⟩ := hspec n _ (List.get?_eq_get hnl)
      rw [hn] at hr
      injection hr with hr
      obtain ⟨a, -⟩ := h1 j hr.symm
      have hj : j < olds.length := by
        have := (List.get?_eq_some.1 a).1
        simpa using this
      refine ⟨by simp only [mark_fold_length]; exact hj, ?_⟩
      intro hin
      exact (hpool j hin).2 hmem)
    (hsub.nodup (List.nodup_range _))
    (by
      intro k hk
      have hk2 : k < olds.length := by
        have := hsub.subset hk
        simpa using this
      obtain ⟨o', h1, h2, -⟩ := mark_fold_get
        (matchAll
          { mapping := buildMapping 0 (olds.map (fun x => computeUUID t x.info)) (fun _ => none),
            removed := List.range olds.length }
          (news.map (fun x => computeUUID t x.info))).1
        olds k (olds.get ⟨k, hk2⟩) (List.get?_eq_get hk2)
      obtain ⟨d, hd, -⟩ := (hO _ (List.get_mem olds k hk2)).2
      exact ⟨o', h1, by rw [h2, hd]; rfl⟩)
    (by
      intro k o d ho hd _
      obtain ⟨o0, ho0, hdom⟩ := hback k o ho
      obtain ⟨d0, hd0, hin⟩ := (hO o0 (List.get?_mem ho0)).2
      rw [hdom, hd0] at hd
      injection hd with hd
      rw [← hd]
      exact hin)
    (by
      intro k k2 o o2 d ho ho2 hd hd2
      obtain ⟨o0, ho0, hdom⟩ := hback k o ho
      obtain ⟨o3, ho3, hdom3⟩ := hback k2 o2 ho2
      refine nodup_get_inj _ hD k k2 (some d) ?_ ?_
      · rw [map_get?, ho0, Option.map_some', ← hdom, hd]
      · rw [map_get?, ho3, Option.map_some', ← hdom3, hd2])
  obtain ⟨w1, hw1⟩ := removeLeftovers_total env p t st'.olds hE st'.removed st'.world hC
    (by
      intro k hk
      obtain ⟨o, ho, hd⟩ := hB k hk
      obtain ⟨d, hd⟩ := Option.isSome_iff_exists.1 hd
      exact ⟨o, d, ho, hd, hD2 k o d ho hd hk, hA k o ho⟩)
  refine ⟨vs, w1, ?_⟩
  rw [diffChildren]
  simp only [hOK, hNK, allSome_map_some, hmark, hloop, hw1]

theorem keyed_children_dom (env : Env) (fuel : Nat) (w w' : World)
    (news olds vs : List VNode) (parentNode : Option Nat) (t : String) (dp : Option Nat)
    (ht : '/' ∉ t.data) (ht2 : t ≠ "#text")
    (hO : ∀ o ∈ olds, o.info.type = .tag t ∧ o.info.deep = dp ∧ o.info.inst = none ∧
      o.info.dom.isSome)
    (hN : ∀ v ∈ news, v.info.type = .tag t ∧ v.info.deep = dp ∧ v.info.hasInstance = false ∧
      v.info.text = none)
    (hKO : (olds.map (fun o => o.info.key)).Nodup)
    (hKN : (news.map (fun v => v.info.key)).Nodup)
    (h : diffChildren env fuel w news olds parentNode = some (vs, w')) :
    ∀ i j v o, news.get? i = some v → olds.get? j = some o → v.info.key = o.info.key →
      ∃ r, vs.get? i = some r ∧ r.info.dom = o.info.dom := by
  have hOK : olds.map (oldUUID env w.insts) =
      olds.map (fun o => some (computeUUID t o.info)) := by
    apply List.map_congr_left
    intro o ho
    obtain ⟨h1, -, h3, -⟩ := hO o ho
    simp [oldUUID, oldTag, h1, h3]
  have hNK : news.map (newUUID env) = news.map (fun v => some (computeUUID t v.info)) := by
    apply List.map_congr_left
    intro v hv
    obtain ⟨h1, -⟩ := hN v hv
    simp [newUUID, newTag, h1]
  have hmark : news.map (fun v =>
      match v.info.type with
      | .comp _ => v.withInfo (fun a => { a with hasInstance := true })
      | .tag _ => v) = news := by
    conv => rhs; rw [← List.map_id news]
    apply List.map_congr_left
    intro v hv
    obtain ⟨h1, -⟩ := hN v hv
    simp [h1]
  cases fuel with
  | zero => simp [diffChildren] at h
  | succ fuel =>
    rw [diffChildren] at h
    simp only [hOK, hNK, allSome_map_some, hmark] at h
    have hspec := matchAll_spec (olds.map (fun x => computeUUID t x.info))
      (news.map (fun x => computeUUID t x.info))
      { mapping := buildMapping 0 (olds.map (fun x => computeUUID t x.info)) (fun _ => none),
        removed := List.range olds.length } []
      (fun u => buildMapping_queueOf (olds.map (fun x => computeUUID t x.info)) u)
    -- what a key match says about the two children
    have hmatch : ∀ n j v, news.get? n = some v →
        (matchAll
          { mapping := buildMapping 0 (olds.map (fun x => computeUUID t x.info)) (fun _ => none),
            removed := List.range olds.length }
          (news.map (fun x => computeUUID t x.info))).1.get? n = some (some j) →
        (∃ o, olds.get? j = some o ∧ o.info.key = v.info.key) ∧
        ∀ n', n' < n → (matchAll
          { mapping := buildMapping 0 (olds.map (fun x => computeUUID t x.info)) (fun _ => none),
            removed := List.range olds.length }
          (news.map (fun x => computeUUID t x.info))).1.get? n' ≠ some (some j) := by
      intro n j v hv hm
      obtain ⟨r, hr, h1, -⟩ := hspec n (computeUUID t v.info) (by rw [map_get?, hv]; rfl)
      rw [hm] at hr
      injection hr with hr
      obtain ⟨a, -, c, -⟩ := h1 j hr.symm
      refine ⟨?_, c⟩
      rw [map_get?] at a
      cases ho : olds.get? j with
      | none => rw [ho] at a; cases a
      | some o =>
        rw [ho] at a
        simp only [Option.map_some', Option.some.injEq] at a
        refine ⟨o, rfl, ?_⟩
        have hod := (hO o (List.get?_mem ho)).2.1
        have hvd := (hN v (List.get?_mem hv)).2.1
        exact (uuid_eq_iff_key t o.info v.info ht ht2 (by rw [hod, hvd])).1 a
    split at h
    · cases h
    · rename_i vs0 st hloop
      split at h
      · cases h
      · injection h with h
        injection h with hvs hw
        subst hvs
        intro i j v o hv ho hkey
        -- the new child is matched to the old child with its key
        have hms : (matchAll
            { mapping := buildMapping 0 (olds.map (fun x => computeUUID t x.info)) (fun _ => none),
              removed := List.range olds.length }
            (news.map (fun x => computeUUID t x.info))).1.get? i = some (some j) := by
          obtain ⟨r, hr, h1, h2⟩ := hspec i (computeUUID t v.info) (by rw [map_get?, hv]; rfl)
          have huo : (olds.map (fun x => computeUUID t x.info)).get? j =
              some (computeUUID t v.info) := by
            rw [map_get?, ho]
            simp only [Option.map_some', Option.some.injEq]
            have hod := (hO o (List.get?_mem ho)).2.1
            have hvd := (hN v (List.get?_mem hv)).2.1
            exact (uuid_eq_iff_key t o.info v.info ht ht2 (by rw [hod, hvd])).2 hkey.symm
          cases r with
          | none =>
            rcases h2 rfl j huo with hin | ⟨i', hi', hmi'⟩
            · cases hin
            · exfalso
              have hlt : i' < news.length := by
                have := List.get?_eq_some.1 hv
                obtain ⟨hl, -⟩ := this
                omega
              obtain ⟨v', hv'⟩ : ∃ v', news.get? i' = some v' :=
                ⟨news.get ⟨i', hlt⟩, List.get?_eq_get hlt⟩
              obtain ⟨⟨o', ho', hk'⟩, -⟩ := hmatch i' j v' hv' hmi'
              rw [ho] at ho'
              injection ho' with ho'
              subst ho'
              have : i' = i := nodup_get_inj _ hKN i' i v.info.key
                (by rw [map_get?, hv']; simp [← hk', hkey])
                (by rw [map_get?, hv]; rfl)
              omega
          | some j' =>
            obtain ⟨⟨o', ho', hk'⟩, -⟩ := hmatch i j' v hv hr
            have : j' = j := nodup_get_inj _ hKO j' j v.info.key
              (by rw [map_get?, ho']; simp [hk'])
              (by rw [map_get?, ho]; simp [hkey])
            rw [hr, this]
        have hpair : (news.zip (matchAll
            { mapping := buildMapping 0 (olds.map (fun x => computeUUID t x.info)) (fun _ => none),
              removed := List.range olds.length }
            (news.map (fun x => computeUUID t x.info))).1).get? i = some (v, some j) := by
          rw [List.get?_eq_getElem?, List.getElem?_zip_eq_some]
          exact ⟨by rw [← List.get?_eq_getElem?]; exact hv,
                 by rw [← List.get?_eq_getElem?]; exact hms⟩
        have hres := loop_keeps_matched_dom env parentNode t
          (fun j => (olds.get? j).bind (fun o => o.info.dom)) _ fuel 0 _ vs0 st hloop
          (by
            intro n v1 j1 hn
            rw [List.get?_eq_getElem?, List.getElem?_zip_eq_some] at hn
            obtain ⟨hn1, hn2⟩ := hn
            rw [← List.get?_eq_getElem?] at hn1 hn2
            simp only at hn1 hn2
            obtain ⟨⟨o1, ho1, -⟩, -⟩ := hmatch n j1 v1 hn1 hn2
            obtain ⟨a1, -, a3, a4⟩ := hN v1 (List.get?_mem hn1)
            obtain ⟨b1, -, b3, b4⟩ := hO o1 (List.get?_mem ho1)
            obtain ⟨d1, hd1⟩ := Option.isSome_iff_exists.1 b4
            obtain ⟨o', c1, c2, c3, c4, c5⟩ := mark_fold_get _ olds j1 o1 ho1
            refine ⟨a1, a3, a4, o', d1, c1,
              (by show (olds.get? j1).bind _ = _; rw [ho1]; exact hd1), by rw [c2, hd1],
              by rw [c3, b1], by rw [c4, b3], c5 (Or.inr (List.get?_mem hn2))⟩)
          (by
            intro n n' v1 v2 j1 hn hn'
            rw [List.get?_eq_getElem?, List.getElem?_zip_eq_some] at hn hn'
            obtain ⟨hn1, hn2⟩ := hn
            obtain ⟨hn1', hn2'⟩ := hn'
            rw [← List.get?_eq_getElem?] at hn1 hn2 hn1' hn2'
            simp only at hn1 hn2 hn1' hn2'
            rcases Nat.lt_trichotomy n n' with hlt | heq | hgt
            · exact absurd hn2 ((hmatch n' j1 v2 hn1' hn2').2 n hlt)
            · exact heq
            · exact absurd hn2' ((hmatch n j1 v1 hn1 hn2).2 n' hgt))
          i v j hpair
        obtain ⟨r, hr1, hr2⟩ := hres
        exact ⟨r, hr1, by rw [hr2]; show (olds.get? j).bind _ = _; rw [ho]; rfl⟩


/-! ## Mounting: `componentDidMount` fires bottom-up -/

theorem definesHook_eq (env : Env) (insts : List Instance) (i k : Nat) (inst : Instance)
    (c : CompDef) (h1 : insts.get? i = some inst) (h2 : env.comps.get? inst.comp = some c) :
    definesHook env insts i k = (!inst.statelessRender && c.hooks.contains k) := by
  unfold definesHook
  rw [h1]
  simp only []
  rw [h2]

theorem applyComponentHook_eq (env : Env) (w : World) (i k : Nat) :
    applyComponentHook env w i k =
      if definesHook env w.insts i k = true then w.emit (.hook i k) else w := by
  cases h1 : w.insts.get? i with
  | none =>
    have e1 : applyComponentHook env w i k = w := by
      unfold applyComponentHook; rw [h1]
    have e2 : definesHook env w.insts i k = false := by
      unfold definesHook; rw [h1]
    rw [e1, e2]; rfl
  | some inst =>
    cases h2 : env.comps.get? inst.comp with
    | none =>
      have e1 : applyComponentHook env w i k = w := by
        unfold applyComponentHook; rw [h1]; simp only []; rw [h2]
      have e2 : definesHook env w.insts i k = false := by
        unfold definesHook; rw [h1]; simp only []; rw [h2]
      rw [e1, e2]; rfl
    | some c =>
      have e1 : applyComponentHook env w i k =
          if (!inst.statelessRender && c.hooks.contains k) = true then w.emit (.hook i k)
          else w := by
        unfold applyComponentHook; rw [h1]; simp only []; rw [h2]
      rw [e1, definesHook_eq env w.insts i k inst c h1 h2]

theorem applyComponentHook_spec (env : Env) (w : World) (i k : Nat) :
    (applyComponentHook env w i k).insts = w.insts ∧
    (applyComponentHook env w i k).nodes = w.nodes ∧
    (applyComponentHook env w i k).log =
      w.log ++ (if definesHook env w.insts i k = true then [.hook i k] else []) := by
  rw [applyComponentHook_eq]
  by_cases h : definesHook env w.insts i k = true
  · simp [h, World.emit]
  · simp [h]

theorem hook_fold_spec (env : Env) (k : Nat) : ∀ (chain : List Nat) (w : World),
    (chain.foldl (fun w i => applyComponentHook env w i k) w).insts = w.insts ∧
    (chain.foldl (fun w i => applyComponentHook env w i k) w).nodes = w.nodes ∧
    (chain.foldl (fun w i => applyComponentHook env w i k) w).log =
      w.log ++ hookTrace env w.insts chain k := by
  intro chain
  induction chain with
  | nil => intro w; simp [hookTrace]
  | cons i rest ih =>
    intro w
    obtain ⟨a, b, c⟩ := applyComponentHook_spec env w i k
    obtain ⟨a2, b2, c2⟩ := ih (applyComponentHook env w i k)
    simp only [List.foldl_cons]
    refine ⟨by rw [a2, a], by rw [b2, b], ?_⟩
    rw [c2, c, a]
    unfold hookTrace
    by_cases h : definesHook env w.insts i k = true
    · simp [h, List.filter_cons]
    · simp [h, List.filter_cons]

theorem didMounts_append (a b : List Event) : didMounts (a ++ b) = didMounts a ++ didMounts b := by
  simp [didMounts, List.filterMap_append]

theorem Quiet.refl (w : World) : Quiet w w :=
  ⟨rfl, [], by simp, rfl⟩

theorem Quiet.andThen {a b c : World} (h1 : Quiet a b) (h2 : Quiet b c) : Quiet a c := by
  obtain ⟨s1, t1, l1, n1⟩ := h1
  obtain ⟨s2, t2, l2, n2⟩ := h2
  refine ⟨s2.trans s1, t1 ++ t2, by rw [l2, l1, List.append_assoc], ?_⟩
  rw [didMounts_append, n1, n2]
  rfl

theorem quiet_of_eq (w w1 : World) (hi : w1.insts = w.insts) (hl : w1.log = w.log) :
    Quiet w w1 :=
  ⟨by rw [hi], [], by simp [hl], rfl⟩

theorem quiet_emit (w : World) (e : Event) (he : didMounts [e] = []) :
    Quiet w (w.emit e) :=
  ⟨rfl, [e], rfl, he⟩

theorem quiet_modifyNode (w : World) (d : Nat) (f : HostNode → HostNode) :
    Quiet w (w.modifyNode d f) :=
  quiet_of_eq _ _ rfl rfl

theorem quiet_detach (w : World) (d : Nat) : Quiet w (w.detach d) :=
  quiet_of_eq _ _ rfl rfl

theorem quiet_alloc (w : World) (n : HostNode) : Quiet w (w.alloc n).2 :=
  quiet_of_eq _ _ rfl rfl

theorem quiet_createDOMElement (env : Env) (w : World) (t : String) (ns : Option String)
    (r : Nat × World) (h : createDOMElement env w t ns = some r) : Quiet w r.2 := by
  rw [createDOMElement_some env w t ns r h]
  exact (quiet_alloc w _).andThen (quiet_emit _ _ (by rfl))

theorem quiet_createTextNode (w : World) (t : String) : Quiet w (createTextNode w t).2 :=
  (quiet_alloc w _).andThen (quiet_emit _ _ (by rfl))

theorem quiet_createComment (w : World) (t : String) : Quiet w (createComment w t).2 :=
  (quiet_alloc w _).andThen (quiet_emit _ _ (by rfl))

theorem quiet_appendChild (w : World) (p c : Nat) : Quiet w (appendChild w p c) :=
  ((quiet_emit w _ (by rfl)).andThen (quiet_detach _ _)).andThen
    (quiet_modifyNode _ _ _)

theorem quiet_swapChild (w : World) (p c o : Nat) : Quiet w (swapChild w p c o) := by
  have h1 : Quiet w (w.emit (.replaceChild p c o)) := quiet_emit w _ (by rfl)
  unfold swapChild
  simp only []
  split
  · exact h1
  · exact (h1.andThen (quiet_detach _ _)).andThen (quiet_modifyNode _ _ _)

theorem quiet_replaceChild (w w1 : World) (p c o : Nat)
    (h : replaceChild w p c o = some w1) : Quiet w w1 := by
  unfold replaceChild at h
  split at h
  · injection h with h
    rw [← h]
    exact quiet_swapChild w p c o
  · cases h

theorem quiet_setStyle (w : World) (d : Nat) (n : Option String) (v : String) :
    Quiet w (setStyle w d n v) :=
  (quiet_emit w _ (by rfl)).andThen (quiet_modifyNode _ _ _)

theorem quiet_setProperty (w : World) (d : Nat) (n : String) (v : JSVal) :
    Quiet w (setProperty w d n v) :=
  (quiet_emit w _ (by rfl)).andThen (quiet_modifyNode _ _ _)

theorem quiet_operateAttribute (w : World) (d : Nat) (n : String) (v : JSVal) (s : Bool) :
    Quiet w (operateAttribute w d n v s) := by
  unfold operateAttribute
  simp only []
  split
  · split
    · exact (quiet_emit w _ (by rfl)).andThen (quiet_modifyNode _ _ _)
    · exact (quiet_emit w _ (by rfl)).andThen (quiet_modifyNode _ _ _)
  · split
    · exact (quiet_emit w _ (by rfl)).andThen (quiet_modifyNode _ _ _)
    · exact (quiet_emit w _ (by rfl)).andThen (quiet_modifyNode _ _ _)

theorem quiet_foldl {α : Type} (f : World → α → World) (hf : ∀ w x, Quiet w (f w x)) :
    ∀ (l : List α) (w : World), Quiet w (l.foldl f w) := by
  intro l
  induction l with
  | nil => intro w; exact Quiet.refl w
  | cons x rest ih => intro w; exact (hf w x).andThen (ih (f w x))

theorem quiet_setInnerHTML_go (dom : Nat) : ∀ (n : Nat) (w : World),
    Quiet w (setInnerHTML.go dom n w) := by
  intro n
  induction n with
  | zero => intro w; exact Quiet.refl w
  | succ n ih =>
    intro w
    unfold setInnerHTML.go
    exact ((quiet_alloc w _).andThen (quiet_modifyNode _ _ _)).andThen (ih _)

theorem quiet_setInnerHTML (env : Env) (w : World) (d : Nat) (html : String) :
    Quiet w (setInnerHTML env w d html) :=
  ((quiet_emit w _ (by rfl)).andThen (quiet_modifyNode _ _ _)).andThen
    (quiet_setInnerHTML_go d _ _)

theorem quiet_patchStyleFields (env : Env) (w : World) (d : Nat)
    (ofs nfs : List (String × Prim)) : Quiet w (patchStyleFields env w d ofs nfs) := by
  unfold patchStyleFields
  simp only []
  refine (quiet_foldl _ ?_ _ _).andThen (quiet_foldl _ ?_ _ _)
  · intro w x
    split
    · exact quiet_setStyle _ _ _ _
    · exact Quiet.refl _
  · intro w x
    split
    · exact Quiet.refl _
    · exact quiet_setStyle _ _ _ _

theorem quiet_patchStyle (env : Env) (w w1 : World) (d : Nat) (o : Option JSVal) (n : JSVal)
    (h : patchStyle env w d o n = some w1) : Quiet w w1 := by
  unfold patchStyle at h
  simp only [] at h
  split at h
  · injection h with h
    rw [← h]
    exact Quiet.refl w
  · split at h
    · injection h with h
      rw [← h]
      exact quiet_patchStyleFields _ _ _ _ _
    · injection h with h
      rw [← h]
      exact Quiet.refl w
    · cases h

theorem diffPropsStep_phases (env : Env) (dom : Nat) (owner : Option Nat) (isHTML : Bool)
    (prevProps : List (String × JSVal)) (st : PropState) (name : String) (val : JSVal) :
    diffPropsStep env dom owner isHTML prevProps st name val =
      if name = "children" then some st
      else if name = "ref" then refStep dom owner (readProp prevProps name) val st
      else if name = "style" then styleStep env dom (readProp prevProps name) val st
      else if isEventName name then
        eventStep env dom (readProp prevProps name) val name
          (innerHTMLStep env dom (readProp prevProps name) val name st)
      else
        attrStep env dom isHTML (readProp prevProps name) val name
          (innerHTMLStep env dom (readProp prevProps name) val name st) := by
  rfl

theorem quiet_innerHTMLStep (env : Env) (dom : Nat) (prev val : JSVal) (name : String)
    (st : PropState) : Quiet st.world (innerHTMLStep env dom prev val name st).world := by
  unfold innerHTMLStep
  simp only []
  split_ifs
  all_goals first
    | exact quiet_setInnerHTML _ _ _ _
    | exact Quiet.refl _

theorem quiet_refStep (dom : Nat) (owner : Option Nat) (prev val : JSVal) (st st1 : PropState)
    (h : refStep dom owner prev val st = some st1) : Quiet st.world st1.world := by
  unfold refStep at h
  split at h
  · split at h
    · cases h; exact quiet_emit _ _ (by rfl)
    · cases h; exact quiet_emit _ _ (by rfl)
    · cases h
    · cases h; exact Quiet.refl _
  · cases h; exact Quiet.refl _

theorem quiet_styleStep (env : Env) (dom : Nat) (prev val : JSVal) (st st1 : PropState)
    (h : styleStep env dom prev val st = some st1) : Quiet st.world st1.world := by
  unfold styleStep at h
  split at h
  · rename_i w1 hw
    cases h
    exact quiet_patchStyle _ _ _ _ _ _ hw
  · cases h

theorem quiet_eventStep (env : Env) (dom : Nat) (prev val : JSVal) (name : String)
    (st st1 : PropState) (h : eventStep env dom prev val name st = some st1) :
    Quiet st.world st1.world := by
  unfold eventStep at h
  simp only [] at h
  have hset : ∀ (s : PropState), Quiet s.world
      ((s.world.emit (.setHandler dom name val)).modifyNode dom
        (fun n => { n with handlers := n.handlers.filter (fun p => p.1 ≠ name) ++ [(name, val)] })) :=
    fun s => (quiet_emit _ _ (by rfl)).andThen (quiet_modifyNode _ _ _)
  split at h
  · cases h
  · rename_i st2 hreg
    have h2 : Quiet st.world st2.world := by
      split at hreg
      · split at hreg
        · split at hreg
          · cases hreg; exact Quiet.refl _
          · cases hreg
            exact (quiet_of_eq st.world { st.world with
              globalEvents := st.world.globalEvents ++ [getBrowserName name] } rfl rfl).andThen
              (quiet_emit _ _ (by rfl))
        · cases hreg
      · cases hreg; exact Quiet.refl _
    split at h
    · cases h
    · cases h
      exact h2.andThen (hset st2)

theorem quiet_attrStep (env : Env) (dom : Nat) (isHTML : Bool) (prev val : JSVal)
    (name : String) (st st1 : PropState)
    (h : attrStep env dom isHTML prev val name st = some st1) :
    Quiet st.world st1.world := by
  unfold attrStep at h
  simp only [] at h
  split_ifs at h
  all_goals cases h
  all_goals first
    | exact Quiet.refl _
    | exact quiet_operateAttribute _ _ _ _ _
    | exact quiet_setProperty _ _ _ _
    | exact (quiet_setProperty _ _ _ _).andThen (quiet_operateAttribute _ _ _ _ _)
    | exact (quiet_setProperty _ _ _ _).andThen (quiet_setProperty _ _ _ _)

theorem quiet_diffPropsStep (env : Env) (dom : Nat) (owner : Option Nat) (isHTML : Bool)
    (prevProps : List (String × JSVal)) (st : PropState) (name : String) (val : JSVal)
    (st1 : PropState)
    (h : diffPropsStep env dom owner isHTML prevProps st name val = some st1) :
    Quiet st.world st1.world := by
  rw [diffPropsStep_phases] at h
  split at h
  · cases h; exact Quiet.refl _
  · split at h
    · exact quiet_refStep _ _ _ _ _ _ h
    · split at h
      · exact quiet_styleStep _ _ _ _ _ _ h
      · split at h
        · exact (quiet_innerHTMLStep _ _ _ _ _ _).andThen (quiet_eventStep _ _ _ _ _ _ _ h)
        · exact (quiet_innerHTMLStep _ _ _ _ _ _).andThen (quiet_attrStep _ _ _ _ _ _ _ _ h)

theorem quiet_diffPropsLoop (env : Env) (dom : Nat) (owner : Option Nat) (isHTML : Bool)
    (prevProps : List (String × JSVal)) : ∀ (ps : List (String × JSVal)) (st st1 : PropState),
    diffPropsLoop env dom owner isHTML prevProps ps st = some st1 →
    Quiet st.world st1.world := by
  intro ps
  induction ps with
  | nil => intro st st1 h; simp only [diffPropsLoop] at h; cases h; exact Quiet.refl _
  | cons p rest ih =>
    intro st st1 h
    obtain ⟨name, val⟩ := p
    simp only [diffPropsLoop] at h
    split at h
    · cases h
    · rename_i st2 h2
      exact (quiet_diffPropsStep _ _ _ _ _ _ _ _ _ h2).andThen (ih _ _ h)

theorem quiet_removePropStep (dom : Nat) (owner : Option Nat) (isHTML : Bool) (w : World)
    (name : String) (val : JSVal) : Quiet w (removePropStep dom owner isHTML w name val) := by
  unfold removePropStep
  by_cases h1 : name = "ref"
  · rw [if_pos h1]
    split
    · exact quiet_emit _ _ (by rfl)
    · exact Quiet.refl _
  · rw [if_neg h1]
    by_cases h2 : isEventName name = true
    · rw [if_pos h2]
      exact (quiet_emit _ _ (by rfl)).andThen (quiet_modifyNode _ _ _)
    · rw [if_neg h2]
      split
      · exact quiet_setProperty _ _ _ _
      · exact quiet_setProperty _ _ _ _
      · exact quiet_operateAttribute _ _ _ _ _

theorem quiet_diffProps (env : Env) (w : World) (dom : Nat) (v : VInfo)
    (props prevProps : Option (List (String × JSVal))) (w1 : World) (flag : Bool)
    (h : diffProps env w dom v props prevProps = some (w1, flag)) : Quiet w w1 := by
  unfold diffProps at h
  simp only [] at h
  split at h
  · cases h
  · rename_i st hst
    have h1 := quiet_diffPropsLoop _ _ _ _ _ _ _ _ hst
    simp only [Option.some.injEq, Prod.mk.injEq] at h
    obtain ⟨h, -⟩ := h
    subst h
    have h2 : Quiet st.world ((prevProps.getD []).foldl (fun w p =>
        if hasProp (props.getD []) p.1 then w
        else removePropStep dom v.owner (v.ns.isNone || v.ns == some "") w p.1 p.2)
        st.world) := by
      apply quiet_foldl
      intro w x
      split
      · exact Quiet.refl _
      · exact quiet_removePropStep _ _ _ _ _ _
    refine (h1.andThen h2).andThen ?_
    split
    · exact quiet_removePropStep _ _ _ _ _ _
    · exact Quiet.refl _

theorem toVnode_succ (env : Env) (fuel : Nat) (w : World) (v : VNode) :
    toVnode env (fuel + 1) w v =
      match v.info.type with
      | .tag _ => some (v, w)
      | .comp c =>
        match env.comps.get? c with
        | none => none
        | some cd => toVnode env fuel (instantiate env w v c cd).2 (instantiate env w v c cd).1 := by
  rfl

theorem toDOM_succ (env : Env) (fuel : Nat) (w : World) (v0 : VNode)
    (parentNode replaced : Option Nat) :
    toDOM env (fuel + 1) w v0 parentNode replaced =
      match toVnode env fuel w v0 with
      | none => none
      | some (v, w1) =>
        match v.info.type with
        | .comp _ => none
        | .tag t =>
          match createHost env w1 t v with
          | none => none
          | some r =>
            match mountInner env (fun w cs p => diffChildren env fuel w cs [] p) t r v with
            | none => none
            | some (v3, w4) =>
              finishMount env w4 v3 r.1 parentNode replaced
                (v.info.inst.isSome && v.info.dom.isNone) := by
  rfl

theorem sig_modify (f : Instance → Instance) (hf : ∀ x, (f x).sig = x.sig) :
    ∀ (l : List Instance) (i : Nat), (l.modify f i).map Instance.sig = l.map Instance.sig := by
  intro l
  induction l with
  | nil => intro i; cases i <;> rfl
  | cons x rest ih =>
    intro i
    cases i with
    | zero => simp [List.modify, hf]
    | succ i =>
      simp only [List.modify_succ_cons, List.map_cons, ih i]

theorem modify_append_last {α : Type} (f : α → α) (l : List α) (x : α) :
    (l ++ [x]).modify f l.length = l ++ [f x] := by
  induction l with
  | nil => rfl
  | cons y rest ih =>
    simp only [List.cons_append, List.length_cons, List.modify_succ_cons, ih]

theorem sig_setInstanceVnode (w : World) (is : List Nat) (v : VNode) :
    (setInstanceVnode w is v).insts.map Instance.sig = w.insts.map Instance.sig ∧
    (setInstanceVnode w is v).log = w.log := by
  refine ⟨?_, rfl⟩
  unfold setInstanceVnode
  simp only []
  generalize w.insts = l
  induction is generalizing l with
  | nil => rfl
  | cons i rest ih =>
    simp only [List.foldl_cons]
    refine (ih _).trans ?_
    apply sig_modify
    intro x
    rfl

theorem quiet_setInstanceVnode (w : World) (is : List Nat) (v : VNode) :
    Quiet w (setInstanceVnode w is v) :=
  ⟨(sig_setInstanceVnode w is v).1, [], by simp [(sig_setInstanceVnode w is v).2], rfl⟩

theorem didMounts_hook (i k : Nat) :
    didMounts [Event.hook i k] = if k = 2 then [i] else [] := by
  rcases k with _ | _ | _ | k
  · rfl
  · rfl
  · rfl
  · rfl

theorem quiet_hook (env : Env) (w : World) (i k : Nat) (hk : k ≠ 2) :
    Quiet w (applyComponentHook env w i k) := by
  rw [applyComponentHook_eq]
  split
  · refine quiet_emit _ _ ?_
    rw [didMounts_hook, if_neg hk]
  · exact Quiet.refl _


theorem newInstance_sig (v : VNode) (c : Nat) (cd : CompDef) :
    (newInstance v c cd).sig = (c, cd.stateless, none) := by
  unfold newInstance
  split <;> simp_all [Instance.sig]

theorem constructed_spec (env : Env) (w : World) (v : VNode) (c : Nat) (cd : CompDef) :
    (constructed env w v c cd).insts = w.insts ++ [newInstance v c cd] ∧
    ∃ tr, (constructed env w v c cd).log = w.log ++ tr ∧ didMounts tr = [] := by
  unfold constructed
  simp only []
  have h1 : Quiet (World.emit { w with insts := w.insts ++ [newInstance v c cd] }
      (.construct w.insts.length c))
      (if cd.stateless = true then
        World.emit { w with insts := w.insts ++ [newInstance v c cd] } (.construct w.insts.length c)
       else applyComponentHook env
        (World.emit { w with insts := w.insts ++ [newInstance v c cd] }
          (.construct w.insts.length c)) w.insts.length 0) := by
    split
    · exact Quiet.refl _
    · exact quiet_hook _ _ _ _ (by decide)
  have h2 := h1.andThen (quiet_emit _ (.render w.insts.length) (by rfl))
  constructor
  · split
    · rfl
    · simp only [World.emit, (applyComponentHook_spec _ _ _ _).1]
  · obtain ⟨-, tr, hl, hd⟩ := h2
    refine ⟨[.construct w.insts.length c] ++ tr, ?_, ?_⟩
    · rw [hl]
      simp [World.emit]
    · rw [didMounts_append, hd]
      rfl

theorem linkInstance_sig (l : List Instance) (x : Instance) (v : VNode) :
    (linkInstance (l ++ [x]) v l.length).map Instance.sig =
      l.map Instance.sig ++ [(x.comp, x.statelessRender,
        match v.info.inst with
        | some p => some p
        | none => x.parentInstance)] := by
  unfold linkInstance
  refine (sig_modify _ ?_ _ _).trans ?_
  · intro y; rfl
  cases v.info.inst with
  | none => simp [Instance.sig]
  | some p =>
    simp only []
    refine (sig_modify _ ?_ _ _).trans ?_
    · intro y; rfl
    rw [modify_append_last]
    simp [Instance.sig]

/-- What one round of `toVnode` does to the instances and the trace. -/
theorem instantiate_spec (env : Env) (w : World) (v : VNode) (c : Nat) (cd : CompDef) :
    (instantiate env w v c cd).2.insts.map Instance.sig =
      w.insts.map Instance.sig ++ [(c, cd.stateless, v.info.inst)] ∧
    (∃ tr, (instantiate env w v c cd).2.log = w.log ++ tr ∧ didMounts tr = []) ∧
    (instantiate env w v c cd).1 =
      (extendVnode v (renderedFor v cd)).withInfo
        (fun a => { a with inst := some w.insts.length }) := by
  obtain ⟨h1, h2⟩ := constructed_spec env w v c cd
  refine ⟨?_, ?_, rfl⟩
  all_goals unfold instantiate
  all_goals simp only []
  · rw [(sig_setInstanceVnode _ _ _).1]
    simp only [h1]
    rw [linkInstance_sig]
    have hs := newInstance_sig v c cd
    simp only [Instance.sig, Prod.mk.injEq] at hs
    obtain ⟨a, b, c1⟩ := hs
    rw [a, b, c1]
    cases v.info.inst <;> rfl
  · rw [(sig_setInstanceVnode _ _ _).2]
    exact h2

theorem freshList_iff : ∀ (cs : List VNode),
    VNode.fresh.freshList cs = true ↔ ∀ c ∈ cs, c.fresh = true := by
  intro cs
  induction cs with
  | nil => simp [VNode.fresh.freshList]
  | cons c rest ih => simp [VNode.fresh.freshList, ih]

theorem fresh_iff (v : VNode) :
    v.fresh = true ↔ v.info.inst = none ∧ v.info.dom = none ∧ ∀ c ∈ v.children, c.fresh = true := by
  obtain ⟨info, cs⟩ := v
  simp only [VNode.fresh, VNode.info, VNode.children, Bool.and_eq_true, freshList_iff,
    Option.isNone_iff_eq_none, and_assoc]

theorem renderedFor_fresh (env : Env) (hE : rendersFresh env) (v : VNode) (c : Nat)
    (cd : CompDef) (hc : env.comps.get? c = some cd) (hv : ∀ x ∈ v.children, x.fresh = true) :
    (renderedFor v cd).fresh = true := by
  have hm : cd ∈ env.comps := List.get?_mem hc
  unfold renderedFor
  generalize hr : (if cd.stateless = true then
      cd.render { attrs := v.info.attrs, children := v.children } []
    else cd.render { attrs := withDefaults cd.defaultProps v.info.attrs, children := v.children }
      cd.initialState) = r
  cases r with
  | none => rfl
  | some r =>
    simp only [renderedOrEmpty]
    split at hr
    · exact hE cd hm _ _ r hv hr
    · exact hE cd hm _ _ r hv hr

theorem extendVnode_unmounted (v r : VNode) (hd : v.info.dom = none)
    (hv : ∀ x ∈ v.children, x.fresh = true) (hr : r.fresh = true) :
    (extendVnode v r).info.dom = none ∧ ∀ x ∈ (extendVnode v r).children, x.fresh = true := by
  obtain ⟨h1, h2, h3⟩ := (fresh_iff r).1 hr
  obtain ⟨vi, vcs⟩ := v
  obtain ⟨ri, rcs⟩ := r
  simp only [VNode.info, VNode.children] at hd hv h1 h2 h3
  simp only [extendVnode, VNode.info, VNode.children, h2, hd, Option.isSome_none,
    Bool.false_eq_true, if_false, true_and]
  split
  · exact h3
  · exact hv

/-- The chain `toVnode` builds: the new instances `n, n+1, ...` are linked by
`parentInstance`, each to the one created before it and the first to
`vnode.instance`; the vnode ends pointing to the last. -/
theorem toVnode_spec (env : Env) (hE : rendersFresh env) : ∀ (fuel : Nat) (w : World)
    (v vn : VNode) (w1 : World), toVnode env fuel w v = some (vn, w1) →
    v.info.dom = none → (∀ c ∈ v.children, c.fresh = true) →
    ∃ ext : List (Nat × Bool × Option Nat),
      w1.insts.map Instance.sig = w.insts.map Instance.sig ++ ext ∧
      (∀ j, j < ext.length → ∃ s, ext.get? j = some s ∧
        s.2.2 = if j = 0 then v.info.inst else some (w.insts.length + j - 1)) ∧
      vn.info.inst =
        (if ext.length = 0 then v.info.inst else some (w.insts.length + ext.length - 1)) ∧
      (∃ tr, w1.log = w.log ++ tr ∧ didMounts tr = []) ∧
      vn.info.dom = none ∧ (∀ c ∈ vn.children, c.fresh = true) ∧
      ∃ t, vn.info.type = .tag t := by
  intro fuel
  induction fuel with
  | zero => intro w v vn w1 h; simp [toVnode] at h
  | succ fuel ih =>
    intro w v vn w1 h hd hc
    rw [toVnode_succ] at h
    split at h
    · rename_i t ht
      simp only [Option.some.injEq, Prod.mk.injEq] at h
      obtain ⟨h1, h2⟩ := h
      subst h1 h2
      exact ⟨[], by simp, by simp, by simp, ⟨[], by simp, rfl⟩, hd, hc, t, ht⟩
    · rename_i c hty
      split at h
      · cases h
      · rename_i cd hcd
        obtain ⟨s1, ⟨tr1, l1, d1⟩, e1⟩ := instantiate_spec env w v c cd
        have hfr := renderedFor_fresh env hE v c cd hcd hc
        obtain ⟨u1, u2⟩ := extendVnode_unmounted v (renderedFor v cd) hd hc hfr
        have hlen : (instantiate env w v c cd).2.insts.length = w.insts.length + 1 := by
          have := congrArg List.length s1
          simpa using this
        have hd1 : (instantiate env w v c cd).1.info.dom = none := by
          rw [e1]
          generalize extendVnode v (renderedFor v cd) = x at u1
          obtain ⟨xi, xcs⟩ := x
          exact u1
        have hc1 : ∀ x ∈ (instantiate env w v c cd).1.children, x.fresh = true := by
          rw [e1]
          generalize extendVnode v (renderedFor v cd) = x at u2
          obtain ⟨xi, xcs⟩ := x
          exact u2
        have hi1 : (instantiate env w v c cd).1.info.inst = some w.insts.length := by
          rw [e1]
          generalize extendVnode v (renderedFor v cd) = x
          obtain ⟨xi, xcs⟩ := x
          rfl
        obtain ⟨ext, a1, a2, a3, ⟨tr2, l2, d2⟩, a5, a6, a7⟩ := ih _ _ _ _ h hd1 hc1
        refine ⟨(c, cd.stateless, v.info.inst) :: ext, ?_, ?_, ?_, ?_, a5, a6, a7⟩
        · rw [a1, s1]
          simp
        · intro j hj
          cases j with
          | zero => exact ⟨_, rfl, by simp⟩
          | succ j =>
            have hj2 : j < ext.length := by simpa using hj
            obtain ⟨s, g1, g2⟩ := a2 j hj2
            refine ⟨s, by simpa using g1, ?_⟩
            rw [g2, hi1, hlen]
            by_cases h0 : j = 0
            · subst h0; simp
            · simp only [h0, if_false, Nat.succ_ne_zero]
              congr 1
              omega
        · rw [a3, hi1, hlen]
          by_cases h0 : ext.length = 0
          · simp [h0]
          · simp only [h0, if_false, List.length_cons, Nat.succ_ne_zero]
            congr 1
            omega
        · refine ⟨tr1 ++ tr2, ?_, ?_⟩
          · rw [l2, l1, List.append_assoc]
          · rw [didMounts_append, d1, d2]
            rfl

theorem map_sig_get (l : List Instance) (i : Nat) :
    (l.map Instance.sig).get? i = (l.get? i).map Instance.sig := by
  simp [List.get?_eq_getElem?]

/-- The chain of `getInstances` from the innermost new instance: when the
instances `n .. n+k` are linked each to the one before and instance `n` has
no `parentInstance`, the chain is `n+k, ..., n`. -/
theorem getInstances_go_chain (l : List Instance) (n : Nat) : ∀ (k f : Nat),
    (∀ j, j ≤ k → ∃ x, l.get? (n + j) = some x ∧
      x.parentInstance = if j = 0 then none else some (n + j - 1)) →
    k + 1 ≤ f →
    getInstances.go l f (n + k) = (List.range' n (k + 1)).reverse := by
  intro k
  induction k with
  | zero =>
    intro f h hf
    obtain ⟨x, h1, h2⟩ := h 0 (Nat.le_refl 0)
    obtain ⟨f, rfl⟩ : ∃ g, f = g + 1 := ⟨f - 1, by omega⟩
    unfold getInstances.go
    simp only [Nat.add_zero] at h1 ⊢
    rw [h1]
    simp only [if_true] at h2
    simp only [h2]
    rfl
  | succ k ih =>
    intro f h hf
    obtain ⟨x, h1, h2⟩ := h (k + 1) (Nat.le_refl _)
    obtain ⟨f, rfl⟩ : ∃ g, f = g + 1 := ⟨f - 1, by omega⟩
    unfold getInstances.go
    rw [h1]
    simp only [Nat.succ_ne_zero, if_false] at h2
    simp only [h2]
    have e : n + (k + 1) - 1 = n + k := by omega
    rw [e, ih f (fun j hj => h j (by omega)) (by omega)]
    rw [List.range'_concat n (k + 1)]
    simp [Nat.add_assoc]

theorem Quiet.step {a b : World} (h : Quiet a b) : Step a b [] :=
  ⟨⟨[], by rw [h.1, List.append_nil]⟩, h.2⟩

theorem Quiet.length {a b : World} (h : Quiet a b) : b.insts.length = a.insts.length := by
  have := congrArg List.length h.1
  simpa using this

theorem Step.followedBy {a b c : World} {d1 d2 : List Nat} (h1 : Step a b d1) (h2 : Step b c d2) :
    Step a c (d1 ++ d2) := by
  obtain ⟨⟨e1, s1⟩, t1, l1, n1⟩ := h1
  obtain ⟨⟨e2, s2⟩, t2, l2, n2⟩ := h2
  refine ⟨⟨e1 ++ e2, by rw [s2, s1, List.append_assoc]⟩, t1 ++ t2,
    by rw [l2, l1, List.append_assoc], ?_⟩
  rw [didMounts_append, n1, n2]

theorem Step.length_le {a b : World} {d : List Nat} (h : Step a b d) :
    a.insts.length ≤ b.insts.length := by
  obtain ⟨⟨e, s⟩, -⟩ := h
  have := congrArg List.length s
  simp only [List.length_map, List.length_append] at this
  omega

theorem Step.sig_get {a b : World} {d : List Nat} (h : Step a b d) (j : Nat)
    (hj : j < a.insts.length) :
    (b.insts.get? j).map Instance.sig = (a.insts.get? j).map Instance.sig := by
  obtain ⟨⟨e, s⟩, -⟩ := h
  rw [← map_sig_get b.insts, ← map_sig_get a.insts, s, List.get?_eq_getElem?, List.get?_eq_getElem?,
    List.getElem?_append_left (by simpa using hj)]

theorem definesHook_of_sig (env : Env) (a b : List Instance) (i k : Nat)
    (h : (a.get? i).map Instance.sig = (b.get? i).map Instance.sig) :
    definesHook env a i k = definesHook env b i k := by
  unfold definesHook
  cases ha : a.get? i with
  | none =>
    rw [ha] at h
    cases hb : b.get? i with
    | none => rfl
    | some y => rw [hb] at h; cases h
  | some x =>
    rw [ha] at h
    cases hb : b.get? i with
    | none => rw [hb] at h; cases h
    | some y =>
      rw [hb] at h
      simp only [Option.map_some', Option.some.injEq, Instance.sig, Prod.mk.injEq] at h
      simp only []
      rw [h.1, h.2.1]

theorem Step.keepsHook {a b : World} {d : List Nat} (h : Step a b d) (env : Env) (j k : Nat)
    (hj : j < a.insts.length) :
    definesHook env b.insts j k = definesHook env a.insts j k :=
  definesHook_of_sig env _ _ j k (h.sig_get j hj)

theorem Quiet.sameHook {a b : World} (h : Quiet a b) (env : Env) (j k : Nat) :
    definesHook env b.insts j k = definesHook env a.insts j k := by
  apply definesHook_of_sig
  rw [← map_sig_get b.insts, ← map_sig_get a.insts, h.1]

theorem BottomUp.le {d : Nat → Bool} {a c : Nat} {l : List Nat} (h : BottomUp d a c l) :
    a ≤ c := by
  induction h with
  | done a => exact Nat.le_refl a
  | mount a k b c ds rest _ _ ih1 ih2 => omega

theorem BottomUp.append {d : Nat → Bool} {a b c : Nat} {l1 l2 : List Nat}
    (h1 : BottomUp d a b l1) (h2 : BottomUp d b c l2) : BottomUp d a c (l1 ++ l2) := by
  induction h1 with
  | done a => exact h2
  | mount a k b1 c1 ds rest g1 _ _ ih2 =>
    have := BottomUp.mount a k b1 c ds (rest ++ l2) g1 (ih2 h2)
    simpa [List.append_assoc] using this

theorem BottomUp.congr {d e : Nat → Bool} {a c : Nat} {l : List Nat} (h : BottomUp d a c l)
    (hde : ∀ i, a ≤ i → i < c → d i = e i) : BottomUp e a c l := by
  induction h with
  | done a => exact BottomUp.done a
  | mount a k b c ds rest g1 g2 ih1 ih2 =>
    have l1 := g1.le
    have l2 := g2.le
    have hf : (List.range' a k).reverse.filter d = (List.range' a k).reverse.filter e := by
      apply List.filter_congr
      intro x hx
      rw [List.mem_reverse, List.mem_range'_1] at hx
      exact hde x hx.1 (by omega)
    rw [hf]
    exact BottomUp.mount a k b c ds rest
      (ih1 (fun i p q => hde i (by omega) (by omega)))
      (ih2 (fun i p q => hde i (by omega) q))

/-- In a bottom-up order every instance of the range that defines the hook
occurs exactly once, and nothing else occurs. -/
theorem BottomUp.exactly_once {d : Nat → Bool} {a c : Nat} {l : List Nat}
    (h : BottomUp d a c l) :
    l.Nodup ∧ ∀ i, i ∈ l ↔ (a ≤ i ∧ i < c ∧ d i = true) := by
  induction h with
  | done a =>
    refine ⟨List.nodup_nil, fun i => ⟨fun hi => (by cases hi), fun hi => (by omega)⟩⟩
  | mount a k b c ds rest g1 g2 ih1 ih2 =>
    have l1 := g1.le
    have l2 := g2.le
    obtain ⟨n1, m1⟩ := ih1
    obtain ⟨n2, m2⟩ := ih2
    have hch : ∀ x, x ∈ (List.range' a k).reverse.filter d ↔ (a ≤ x ∧ x < a + k ∧ d x = true) := by
      intro x
      rw [List.mem_filter, List.mem_reverse, List.mem_range'_1]
      tauto
    constructor
    · rw [List.nodup_append]
      refine ⟨n1, ?_, ?_⟩
      · rw [List.nodup_append]
        refine ⟨(List.nodup_reverse.2 (List.nodup_range' _ _)).filter _, n2, ?_⟩
        intro x hx1 hx2
        have := (hch x).1 hx1
        have := (m2 x).1 hx2
        omega
      · intro x hx1 hx2
        have := (m1 x).1 hx1
        rcases List.mem_append.1 hx2 with hx | hx
        · have := (hch x).1 hx
          omega
        · have := (m2 x).1 hx
          omega
    · intro i
      rw [List.mem_append, List.mem_append, m1, m2, hch]
      constructor
      · rintro (⟨p, q, r⟩ | ⟨p, q, r⟩ | ⟨p, q, r⟩)
        · exact ⟨by omega, by omega, r⟩
        · exact ⟨p, by omega, r⟩
        · exact ⟨by omega, q, r⟩
      · rintro ⟨p, q, r⟩
        by_cases h1 : i < a + k
        · right; left; exact ⟨p, h1, r⟩
        · by_cases h2 : i < b
          · left; exact ⟨by omega, h2, r⟩
          · right; right; exact ⟨by omega, q, r⟩

theorem mounts_of_quiet (env : Env) {a b : World} (h : Quiet a b) : Mounts env a b := by
  refine ⟨[], h.step, ?_⟩
  rw [h.length]
  exact BottomUp.done _

theorem Mounts.thenMounts {env : Env} {a b c : World} (h1 : Mounts env a b) (h2 : Mounts env b c) :
    Mounts env a c := by
  obtain ⟨d1, s1, m1⟩ := h1
  obtain ⟨d2, s2, m2⟩ := h2
  refine ⟨d1 ++ d2, s1.followedBy s2, BottomUp.append (m1.congr ?_) m2⟩
  intro i _ hi
  exact (s2.keepsHook env i 2 hi).symm

/-- The chain of `getInstances` in a list of instances whose components and
parents extend those of `base` by the chain `ext` of `toVnode_spec`. -/
theorem chain_of_sig (l base : List Instance) (ext rest : List (Nat × Bool × Option Nat))
    (hs : l.map Instance.sig = base.map Instance.sig ++ ext ++ rest)
    (hp : ∀ j, j < ext.length → ∃ s, ext.get? j = some s ∧
      s.2.2 = if j = 0 then none else some (base.length + j - 1))
    (hk : 0 < ext.length) :
    getInstances l (base.length + ext.length - 1) =
      (List.range' base.length ext.length).reverse := by
  obtain ⟨k, hk1⟩ : ∃ k, ext.length = k + 1 := ⟨ext.length - 1, by omega⟩
  have hlen : base.length + ext.length + rest.length = l.length := by
    have := congrArg List.length hs
    simp only [List.length_map, List.length_append] at this
    omega
  have e : base.length + ext.length - 1 = base.length + k := by omega
  unfold getInstances
  rw [e, hk1]
  apply getInstances_go_chain
  · intro j hj
    obtain ⟨s, g1, g2⟩ := hp j (by omega)
    have h1 : (l.map Instance.sig).get? (base.length + j) = some s := by
      rw [hs, List.get?_eq_getElem?, List.append_assoc,
        List.getElem?_append_right (by simp), ← g1, List.get?_eq_getElem?]
      simp only [List.length_map, Nat.add_sub_cancel_left]
      rw [List.getElem?_append_left (by omega)]
    rw [map_sig_get] at h1
    cases hx : l.get? (base.length + j) with
    | none => rw [hx] at h1; cases h1
    | some x =>
      rw [hx] at h1
      simp only [Option.map_some', Option.some.injEq] at h1
      refine ⟨x, rfl, ?_⟩
      have : x.parentInstance = s.2.2 := by rw [← h1]; rfl
      rw [this, g2]
  · omega

theorem didMounts_hookTrace (env : Env) (insts : List Instance) (chain : List Nat) :
    didMounts (hookTrace env insts chain 2) =
      chain.filter (fun i => definesHook env insts i 2) := by
  unfold hookTrace
  generalize chain.filter (fun i => definesHook env insts i 2) = l
  induction l with
  | nil => rfl
  | cons x rest ih =>
    rw [List.map_cons]
    have : didMounts (Event.hook x 2 :: rest.map (fun i => Event.hook i 2)) =
        x :: didMounts (rest.map (fun i => Event.hook i 2)) := rfl
    rw [this, ih]

theorem filter_definesHook_congr (env : Env) (a b : List Instance) (l : List Nat)
    (h : a.map Instance.sig = b.map Instance.sig) :
    l.filter (fun i => definesHook env a i 2) = l.filter (fun i => definesHook env b i 2) := by
  congr 1
  funext i
  apply definesHook_of_sig
  rw [← map_sig_get a, ← map_sig_get b, h]

theorem quiet_insertHost (w w1 : World) (p dom : Nat) (replaced : Option Nat)
    (h : insertHost w p dom replaced = some w1) : Quiet w w1 := by
  cases replaced with
  | none =>
    simp only [insertHost, Option.some.injEq] at h
    rw [← h]
    exact quiet_appendChild _ _ _
  | some old => exact quiet_replaceChild _ _ _ _ _ h

/-- The end of `toDOM` under a parent: the host node is inserted, then
`componentDidMount` runs along the chain (when `canComponentDidMount`). -/
theorem finishMount_spec (env : Env) (w4 : World) (v3 v : VNode) (dom d : Nat) (p : Nat)
    (replaced : Option Nat) (can : Bool) (w1 : World)
    (h : finishMount env w4 v3 dom (some p) replaced can = some (v, d, w1)) :
    v = v3 ∧ w1.insts.map Instance.sig = w4.insts.map Instance.sig ∧
    Step w4 w1 (if can = true then
      (chainOf w4.insts v3).filter (fun i => definesHook env w1.insts i 2) else []) := by
  unfold finishMount at h
  simp only [] at h
  split at h
  · cases h
  rename_i w6 hins
  simp only [Option.some.injEq, Prod.mk.injEq] at h
  obtain ⟨h1, -, h3⟩ := h
  have q := (quiet_setInstanceVnode w4 (chainOf w4.insts v3) v3).andThen
    (quiet_insertHost _ _ p dom replaced hins)
  cases can with
  | false =>
    simp only [Bool.false_eq_true, if_false] at h3 ⊢
    subst h3
    exact ⟨h1.symm, q.1, q.step⟩
  | true =>
    simp only [if_true] at h3 ⊢
    obtain ⟨a, -, c⟩ := hook_fold_spec env 2 (chainOf w4.insts v3) w6
    rw [h3] at a c
    have hs : Step w6 w1 ((chainOf w4.insts v3).filter (fun i => definesHook env w1.insts i 2)) := by
      refine ⟨⟨[], by rw [a, List.append_nil]⟩, _, c, ?_⟩
      rw [didMounts_hookTrace, a]
    refine ⟨h1.symm, by rw [a]; exact q.1, ?_⟩
    have := q.step.followedBy hs
    simpa using this

theorem mountInner_spec (env : Env)
    (childrenF : World → List VNode → Option Nat → Option (List VNode × World))
    (t : String) (r : Nat × World) (vn v3 : VNode) (w4 : World)
    (hF : ∀ w cs p vs w1, (∀ c ∈ cs, c.fresh = true) → childrenF w cs (some p) = some (vs, w1) →
      Mounts env w w1)
    (hc : ∀ c ∈ vn.children, c.fresh = true)
    (h : mountInner env childrenF t r vn = some (v3, w4)) :
    Mounts env r.2 w4 ∧ v3.info.inst = vn.info.inst := by
  obtain ⟨vi, vcs⟩ := vn
  unfold mountInner at h
  simp only [VNode.withInfo, VNode.info, VNode.children] at h hc ⊢
  split at h
  · split at h
    · split at h
      · cases h
      · rename_i w2 flag hdp
        have q := quiet_diffProps _ _ _ _ _ _ _ _ hdp
        split at h
        · cases h
        · split at h
          · simp only [Option.some.injEq, Prod.mk.injEq] at h
            obtain ⟨h1, h2⟩ := h
            subst h1 h2
            exact ⟨mounts_of_quiet env q, rfl⟩
          · split at h
            · cases h
            · rename_i cs w3 hch
              simp only [Option.some.injEq, Prod.mk.injEq] at h
              obtain ⟨h1, h2⟩ := h
              subst h1 h2
              exact ⟨(mounts_of_quiet env q).thenMounts (hF _ _ _ _ _ hc hch), rfl⟩
    · cases h
  · simp only [Option.some.injEq, Prod.mk.injEq] at h
    obtain ⟨h1, h2⟩ := h
    subst h1 h2
    exact ⟨mounts_of_quiet env (Quiet.refl _), rfl⟩

theorem quiet_createHost (env : Env) (w : World) (t : String) (v : VNode) (r : Nat × World)
    (h : createHost env w t v = some r) : Quiet w r.2 := by
  unfold createHost at h
  split at h
  · injection h with h
    rw [← h]
    exact quiet_createComment _ _
  · split at h
    · injection h with h
      rw [← h]
      exact quiet_createTextNode _ _
    · exact quiet_createDOMElement _ _ _ _ _ h

theorem matchAll_empty (r : List Nat) : ∀ (keys : List String),
    matchAll { mapping := fun _ => none, removed := r } keys =
      (keys.map (fun _ => none), { mapping := fun _ => none, removed := r }) := by
  intro keys
  induction keys with
  | nil => rfl
  | cons k rest ih =>
    simp only [matchAll, matchStep, List.map_cons, ih]

theorem fresh_withInfo (v : VNode) (f : VInfo → VInfo)
    (h1 : ∀ a, (f a).inst = a.inst) (h2 : ∀ a, (f a).dom = a.dom) :
    (v.withInfo f).fresh = v.fresh := by
  obtain ⟨vi, vcs⟩ := v
  simp only [VNode.withInfo, VNode.fresh, h1, h2]

theorem mounts_of_order (env : Env) (w : World) (v : VNode) (w1 : World)
    (h : MountOrder env w v w1) : Mounts env w w1 := by
  obtain ⟨k, ds, hs, hm, -⟩ := h
  refine ⟨_, hs, ?_⟩
  have := BottomUp.mount w.insts.length k w1.insts.length w1.insts.length ds [] hm
    (BottomUp.done _)
  simpa using this

/-- One unfolding of `toDOM` under a parent, given the order for the
children mounted by `diffChildren` at the fuel below. -/
theorem toDOM_order_step (env : Env) (hE : rendersFresh env) (fuel : Nat)
    (hF : ∀ w cs p vs w1, (∀ c ∈ cs, c.fresh = true) →
      diffChildren env fuel w cs [] (some p) = some (vs, w1) → Mounts env w w1)
    (w : World) (v0 : VNode) (p : Nat) (replaced : Option Nat) (v : VNode) (dom : Nat)
    (w1 : World) (hv : v0.fresh = true)
    (h : toDOM env (fuel + 1) w v0 (some p) replaced = some (v, dom, w1)) :
    MountOrder env w v w1 := by
  obtain ⟨hi0, hd0, hc0⟩ := (fresh_iff v0).1 hv
  rw [toDOM_succ] at h
  split at h
  · cases h
  · rename_i vn wa htv
    obtain ⟨ext, a1, a2, a3, ⟨tr, a4, a5⟩, a6, a7, t, a8⟩ :=
      toVnode_spec env hE _ _ _ _ _ htv hd0 hc0
    rw [a8] at h
    simp only [] at h
    split at h
    · cases h
    · rename_i r hcr
      split at h
      · cases h
      · rename_i v3 w4 hin
        obtain ⟨hm, hi3⟩ := mountInner_spec env _ t _ vn v3 w4 hF a7 hin
        obtain ⟨f1, f2, f3⟩ := finishMount_spec env _ _ _ _ _ _ _ _ _ h
        subst f1
        have qa : Step w wa [] := ⟨⟨ext, a1⟩, tr, a4, a5⟩
        have qh := quiet_createHost env wa t vn r hcr
        obtain ⟨ds, s4, m4⟩ := hm
        have la : wa.insts.length = w.insts.length + ext.length := by
          have := congrArg List.length a1
          simpa using this
        have lh : r.2.insts.length = wa.insts.length := qh.length
        have l1 : w1.insts.length = w4.insts.length := by
          have := congrArg List.length f2
          simpa using this
        have l4 := s4.length_le
        have hdef : ∀ i, definesHook env w1.insts i 2 = definesHook env w4.insts i 2 := by
          intro i
          apply definesHook_of_sig
          rw [← map_sig_get w1.insts, ← map_sig_get w4.insts, f2]
        obtain ⟨⟨e4, s4e⟩, -⟩ := id s4
        have hsig4 : w4.insts.map Instance.sig = w.insts.map Instance.sig ++ ext ++ e4 := by
          rw [s4e, qh.1, a1]
        have hp : ∀ j, j < ext.length → ∃ s, ext.get? j = some s ∧
            s.2.2 = if j = 0 then none else some (w.insts.length + j - 1) := by
          intro j hj
          obtain ⟨s, g1, g2⟩ := a2 j hj
          exact ⟨s, g1, by rw [g2, hi0]⟩
        have hchain : 0 < ext.length → chainOf w4.insts v =
            (List.range' w.insts.length ext.length).reverse := by
          intro hk
          unfold chainOf
          rw [hi3, a3, if_neg (by omega)]
          exact chain_of_sig _ _ _ _ hsig4 hp hk
        have hcan : (vn.info.inst.isSome && vn.info.dom.isNone) = decide (0 < ext.length) := by
          rw [a3, a6]
          by_cases hk : ext.length = 0
          · simp [hk, hi0]
          · simp [hk, Nat.pos_of_ne_zero hk]
        rw [hcan] at f3
        have hfin : Step w4 w1 ((List.range' w.insts.length ext.length).reverse.filter
            (fun i => definesHook env w1.insts i 2)) := by
          by_cases hk : 0 < ext.length
          · simp only [hk, decide_True, if_true] at f3
            rw [hchain hk] at f3
            exact f3
          · have hk0 : ext.length = 0 := by omega
            simp only [hk, decide_False, Bool.false_eq_true, if_false] at f3
            rw [hk0]
            exact f3
        refine ⟨ext.length, ds, ?_, ?_, ?_⟩
        · have := ((qa.followedBy qh.step).followedBy s4).followedBy hfin
          simpa using this
        · rw [lh, la] at m4
          rw [l1]
          exact m4.congr (fun i _ _ => (hdef i).symm)
        · by_cases hk : 0 < ext.length
          · right
            refine ⟨hk, by rw [hi3, a3, if_neg (by omega)], ?_⟩
            exact chain_of_sig _ _ _ _ (by rw [f2]; exact hsig4) hp hk
          · left
            have hk0 : ext.length = 0 := by omega
            exact ⟨hk0, by rw [hi3, a3, if_pos hk0, hi0]⟩

/-- The third loop of `diffChildren` when no new child has a predecessor
(no key match, empty pool): every child is mounted by `toDOM`. -/
theorem loop_mounts (env : Env) (p : Nat) (N : Nat)
    (hT : ∀ m, m < N → ∀ w v0 q replaced v dom w1, v0.fresh = true →
      toDOM env m w v0 (some q) replaced = some (v, dom, w1) → MountOrder env w v w1) :
    ∀ (f : Nat), f ≤ N → ∀ (pairs : List (VNode × Option Nat)) (i : Nat) (st : LoopState)
      (vs : List VNode) (st1 : LoopState),
      (∀ pr ∈ pairs, pr.2 = none ∧ pr.1.fresh = true) → st.removed = [] →
      diffChildrenLoop env (some p) f i pairs st = some (vs, st1) →
      Mounts env st.world st1.world ∧ st1.removed = [] := by
  intro f
  induction f with
  | zero => intro _ pairs i st vs st1 _ _ h; simp [diffChildrenLoop] at h
  | succ f ih =>
    intro hf pairs i st vs st1 hp hr h
    cases pairs with
    | nil =>
      simp only [diffChildrenLoop, Option.some.injEq, Prod.mk.injEq] at h
      obtain ⟨-, h2⟩ := h
      subst h2
      exact ⟨mounts_of_quiet env (Quiet.refl _), hr⟩
    | cons pr rest =>
      obtain ⟨v0, km⟩ := pr
      obtain ⟨hkm, hfr⟩ := hp (v0, km) (List.mem_cons_self _ _)
      simp only at hkm hfr
      subst hkm
      rw [diffChildrenLoop_cons] at h
      split at h
      · cases h
      · rename_i v1 sa hstep
        split at h
        · cases h
        · rename_i vs2 sb hrest
          simp only [Option.some.injEq, Prod.mk.injEq] at h
          obtain ⟨-, h2⟩ := h
          rw [← h2]
          have hfr2 : (v0.withInfo (fun a => { a with hostParent := some (some p) })).fresh = true := by
            refine (fresh_withInfo _ _ ?_ ?_).trans hfr
            · intro a; rfl
            · intro a; rfl
          have hdom := ((fresh_iff _).1 hfr2).2.1
          unfold loopStepWith at hstep
          simp only [hr, shiftUnused, hdom, Option.isSome_none, Bool.false_eq_true, if_false]
            at hstep
          split at hstep
          · cases hstep
          · rename_i v2 d2 w2 htd
            simp only [Option.some.injEq, Prod.mk.injEq] at hstep
            obtain ⟨-, h3⟩ := hstep
            have hm := mounts_of_order env _ _ _
              (hT f (by omega) _ _ _ _ _ _ _ hfr2 htd)
            have hra : sa.removed = [] := by rw [← h3]
            have hwa : sa.world = w2 := by rw [← h3]
            obtain ⟨hm2, hr2⟩ := ih (by omega) rest (i + 1) sa vs2 sb
              (fun pr hpr => hp pr (List.mem_cons_of_mem _ hpr)) hra hrest
            rw [hwa] at hm2
            exact ⟨hm.thenMounts hm2, hr2⟩

/-- Mounting a list of fresh children with `diffChildren(children, [], ...)`. -/
theorem children_mount (env : Env) (N : Nat)
    (hT : ∀ m, m < N → ∀ w v0 q replaced v dom w1, v0.fresh = true →
      toDOM env m w v0 (some q) replaced = some (v, dom, w1) → MountOrder env w v w1)
    (f : Nat) (hf : f ≤ N) (w : World) (cs : List VNode) (p : Nat) (vs : List VNode)
    (w1 : World) (hc : ∀ c ∈ cs, c.fresh = true)
    (h : diffChildren env f w cs [] (some p) = some (vs, w1)) : Mounts env w w1 := by
  cases f with
  | zero => simp [diffChildren] at h
  | succ f =>
    have h0 : ([] : List (Option String)).allSome = some [] := rfl
    rw [diffChildren] at h
    simp only [List.map_nil, h0] at h
    split at h
    · rename_i oldKeys newKeys ho hn
      simp only [Option.some.injEq] at ho
      subst ho
      simp only [buildMapping, List.length_nil, List.range_zero, matchAll_empty,
        List.foldl_map] at h
      split at h
      · cases h
      · rename_i vs2 st hloop
        obtain ⟨hm, hr⟩ := loop_mounts env p N hT f (by omega) _ 0 _ vs2 st
          (by
            intro pr hpr
            obtain ⟨x, y⟩ := pr
            have h1 := List.of_mem_zip hpr
            obtain ⟨c, hc1, hc2⟩ := List.mem_map.1 h1.1
            refine ⟨?_, ?_⟩
            · have := h1.2
              simp only [List.mem_map] at this
              obtain ⟨_, -, e⟩ := this
              exact e.symm
            · simp only
              rw [← hc2]
              split
              · refine (fresh_withInfo _ _ ?_ ?_).trans (hc c hc1)
                · intro a; rfl
                · intro a; rfl
              · exact hc c hc1)
          rfl hloop
        rw [hr] at h
        simp only [removeLeftovers, Option.some.injEq, Prod.mk.injEq] at h
        obtain ⟨-, h2⟩ := h
        rw [← h2]
        exact hm
    · cases h

/-- The order of `componentDidMount` in `toDOM`, by induction on the fuel. -/
theorem toDOM_order (env : Env) (hE : rendersFresh env) : ∀ (N : Nat) (w : World)
    (v0 : VNode) (p : Nat) (replaced : Option Nat) (v : VNode) (dom : Nat) (w1 : World),
    v0.fresh = true → toDOM env N w v0 (some p) replaced = some (v, dom, w1) →
    MountOrder env w v w1 := by
  intro N
  induction N using Nat.strong_induction_on with
  | _ N ih =>
    intro w v0 p replaced v dom w1 hv h
    cases N with
    | zero => simp [toDOM] at h
    | succ f =>
      refine toDOM_order_step env hE f ?_ w v0 p replaced v dom w1 hv h
      intro w cs q vs w2 hc hd
      exact children_mount env f (fun m hm => ih m (by omega)) f (Nat.le_refl f) w cs q vs w2 hc hd

theorem treeEnv_rendersFresh : rendersFresh treeEnv := by
  intro cd hcd p s r _ hr
  simp only [treeEnv, List.mem_cons, List.mem_singleton, List.not_mem_nil, or_false] at hcd
  rcases hcd with rfl | rfl | rfl
  all_goals
    simp only [Option.some.injEq] at hr
    subst hr
    decide
/-! ## Lemmas: the third loop of `diffChildren` and the predecessors -/

theorem loopStepWith_eq (env : Env) (parentNode : Option Nat)
    (diffF : World → VNode → VNode → Option (Option Nat) → Option (VNode × Option Nat × World))
    (toDOMF : World → VNode → Option Nat → Option Nat → Option (VNode × Nat × World))
    (i : Nat) (v0 : VNode) (km : Option Nat) (st : LoopState) :
    loopStepWith env parentNode diffF toDOMF i v0 km st =
      (loopBody env parentNode diffF toDOMF i v0 km (pickOf km st).1 st.olds st.world).map
        (fun r => (r.1, { removed := (pickOf km st).2,
                          olds := oldsAfter st.olds (pickOf km st).1, world := r.2 })) := by
  unfold loopStepWith loopBody
  change (match (pickOf km st).1 with
    | some j => _
    | none => _) = Option.map _ (match (pickOf km st).1 with
    | some j => _
    | none => _)
  cases (pickOf km st).1 with
  | none =>
    simp only []
    split
    · rfl
    · generalize toDOMF st.world _ parentNode _ = r
      rcases r with _ | ⟨v1, d, w1⟩ <;> rfl
  | some j =>
    simp only []
    cases st.olds.get? j with
    | none => rfl
    | some prev =>
      simp only []
      split_ifs
      all_goals first
        | rfl
        | (generalize diffF st.world _ prev (some parentNode) = r
           rcases r with _ | ⟨v1, d, w1⟩ <;> rfl)
        | (cases prev.info.dom <;> rfl)
        | (cases parentNode with
           | none => rfl
           | some p =>
             cases prev.info.dom with
             | none => rfl
             | some d =>
               simp only []
               generalize replaceChild _ p _ d = r
               cases r with
               | none => rfl
               | some w0 =>
                 simp only []
                 cases removeComponent env prev w0 <;> rfl)
theorem useOf_oldsAfter (olds : List VNode) (pick : Option Nat) :
    useOf (oldsAfter olds pick) = useOf olds := by
  funext k
  unfold useOf
  cases pick with
  | none => rfl
  | some j =>
    by_cases hj : j = k
    · subst hj
      simp only [oldsAfter, List.get?_eq_getElem?, List.getElem?_modify_eq]
      cases olds[j]? with
      | none => rfl
      | some o => obtain ⟨oi, ocs⟩ := o; rfl
    · rw [oldsAfter_get_ne olds (some j) k (fun e => hj (Option.some.inj e))]

theorem pickOf_eq (km : Option Nat) (st : LoopState) :
    pickOf km st =
      match km with
      | some j => (some j, st.removed)
      | none => shiftUnused (useOf st.olds) st.removed := by
  cases km <;> rfl

theorem loopWithPicks_cons (env : Env) (parentNode : Option Nat) (fuel i : Nat)
    (v0 : VNode) (km pick : Option Nat) (rest : List ((VNode × Option Nat) × Option Nat))
    (olds : List VNode) (w : World) :
    loopWithPicks env parentNode (fuel + 1) i (((v0, km), pick) :: rest) olds w =
      match loopBody env parentNode (diff env fuel) (toDOM env fuel) i v0 km pick olds w with
      | none => none
      | some (v1, w1) =>
        match loopWithPicks env parentNode fuel (i + 1) rest (oldsAfter olds pick) w1 with
        | none => none
        | some (vs, o, w2) => some (v1 :: vs, o, w2) := by
  rfl

theorem loop_refines (env : Env) (parentNode : Option Nat) :
    ∀ (pairs : List (VNode × Option Nat)) (fuel i : Nat) (st : LoopState),
    diffChildrenLoop env parentNode fuel i pairs st =
      (loopWithPicks env parentNode fuel i
          (pairs.zip (predecessors (useOf st.olds) (pairs.map Prod.snd) st.removed).1)
          st.olds st.world).map
        (fun r => (r.1, { removed := (predecessors (useOf st.olds) (pairs.map Prod.snd)
                                        st.removed).2,
                          olds := r.2.1, world := r.2.2 })) := by
  intro pairs
  induction pairs with
  | nil =>
    intro fuel i st
    cases fuel with
    | zero => rfl
    | succ f => rfl
  | cons pr rest ih =>
    intro fuel i st
    obtain ⟨v0, km⟩ := pr
    cases fuel with
    | zero => rfl
    | succ f =>
      rw [diffChildrenLoop_cons, loopStepWith_eq]
      have hpk : (predecessors (useOf st.olds) (((v0, km) :: rest).map Prod.snd) st.removed) =
          ((pickOf km st).1 :: (predecessors (useOf st.olds) (rest.map Prod.snd)
              (pickOf km st).2).1,
            (predecessors (useOf st.olds) (rest.map Prod.snd) (pickOf km st).2).2) := by
        cases km <;> rfl
      rw [hpk]
      rw [List.zip_cons_cons, loopWithPicks_cons]
      cases loopBody env parentNode (diff env f) (toDOM env f) i v0 km (pickOf km st).1
          st.olds st.world with
      | none => rfl
      | some r =>
        obtain ⟨v1, w1⟩ := r
        simp only [Option.map_some']
        rw [ih f (i + 1)]
        simp only [useOf_oldsAfter]
        generalize loopWithPicks env parentNode f (i + 1) _
            (oldsAfter st.olds (pickOf km st).1) w1 = q
        cases q with
        | none => rfl
        | some q => rfl
theorem allSome_length {α : Type} : ∀ (l : List (Option α)) (r : List α),
    l.allSome = some r → r.length = l.length := by
  intro l
  induction l with
  | nil =>
    intro r h
    have h0 : ([] : List (Option α)).allSome = some [] := rfl
    rw [h0] at h
    injection h with h
    rw [← h]
    rfl
  | cons x rest ih =>
    intro r h
    unfold List.allSome at h ih
    rw [List.mapM_cons] at h
    cases x with
    | none => simp at h
    | some a =>
      cases hr : List.mapM id rest with
      | none => rw [hr] at h; simp at h
      | some as =>
        rw [hr] at h
        simp at h
        rw [← h]
        simp [ih as hr]

theorem useOf_markUsed : ∀ (ms : List (Option Nat)) (olds : List VNode) (k : Nat),
    some k ∉ ms → useOf (markUsed ms olds) k = useOf olds k := by
  intro ms
  induction ms with
  | nil => intro olds k _; rfl
  | cons m rest ih =>
    intro olds k hk
    have hk1 : m ≠ some k := fun e => hk (by rw [e]; exact List.mem_cons_self _ _)
    have hk2 : some k ∉ rest := fun e => hk (List.mem_cons_of_mem _ e)
    cases m with
    | none => exact ih olds k hk2
    | some j =>
      have hjk : j ≠ k := fun e => hk1 (by rw [e])
      have := ih (olds.modify (fun o => o.withInfo (fun a => { a with use := true })) j) k hk2
      unfold markUsed at this ⊢
      rw [List.foldl_cons]
      rw [this]
      unfold useOf
      rw [modify_get_ne _ _ _ _ hjk]

theorem removalsOf_append (p : Nat) (a b : List Event) :
    removalsOf p (a ++ b) = removalsOf p a ++ removalsOf p b := by
  unfold removalsOf
  rw [List.filterMap_append]

theorem removeComponent_log (env : Env) (p : Nat) (v : VNode) :
    ∀ w w1, removeComponent env v w = some w1 →
      ∃ es, w1.log = w.log ++ es ∧ removalsOf p es = [] := by
  refine @VNode.rec
    (fun v => ∀ w w1, removeComponent env v w = some w1 →
      ∃ es, w1.log = w.log ++ es ∧ removalsOf p es = [])
    (fun cs => ∀ w w1, removeComponent.removeList env cs w = some w1 →
      ∃ es, w1.log = w.log ++ es ∧ removalsOf p es = [])
    ?_ ?_ ?_ v
  · intro info cs ih w w1 h
    unfold removeComponent at h
    split at h
    · cases hi : info.inst with
      | none =>
        rw [hi] at h
        exact ih _ _ h
      | some i =>
        rw [hi] at h
        simp only [] at h
        obtain ⟨es, h1, h2⟩ := ih _ _ h
        obtain ⟨-, -, hl⟩ := applyComponentHook_spec env w i 7
        refine ⟨(if definesHook env w.insts i 7 = true then [Event.hook i 7] else []) ++ es,
          by rw [h1, hl, List.append_assoc], ?_⟩
        rw [removalsOf_append, h2]
        split <;> rfl
    · cases h
  · intro w w1 h
    simp only [removeComponent.removeList, Option.some.injEq] at h
    exact ⟨[], by rw [← h]; simp, rfl⟩
  · intro c cs ihc ihcs w w1 h
    unfold removeComponent.removeList at h
    split at h
    · split at h
      · rename_i w2 hw2
        obtain ⟨e1, a1, a2⟩ := ihc _ _ hw2
        obtain ⟨e2, b1, b2⟩ := ihcs _ _ h
        exact ⟨e1 ++ e2, by rw [b1, a1, List.append_assoc], by rw [removalsOf_append, a2, b2]; rfl⟩
      · cases h
    · exact ihcs _ _ h

theorem removeLeftovers_removals (env : Env) (p : Nat) (olds : List VNode) :
    ∀ (removed : List Nat) (w w1 : World),
    removeLeftovers env (some p) olds removed w = some w1 →
    ∃ tail, w1.log = w.log ++ tail ∧ (removalsOf p tail).length = removed.length := by
  intro removed
  induction removed with
  | nil =>
    intro w w1 h
    simp only [removeLeftovers, Option.some.injEq] at h
    exact ⟨[], by rw [← h]; simp, rfl⟩
  | cons j rest ih =>
    intro w w1 h
    unfold removeLeftovers at h
    cases ho : olds.get? j with
    | none => rw [ho] at h; cases h
    | some o =>
      rw [ho] at h
      simp only [] at h
      cases hd : o.info.dom with
      | none => rw [hd] at h; cases h
      | some d =>
        rw [hd] at h
        simp only [] at h
        cases hr : removeChild w p d with
        | none => rw [hr] at h; cases h
        | some w2 =>
          rw [hr] at h
          simp only [] at h
          have hl2 : w2.log = w.log ++ [.removeChild p d] := by
            unfold removeChild at hr
            split at hr
            · injection hr with hr
              rw [← hr]
              rfl
            · cases hr
          have hone : removalsOf p [Event.removeChild p d] = [d] := by
            simp [removalsOf]
          split at h
          · split at h
            · rename_i w3 hw3
              obtain ⟨es, c1, c2⟩ := removeComponent_log env p o _ _ hw3
              obtain ⟨tl, d1, d2⟩ := ih _ _ h
              refine ⟨[.removeChild p d] ++ es ++ tl, by
                rw [d1, c1, hl2]; simp, ?_⟩
              rw [removalsOf_append, removalsOf_append, hone, c2]
              simp [d2]
            · cases h
          · obtain ⟨tl, d1, d2⟩ := ih _ _ h
            refine ⟨[.removeChild p d] ++ tl, by rw [d1, hl2]; simp, ?_⟩
            rw [removalsOf_append, hone]
            simp [d2]
theorem map_snd_zip_of_le {α β : Type} : ∀ (l1 : List α) (l2 : List β),
    l2.length ≤ l1.length → (l1.zip l2).map Prod.snd = l2 := by
  intro l1
  induction l1 with
  | nil =>
    intro l2 h
    cases l2 with
    | nil => rfl
    | cons b bs => simp at h
  | cons a as ih =>
    intro l2 h
    cases l2 with
    | nil => rfl
    | cons b bs =>
      simp only [List.zip_cons_cons, List.map_cons, List.cons.injEq, true_and]
      exact ih bs (by simpa using h)

theorem diffChildren_picks (env : Env) (fuel : Nat) (w : World) (news olds : List VNode)
    (parentNode : Option Nat) (oldKeys newKeys : List String)
    (hO : (olds.map (oldUUID env w.insts)).allSome = some oldKeys)
    (hN : (news.map (newUUID env)).allSome = some newKeys) :
    diffChildren env (fuel + 1) w news olds parentNode =
      (loopWithPicks env parentNode fuel 0
        (((markNew news).zip (keyMatches oldKeys newKeys)).zip
          (predecessors (useOf (markUsed (keyMatches oldKeys newKeys) olds))
            (keyMatches oldKeys newKeys) (removalPool oldKeys newKeys)).1)
        (markUsed (keyMatches oldKeys newKeys) olds) w).bind
      (fun r =>
        (removeLeftovers env parentNode r.2.1
          (predecessors (useOf (markUsed (keyMatches oldKeys newKeys) olds))
            (keyMatches oldKeys newKeys) (removalPool oldKeys newKeys)).2 r.2.2).map
          (fun w2 => (r.1, w2))) := by
  have hlo : oldKeys.length = olds.length := by
    have := allSome_length _ _ hO
    simpa using this
  have hln : newKeys.length = news.length := by
    have := allSome_length _ _ hN
    simpa using this
  obtain ⟨hk, -, -⟩ := matchAll_pool oldKeys newKeys
    { mapping := buildMapping 0 oldKeys (fun _ => none), removed := List.range oldKeys.length } []
    (fun u => buildMapping_queueOf oldKeys u) (List.nodup_range _) (by simp)
  have hkl : (keyMatches oldKeys newKeys).length ≤ (markNew news).length := by
    have : (keyMatches oldKeys newKeys).length = newKeys.length := hk
    rw [this, hln]
    simp [markNew]
  rw [diffChildren]
  simp only [hO, hN]
  rw [← hlo]
  change (match diffChildrenLoop env parentNode fuel 0
      ((markNew news).zip (keyMatches oldKeys newKeys))
      { removed := removalPool oldKeys newKeys,
        olds := markUsed (keyMatches oldKeys newKeys) olds, world := w } with
    | none => none
    | some (vs, st) =>
      match removeLeftovers env parentNode st.olds st.removed st.world with
      | none => none
      | some w1 => some (vs, w1)) = _
  rw [loop_refines]
  simp only [map_snd_zip_of_le _ _ hkl]
  generalize loopWithPicks env parentNode fuel 0 _ _ w = q
  cases q with
  | none => rfl
  | some r =>
    obtain ⟨vs, o1, w1⟩ := r
    simp only [Option.map_some', Option.some_bind]
    generalize removeLeftovers env parentNode o1 _ w1 = q2
    cases q2 <;> rfl
/-! ## Claims about `diffChildren` and `computeUUID` -/

/-- C2 (code defect): old children `[A key k1]`, new children
`[B key k2, A key k1]`.  `B` is created fresh at index 0 and put in the host
tree by `replaceChild` on the host node of `oldChildren[0]`, which is `A`:
the host node of `A` (handle 1), matched to the second new child and still
held by it, is no longer a child of the container. -/
theorem fresh_child_replaces_matched_host_node :
    outcome (rediffChildren plainEnv
        [elemNode "div" (some "k1") [] []]
        [elemNode "div" (some "k2") [] [], elemNode "div" (some "k1") [] []]) =
      some ([some 2, some 1], [2],
        [.createElement 2 "div" none, .replaceChild 0 2 1]) := by
  decide!

/-- C3 (counterexample): reconciling `[k1,k2,k3]` against `[k3,k1,k2]`
performs no host-node move at all, not three, and the host children of the
parent are not in the order k3,k1,k2 afterwards. -/
theorem reorder_three_moves_counterexample :
    ∃ doms kids log,
      outcome (rediffChildren plainEnv
        [elemNode "li" (some "k1") [] [], elemNode "li" (some "k2") [] [],
         elemNode "li" (some "k3") [] []]
        [elemNode "li" (some "k3") [] [], elemNode "li" (some "k1") [] [],
         elemNode "li" (some "k2") [] []]) = some (doms, kids, log) ∧
      (log.filter Event.isMove).length ≠ 3 ∧ kids ≠ [3, 1, 2] :=
  ⟨[some 3, some 1, some 2], [1, 2, 3], [], by decide!, by decide, by decide⟩

/-- C3 (amended): reconciling `[k1,k2,k3]` against `[k3,k1,k2]` calls the
DOM adapter not at all (no move, no creation, no removal); every new child
holds the host node of the old child with its key, and the host children of
the parent stay in the order k1,k2,k3. -/
theorem reorder_keeps_host_order :
    outcome (rediffChildren plainEnv
        [elemNode "li" (some "k1") [] [], elemNode "li" (some "k2") [] [],
         elemNode "li" (some "k3") [] []]
        [elemNode "li" (some "k3") [] [], elemNode "li" (some "k1") [] [],
         elemNode "li" (some "k2") [] []]) =
      some ([some 3, some 1, some 2], [1, 2, 3], []) := by
  decide!

/-- C4 (code defect): an element with `dangerouslySetInnerHTML` diffed
against a structurally identical copy of itself.  The calls made are an
attribute write (`setAttribute` of the markup object) and the removal of the
host child built from the markup. -/
theorem identical_copy_with_innerHTML_mutates :
    outcome (rediffChildren plainEnv [htmlNode 1] [htmlNode 2]) =
      some ([some 1], [1],
        [.setAttribute 1 "dangerouslySetInnerHTML" "[object Object]", .removeChild 1 2]) ∧
    hostChildrenAfter (mountChildren plainEnv [htmlNode 1]) 1 = some [2] ∧
    hostChildrenAfter (rediffChildren plainEnv [htmlNode 1] [htmlNode 2]) 1 = some [] := by
  decide!

/-- C5: in the second loop of `diffChildren` the new child at index `i`,
with key `u`, is matched to the least old index `j` that has key `u` and was
not matched to an earlier new child (so no old child is matched twice), and
it gets no match exactly when every old child with key `u` was matched to
an earlier new child. -/
theorem keyMatches_earliest_unmatched (oldKeys newKeys : List String) (i : Nat) (u : String)
    (hi : newKeys.get? i = some u) :
    ∃ r, (keyMatches oldKeys newKeys).get? i = some r ∧
      (∀ j, r = some j → oldKeys.get? j = some u ∧
        (∀ i', i' < i → (keyMatches oldKeys newKeys).get? i' ≠ some (some j)) ∧
        ∀ k, k < j → oldKeys.get? k = some u →
          ∃ i', i' < i ∧ (keyMatches oldKeys newKeys).get? i' = some (some k)) ∧
      (r = none → ∀ k, oldKeys.get? k = some u →
          ∃ i', i' < i ∧ (keyMatches oldKeys newKeys).get? i' = some (some k)) := by
  obtain ⟨r, hr, h1, h2⟩ := matchAll_spec oldKeys newKeys
    { mapping := buildMapping 0 oldKeys (fun _ => none), removed := List.range oldKeys.length } []
    (fun u => buildMapping_queueOf oldKeys u) i u hi
  refine ⟨r, hr, ?_, ?_⟩
  · intro j hj
    obtain ⟨a, _, c, d⟩ := h1 j hj
    refine ⟨a, c, fun k hk hku => ?_⟩
    rcases d k hk hku with h | h
    · cases h
    · exact h
  · intro hrn k hku
    rcases h2 hrn k hku with h | h
    · cases h
    · exact h

/-- C5 (witness): old keys `[a, b, a]`, new keys `[a, a, a]`, third new
child. -/
theorem keyMatches_earliest_unmatched_witness :
    ["a/0", "a/0", "a/0"].get? 2 = some "a/0" ∧
    ∃ r, (keyMatches ["a/0", "b/0", "a/0"] ["a/0", "a/0", "a/0"]).get? 2 = some r ∧
      (∀ j, r = some j → ["a/0", "b/0", "a/0"].get? j = some "a/0" ∧
        (∀ i', i' < 2 →
          (keyMatches ["a/0", "b/0", "a/0"] ["a/0", "a/0", "a/0"]).get? i' ≠ some (some j)) ∧
        ∀ k, k < j → ["a/0", "b/0", "a/0"].get? k = some "a/0" →
          ∃ i', i' < 2 ∧
            (keyMatches ["a/0", "b/0", "a/0"] ["a/0", "a/0", "a/0"]).get? i' = some (some k)) ∧
      (r = none → ∀ k, ["a/0", "b/0", "a/0"].get? k = some "a/0" →
          ∃ i', i' < 2 ∧
            (keyMatches ["a/0", "b/0", "a/0"] ["a/0", "a/0", "a/0"]).get? i' = some (some k)) :=
  ⟨rfl, keyMatches_earliest_unmatched ["a/0", "b/0", "a/0"] ["a/0", "a/0", "a/0"] 2 "a/0" rfl⟩

/-- C7 (counterexample): two text nodes of the same depth, both without
key, get different computed keys when their texts differ; and an element
with tag `a/0` at depth 1 without key gets the computed key of an element
with tag `a` at depth 0 and key `1`. -/
theorem computeUUID_not_triple_identity :
    (computeUUID "#text" { type := .tag "#text", deep := some 0, text := some "hi" } ≠
       computeUUID "#text" { type := .tag "#text", deep := some 0, text := some "bye" }) ∧
    (computeUUID "a/0" { type := .tag "a/0", deep := some 1 } =
       computeUUID "a" { type := .tag "a", deep := some 0, key := some "1" }) := by
  decide

/-- C7 (amended): for type tags that contain no `/`, two computed keys are
equal if and only if the tags are equal, the depths are equal and, for text
nodes, the texts are equal, for other nodes the explicit keys are equal (or
both absent). -/
theorem computeUUID_eq_iff (t1 t2 : String) (a b : VInfo)
    (h1 : '/' ∉ t1.data) (h2 : '/' ∉ t2.data) :
    computeUUID t1 a = computeUUID t2 b ↔
      t1 = t2 ∧ a.deep = b.deep ∧
        (if t1 = "#text" then textStr a.text = textStr b.text else a.key = b.key) :=
  computeUUID_eq_iff_aux t1 t2 a b h1 h2

/-- C7 (witness): two `li` elements of depth 2 with keys `x/y` and `x`. -/
theorem computeUUID_eq_iff_witness :
    ('/' ∉ "li".data ∧ '/' ∉ "li".data) ∧
    (computeUUID "li" { type := .tag "li", deep := some 2, key := some "x/y" } =
        computeUUID "li" { type := .tag "li", deep := some 2, key := some "x" } ↔
      "li" = "li" ∧ some 2 = some 2 ∧
        (if "li" = "#text" then textStr none = textStr none else some "x/y" = some "x")) :=
  ⟨by decide, computeUUID_eq_iff "li" "li" _ _ (by decide) (by decide)⟩

/-- C8 (code defect): a component type named `Bar` with `displayName`
`Foo`.  For the child mounted from it the first loop computes the key
`Foo/0/k`, for a new child of the same type the second loop computes
`Bar/0/k`, and the new child gets no key match. -/
theorem displayName_breaks_key_match :
    (mountChildren namedEnv [compNode 0 (some "k")]).map
        (fun r => r.1.map (fun v => oldUUID namedEnv r.2.insts v)) = some [some "Foo/0/k"] ∧
    newUUID namedEnv (compNode 0 (some "k")) = some "Bar/0/k" ∧
    keyMatches ["Foo/0/k"] ["Bar/0/k"] = [none] := by
  decide!

/-- C9 (counterexample): `div` with a `span` child diffed against `p` with a
`span` child.  The host node of the old `span` (handle 2) is moved into the
new `p` element (handle 3) and is the host node the new `span` ends with;
no host node is created for the new `span`. -/
theorem type_change_carries_host_children :
    (rediffChildren plainEnv
        [elemNode "div" none [elemNode "span" none [] []] []]
        [elemNode "p" none [elemNode "span" none [] []] []]).map
      (fun r => (r.1.map (fun v => (v.info.dom, v.children.map (fun c => c.info.dom))),
                 r.2.childrenOf 3, r.2.log)) =
      some ([(some 3, [some 2])], [2],
        [.createElement 3 "p" none, .appendChild 3 2, .replaceChild 0 3 1]) := by
  decide!

/-- C10 (code defect): a child mounted from `Outer`, which renders `Inner`,
which renders a `div`, is left unused.  Both components define
`componentWillUnmount` (hook 7) and both got `componentDidMount` (hook 2) on
mount, but the removal invokes `componentWillUnmount` on the `Inner`
instance (1) only; the `Outer` instance (0) never gets it. -/
theorem chain_unmount_skips_outer :
    outcome (mountChildren chainEnv [compNode 0 none]) =
      some ([some 1], [1],
        [.construct 0 0, .render 0, .construct 1 1, .render 1, .createElement 1 "div" none,
         .appendChild 0 1, .hook 1 2, .hook 0 2]) ∧
    outcome (rediffChildren chainEnv [compNode 0 none] []) =
      some ([], [], [.removeChild 0 1, .hook 1 7]) := by
  decide!

/-- C6 (counterexample): old keys `[k, c]`, new keys `[k, k]`.  The key of
the second new child had a queue in the mapping, the first new child
exhausted it, and the second new child is nevertheless given the unused old
child `c` (index 1) as positional predecessor. -/
theorem exhausted_queue_gets_positional_predecessor :
    buildMapping 0 ["div/0/k", "div/0/c"] (fun _ => none) "div/0/k" = some [0] ∧
    keyMatches ["div/0/k", "div/0/c"] ["div/0/k", "div/0/k"] = [some 0, none] ∧
    removalPool ["div/0/k", "div/0/c"] ["div/0/k", "div/0/k"] = [1] ∧
    (predecessors
        (useAfterMatch (fun _ => false)
          (keyMatches ["div/0/k", "div/0/c"] ["div/0/k", "div/0/k"]))
        (keyMatches ["div/0/k", "div/0/c"] ["div/0/k", "div/0/k"])
        (removalPool ["div/0/k", "div/0/c"] ["div/0/k", "div/0/k"])).1 = [some 0, some 1] := by
  decide

/-- C6 (amended): in the third step of `diffChildren` a new child with a key
match keeps it, and every new child without key match, whatever the reason,
is paired in iteration order with the still-unused old children of the
removal pool: the new child at index `i` gets the unused pool entry whose
rank is the number of unmatched new children before `i`, and it is treated
as new exactly when the pool has no unused entry of that rank. -/
theorem unmatched_children_pair_with_pool_in_order (use : Nat → Bool)
    (ms : List (Option Nat)) (removed : List Nat) (i : Nat) (h : ms.get? i = some none) :
    (predecessors use ms removed).1.get? i =
      some ((removed.filter (fun k => !use k)).get? (unmatchedBefore ms i)) ∧
    ∀ i' j, ms.get? i' = some (some j) → (predecessors use ms removed).1.get? i' = some (some j) :=
  ⟨(predecessors_spec use ms removed).2 i h, (predecessors_spec use ms removed).1⟩

/-- C6 (witness): key matches `[some 0, none, none]` over the pool `[1, 2]`
whose entry 1 carries a `use` flag: the child at index 2 is the second
unmatched child. -/
theorem unmatched_children_pair_with_pool_in_order_witness :
    [some 0, none, none].get? 2 = some none ∧
    ((predecessors (fun k => decide (k = 1)) [some 0, none, none] [1, 2]).1.get? 2 =
      some (([1, 2].filter (fun k => !decide (k = 1))).get? (unmatchedBefore [some 0, none, none] 2)) ∧
    ∀ i' j, [some 0, none, none].get? i' = some (some j) →
      (predecessors (fun k => decide (k = 1)) [some 0, none, none] [1, 2]).1.get? i' = some (some j)) :=
  ⟨rfl, unmatched_children_pair_with_pool_in_order (fun k => decide (k = 1))
    [some 0, none, none] [1, 2] 2 rfl⟩

/-- C29 (counterexample): the mounted children are a child of component
`A` and a `span`, the new child is one vnode of component `B`.  There are
fewer new children than old ones, and yet the new child is mounted fresh (the
instance of `B` is constructed and rendered, a host element is created and
put in the place of the host node of `A`), and in the same call the `span` is
removed in the final step. -/
theorem component_swap_mounts_and_removes :
    outcome (rediffChildren swapEnv [compNode 0 none, elemNode "span" none [] []]
        [compNode 1 none]) =
      some ([some 3], [3],
        [.construct 1 1, .render 1, .createElement 3 "div" none, .replaceChild 0 3 1,
         .removeChild 0 2]) := by
  decide!

/-- C29 (amended): `diffChildren` under the parent host node `p`, for old
and new children whose keys can be computed, the old children without stale
`use` flag.  The call is the third loop run on the predecessors that
`predecessors` computes from the key matches and the removal pool, followed
by the final step on what is left of the pool.  Exactly `|new| - |old|` new
children get no predecessor, and an iteration without predecessor is the
call of `toDOM` for a vnode that holds no host node; exactly `|old| - |new|`
old children are left in the pool, and the final step, when it returns, has
called `removeChild` on `p` that many times (both differences truncated at
0).  So the branch that adds a new node and the final removal never both
occur in one call; a new child with a predecessor is patched by `diff`,
which mounts it fresh all the same when it is a component of another
type. -/
theorem unpaired_children_mount_and_leftovers_go (env : Env) (fuel : Nat) (w : World)
    (news olds : List VNode) (p : Nat) (oldKeys newKeys : List String)
    (hO : (olds.map (oldUUID env w.insts)).allSome = some oldKeys)
    (hN : (news.map (newUUID env)).allSome = some newKeys)
    (hU : ∀ o ∈ olds, o.info.use = false) :
    diffChildren env (fuel + 1) w news olds (some p) =
      (loopWithPicks env (some p) fuel 0
        (((markNew news).zip (keyMatches oldKeys newKeys)).zip
          (predecessors (useOf (markUsed (keyMatches oldKeys newKeys) olds))
            (keyMatches oldKeys newKeys) (removalPool oldKeys newKeys)).1)
        (markUsed (keyMatches oldKeys newKeys) olds) w).bind
      (fun r =>
        (removeLeftovers env (some p) r.2.1
          (predecessors (useOf (markUsed (keyMatches oldKeys newKeys) olds))
            (keyMatches oldKeys newKeys) (removalPool oldKeys newKeys)).2 r.2.2).map
          (fun w2 => (r.1, w2))) ∧
    (predecessors (useOf (markUsed (keyMatches oldKeys newKeys) olds))
        (keyMatches oldKeys newKeys) (removalPool oldKeys newKeys)).1.count none =
      news.length - olds.length ∧
    (predecessors (useOf (markUsed (keyMatches oldKeys newKeys) olds))
        (keyMatches oldKeys newKeys) (removalPool oldKeys newKeys)).2.length =
      olds.length - news.length ∧
    (∀ olds1 w1 w2,
      removeLeftovers env (some p) olds1
        (predecessors (useOf (markUsed (keyMatches oldKeys newKeys) olds))
          (keyMatches oldKeys newKeys) (removalPool oldKeys newKeys)).2 w1 = some w2 →
      ∃ tail, w2.log = w1.log ++ tail ∧
        (removalsOf p tail).length = olds.length - news.length) ∧
    (∀ i v0 km olds1 w1, v0.info.dom = none →
      loopBody env (some p) (diff env fuel) (toDOM env fuel) i v0 km none olds1 w1 =
        (toDOM env fuel w1 (v0.withInfo (fun a => { a with hostParent := some (some p) }))
          (some p) ((olds1.get? i).bind (fun o => o.info.dom))).map
          (fun r => (r.1, r.2.2))) := by
  have hlo : oldKeys.length = olds.length := by
    have := allSome_length _ _ hO
    simpa using this
  have hln : newKeys.length = news.length := by
    have := allSome_length _ _ hN
    simpa using this
  obtain ⟨a, b, c⟩ := matchAll_pool oldKeys newKeys
    { mapping := buildMapping 0 oldKeys (fun _ => none), removed := List.range oldKeys.length } []
    (fun u => buildMapping_queueOf oldKeys u) (List.nodup_range _) (by simp)
  have hcount := count_none_add_isSome (keyMatches oldKeys newKeys)
  have hu : ∀ k ∈ removalPool oldKeys newKeys,
      useOf (markUsed (keyMatches oldKeys newKeys) olds) k = false := by
    intro k hk
    have hnot : some k ∉ keyMatches oldKeys newKeys := (c k hk).2
    rw [useOf_markUsed _ olds k hnot]
    unfold useOf
    cases ho : olds.get? k with
    | none => rfl
    | some o => exact hU o (List.get?_mem ho)
  obtain ⟨c1, c2⟩ := predecessors_counts _ (keyMatches oldKeys newKeys)
    (removalPool oldKeys newKeys) hu
  simp only [List.length_range] at b
  have a2 : (keyMatches oldKeys newKeys).length = newKeys.length := a
  have b2 : (removalPool oldKeys newKeys).length +
      ((keyMatches oldKeys newKeys).filter Option.isSome).length = oldKeys.length := b
  have hpool : (predecessors (useOf (markUsed (keyMatches oldKeys newKeys) olds))
      (keyMatches oldKeys newKeys) (removalPool oldKeys newKeys)).2.length =
      olds.length - news.length := by
    rw [c2]; omega
  refine ⟨diffChildren_picks env fuel w news olds (some p) oldKeys newKeys hO hN, ?_, hpool,
    ?_, ?_⟩
  · rw [c1]; omega
  · intro olds1 w1 w2 h
    obtain ⟨tail, t1, t2⟩ := removeLeftovers_removals env p olds1 _ w1 w2 h
    exact ⟨tail, t1, by rw [t2, hpool]⟩
  · intro i v0 km olds1 w1 hd
    obtain ⟨vi, vcs⟩ := v0
    simp only [VNode.info] at hd
    unfold loopBody
    simp only [VNode.withInfo, VNode.info, hd, Option.isSome_none, Bool.false_eq_true, if_false]
    generalize toDOM env fuel w1 _ (some p) _ = q
    rcases q with _ | ⟨v1, d, w2⟩ <;> rfl

/-- C29 (witness): the mounted children `[k1, k2]` of `listWorld` against the
new children `[k2, k3, k1]`: one new child gets no predecessor and no old
child is left over. -/
theorem unpaired_children_mount_and_leftovers_go_witness :
    (predecessors
        (useOf (markUsed (keyMatches ["li/0/k1", "li/0/k2"] ["li/0/k2", "li/0/k3", "li/0/k1"])
          [mountedLeaf "li" "k1" 1, mountedLeaf "li" "k2" 2]))
        (keyMatches ["li/0/k1", "li/0/k2"] ["li/0/k2", "li/0/k3", "li/0/k1"])
        (removalPool ["li/0/k1", "li/0/k2"] ["li/0/k2", "li/0/k3", "li/0/k1"])).1.count none =
      [elemNode "li" (some "k2") [] [], elemNode "li" (some "k3") [] [],
        elemNode "li" (some "k1") [] []].length -
      [mountedLeaf "li" "k1" 1, mountedLeaf "li" "k2" 2].length :=
  (unpaired_children_mount_and_leftovers_go plainEnv 7 listWorld
    [elemNode "li" (some "k2") [] [], elemNode "li" (some "k3") [] [],
     elemNode "li" (some "k1") [] []]
    [mountedLeaf "li" "k1" 1, mountedLeaf "li" "k2" 2] 0
    ["li/0/k1", "li/0/k2"] ["li/0/k2", "li/0/k3", "li/0/k1"] (by decide) (by decide)
    (by intro o ho
        simp only [List.mem_cons, List.mem_singleton, List.not_mem_nil, or_false] at ho
        rcases ho with rfl | rfl <;> rfl)).2.1
/-! ## Claims about `transaction.enqueue` -/

/-- C14 (counterexample): one `setState` request enqueued inside an event
handler, whose `init` throws (an updater function that throws): on the drain
`init` is called, the failure is logged, and `exec` is not called at all. -/
theorem single_throwing_init_never_executes :
    (dispatchEvent 3 {} [.enqueue (plainRequest 1 7 true)]).summary =
      some (false, false, [], [.init 1, .logged 1]) := by
  decide!

/-- C14 (amended): requests with plain patches enqueued by the handlers of
one event, for whatever components.  On the drain that follows `init` is
called on every request in enqueue order, and for a component `u` that has
at least one request whose `init` returns normally `exec` is called exactly
once; the drain leaves the transaction idle with an empty queue. -/
theorem batched_setState_executes_once (fuel : Nat) (rs : List Request) (u : Nat)
    (hplain : ∀ r ∈ rs, r.init.calls = [] ∧ r.exec.calls = [])
    (hu : ∃ r ∈ rs, r.uuid = u ∧ r.init.throws = false) :
    ∃ s, dispatchEvent (fuel + 2) {} (rs.map Call.enqueue) = .returned s ∧
      s.isInTransation = false ∧ s.queue = [] ∧
      s.trace = initTrace rs ++ execTrace (surviving rs []) ∧
      s.trace.filter TxEvent.isInit = rs.map (fun r => TxEvent.init r.id) ∧
      s.trace.filter TxEvent.isExec = (surviving rs []).map (fun r => TxEvent.exec r.id) ∧
      ((surviving rs []).filter (fun r => r.uuid = u)).length = 1 := by
  have hcap1 : capturedRequests (rs.map Request.init) = [] :=
    capturedRequests_nil _ (by
      intro x hx
      obtain ⟨r, hr, rfl⟩ := List.mem_map.1 hx
      exact (hplain r hr).1)
  have hcap2 : capturedRequests ((surviving rs []).map Request.exec) = [] :=
    capturedRequests_nil _ (by
      intro x hx
      obtain ⟨r, hr, rfl⟩ := List.mem_map.1 hx
      exact (hplain r (surviving_subset _ _ _ hr)).2)
  have hcb1 : capturedCallbacks (rs.map Request.init) = [] :=
    capturedCallbacks_nil _ (by
      intro x hx
      obtain ⟨r, hr, rfl⟩ := List.mem_map.1 hx
      exact (hplain r hr).1)
  have hcb2 : capturedCallbacks ((surviving rs []).map Request.exec) = [] :=
    capturedCallbacks_nil _ (by
      intro x hx
      obtain ⟨r, hr, rfl⟩ := List.mem_map.1 hx
      exact (hplain r (surviving_subset _ _ _ hr)).2)
  unfold dispatchEvent
  rw [runCalls_inTransaction (fuel + 1) _ _ rfl]
  simp only [requestsOf_map_enqueue, callbacksOf_map_enqueue, List.nil_append, List.append_nil]
  rw [enqueue_idle fuel _ none rfl (by simp)]
  simp only [afterPass, Option.toList, List.append_nil, hcap1, hcap2, hcb1, hcb2, List.map_nil,
    capturedRequests, capturedCallbacks, callbackTrace, List.nil_append, List.isEmpty_nil, if_true]
  refine ⟨_, rfl, rfl, rfl, rfl, ?_, ?_, ?_⟩
  · simp [List.filter_append, filter_isInit_initTrace, filter_isInit_execTrace]
  · simp [List.filter_append, filter_isExec_initTrace, filter_isExec_execTrace]
  · rw [surviving_count]
    simp [hu]

/-- C14 (witness): two requests for component 7 and one for component 8. -/
theorem batched_setState_executes_once_witness :
    ∃ s, dispatchEvent (0 + 2) {}
        ([plainRequest 1 7 false, plainRequest 2 8 false, plainRequest 3 7 false].map
          Call.enqueue) = .returned s ∧
      s.isInTransation = false ∧ s.queue = [] ∧
      s.trace = initTrace [plainRequest 1 7 false, plainRequest 2 8 false, plainRequest 3 7 false] ++
        execTrace (surviving [plainRequest 1 7 false, plainRequest 2 8 false, plainRequest 3 7 false] []) ∧
      s.trace.filter TxEvent.isInit =
        [plainRequest 1 7 false, plainRequest 2 8 false, plainRequest 3 7 false].map
          (fun r => TxEvent.init r.id) ∧
      s.trace.filter TxEvent.isExec =
        (surviving [plainRequest 1 7 false, plainRequest 2 8 false, plainRequest 3 7 false] []).map
          (fun r => TxEvent.exec r.id) ∧
      ((surviving [plainRequest 1 7 false, plainRequest 2 8 false, plainRequest 3 7 false] []).filter
        (fun r => r.uuid = 7)).length = 1 :=
  batched_setState_executes_once 0
    [plainRequest 1 7 false, plainRequest 2 8 false, plainRequest 3 7 false] 7
    (by intro r hr; simp at hr; rcases hr with rfl | rfl | rfl <;> exact ⟨rfl, rfl⟩)
    ⟨plainRequest 1 7 false, by simp, rfl, rfl⟩

/-- C15: a call of `enqueue` made while `isInTransation` is set only appends
its request to the queue: no function is called and the flag stays set.  A
call made in the idle state runs one pass whose `init`, `exec` and callback
phases make up one contiguous stretch of the trace; the requests captured
during the pass are in the queue when the pass ends and are processed by
the call `enqueue()` made after the flag is reset. -/
theorem reentrant_enqueue_is_deferred (fuel : Nat) (s1 : TxState) (r : Request)
    (s2 : TxState) (obj : Option Request)
    (h1 : s1.isInTransation = true) (h2 : s2.isInTransation = false)
    (hc : ∀ c ∈ s2.callbacks, c.cb.throws = false) :
    enqueue (fuel + 1) s1 (some r) = .returned { s1 with queue := s1.queue ++ [r] } ∧
    enqueue (fuel + 2) s2 obj =
      (if (afterPass s2 obj).queue.isEmpty then .returned (afterPass s2 obj)
       else enqueue (fuel + 1) (afterPass s2 obj) none) ∧
    (afterPass s2 obj).trace = s2.trace ++ initTrace (s2.queue ++ obj.toList) ++
      execTrace (surviving (s2.queue ++ obj.toList) []) ++ callbackTrace s2.callbacks :=
  ⟨enqueue_inTransaction fuel s1 r h1, enqueue_idle fuel s2 obj h2 hc, rfl⟩

/-- C15 (witness): a request whose `exec` enqueues a second request. -/
theorem reentrant_enqueue_is_deferred_witness :
    enqueue (1 + 1) { isInTransation := true } (some (plainRequest 2 7 false)) =
      .returned { ({ isInTransation := true } : TxState) with
        queue := ({ isInTransation := true } : TxState).queue ++ [plainRequest 2 7 false] } ∧
    enqueue (1 + 2) {} (some (.mk 1 7 (.mk [] false) (.mk [.enqueue (plainRequest 2 7 false)] false))) =
      (if (afterPass {} (some (.mk 1 7 (.mk [] false)
            (.mk [.enqueue (plainRequest 2 7 false)] false)))).queue.isEmpty then
        .returned (afterPass {} (some (.mk 1 7 (.mk [] false)
            (.mk [.enqueue (plainRequest 2 7 false)] false))))
       else enqueue (1 + 1) (afterPass {} (some (.mk 1 7 (.mk [] false)
            (.mk [.enqueue (plainRequest 2 7 false)] false)))) none) ∧
    (afterPass {} (some (.mk 1 7 (.mk [] false)
        (.mk [.enqueue (plainRequest 2 7 false)] false)))).trace =
      ({} : TxState).trace ++
        initTrace (({} : TxState).queue ++
          (some (Request.mk 1 7 (.mk [] false)
            (.mk [.enqueue (plainRequest 2 7 false)] false))).toList) ++
        execTrace (surviving (({} : TxState).queue ++
          (some (Request.mk 1 7 (.mk [] false)
            (.mk [.enqueue (plainRequest 2 7 false)] false))).toList) []) ++
        callbackTrace ({} : TxState).callbacks :=
  reentrant_enqueue_is_deferred 1 { isInTransation := true } (plainRequest 2 7 false) {}
    (some (.mk 1 7 (.mk [] false) (.mk [.enqueue (plainRequest 2 7 false)] false)))
    rfl rfl (by simp)

/-- C16 (code defect): a `setState` with a callback that throws.  The call of
`enqueue` that starts the pass ends by the exception of the callback, with
`isInTransation` still set; a later call of `enqueue` therefore only appends
its request and starts no pass. -/
theorem throwing_callback_leaves_transaction_open :
    (enqueue 3 { callbacks := [throwingCallback] } (some (plainRequest 1 7 false))).summary =
      some (true, true, [], [.init 1, .exec 1, .callback 0]) ∧
    (enqueue 3 { isInTransation := true, trace := [.init 1, .exec 1, .callback 0] }
        (some (plainRequest 2 7 false))).summary =
      some (false, true, [2], [.init 1, .exec 1, .callback 0]) := by
  decide!

/-- C17: a pass started from the idle state with no callback pending.  Every
request of the pass has its `init` called, in order, whether or not an
`init` throws; every request that survives deduplication has its `exec`
called, in order, whether or not an `exec` throws; the failures are logged
and the pass ends normally: the call returns when nothing was captured, and
else goes on with the captured requests. -/
theorem failing_request_does_not_block_pass (fuel : Nat) (s : TxState) (obj : Option Request)
    (hs : s.isInTransation = false) (hc : s.callbacks = []) :
    enqueue (fuel + 2) s obj =
      (if (afterPass s obj).queue.isEmpty then .returned (afterPass s obj)
       else enqueue (fuel + 1) (afterPass s obj) none) ∧
    (afterPass s obj).trace =
      s.trace ++ initTrace (s.queue ++ obj.toList) ++ execTrace (surviving (s.queue ++ obj.toList) []) ∧
    (initTrace (s.queue ++ obj.toList)).filter TxEvent.isInit =
      (s.queue ++ obj.toList).map (fun r => TxEvent.init r.id) ∧
    (execTrace (surviving (s.queue ++ obj.toList) [])).filter TxEvent.isExec =
      (surviving (s.queue ++ obj.toList) []).map (fun r => TxEvent.exec r.id) := by
  refine ⟨enqueue_idle fuel s obj hs (by simp [hc]), ?_, filter_isInit_initTrace _,
    filter_isExec_execTrace _⟩
  simp [afterPass, hc, callbackTrace]

/-- C17 (witness): three requests; the `init` of the first and the `exec`
of the second throw. -/
theorem failing_request_does_not_block_pass_witness :
    (enqueue (0 + 2)
        { queue := [plainRequest 1 7 true, .mk 2 8 (.mk [] false) (.mk [] true)] }
        (some (plainRequest 3 9 false))).summary =
      some (false, false, [],
        [.init 1, .logged 1, .init 2, .init 3, .exec 2, .logged 2, .exec 3]) ∧
    (afterPass { queue := [plainRequest 1 7 true, .mk 2 8 (.mk [] false) (.mk [] true)] }
        (some (plainRequest 3 9 false))).queue.isEmpty = true := by
  have h := failing_request_does_not_block_pass 0
    { queue := [plainRequest 1 7 true, .mk 2 8 (.mk [] false) (.mk [] true)] }
    (some (plainRequest 3 9 false)) rfl rfl
  have hq : (afterPass { queue := [plainRequest 1 7 true, .mk 2 8 (.mk [] false) (.mk [] true)] }
        (some (plainRequest 3 9 false))).queue.isEmpty = true := by decide
  refine ⟨?_, hq⟩
  rw [h.1, if_pos hq]
  decide

/-! ## Claims about the updater -/

/-- C13: `mergeStates` returns the current state, untouched, when nothing is
pending; otherwise it returns the left-to-right fold of the pending list
over a fresh copy of the state, a function patch being called with the state
accumulated so far and the props, and it leaves the pending list empty.  The
instance (and so its previous state) is not modified.  A later patch wins on
a shared key: after a plain patch `q` that holds `v` for `k` the result holds
`v` for `k`, whatever came before. -/
theorem mergeStates_is_left_fold (u : Updater) (s q : Obj) (ps : List Patch) (k : String)
    (v : JSVal) (h : u.statelessMerge = false) (hq : q.reverse.lookup k = some v) :
    (u.pendingStates = [] → mergeStates u = (u.instState, u)) ∧
    (u.pendingStates ≠ [] → mergeStates u =
      (some (foldPatches u.props (extend [] u.instState) u.pendingStates),
       { u with pendingStates := [] })) ∧
    (mergeStates u).2.pendingStates = [] ∧
    (mergeStates u).2.inst = u.inst ∧
    (foldPatches u.props s (ps ++ [.plain (some q)])).lookup k = some v := by
  refine ⟨?_, ?_, ?_, ?_, ?_⟩
  · intro he
    simp [mergeStates, h, he, Updater.instState]
  · intro hne
    have : ¬ u.pendingStates.length = 0 := by
      intro h0
      exact hne (List.length_eq_zero.1 h0)
    simp [mergeStates, h, this, Updater.instState, mergeLoop_eq_foldPatches]
  · by_cases he : u.pendingStates.length = 0
    · simp [mergeStates, h, he, List.length_eq_zero.1 he]
    · simp [mergeStates, h, he]
  · by_cases he : u.pendingStates.length = 0
    · simp [mergeStates, h, he]
    · simp [mergeStates, h, he]
  · simp only [foldPatches, List.foldl_append, List.foldl_cons, List.foldl_nil, Patch.apply]
    rw [lookup_extend, hq]

/-- C13 (witness): state `a = 1`, pending `[a = 2, s ↦ b = s.a]`, and a
final patch `a = 3`. -/
theorem mergeStates_is_left_fold_witness :
    (mergeStates
        { inst := some { state := some [("a", .prim (.num 1))] },
          pendingStates := [.plain (some [("a", .prim (.num 2))]),
                            .fn (fun s _ => some [("b", getProp s "a")])] }).1 =
      some [("a", .prim (.num 2)), ("b", .prim (.num 2))] ∧
    (foldPatches [] [] ([.plain (some [("a", .prim (.num 2))])] ++
        [.plain (some [("a", .prim (.num 3))])])).lookup "a" = some (.prim (.num 3)) := by
  have h := mergeStates_is_left_fold
    { inst := some { state := some [("a", .prim (.num 1))] },
      pendingStates := [.plain (some [("a", .prim (.num 2))]),
                        .fn (fun s _ => some [("b", getProp s "a")])] }
    [] [("a", .prim (.num 3))] [.plain (some [("a", .prim (.num 2))])] "a" (.prim (.num 3))
    rfl rfl
  refine ⟨?_, h.2.2.2.2⟩
  rw [h.2.1 (by simp)]
  decide

/-- C28: when the constructor (or the stateless function) throws, `init`
returns normally: the placeholder instance is installed as
`updater.instance` and as `vnode.stateNode`, the error is reported once
through `pushError` with the name `constructor`, no hook is invoked and no
render happens, the update queue is left as it was, and `Refs.currentOwner`
has the value it had before. -/
theorem init_survives_throwing_constructor (w : UWorld) (i : Nat) (u : Updater)
    (hu : w.updaters.get? i = some u) (ht : u.comp.constructorThrows = true) :
    ∃ w1, initUpdater w i = some w1 ∧
      w1.updaters.get? i =
        some { u with inst := some { placeholder := true }, stateNode := true } ∧
      w1.log = w.log ++ [.pushError i "constructor"] ∧
      w1.updateQueue = w.updateQueue ∧
      w1.currentOwner = w.currentOwner := by
  unfold initUpdater
  rw [hu]
  simp only [ht, if_true]
  refine ⟨_, rfl, ?_, rfl, rfl, rfl⟩
  show (w.modify i _).updaters.get? i = _
  rw [get_modify_self, hu]
  rfl

/-- C28 (witness): one updater whose constructor throws, with owner 4
current. -/
theorem init_survives_throwing_constructor_witness :
    ∃ w1, initUpdater { updaters := [{ comp := { constructorThrows := true } }],
                        currentOwner := some 4, updateQueue := [9] } 0 = some w1 ∧
      w1.updaters.get? 0 =
        some { ({ comp := { constructorThrows := true } } : Updater) with
          inst := some { placeholder := true }, stateNode := true } ∧
      w1.log = ([] : List UEvent) ++ [.pushError 0 "constructor"] ∧
      w1.updateQueue = [9] ∧
      w1.currentOwner = some 4 :=
  init_survives_throwing_constructor
    { updaters := [{ comp := { constructorThrows := true } }],
      currentOwner := some 4, updateQueue := [9] } 0 _ rfl rfl


/-- C18: a call of `enqueueSetState` made while `_hydrating` is set adds no
job, calls neither `drainQueue` nor `enqueueUpdater` (the trace and the
update queue are as before) and appends its callback argument to
`_nextCallbacks`.  For every non-empty sequence of such calls, made before
`resolve` or inside the hook `resolve` invokes, `resolve` adds the one job
`hydrate` through `addJob`, pushes the updater on the update queue once,
leaves in `_pendingCallbacks` exactly the function callbacks of the calls in
call order, and deletes `_nextCallbacks`. -/
theorem deferred_setState_queues_one_hydrate (w : UWorld) (i : Nat) (u : Updater)
    (call : SetStateCall) (calls : List SetStateCall)
    (hu : w.updaters.get? i = some u) (hh : u.hydrating = true) (hc : u.hasCatch = none)
    (hn : u.nextCallbacks = none)
    (hk : calls ++ hookCalls u.comp (didHook u.mounted) ≠ []) :
    (∃ w1 u1, enqueueSetState w i call = some w1 ∧ w1.updaters.get? i = some u1 ∧
      u1.jobs = u.jobs ∧ w1.log = w.log ∧ w1.updateQueue = w.updateQueue ∧
      u1.nextCallbacks = some [call.cb] ∧ u1.pendingCallbacks = u.pendingCallbacks) ∧
    (∃ w1 w2 u2, runSetStateCalls w i calls = some w1 ∧ w1.log = w.log ∧
      resolve w1 i = some w2 ∧ w2.updaters.get? i = some u2 ∧
      u2.jobs = addJob u.jobs "hydrate" ∧ w2.updateQueue = w.updateQueue ++ [i] ∧
      u2.pendingCallbacks =
        (calls ++ hookCalls u.comp (didHook u.mounted)).filterMap (fun c => c.cb) ∧
      u2.nextCallbacks = none) := by
  constructor
  · have h := runSetStateCalls_hydrating i [call] w u hu hh
    have hf := deferred_fields [call] u
    refine ⟨_, _, enqueueSetState_hydrating w i u call hu hh, get_put w i u _ hu,
      ?_, rfl, rfl, ?_, ?_⟩
    · exact hf.1
    · simp [hn]
    · exact hf.2.2.2.2.2.1
  · have hf := deferred_fields calls u
    have hnext := deferred_next_total u calls (hookCalls u.comp (didHook u.mounted)) hn hk
    have hne : (calls ++ hookCalls u.comp (didHook u.mounted)).map (fun c => c.cb) ≠ [] := by
      simpa using hk
    obtain ⟨cb, cbs, hcons⟩ := List.exists_cons_of_ne_nil hne
    rw [hcons] at hnext
    obtain ⟨w2, u2, h2, g2, j2, q2, p2, n2, -, -⟩ := resolve_hydrating
      (w.modify i (fun _ => u.deferred calls)) i (u.deferred calls) (get_put w i u _ hu)
      (by rw [hf.2.1]; exact hh) (by rw [hf.2.2.2.1]; exact hc) cb cbs u.comp u.mounted
      hf.2.2.2.2.2.2.1 hf.2.2.1 hnext
    refine ⟨_, w2, u2, runSetStateCalls_hydrating i calls w u hu hh, rfl, h2, g2, ?_, q2, ?_, n2⟩
    · rw [j2, hf.1]
    · rw [p2, ← hcons, List.filterMap_map]
      rfl

/-- C18 (witness): a mounted updater that is hydrating receives two calls,
the first with callback 5, the second without one. -/
theorem deferred_setState_queues_one_hydrate_witness :
    ∃ w1 w2 u2,
      runSetStateCalls { updaters := [{ hydrating := true, mounted := true, jobs := [] }] } 0
        [⟨.force, some 5⟩, ⟨.force, none⟩] = some w1 ∧ w1.log = [] ∧
      resolve w1 0 = some w2 ∧ w2.updaters.get? 0 = some u2 ∧
      u2.jobs = ["hydrate"] ∧ w2.updateQueue = [0] ∧ u2.pendingCallbacks = [5] ∧
      u2.nextCallbacks = none :=
  (deferred_setState_queues_one_hydrate
    { updaters := [{ hydrating := true, mounted := true, jobs := [] }] } 0
    { hydrating := true, mounted := true, jobs := [] } ⟨.force, none⟩
    [⟨.force, some 5⟩, ⟨.force, none⟩] rfl rfl rfl rfl (by simp)).2

/-- C20 (code defect, the failing input): a mounted updater with
`_receiving` set, not hydrating, receives `setState(a = 1, cb 5)`: the patch
is on `_pendingStates` and the callback on `_pendingCallbacks` afterwards,
although the comment at the `return` of `enqueueSetState` says that a
`setState` made in `componentWillReceiveProps` is to be ignored. -/
theorem setState_while_receiving_is_recorded :
    (enqueueSetState { updaters := [{ mounted := true, receiving := true, jobs := [] }] } 0
        ⟨.patch (.plain (some [("a", .prim (.num 1))])), some 5⟩).map
      (fun w => w.updaters.map (fun u => (u.pendingStates.length, u.pendingCallbacks, u.jobs))) =
      some [(1, [5], [])] := by
  decide

/-- C20 (code defect): on a mounted updater with `_receiving` set and
`_hydrating` not set, `enqueueSetState` adds no job and does not call
`drainQueue`, but the call is not ignored as the comment at its `return`
says it should be: before `_receiving` is looked at, a patch is pushed on
`_pendingStates` (`true` sets `_forceUpdate`), a function callback is pushed
on `_pendingCallbacks`, and with `options.async` set `enqueueUpdater` is
called. -/
theorem setState_while_receiving_only_skips_job (w : UWorld) (i : Nat) (u : Updater)
    (call : SetStateCall) (hu : w.updaters.get? i = some u) (hh : u.hydrating = false)
    (hm : u.mounted = true) (hr : u.receiving = true) :
    ∃ w1 u1, enqueueSetState w i call = some w1 ∧ w1.updaters.get? i = some u1 ∧
      u1.jobs = u.jobs ∧
      u1.pendingCallbacks = u.pendingCallbacks ++ call.cb.toList ∧
      (∀ p, call.arg = .patch p → u1.pendingStates = u.pendingStates ++ [p]) ∧
      (call.arg = .force → u1.forceUpdate = true ∧ u1.pendingStates = u.pendingStates) ∧
      w1.updateQueue = w.updateQueue ∧
      w1.log = w.log ++ (if w.async then [.enqueueUpdater i] else []) := by
  obtain ⟨arg, cb⟩ := call
  unfold enqueueSetState
  rw [hu]
  cases arg <;> cases cb <;> by_cases ha : w.async = true <;>
    simp only [hh, hm, hr, ha, if_true, if_false, Bool.false_eq_true] <;>
    refine ⟨_, _, rfl, get_modify_of _ i _ u hu, ?_⟩ <;>
    simp

/-- C20 (witness): the updater of the failing input, with `options.async`
set. -/
theorem setState_while_receiving_only_skips_job_witness :
    ∃ w1 u1, enqueueSetState
        { updaters := [{ mounted := true, receiving := true, jobs := [] }], async := true } 0
        ⟨.force, some 5⟩ = some w1 ∧ w1.updaters.get? 0 = some u1 ∧
      u1.jobs = [] ∧ u1.pendingCallbacks = [] ++ (some 5).toList ∧
      (∀ p, SetArg.force = .patch p → u1.pendingStates = [] ++ [p]) ∧
      (SetArg.force = .force → u1.forceUpdate = true ∧ u1.pendingStates = []) ∧
      w1.updateQueue = [] ∧
      w1.log = [] ++ (if true then [.enqueueUpdater 0] else []) :=
  setState_while_receiving_only_skips_job
    { updaters := [{ mounted := true, receiving := true, jobs := [] }], async := true } 0
    { mounted := true, receiving := true, jobs := [] } ⟨.force, some 5⟩ rfl rfl rfl rfl

/-- C21: `hydrate` returns, and afterwards `instance.props`,
`instance.state` and `instance.context` are the props of the updater, the
state `mergeStates` returned and the context of the updater, whatever
`shouldComponentUpdate` answered and whatever the hooks did. -/
theorem hydrate_applies_props_state_context (w : UWorld) (i : Nat) (u : Updater)
    (inst : UInstance) (hu : w.updaters.get? i = some u) (hinst : u.inst = some inst) :
    ∃ w1 u1 inst1, hydrate w i = some w1 ∧ w1.updaters.get? i = some u1 ∧
      u1.inst = some inst1 ∧ inst1.props = u.props ∧
      inst1.state = (mergeStates u).1 ∧ inst1.context = u.context := by
  obtain ⟨w1, x1, b, h1, g1⟩ := askShouldUpdate_total
    (w.modify i (fun _ => (mergeStates u).2)) i u (mergeStates u).2 (mergeStates u).1
    (get_put w i u _ hu)
  obtain ⟨w2, x2, inst2, h2, g2, hi, hp, hs, hc⟩ :=
    hydrateTail_total w1 i u x1 inst (mergeStates u).1 b g1
  refine ⟨w2, x2, inst2, ?_, g2, hi, hp, hs, hc⟩
  unfold hydrate
  rw [hu]
  simp only [hinst, h1]
  exact h2

/-- C21 (witness): an updater whose `shouldComponentUpdate` answers
`false`, with props `p = 1`, state `a = 1` and the pending patch `a = 2`. -/
theorem hydrate_applies_props_state_context_witness :
    ∃ w1 u1 inst1,
      hydrate { updaters := [{ comp := { hasHook := fun _ => true,
                                         shouldUpdate := fun _ _ _ => false },
                               props := [("p", .prim (.num 1))],
                               inst := some { state := some [("a", .prim (.num 1))] },
                               pendingStates := [.plain (some [("a", .prim (.num 2))])] }] } 0 =
        some w1 ∧ w1.updaters.get? 0 = some u1 ∧
      u1.inst = some inst1 ∧ inst1.props = [("p", .prim (.num 1))] ∧
      inst1.state = some [("a", .prim (.num 2))] ∧ inst1.context = [] :=
  hydrate_applies_props_state_context
    { updaters := [{ comp := { hasHook := fun _ => true, shouldUpdate := fun _ _ _ => false },
                     props := [("p", .prim (.num 1))],
                     inst := some { state := some [("a", .prim (.num 1))] },
                     pendingStates := [.plain (some [("a", .prim (.num 2))])] }] } 0
    { comp := { hasHook := fun _ => true, shouldUpdate := fun _ _ _ => false },
      props := [("p", .prim (.num 1))],
      inst := some { state := some [("a", .prim (.num 1))] },
      pendingStates := [.plain (some [("a", .prim (.num 2))])] }
    { state := some [("a", .prim (.num 1))] } rfl rfl

/-- C23: for a component whose hooks call no `setState`, `hydrate` returns
and its trace is: with `_forceUpdate` set, `componentWillUpdate` and the
render, `shouldComponentUpdate` not being consulted; with the flag not set,
the consultation of `shouldComponentUpdate` followed by
`componentWillUpdate` and the render exactly when the answer is truthy.  So
`options.diffChildren` is reached in the first case always, and in the
second if and only if the answer is truthy. -/
theorem hydrate_render_gate (w : UWorld) (i : Nat) (u : Updater) (inst : UInstance)
    (hu : w.updaters.get? i = some u) (hinst : u.inst = some inst)
    (hq1 : u.comp.setStateIn "shouldComponentUpdate" = [])
    (hq2 : u.comp.setStateIn "componentWillUpdate" = []) :
    ∃ w1, hydrate w i = some w1 ∧
      (u.forceUpdate = true →
        w.newEvents w1 = hookEvents i u.comp "componentWillUpdate" ++
          renderEvents i u.comp u.willReceiveFalse ∧
        UEvent.hook i "shouldComponentUpdate" ∉ w.newEvents w1 ∧
        UEvent.diffChildren i ∈ w.newEvents w1) ∧
      (u.forceUpdate = false →
        w.newEvents w1 = hookEvents i u.comp "shouldComponentUpdate" ++
          (if shouldUpdateAnswer u then
            hookEvents i u.comp "componentWillUpdate" ++
              renderEvents i u.comp u.willReceiveFalse
           else []) ∧
        (UEvent.diffChildren i ∈ w.newEvents w1 ↔ shouldUpdateAnswer u = true)) := by
  obtain ⟨w1, x1, h1, -, l1, -⟩ := hydrate_quiet w i u inst hu hinst hq1 (fun _ => hq2)
  have hn : w.newEvents w1 = hydrateEvents i u := drop_log_append w _ _ l1
  refine ⟨w1, h1, ?_, ?_⟩
  · intro hf
    rw [hn]
    refine ⟨by simp [hydrateEvents, cycleUpdates, hf], ?_, ?_⟩
    · simp only [hydrateEvents, cycleUpdates, hf, hookEvents, renderEvents]
      split_ifs <;> simp
    · simp [hydrateEvents, cycleUpdates, hf, renderEvents]
  · intro hf
    rw [hn]
    refine ⟨by simp [hydrateEvents, cycleUpdates, hf], ?_⟩
    by_cases ha : shouldUpdateAnswer u = true
    · simp [hydrateEvents, cycleUpdates, hf, ha, renderEvents]
    · have ha2 : shouldUpdateAnswer u = false := by simpa using ha
      simp only [hydrateEvents, cycleUpdates, hf, ha2, Bool.or_false, Bool.false_eq_true,
        if_false, List.append_nil, hookEvents]
      split_ifs <;> simp

/-- C23 (witness): a forced cycle of a component whose
`shouldComponentUpdate` would answer `false`. -/
theorem hydrate_render_gate_witness :
    ∃ w1, hydrate { updaters := [{ comp := { hasHook := fun _ => true,
                                             shouldUpdate := fun _ _ _ => false },
                                   inst := some {}, forceUpdate := true }] } 0 = some w1 ∧
      w1.log = [.hook 0 "componentWillUpdate", .render 0, .diffChildren 0] := by
  obtain ⟨w1, h1, hf, -⟩ := hydrate_render_gate
    { updaters := [{ comp := { hasHook := fun _ => true, shouldUpdate := fun _ _ _ => false },
                     inst := some {}, forceUpdate := true }] } 0
    { comp := { hasHook := fun _ => true, shouldUpdate := fun _ _ _ => false },
      inst := some {}, forceUpdate := true } {} rfl rfl rfl rfl
  exact ⟨w1, h1, (hf rfl).1⟩

/-- C24: an updater that is not hydrating, has no force flag and no recorded
error, and whose `shouldComponentUpdate` (calling no `setState`) answers
`false`: `hydrate` calls `shouldComponentUpdate` and nothing else, so neither
`componentWillUpdate`, `render` nor `options.diffChildren`; it queues the job
`resolve`, and running that job calls only the ref and the pending callbacks,
not `componentDidUpdate`. -/
theorem skipped_cycle_calls_no_update_hook (w : UWorld) (i : Nat) (u : Updater)
    (inst : UInstance) (hu : w.updaters.get? i = some u) (hinst : u.inst = some inst)
    (hh : u.hydrating = false) (hf : u.forceUpdate = false) (hc : u.hasCatch = none)
    (hj : u.jobs = [])
    (hk : u.comp.hasHook "shouldComponentUpdate" = true)
    (ht : u.comp.hookThrows "shouldComponentUpdate" = false)
    (hs : u.comp.shouldUpdate u.props (mergeStates u).1 u.context = false)
    (hq : u.comp.setStateIn "shouldComponentUpdate" = []) :
    ∃ w1 u1 w2, hydrate w i = some w1 ∧
      w.newEvents w1 = [.hook i "shouldComponentUpdate"] ∧
      w1.updaters.get? i = some u1 ∧ u1.jobs = ["resolve"] ∧
      execUpdater w1 i = some w2 ∧
      w1.newEvents w2 = (if u.hasRef then [.fireRef i] else []) ++
        u.pendingCallbacks.map (fun f => UEvent.callback i f) ∧
      UEvent.hook i "componentDidUpdate" ∉ w1.newEvents w2 := by
  have hcy : cycleUpdates u = false := by
    simp [cycleUpdates, shouldUpdateAnswer, hf, hk, ht, hs]
  obtain ⟨w1, x1, h1, g1, l1, -, j1, y1, -, c1, -, r1, p1, -, -⟩ :=
    hydrate_quiet w i u inst hu hinst hq (fun h => by rw [hcy] at h; cases h)
  have hj1 : x1.jobs = ["resolve"] := by rw [j1, hj]; rfl
  have hy1 : x1.hydrating = false := by rw [y1, hcy, hh]; rfl
  obtain ⟨w2, x2, h2, -, l2, -, -⟩ := resolve_idle
    (w1.modify i (fun x => { x with jobs := [] })) i { x1 with jobs := [] }
    (get_modify_of w1 i _ x1 g1) hy1 (by rw [← hc]; exact c1)
  have hn2 : w1.newEvents w2 = (if u.hasRef then [.fireRef i] else []) ++
      u.pendingCallbacks.map (fun f => UEvent.callback i f) := by
    apply drop_log_append
    rw [l2]
    simp only [modify_log, List.append_assoc, r1, p1]
  refine ⟨w1, x1, w2, h1, ?_, g1, hj1, ?_, hn2, ?_⟩
  · apply drop_log_append
    rw [l1]
    simp [hydrateEvents, hcy, hf, hookEvents, hk, ht]
  · rw [exec_resolve w1 i x1 [] g1 hj1]
    exact h2
  · rw [hn2]
    split_ifs <;> simp

/-- C24 (witness): a mounted updater with a ref and the pending callback 3,
whose `shouldComponentUpdate` answers `false`. -/
theorem skipped_cycle_calls_no_update_hook_witness :
    ∃ w1 u1 w2, hydrate (single idleUpdater) 0 = some w1 ∧
      (single idleUpdater).newEvents w1 = [.hook 0 "shouldComponentUpdate"] ∧
      w1.updaters.get? 0 = some u1 ∧ u1.jobs = ["resolve"] ∧
      execUpdater w1 0 = some w2 ∧
      w1.newEvents w2 = (if true then [.fireRef 0] else []) ++
        [3].map (fun f => UEvent.callback 0 f) ∧
      UEvent.hook 0 "componentDidUpdate" ∉ w1.newEvents w2 :=
  skipped_cycle_calls_no_update_hook (single idleUpdater) 0 idleUpdater {}
    rfl rfl rfl rfl rfl rfl rfl rfl rfl rfl

/-- C19 (counterexample): a mounted updater whose `shouldComponentUpdate`
answers `false` receives `setState(a = 1)` while it is hydrating; `resolve`
schedules the follow-up `hydrate` job, and running that job consults
`shouldComponentUpdate` and stops: neither `render` nor
`options.diffChildren` is called. -/
theorem followup_hydrate_skips_render :
    (((runSetStateCalls (single { idleUpdater with hydrating := true, hasRef := false,
                                                   pendingCallbacks := [] }) 0
          [⟨.patch (.plain (some [("a", .prim (.num 1))])), none⟩]).bind
        (fun w => resolve w 0)).bind (fun w => execUpdater w 0)).map
      (fun w => (w.log, w.updaters.map (fun u => u.jobs))) =
      some ([.hook 0 "componentDidUpdate", .afterUpdate 0,
             .hook 0 "shouldComponentUpdate"], [["resolve"]]) := by
  decide

/-- C19 (amended): the follow-up `hydrate` job is an ordinary cycle.  For a
component whose hooks call no `setState`, running the job returns, with the
trace of `hydrate`: `shouldComponentUpdate` is consulted unless
`_forceUpdate` is set, and the render (and `options.diffChildren`) runs if
and only if the flag is set or the answer is truthy. -/
theorem followup_hydrate_consults_shouldUpdate (w : UWorld) (i : Nat) (u : Updater)
    (inst : UInstance) (rest : List String)
    (hu : w.updaters.get? i = some u) (hinst : u.inst = some inst)
    (hj : u.jobs = "hydrate" :: rest)
    (hq1 : u.comp.setStateIn "shouldComponentUpdate" = [])
    (hq2 : u.comp.setStateIn "componentWillUpdate" = []) :
    ∃ w1, execUpdater w i = some w1 ∧ w.newEvents w1 = hydrateEvents i u ∧
      (UEvent.diffChildren i ∈ w.newEvents w1 ↔ cycleUpdates u = true) := by
  obtain ⟨w1, x1, h1, -, l1, -⟩ := hydrate_quiet
    (w.modify i (fun x => { x with jobs := rest })) i { u with jobs := rest } inst
    (get_modify_of w i _ u hu) hinst hq1 (fun _ => hq2)
  have hn : w.newEvents w1 = hydrateEvents i u := by
    apply drop_log_append
    rw [l1, (hydrateEvents_jobs i u rest).1]
    rfl
  refine ⟨w1, ?_, hn, ?_⟩
  · rw [exec_hydrate w i u rest hu hj]
    exact h1
  · rw [hn]
    exact diffChildren_mem_hydrateEvents i u

/-- C19 (witness): a follow-up job of an updater whose
`shouldComponentUpdate` answers `false`. -/
theorem followup_hydrate_consults_shouldUpdate_witness :
    ∃ w1, execUpdater (single { idleUpdater with jobs := ["hydrate"] }) 0 = some w1 ∧
      (single { idleUpdater with jobs := ["hydrate"] }).newEvents w1 =
        hydrateEvents 0 { idleUpdater with jobs := ["hydrate"] } ∧
      (UEvent.diffChildren 0 ∈ (single { idleUpdater with jobs := ["hydrate"] }).newEvents w1 ↔
        cycleUpdates { idleUpdater with jobs := ["hydrate"] } = true) :=
  followup_hydrate_consults_shouldUpdate (single { idleUpdater with jobs := ["hydrate"] }) 0
    { idleUpdater with jobs := ["hydrate"] } {} [] rfl rfl rfl rfl rfl

/-- C26: `dispose` runs on an updater that has its instance.  The call
returns; afterwards `isMounted()` is false and `_disposed` is true, and the
jobs of the updater are still in its list.  When the scheduler then drains a
queue that holds the updater any number of times, nothing happens: no job is
run, the trace gets no event (no render, no lifecycle hook), every updater is
left as it was (so the updater stays unmounted, with its state and its jobs),
and only the queue is emptied.  The `_disposed` test is the one of
`drainQueue`, modelled from the spec; `exec` tests nothing. -/
theorem disposed_updater_is_skipped_by_drain (w : UWorld) (i : Nat) (u : Updater)
    (inst : UInstance) (q : List Nat) (fuel : Nat)
    (hu : w.updaters.get? i = some u) (hi : u.inst = some inst)
    (hq : ∀ j ∈ q, j = i) (hf : q.length < fuel) :
    ∃ w1 u1, dispose w i = some w1 ∧ w1.updaters.get? i = some u1 ∧
      u1.mounted = false ∧ u1.disposed = true ∧ u1.jobs = u.jobs ∧
      drainQueue fuel { w1 with updateQueue := q } = some { w1 with updateQueue := [] } := by
  obtain ⟨w1, h1, g1, -⟩ := dispose_spec w i u inst hu hi
  refine ⟨w1, _, h1, g1, rfl, rfl, rfl, ?_⟩
  exact drainQueue_disposed q fuel { w1 with updateQueue := q } hf rfl
    (fun j hj => ⟨{ u with mounted := false, disposed := true },
      (by have e := hq j hj; subst e; exact g1), rfl⟩)

/-- C26 (witness): a mounted updater with a queued `hydrate` job is disposed
and then drained from a queue that holds it twice. -/
theorem disposed_updater_is_skipped_by_drain_witness :
    ∃ w1 u1, dispose (single { inst := some {}, mounted := true, jobs := ["hydrate"] }) 0 =
        some w1 ∧ w1.updaters.get? 0 = some u1 ∧
      u1.mounted = false ∧ u1.disposed = true ∧ u1.jobs = ["hydrate"] ∧
      drainQueue 3 { w1 with updateQueue := [0, 0] } = some { w1 with updateQueue := [] } :=
  disposed_updater_is_skipped_by_drain
    (single { inst := some {}, mounted := true, jobs := ["hydrate"] }) 0
    { inst := some {}, mounted := true, jobs := ["hydrate"] } {} [0, 0] 3 rfl rfl
    (by decide) (by decide)

/-- C27 (counterexample): the boundary (updater 0) resolves with a recorded
error while a sibling subtree (updater 1) is queued in the pass: afterwards
the update queue holds the parent component and the boundary, and the
sibling is no longer queued. -/
theorem didCatch_drops_queued_sibling :
    boundaryWorld.updateQueue = [1] ∧
    (resolve boundaryWorld 0).map (fun w => w.updateQueue) = some [2, 0] := by
  decide

/-- C27 (amended): when `resolve` runs on a boundary with the recorded error
`[error, info]` (below at least one vnode, not its own ancestor, with a
`componentDidCatch` that does not throw, and whose did-hook calls no
`setState`), `componentDidCatch` is invoked once with `(error, info)` and the
own jobs are discarded.  The update queue is emptied as a whole and rebuilt
from the ancestors with `vtype > 1`, nearest first; whatever else was queued
is dropped.  When `componentDidCatch` calls `setState`, one `hydrate` job is
added and the boundary is pushed on the queue once. -/
theorem didCatch_rebuilds_queue_from_ancestors (w : UWorld) (i : Nat) (u : Updater)
    (error info : Nat) (hu : w.updaters.get? i = some u)
    (hc : u.hasCatch = some (error, info)) (ha : u.ancestors ≠ [])
    (hne : ∀ p ∈ u.ancestors, p.1 > 1 → p.2 ≠ i)
    (hk : u.comp.hasHook "componentDidCatch" = true)
    (ht : u.comp.hookThrows "componentDidCatch" = false)
    (hq : u.hydrating = true → hookCalls u.comp (didHook u.mounted) = [])
    (hn : u.nextCallbacks = none) :
    ∃ w2 u2, resolve w i = some w2 ∧ w2.updaters.get? i = some u2 ∧
      w.newEvents w2 =
        (if u.hydrating then
          hookEvents i u.comp (didHook u.mounted) ++
            [if u.mounted then .afterUpdate i else .afterMount i] else []) ++
        [.didCatch i error info] ∧
      u2.hasCatch = none ∧
      (u.comp.setStateIn "componentDidCatch" = [] →
        u2.jobs = [] ∧ w2.updateQueue = requeued u.ancestors) ∧
      (u.comp.setStateIn "componentDidCatch" ≠ [] →
        u2.jobs = ["hydrate"] ∧ w2.updateQueue = requeued u.ancestors ++ [i]) := by
  obtain ⟨p, rest, hpr⟩ := List.exists_cons_of_ne_nil ha
  obtain ⟨w1, h1, g1, -, l1⟩ := resolveHooks_quiet w i u hu hq
  obtain ⟨w3, h3, g3, q3, l3⟩ := resolveCatch_spec w1 i u _ error info p rest g1 hpr hne hk ht
  have hf := deferred_fields (u.comp.setStateIn "componentDidCatch")
    { u with mounted := true, hasCatch := none, jobs := [], hydrating := true,
             inst := u.inst.map (fun y => { y with hasTry := true }) }
  have hres : resolve w i = resolveNext w3 i := by
    simp only [resolve, hu, h1, hc, h3]
  by_cases hcalls : u.comp.setStateIn "componentDidCatch" = []
  · have hnx : resolveNext w3 i = some w3 := by
      apply resolveNext_none w3 i _ g3
      rw [hcalls]
      exact hn
    refine ⟨w3, _, by rw [hres, hnx], g3, ?_, hf.2.2.2.1, ?_, fun h => absurd hcalls h⟩
    · apply drop_log_append
      rw [l3, l1, List.append_assoc]
    · intro _
      exact ⟨hf.1, q3⟩
  · have hnc := deferred_nextCallbacks (u.comp.setStateIn "componentDidCatch")
      { u with mounted := true, hasCatch := none, jobs := [], hydrating := true,
               inst := u.inst.map (fun y => { y with hasTry := true }) } hcalls
    have hne2 : (u.comp.setStateIn "componentDidCatch").map (fun c => c.cb) ≠ [] := by
      simpa using hcalls
    obtain ⟨cb, cbs, hcons⟩ := List.exists_cons_of_ne_nil hne2
    obtain ⟨w4, h4, g4, q4, l4⟩ := resolveNext_some w3 i _ cb cbs g3
      (by show (Updater.deferred _ _).nextCallbacks = _
          rw [hnc, ← hcons]
          simp [hn])
    refine ⟨w4, _, by rw [hres, h4], g4, ?_, hf.2.2.2.1, fun h => absurd h hcalls, ?_⟩
    · apply drop_log_append
      rw [l4, l3, l1, List.append_assoc]
    · intro _
      refine ⟨?_, by rw [q4, q3]⟩
      show addJob (Updater.deferred _ _).jobs "hydrate" = _
      rw [hf.1]
      rfl

/-- C27 (witness): the boundary of the counterexample, whose
`componentDidCatch` calls `setState` twice. -/
theorem didCatch_rebuilds_queue_from_ancestors_witness :
    ∃ w2 u2, resolve boundaryWorld 0 = some w2 ∧ w2.updaters.get? 0 = some u2 ∧
      boundaryWorld.newEvents w2 = [.afterMount 0, .didCatch 0 1 2] ∧
      u2.hasCatch = none ∧ u2.jobs = ["hydrate"] ∧ w2.updateQueue = [2, 0] := by
  obtain ⟨w2, u2, h, g, l, c, -, hj⟩ := didCatch_rebuilds_queue_from_ancestors
    boundaryWorld 0 boundaryUpdater 1 2 rfl rfl (by decide) (by decide) rfl rfl
    (fun _ => rfl) rfl
  have hcalls : boundaryUpdater.comp.setStateIn "componentDidCatch" ≠ [] := by
    simp [boundaryUpdater, boundaryComp]
  exact ⟨w2, u2, h, g, l, c, (hj hcalls).1, (hj hcalls).2⟩
/-! ## Claims about `updateComponent`, `diffProps` and text children -/

/-- C22: in the `setState` path of `dist/React.js`, a cycle in which
`shouldComponentUpdate` answers `false` leaves the instance with the state
it had before the patch was merged and with `prevProps` as its props:
`updateComponent` writes `prevState` and `prevProps` to the instance before
it asks, and returns without writing the next values. -/
theorem skipped_update_reverts_state (env : Env) (fuel : Nat) (w : World) (i : Nat)
    (inst : Instance) (cd : CompDef) (s : Patch)
    (hi : w.insts.get? i = some inst) (hc : env.comps.get? inst.comp = some cd)
    (hf : inst.forceUpdate = false) (hs : inst.statelessRender = false)
    (hp : inst.prevState = none) (hk : cd.hooks.contains 4 = true)
    (hsu : cd.shouldUpdate (inst.props.getD {})
      (extend inst.state (patchOf s inst.state inst.props)) = false) :
    ∃ w1 inst1, updateComponent env (fuel + 1) (gentleSetState w i s) i = some (none, w1) ∧
      w1.insts.get? i = some inst1 ∧ inst1.state = inst.state ∧
      inst1.props = inst.prevProps ∧ inst1.prevState = some inst.state ∧
      w1.log = w.log ++ [.hook i 4] := by
  have hg : (gentleSetState w i s).insts.get? i = some
      { inst with
        prevState := some (inst.prevState.getD inst.state),
        state := extend inst.state (patchOf s inst.state inst.props) } := by
    simp only [gentleSetState, List.get?_eq_getElem?, List.getElem?_modify_eq]
    rw [List.get?_eq_getElem?] at hi
    rw [hi]
    rfl
  unfold updateComponent
  rw [hg]
  simp only [hc, hf, hs, hk, hsu]
  rw [if_pos (by simp), if_pos (by simp)]
  refine ⟨_, { inst with props := inst.prevProps, prevState := some inst.state },
    rfl, ?_, rfl, rfl, rfl, ?_⟩
  · show (List.modify _ i (gentleSetState w i s).insts).get? i = _
    rw [List.get?_eq_getElem?, List.getElem?_modify_eq, ← List.get?_eq_getElem?, hg]
    simp [hp]
  · simp [World.emit, gentleSetState]

/-- C22 (witness): an instance with state `a = 1` whose
`shouldComponentUpdate` answers `false` receives `setState(a = 2)`. -/
theorem skipped_update_reverts_state_witness :
    ∃ w1 inst1,
      updateComponent stubbornEnv 1
        (gentleSetState stubbornWorld 0 (.plain (some [("a", .prim (.num 2))]))) 0 =
        some (none, w1) ∧
      w1.insts.get? 0 = some inst1 ∧ inst1.state = [("a", .prim (.num 1))] ∧
      inst1.props = none ∧ inst1.prevState = some [("a", .prim (.num 1))] ∧
      w1.log = [] ++ [.hook 0 4] :=
  skipped_update_reverts_state stubbornEnv 0 stubbornWorld 0 stubbornInstance _
    (.plain (some [("a", .prim (.num 2))])) rfl rfl rfl rfl rfl rfl rfl

/-- C11 (counterexample): the previous props hold `ref = "r"` and the new
props do not: `diffProps` calls `removeRef` and removes no attribute and
resets no property. -/
theorem removed_ref_removes_no_attribute :
    (diffProps plainEnv containerWorld 0 { type := .tag "div", owner := some 0 }
        (some []) (some [("ref", .prim (.str "r"))])).map (fun r => r.1.log) =
      some [.removeRef 0 "r"] := by
  decide

/-- C11 (amended): `diffProps` is called with the new props `ps` and the
previous props `qs`, and its first loop returns.  Then the call returns, and
for every prop of `qs` other than `ref` whose name is not `in` the new props
(so it is no member of `Object.prototype` either) the second loop clears it,
whatever else the two loops do: for an event name the handler is deleted and
the handler map of the element ends without it; on an HTML element a name of
`builtIdProperties` has its property reset (`false` for a boolean property,
the empty string otherwise) and any other name has its attribute removed, the
element ending without it; on an element with a namespace the attribute is
removed with `removeAttributeNS`.  The iteration of the first loop for a
prop that is not an event name and has the value the previous props give it
leaves the world as it is; and when the two props are the same, without
event names, the whole call leaves the world as it is. -/
theorem removed_prop_is_cleared (env : Env) (w : World) (dom : Nat) (v : VInfo)
    (ps qs : List (String × JSVal)) (name : String) (val : JSVal) (st : PropState)
    (hm : (name, val) ∈ qs) (hn : hasProp ps name = false) (hr : name ≠ "ref")
    (hl : diffPropsLoop env dom v.owner (v.ns.isNone || v.ns == some "") qs ps
      { world := w, hasSetInnerHTML := v.hasSetInnerHTML, eventName := none } = some st) :
    (∃ w1 tail, diffProps env w dom v (some ps) (some qs) = some (w1, st.hasSetInnerHTML) ∧
      w1.log = st.world.log ++ tail ∧
      (isEventName name = true →
        Event.deleteHandler dom name ∈ tail ∧
        ∀ n, w1.nodes.get? dom = some n → n.handlers.lookup name = none) ∧
      (isEventName name = false → (v.ns.isNone || v.ns == some "") = true →
        ∀ x, builtId name = some x →
          Event.setProperty dom name
            (if x.isNone then .prim (.bool false) else .prim (.str "")) ∈ tail) ∧
      (isEventName name = false → (v.ns.isNone || v.ns == some "") = true →
        builtId name = none →
        Event.removeAttribute dom name ∈ tail ∧
        ∀ n, w1.nodes.get? dom = some n → n.attrs.lookup name = none) ∧
      (isEventName name = false → (v.ns.isNone || v.ns == some "") = false →
        ∃ ns a, Event.removeAttributeNS dom ns a ∈ tail)) ∧
    (∀ (st0 : PropState) (n2 : String) (v2 : JSVal), isEventName n2 = false →
      readProp qs n2 = v2 →
      ∃ b, diffPropsStep env dom v.owner (v.ns.isNone || v.ns == some "") qs st0 n2 v2 =
        some { st0 with hasSetInnerHTML := b }) ∧
    ((∀ p ∈ qs, isEventName p.1 = false) → (qs.map Prod.fst).Nodup →
      ∃ b, diffProps env w dom v (some qs) (some qs) = some (w, b)) := by
  refine ⟨?_, ?_, ?_⟩
  · obtain ⟨tail, h1, h2, h3, h4, h5⟩ := removeLoop_clears dom v.owner
      (v.ns.isNone || v.ns == some "") ps name val hn hr qs hm st.world
    refine ⟨_, tail, ?_, h1, h2, h3, h4, h5⟩
    unfold diffProps
    simp only [Option.getD_some, hl, Option.isSome_some, Option.isNone_some, Bool.and_false,
      Bool.false_eq_true, if_false]
  · intro st0 n2 v2 he hp
    exact diffPropsStep_unchanged env dom v.owner _ qs st0 n2 v2 he hp
  · intro he hnd
    exact diffProps_same env w dom v qs he hnd

/-- C11 (witness): a `div` had the props `id = "a"` and `title = "t"` and
gets the props `title = "t"`: the attribute `id` is removed. -/
theorem removed_prop_is_cleared_witness :
    ∃ w1 tail, diffProps plainEnv containerWorld 0 { type := .tag "div" }
        (some [("title", .prim (.str "t"))])
        (some [("id", .prim (.str "a")), ("title", .prim (.str "t"))]) = some (w1, false) ∧
      w1.log = containerWorld.log ++ tail ∧ Event.removeAttribute 0 "id" ∈ tail ∧
      ∀ n, w1.nodes.get? 0 = some n → n.attrs.lookup "id" = none := by
  obtain ⟨w1, tail, h1, h2, -, -, h3, -⟩ := (removed_prop_is_cleared plainEnv containerWorld 0
    { type := .tag "div" } [("title", .prim (.str "t"))]
    [("id", .prim (.str "a")), ("title", .prim (.str "t"))] "id" (.prim (.str "a"))
    { world := containerWorld, hasSetInnerHTML := false, eventName := none }
    (by decide) (by decide) (by decide) rfl).1
  obtain ⟨h4, h5⟩ := h3 (by decide) (by decide) (by decide)
  exact ⟨w1, tail, h1, h2, h4, h5⟩

/-- C12: an element with one text child is diffed against its previous
version, whose text child holds the host node `td`; the props are diffed
first (`w4` is the world after `diffProps`, which found no
`dangerouslySetInnerHTML`).  The call returns; the element keeps its host
node `d` and the text child keeps `td`; when the texts differ the only thing
done after `diffProps` is the assignment of the new text to `td`, and when
they are equal nothing is done: no node is created, replaced or removed. -/
theorem text_child_updated_in_place (env : Env) (fuel : Nat) (w w4 : World) (ni pi : VInfo)
    (tag : String) (vParent : Option (Option Nat)) (d td : Nat) (dp : Option Nat)
    (s t : String)
    (hnt : ni.type = .tag tag) (hpt : pi.type = .tag tag)
    (hpi : pi.inst = none) (hpd : pi.dom = some d)
    (hnp : ni.hasProps = true) (hpp : pi.hasProps = true) (hnx : ni.text = none)
    (hph : pi.hasSetInnerHTML = false)
    (hdp : diffProps env w d { ni with dom := some d } (some ni.attrs) (some pi.attrs) =
      some (w4, false)) :
    diff env (fuel + 4) w (.mk ni [textVnode dp t none none])
        (.mk pi [textVnode dp s (some td) none]) vParent =
      some (.mk { ni with dom := some d, hasSetInnerHTML := false }
              [textVnode dp t (some td) (some (some d))],
            some d, if s = t then w4 else setNodeValue w4 td t) := by
  simp only [hnt, hnp, hnx] at hdp
  rw [diff]
  simp only [VNode.info, hpi, hnt, hpt, hpd, hpp, hnp, hnx, hph, VNode.children,
    VNode.withInfo, ne_eq, not_true_eq_false, and_false, if_false, if_true,
    Option.isSome_none, Bool.false_eq_true, false_and, hdp, Bool.not_false, Bool.and_self,
    diffChildren_text]

/-- C12 (witness): `<div>hi</div>` is diffed against `<div>bye</div>`. -/
theorem text_child_updated_in_place_witness :
    diff plainEnv 4 greetingWorld
        (.mk { type := .tag "div" } [textVnode (some 0) "bye" none none])
        (.mk { type := .tag "div", dom := some 1 } [textVnode (some 0) "hi" (some 2) none])
        none =
      some (.mk { ({ type := .tag "div" } : VInfo) with dom := some 1, hasSetInnerHTML := false }
              [textVnode (some 0) "bye" (some 2) (some (some 1))],
            some 1, if "hi" = "bye" then greetingWorld else setNodeValue greetingWorld 2 "bye") :=
  text_child_updated_in_place plainEnv 0 greetingWorld greetingWorld { type := .tag "div" }
    { type := .tag "div", dom := some 1 } "div" none 1 2 (some 0) "hi" "bye"
    rfl rfl rfl rfl rfl rfl rfl rfl rfl

/-- C9 (amended): an element vnode is paired with an old element vnode of
another tag that has no component instance and holds the host node `d`, a
child of the parent host node `p`; `createDOMElement` returns the new host
element `r`.  `diff` moves every host child of `d` into the new element in
order (so that `d` is left empty, still in its place under `p`), puts the
new element in the place of `d`, and then diffs the new props against the
old props and the new children against the old children, which are reused as
predecessors: nothing of the old subtree is unmounted before that. -/
theorem type_change_moves_host_children (env : Env) (fuel : Nat) (w w4 w6 : World)
    (ni pi : VInfo) (ncs pcs cs : List VNode) (t : String) (p d : Nat) (r : Nat × World)
    (hnt : ni.type = .tag t) (hpt : pi.type ≠ .tag t)
    (hce : createDOMElement env w t ni.ns = some r)
    (hpi : pi.inst = none) (hpd : pi.dom = some d)
    (hnp : ni.hasProps = true) (hpp : pi.hasProps = true) (hnx : ni.text = none)
    (hph : pi.hasSetInnerHTML = false)
    (hlt : d < w.nodes.length) (hnd : (w.childrenOf d).Nodup)
    (hin : d ∈ w.childrenOf p) (hself : d ∉ w.childrenOf d)
    (hdp : diffProps env (swapChild (moveChildren r.2 d r.1) p r.1 d)
        r.1 { ni with dom := some r.1 } (some ni.attrs) (some pi.attrs) = some (w4, false))
    (hdc : diffChildren env fuel w4 ncs pcs (some r.1) = some (cs, w6)) :
    diff env (fuel + 1) w (.mk ni ncs) (.mk pi pcs) (some (some p)) =
        some (.mk { ni with dom := some r.1, hasSetInnerHTML := false } cs, some r.1, w6) ∧
      r.1 = w.nodes.length ∧
      (moveChildren r.2 d r.1).childrenOf r.1 = w.childrenOf d ∧
      (moveChildren r.2 d r.1).childrenOf d = [] ∧
      (moveChildren r.2 d r.1).log =
        w.log ++ .createElement r.1 t (usedNs env t ni.ns) ::
          (w.childrenOf d).map (fun c => Event.appendChild r.1 c) ∧
      replaceChild (moveChildren r.2 d r.1) p r.1 d =
        some (swapChild (moveChildren r.2 d r.1) p r.1 d) := by
  obtain ⟨c0, c1, c2, c3, c5⟩ := moveChildren_fresh env w t ni.ns d p r hce hlt hnd hin hself
  have hrc := replaceChild_of_mem (moveChildren r.2 d r.1) p r.1 d c5
  refine ⟨?_, c0, c1, c2, c3, hrc⟩
  have hne : ¬ pi.type = VType.tag t := hpt
  simp only [hnt, hnp, hnx] at hdp
  rw [diff]
  simp only [VNode.info, hpi, hnt, hpd, hpp, hnp, hnx, hph, VNode.children,
    VNode.withInfo, ne_eq, hne, not_false_eq_true, and_true, if_false, if_true,
    Option.isSome_none, Bool.false_eq_true, false_and, hce, Option.join, hrc,
    Option.some_bind, id, hdp, Bool.not_false, Bool.and_self, hdc]

/-- C9 (witness): the `div` of `nestedWorld`, which holds a `span`, is
diffed against a `p` without props and children. -/
theorem type_change_moves_host_children_witness :
    diff plainEnv 3 nestedWorld (.mk { type := .tag "p" } [])
        (.mk { type := .tag "div", dom := some 1 } []) (some (some 0)) =
      some (.mk { ({ type := .tag "p" } : VInfo) with dom := some 3, hasSetInnerHTML := false } [],
            some 3, retaggedWorld) ∧
    (moveChildren ((nestedWorld.alloc { nodeName := "p" }).2.emit
      (.createElement 3 "p" none)) 1 3).childrenOf 3 = [2] ∧
    (moveChildren ((nestedWorld.alloc { nodeName := "p" }).2.emit
      (.createElement 3 "p" none)) 1 3).childrenOf 1 = [] ∧
    (moveChildren ((nestedWorld.alloc { nodeName := "p" }).2.emit
      (.createElement 3 "p" none)) 1 3).log =
      [.createElement 3 "p" none, .appendChild 3 2] := by
  obtain ⟨h1, -, h3, h4, h5, -⟩ := type_change_moves_host_children plainEnv 2 nestedWorld
    retaggedWorld retaggedWorld
    { type := .tag "p" } { type := .tag "div", dom := some 1 } [] [] [] "p" 0 1
    (3, (nestedWorld.alloc { nodeName := "p" }).2.emit (.createElement 3 "p" none))
    rfl (by decide) rfl rfl rfl rfl rfl rfl rfl (by decide) (by decide) (by decide)
    (by decide) rfl rfl
  exact ⟨h1, h3, h4, h5⟩
/-! ## Claims about keyed children and mounting -/

/-- C1: host-element children of one tag (without `/`) and one depth, with
keys unique within the old list and within the new list, the old children
mounted.  Whenever `diffChildren` returns, every new child whose key occurs
in the old list holds the host handle that the old child with that key
held: the handle is taken over, so no host element was created for it.  And
the call does return, with that result, when the browser accepts the tag as
an element name, the tag is no form control, the children are elements
without attributes and children, the host nodes of the old children are
distinct children of the parent host node, and the fuel exceeds the number
of new children by 5. -/
theorem keyed_children_keep_host_handle (env : Env) (fuel : Nat) (w : World)
    (news olds : List VNode) (parentNode : Option Nat) (t : String) (dp : Option Nat)
    (ht : '/' ∉ t.data) (ht2 : t ≠ "#text")
    (hO : ∀ o ∈ olds, o.info.type = .tag t ∧ o.info.deep = dp ∧ o.info.inst = none ∧
      o.info.dom.isSome)
    (hN : ∀ v ∈ news, v.info.type = .tag t ∧ v.info.deep = dp ∧ v.info.hasInstance = false ∧
      v.info.text = none)
    (hKO : (olds.map (fun o => o.info.key)).Nodup)
    (hKN : (news.map (fun v => v.info.key)).Nodup) :
    (∀ vs w', diffChildren env fuel w news olds parentNode = some (vs, w') →
      ∀ i j v o, news.get? i = some v → olds.get? j = some o → v.info.key = o.info.key →
        ∃ r, vs.get? i = some r ∧ r.info.dom = o.info.dom) ∧
    (∀ p, parentNode = some p → env.validName t = true → formControls.contains t = false →
      (∀ v ∈ news, newLeaf t v) → (∀ o ∈ olds, oldLeaf t o) →
      (∀ o ∈ olds, ∀ d, o.info.dom = some d → d ∈ w.childrenOf p) →
      (olds.map (fun o => o.info.dom)).Nodup → news.length + 5 ≤ fuel →
      ∃ vs w', diffChildren env fuel w news olds parentNode = some (vs, w') ∧
        ∀ i j v o, news.get? i = some v → olds.get? j = some o → v.info.key = o.info.key →
          ∃ r, vs.get? i = some r ∧ r.info.dom = o.info.dom) := by
  have hpart := fun vs w' h =>
    keyed_children_dom env fuel w w' news olds vs parentNode t dp ht ht2 hO hN hKO hKN h
  refine ⟨hpart, ?_⟩
  intro p hp hval hfc hnl hol hch hdd hf
  subst hp
  obtain ⟨vs, w', h⟩ := diffChildren_leaf_total env fuel w news olds p t hval hfc hnl
    (fun o ho => ⟨hol o ho, by
      obtain ⟨d, hd⟩ := Option.isSome_iff_exists.1 (hO o ho).2.2.2
      exact ⟨d, hd, hch o ho d hd⟩⟩) hdd hf
  exact ⟨vs, w', h, hpart vs w' h⟩

/-- C1 (witness): the mounted children `[k1, k2]` (host nodes 1 and 2 of the
container) against the new children `[k2, k3, k1]`. -/
theorem keyed_children_keep_host_handle_witness :
    ∃ vs w', diffChildren plainEnv 8 listWorld
        [elemNode "li" (some "k2") [] [], elemNode "li" (some "k3") [] [],
         elemNode "li" (some "k1") [] []]
        [mountedLeaf "li" "k1" 1, mountedLeaf "li" "k2" 2] (some 0) = some (vs, w') ∧
      ∀ i j v o,
        [elemNode "li" (some "k2") [] [], elemNode "li" (some "k3") [] [],
         elemNode "li" (some "k1") [] []].get? i = some v →
        [mountedLeaf "li" "k1" 1, mountedLeaf "li" "k2" 2].get? j = some o →
        v.info.key = o.info.key → ∃ r, vs.get? i = some r ∧ r.info.dom = o.info.dom :=
  (keyed_children_keep_host_handle plainEnv 8 listWorld
    [elemNode "li" (some "k2") [] [], elemNode "li" (some "k3") [] [],
     elemNode "li" (some "k1") [] []]
    [mountedLeaf "li" "k1" 1, mountedLeaf "li" "k2" 2] (some 0) "li" (some 0)
    (by decide) (by decide)
    (by intro o ho
        simp only [List.mem_cons, List.mem_singleton, List.not_mem_nil, or_false] at ho
        rcases ho with rfl | rfl <;> exact ⟨rfl, rfl, rfl, rfl⟩)
    (by intro v hv
        simp only [List.mem_cons, List.mem_singleton, List.not_mem_nil, or_false] at hv
        rcases hv with rfl | rfl | rfl <;> exact ⟨rfl, rfl, rfl, rfl⟩)
    (by decide) (by decide)).2 0 rfl (by decide) (by decide)
    (by intro v hv
        simp only [List.mem_cons, List.mem_singleton, List.not_mem_nil, or_false] at hv
        rcases hv with rfl | rfl | rfl <;> exact ⟨rfl, rfl, rfl, rfl, rfl, rfl, rfl, rfl⟩)
    (by intro o ho
        simp only [List.mem_cons, List.mem_singleton, List.not_mem_nil, or_false] at ho
        rcases ho with rfl | rfl <;> exact ⟨rfl, rfl, rfl, rfl, rfl, rfl⟩)
    (by intro o ho d hd
        simp only [List.mem_cons, List.mem_singleton, List.not_mem_nil, or_false] at ho
        rcases ho with rfl | rfl <;>
          (simp only [mountedLeaf, VNode.info, Option.some.injEq] at hd; subst hd; decide))
    (by decide) (by decide)

/-- C25: `toDOM` mounts, under a parent host node, a vnode that was never
mounted (neither it nor a vnode below it or rendered by a component holds a
host node or an instance).  Let `n` be the number of instances before the
call.  Whenever the call returns, it has created the chain of instances
`n, ..., n+k-1` for the vnode itself (its component and the components that
components render; `vnode.instance` ends at the innermost, `n+k-1`, whose
`parentInstance` chain leads to the outermost, `n`) and the instances from
`n+k` on for the components below.  The `componentDidMount` invocations of
the call are: first those of the instances below (`ds`), themselves in
bottom-up order; then those of the chain, innermost first and outermost
last.  Every instance created by the call that defines the hook is invoked
exactly once, and no other instance is. -/
theorem didMount_fires_bottom_up (env : Env) (hE : rendersFresh env) (fuel : Nat) (w : World)
    (v0 : VNode) (p : Nat) (replaced : Option Nat) (v : VNode) (dom : Nat) (w1 : World)
    (hv : v0.fresh = true)
    (h : toDOM env fuel w v0 (some p) replaced = some (v, dom, w1)) :
    ∃ k ds tr,
      w1.log = w.log ++ tr ∧
      didMounts tr = ds ++ (List.range' w.insts.length k).reverse.filter
        (fun i => definesHook env w1.insts i 2) ∧
      BottomUp (fun i => definesHook env w1.insts i 2) (w.insts.length + k) w1.insts.length ds ∧
      (∀ i ∈ ds, w.insts.length + k ≤ i) ∧
      (didMounts tr).Nodup ∧
      (∀ i, i ∈ didMounts tr ↔
        (w.insts.length ≤ i ∧ i < w1.insts.length ∧ definesHook env w1.insts i 2 = true)) ∧
      ((k = 0 ∧ v.info.inst = none) ∨
       (0 < k ∧ v.info.inst = some (w.insts.length + k - 1) ∧
        getInstances w1.insts (w.insts.length + k - 1) =
          (List.range' w.insts.length k).reverse)) := by
  have ho := toDOM_order env hE fuel w v0 p replaced v dom w1 hv h
  obtain ⟨ds0, ⟨-, tr0, l0, d0⟩, b0⟩ := mounts_of_order env w v w1 ho
  obtain ⟨k, ds, ⟨-, tr, l1, d1⟩, hb, hc⟩ := ho
  have e : tr0 = tr := List.append_cancel_left (l0.symm.trans l1)
  subst e
  obtain ⟨hn, hm⟩ := b0.exactly_once
  rw [← d0] at hn hm
  exact ⟨k, ds, tr0, l1, d1, hb, fun i hi => ((hb.exactly_once.2 i).1 hi).1, hn, hm, hc⟩

/-- C25 (witness): `App` renders `Page`, which renders a `div` holding `Item`
and a `p`; mounted into the container, the hooks are invoked for `Item`
(instance 2), then `Page` (instance 1), then `App` (instance 0). -/
theorem didMount_fires_bottom_up_witness :
    (toDOM treeEnv 8 containerWorld (compNode 0 none) (some 0) none).map
        (fun r => didMounts r.2.2.log) = some [2, 1, 0] ∧
    ∃ v dom w1, toDOM treeEnv 8 containerWorld (compNode 0 none) (some 0) none =
        some (v, dom, w1) ∧
      ∃ k ds tr,
        w1.log = containerWorld.log ++ tr ∧
        didMounts tr = ds ++ (List.range' containerWorld.insts.length k).reverse.filter
          (fun i => definesHook treeEnv w1.insts i 2) ∧
        BottomUp (fun i => definesHook treeEnv w1.insts i 2)
          (containerWorld.insts.length + k) w1.insts.length ds ∧
        (∀ i ∈ ds, containerWorld.insts.length + k ≤ i) ∧
        (didMounts tr).Nodup ∧
        (∀ i, i ∈ didMounts tr ↔
          (containerWorld.insts.length ≤ i ∧ i < w1.insts.length ∧
            definesHook treeEnv w1.insts i 2 = true)) ∧
        ((k = 0 ∧ v.info.inst = none) ∨
         (0 < k ∧ v.info.inst = some (containerWorld.insts.length + k - 1) ∧
          getInstances w1.insts (containerWorld.insts.length + k - 1) =
            (List.range' containerWorld.insts.length k).reverse)) := by
  refine ⟨by decide!, ?_⟩
  obtain ⟨⟨v, dom, w1⟩, h⟩ := Option.isSome_iff_exists.1
    (show (toDOM treeEnv 8 containerWorld (compNode 0 none) (some 0) none).isSome = true by
      decide!)
  exact ⟨v, dom, w1, h,
    didMount_fires_bottom_up treeEnv treeEnv_rendersFresh 8 containerWorld (compNode 0 none) 0
      none v dom w1 (by decide) h⟩
end Anu
